import Mathlib

/-!
# World index of OpenMW (`apps/openmw/mwworld/worldmodel.cpp`)

A shallow embedding of `MWWorld::WorldModel`: the master table of cell stores
(`mCells`), the two index tables (`mInteriors`, `mExteriors`), the pointer cache
(`mIdCache`) and the accessors built on them.

Conventions of the embedding.

* A `CellStore*` / `CellStore&` is the key of the store in `mCells`: the table is a
  `std::unordered_map`, whose nodes never move and which holds one node per key, so
  two pointers into it are equal exactly when their keys are equal.  The null pointer
  is `none`.
* A C++ exception is `Except.error`; a function that cannot throw is a total function.
* The content store (`MWWorld::ESMStore`) is a reference held by the world model and
  is written by `getExterior`; it is a field of the state.
* The calls `LuaManager::exteriorCreated` made so far are recorded in the state.
* The sources of the content store, of the chunk store and of the record types are not
  part of the development; their declarations are modelled, and each such declaration
  says so in its comment.
-/

namespace ESM

/-- Modelled from the spec: the stable record identifier (`ESM::RefId`, whose header is
absent), a tagged variant. String identifiers compare without regard to case; the
embedding keeps them in lower case. -/
inductive RefId where
  | empty
  | stringRefId (value : String)
  | formId (index : Nat)
  | generated (index : Nat)
  | esm3ExteriorCell (x y : Int)
  deriving DecidableEq, Repr

/-- Modelled from the spec: the lower-case form of a name, the representative used for
the case-insensitive comparisons of names (`Misc::StringUtils::ciEqual` and `CiComp`,
whose header is absent). -/
def lowerCase (s : String) : String := String.mk (s.data.map Char.toLower)

/-- Modelled from the spec: case-insensitive equality of names
(`Misc::StringUtils::ciEqual`). -/
def ciEqual (a b : String) : Bool := decide (lowerCase a = lowerCase b)

/-- Modelled from the spec: the constructor `RefId::stringRefId`. -/
def RefId.ofString (s : String) : RefId := RefId.stringRefId (lowerCase s)

/-- Modelled from the spec: the test `id.getIf<ESM::ESM3ExteriorCellRefId>()`, the grid
coordinates when the identifier encodes an ESM3 exterior cell. -/
def RefId.getIfEsm3ExteriorCell : RefId → Option (Int × Int)
  | RefId.esm3ExteriorCell x y => some (x, y)
  | _ => none

/-- Position of the alternative in the variant, first key of the order on identifiers. -/
def RefId.rank : RefId → Nat
  | RefId.empty => 0
  | RefId.stringRefId _ => 1
  | RefId.formId _ => 2
  | RefId.generated _ => 3
  | RefId.esm3ExteriorCell _ _ => 4

/-- Lexicographic strict order on lists of character codes. -/
def codesLt : List Nat → List Nat → Bool
  | [], [] => false
  | [], _ :: _ => true
  | _ :: _, [] => false
  | a :: as, b :: bs => decide (a < b) || (decide (a = b) && codesLt as bs)

/-- Strict order on the stored (lower-case) strings: lexicographic on character codes. -/
def stringLt (a b : String) : Bool := codesLt (a.data.map Char.toNat) (b.data.map Char.toNat)

/-- Modelled from the spec: a strict total order on identifiers (`operator<` of `RefId`,
absent): by alternative, then by value. No property below depends on how identifiers
of different worldspaces compare. -/
def RefId.lt : RefId → RefId → Bool
  | RefId.stringRefId a, RefId.stringRefId b => stringLt a b
  | RefId.formId a, RefId.formId b => decide (a < b)
  | RefId.generated a, RefId.generated b => decide (a < b)
  | RefId.esm3ExteriorCell x y, RefId.esm3ExteriorCell x2 y2 =>
      decide (x < x2) || (decide (x = x2) && decide (y < y2))
  | a, b => decide (a.rank < b.rank)

/-- Modelled from the spec: the grid key `(gridX, gridY, worldspaceId)` of a
grid-addressed chunk (`ESM::ExteriorCellLocation`, whose header is absent). -/
structure ExteriorCellLocation where
  mX : Int
  mY : Int
  mWorldspace : RefId
  deriving DecidableEq, Repr

/-- Modelled from the spec: the key order of `std::map<ExteriorCellLocation, CellStore*>`
(`operator<` of `ExteriorCellLocation`, absent): lexicographic on
`(mX, mY, mWorldspace)`, the order under which the comment in `getPtr` has (-2, -9)
come after (-22, 16). -/
def ExteriorCellLocation.lt (a b : ExteriorCellLocation) : Bool :=
  decide (a.mX < b.mX) ||
    (decide (a.mX = b.mX) &&
      (decide (a.mY < b.mY) || (decide (a.mY = b.mY) && RefId.lt a.mWorldspace b.mWorldspace)))

/-- Modelled from the spec: an object reference of a chunk, with the identifier of the
referenced record (`CellRef::mRefID`) and the stable reference number that tells
instances apart. -/
structure CellRef where
  mRefID : RefId
  mRefNum : Nat
  deriving DecidableEq, Repr

/-- Modelled from the spec: the flag `ESM::Cell::Interior` (`loadcell.hpp` is absent). -/
def Cell.Interior : Nat := 0x01

/-- Modelled from the spec: the flag `ESM::Cell::HasWater` (`loadcell.hpp` is absent). -/
def Cell.HasWater : Nat := 0x02

/-- Modelled from the spec: the chunk definition of the first content format
(`ESM::Cell`, whose header is absent), with the fields the world model reads. `mRefs`
stands for the references the content files list for the cell. -/
structure Cell where
  mId : RefId
  mName : String
  mFlags : Nat
  mX : Int
  mY : Int
  mWater : Int
  mMapColor : Nat
  mRegion : RefId
  mRefs : List CellRef
  deriving DecidableEq, Repr

/-- Modelled from the spec: the worldspace of the ESM3 exteriors
(`ESM::Cell::sDefaultWorldspaceId`). -/
def Cell.sDefaultWorldspaceId : RefId := RefId.stringRefId "sys::default"

/-- Test `cell.mData.mFlags & ESM::Cell::Interior`. -/
def Cell.isInterior (c : Cell) : Bool := (c.mFlags &&& Cell.Interior) != 0

/-- Modelled from the spec: `ESM::Cell::isExterior`, the complement of `isInterior`. -/
def Cell.isExterior (c : Cell) : Bool := !c.isInterior

/-- Modelled from the spec: the accessor `ESM::Cell::getGridX`. -/
def Cell.getGridX (c : Cell) : Int := c.mX

/-- Modelled from the spec: the accessor `ESM::Cell::getGridY`. -/
def Cell.getGridY (c : Cell) : Int := c.mY

/-- Modelled from the spec: `ESM::Cell::updateId` (absent): an exterior is identified by
its grid coordinates, an interior by its name. -/
def Cell.updateId (c : Cell) : Cell :=
  { c with mId := if c.isExterior then RefId.esm3ExteriorCell c.mX c.mY else RefId.ofString c.mName }

/-- Modelled from the spec: the region record (`ESM::Region`, whose header is absent):
identifier and display name. -/
structure Region where
  mId : RefId
  mName : String
  deriving DecidableEq, Repr

/-- Modelled from the spec: `ESM::isEsm4Ext` (declared in the absent `util.hpp`): every
worldspace but the default one belongs to the second content format. -/
def isEsm4Ext (worldspaceId : RefId) : Bool := worldspaceId != Cell.sDefaultWorldspaceId

end ESM

namespace ESM4

/-- Modelled from the spec: the flag `ESM4::CELL_Interior` (`loadcell.hpp` is absent). -/
def CELL_Interior : Nat := 0x0001

/-- Modelled from the spec: the chunk definition of the second content format
(`ESM4::Cell`, whose header is absent). -/
structure Cell where
  mId : ESM.RefId
  mParent : ESM.RefId
  mX : Int
  mY : Int
  mCellFlags : Nat
  mEditorId : String
  mRefs : List ESM.CellRef
  deriving DecidableEq, Repr

/-- Modelled from the spec: `ESM4::Cell::isExterior`, the test of the interior flag. -/
def Cell.isExterior (c : Cell) : Bool := (c.mCellFlags &&& CELL_Interior) == 0

end ESM4

namespace MWWorld

open ESM

/-- Modelled from the spec: the definition a chunk store is built on (`MWWorld::Cell`,
whose `cell.hpp` is absent): the common view of a cell record of either content
format, with the accessors the world model calls (`getId`, `isExterior`, `getNameId`,
`getGridX`, `getGridY`, `getWorldSpace`) as fields. -/
structure Cell where
  mId : RefId
  mIsExterior : Bool
  mNameID : String
  mGridX : Int
  mGridY : Int
  mWorldSpace : RefId
  mRefs : List CellRef
  deriving DecidableEq, Repr

/-- Modelled from the spec: conversion `Cell(const ESM::Cell&)`. -/
def Cell.ofEsm3 (c : ESM.Cell) : Cell :=
  { mId := c.mId, mIsExterior := c.isExterior, mNameID := c.mName,
    mGridX := c.getGridX, mGridY := c.getGridY,
    mWorldSpace := if c.isExterior then ESM.Cell.sDefaultWorldspaceId else c.mId,
    mRefs := c.mRefs }

/-- Modelled from the spec: conversion `Cell(const ESM4::Cell&)`. -/
def Cell.ofEsm4 (c : ESM4.Cell) : Cell :=
  { mId := c.mId, mIsExterior := c.isExterior, mNameID := c.mEditorId,
    mGridX := c.mX, mGridY := c.mY, mWorldSpace := c.mParent, mRefs := c.mRefs }

/-- Modelled from the spec: the three-state lifecycle of a chunk store
(`CellStore::State`). -/
inductive State where
  | State_Unloaded
  | State_Preloaded
  | State_Loaded
  deriving DecidableEq, Repr

/-- Modelled from the spec: the object handle (`MWWorld::Ptr`, whose header is absent):
the object and the store that holds it, both missing in the empty handle. A store is
named by its key in the master table. -/
structure Ptr where
  mRef : Option CellRef
  mCell : Option RefId
  deriving DecidableEq, Repr

/-- Modelled from the spec: the empty handle `Ptr()`. -/
def Ptr.empty : Ptr := { mRef := none, mCell := none }

/-- Modelled from the spec: the test `Ptr::isEmpty`. -/
def Ptr.isEmpty (p : Ptr) : Bool := p.mRef.isNone

/-- Modelled from the spec: the test `Ptr::isInCell`. -/
def Ptr.isInCell (p : Ptr) : Bool := p.mCell.isSome

/-- Modelled from the spec: the chunk store (`MWWorld::CellStore`, whose sources are
absent): its definition, its three-state lifecycle, the identifier set captured by
`preload`, the object instances built by `load`, the dirty flag behind `hasState`, and
the snapshot part of its mutable delta (water level, time of the last respawn,
fog-of-war state). -/
structure CellStore where
  mCellVariant : Cell
  mState : State
  mIds : List RefId
  mMergedRefs : List CellRef
  mHasState : Bool
  mWaterLevel : Int
  mLastRespawn : Nat
  mFogState : Option Nat
  deriving DecidableEq, Repr

/-- Modelled from the spec: a store as constructed by `CellStore(Cell, store, readers)`:
unloaded, without identifiers, objects or delta. -/
def CellStore.create (cell : Cell) : CellStore :=
  { mCellVariant := cell, mState := State.State_Unloaded, mIds := [], mMergedRefs := [],
    mHasState := false, mWaterLevel := 0, mLastRespawn := 0, mFogState := none }

/-- Modelled from the spec: the accessor `CellStore::getState`. -/
def CellStore.getState (cs : CellStore) : State := cs.mState

/-- Modelled from the spec: the accessor `CellStore::hasState`. -/
def CellStore.hasState (cs : CellStore) : Bool := cs.mHasState

/-- Modelled from the spec: the accessor `CellStore::isExterior`. -/
def CellStore.isExterior (cs : CellStore) : Bool := cs.mCellVariant.mIsExterior

/-- Modelled from the spec: `CellStore::preload`, the partial transition
Unloaded → Preloaded that only captures the set of contained identifiers. -/
def CellStore.preload (cs : CellStore) : CellStore :=
  if cs.mState = State.State_Unloaded then
    { cs with mIds := cs.mCellVariant.mRefs.map CellRef.mRefID, mState := State.State_Preloaded }
  else cs

/-- Modelled from the spec: `CellStore::load`, the transition Unloaded/Preloaded →
Loaded that builds the object instances from the definition; a no-op on a loaded
store. -/
def CellStore.load (cs : CellStore) : CellStore :=
  if cs.mState = State.State_Loaded then cs
  else { cs with mIds := [], mMergedRefs := cs.mCellVariant.mRefs, mState := State.State_Loaded }

/-- Modelled from the spec: the first object of a loaded store whose record identifier
is `id` (`CellStore::search`). -/
def CellStore.search (id : RefId) (cs : CellStore) : Option CellRef :=
  cs.mMergedRefs.find? (fun r => decide (r.mRefID = id))

/-- Modelled from the spec: membership test `CellStore::hasId`: in the captured
identifier set while preloaded, among the objects once loaded, false while unloaded. -/
def CellStore.hasId (id : RefId) (cs : CellStore) : Bool :=
  match cs.mState with
  | State.State_Unloaded => false
  | State.State_Preloaded => decide (id ∈ cs.mIds)
  | State.State_Loaded => (cs.search id).isSome

/-- Modelled from the spec: object lookup in one store (`CellStore::getPtr`). An
unloaded store is preloaded; a preloaded store is loaded only when its identifier set
contains `id`; the handle names the store `self` that holds the object. -/
def CellStore.getPtr (self : RefId) (id : RefId) (cs : CellStore) : Ptr × CellStore :=
  let cs1 := if cs.mState = State.State_Unloaded then cs.preload else cs
  if cs1.mState = State.State_Preloaded then
    if cs1.hasId id then
      let cs2 := cs1.load
      (match cs2.search id with
        | some r => { mRef := some r, mCell := some self }
        | none => Ptr.empty, cs2)
    else (Ptr.empty, cs1)
  else
    (match cs1.search id with
      | some r => { mRef := some r, mCell := some self }
      | none => Ptr.empty, cs1)

/-- Modelled from the spec: the visit `CellStore::forEach` of the contained objects,
here the handles of the objects in order; nothing is visited unless the store is
loaded. -/
def CellStore.forEach (self : RefId) (cs : CellStore) : List Ptr :=
  if cs.mState = State.State_Loaded then
    cs.mMergedRefs.map (fun r => { mRef := some r, mCell := some self })
  else []

/-- Modelled from the spec: the content store (`MWWorld::ESMStore`, whose sources are
absent): the cell records of both content formats in store order, the known ESM4
worldspaces, the regions, the text of the game setting `sDefaultCellname`, and the
counter behind the generated identifiers. -/
structure ESMStore where
  mCells : List ESM.Cell
  mEsm4Cells : List ESM4.Cell
  mEsm4Worlds : List RefId
  mRegions : List ESM.Region
  sDefaultCellname : String
  mDynamicCount : Nat
  deriving DecidableEq, Repr

namespace ESMStore

/-- Modelled from the spec: `get<ESM::Cell>().search(x, y)`, the exterior definition
at a grid position. -/
def searchGrid (store : ESMStore) (x y : Int) : Option ESM.Cell :=
  store.mCells.find? (fun c => c.isExterior && decide (c.mX = x) && decide (c.mY = y))

/-- Modelled from the spec: `get<ESM::Cell>().search(name)`, the interior definition
of a name, compared without regard to case. -/
def searchName (store : ESMStore) (name : String) : Option ESM.Cell :=
  store.mCells.find? (fun c => c.isInterior && ciEqual c.mName name)

/-- Modelled from the spec: `get<ESM::Cell>().search(id)`. -/
def searchId (store : ESMStore) (id : RefId) : Option ESM.Cell :=
  store.mCells.find? (fun c => decide (c.mId = id))

/-- Modelled from the spec: the range `extBegin() .. extEnd()` of `Store<ESM::Cell>`. -/
def extCells (store : ESMStore) : List ESM.Cell := store.mCells.filter (fun c => c.isExterior)

/-- Modelled from the spec: the range `intBegin() .. intEnd()` of `Store<ESM::Cell>`. -/
def intCells (store : ESMStore) : List ESM.Cell := store.mCells.filter (fun c => c.isInterior)

/-- One step of the scans `searchExtByName` / `searchExtByRegion`: a matching cell
replaces the candidate when there is none or when it lies further along `(x, y)`. -/
def pickExt (best : Option ESM.Cell) (c : ESM.Cell) : Option ESM.Cell :=
  match best with
  | none => some c
  | some b => if b.mX < c.mX ∨ (b.mX = c.mX ∧ b.mY < c.mY) then some c else some b

/-- Modelled from the spec: `get<ESM::Cell>().searchExtByName(name)`, an exterior
definition whose display name is `name`. -/
def searchExtByName (store : ESMStore) (name : String) : Option ESM.Cell :=
  (store.extCells.filter (fun c => ciEqual c.mName name)).foldl pickExt none

/-- Modelled from the spec: `get<ESM::Cell>().searchExtByRegion(id)`, an exterior
definition lying in the region `id`. -/
def searchExtByRegion (store : ESMStore) (id : RefId) : Option ESM.Cell :=
  (store.extCells.filter (fun c => decide (c.mRegion = id))).foldl pickExt none

/-- Modelled from the spec: `get<ESM4::World>().search(id)`, whether the worldspace is
known. -/
def searchWorld (store : ESMStore) (id : RefId) : Option RefId :=
  store.mEsm4Worlds.find? (fun w => decide (w = id))

/-- Modelled from the spec: `get<ESM4::Cell>().searchExterior(location)`. -/
def searchExterior (store : ESMStore) (location : ExteriorCellLocation) : Option ESM4.Cell :=
  store.mEsm4Cells.find? (fun c => c.isExterior && decide (c.mParent = location.mWorldspace)
    && decide (c.mX = location.mX) && decide (c.mY = location.mY))

/-- Modelled from the spec: `get<ESM4::Cell>().searchCellName(name)`. -/
def searchCellName (store : ESMStore) (name : String) : Option ESM4.Cell :=
  store.mEsm4Cells.find? (fun c => ciEqual c.mEditorId name)

/-- Modelled from the spec: `get<ESM4::Cell>().search(id)`. -/
def searchEsm4Id (store : ESMStore) (id : RefId) : Option ESM4.Cell :=
  store.mEsm4Cells.find? (fun c => decide (c.mId = id))

/-- Modelled from the spec: `insert(definition)` for an ESM3 cell: the record is kept
under the identifier it carries and is returned. -/
def insertCell (store : ESMStore) (record : ESM.Cell) : ESM.Cell × ESMStore :=
  (record, { store with mCells := store.mCells ++ [record] })

/-- Modelled from the spec: `insert(definition)` for an ESM4 cell: the record is kept
under a fresh generated identifier and is returned. -/
def insertEsm4Cell (store : ESMStore) (record : ESM4.Cell) : ESM4.Cell × ESMStore :=
  let stored := { record with mId := RefId.generated store.mDynamicCount }
  (stored, { store with mEsm4Cells := store.mEsm4Cells ++ [stored],
                        mDynamicCount := store.mDynamicCount + 1 })

end ESMStore

/-- Lookup in a table kept as a list of key-value pairs: `find` of `std::map` and
`std::unordered_map`, the value under the key or `none` for `end()`. -/
def tableFind {κ β : Type} [DecidableEq κ] (k : κ) : List (κ × β) → Option β
  | [] => none
  | (k2, v) :: rest => if k2 = k then some v else tableFind k rest

/-- Test `contains` of a table. -/
def tableContains {κ β : Type} [DecidableEq κ] (k : κ) (t : List (κ × β)) : Bool :=
  (tableFind k t).isSome

/-- Insertion of a new key at its place in key order. -/
def insertSorted {κ β : Type} (lt : κ → κ → Bool) (k : κ) (v : β) : List (κ × β) → List (κ × β)
  | [] => [(k, v)]
  | (k2, v2) :: rest =>
      if lt k k2 then (k, v) :: (k2, v2) :: rest else (k2, v2) :: insertSorted lt k v rest

/-- Member `emplace` of `std::map`: nothing changes when the key is present, otherwise
the pair is inserted at its place in key order. -/
def mapEmplace {κ β : Type} [DecidableEq κ] (lt : κ → κ → Bool) (k : κ) (v : β)
    (t : List (κ × β)) : List (κ × β) :=
  if tableContains k t then t else insertSorted lt k v t

/-- Member `emplace` of `std::unordered_map`: nothing changes when the key is present,
otherwise the pair is added. The iteration order of the container is unspecified; the
embedding iterates in order of insertion. -/
def hashEmplace {κ β : Type} [DecidableEq κ] (k : κ) (v : β) (t : List (κ × β)) :
    List (κ × β) :=
  if tableContains k t then t else t ++ [(k, v)]

/-- Update in place of the value under a key: a write through a pointer to the node. -/
def tableModify {κ β : Type} [DecidableEq κ] (k : κ) (f : β → β) : List (κ × β) → List (κ × β)
  | [] => []
  | (k2, v) :: rest => if k2 = k then (k2, f v) :: rest else (k2, v) :: tableModify k f rest

/-- The world index (`MWWorld::WorldModel`): the content store it refers to, the master
table `mCells`, the index tables `mInteriors` (keyed by name, compared without regard
to case: the key is kept in lower case) and `mExteriors` (keyed by grid location), the
pointer cache with its write index, and the `exteriorCreated` notifications sent so
far (the store passed and the location it was created for). The readers cache and the
pointer registry are not read by the accessors below and are left out. -/
structure WorldModel where
  mStore : ESMStore
  mCells : List (RefId × CellStore)
  mInteriors : List (String × RefId)
  mExteriors : List (ExteriorCellLocation × RefId)
  mIdCache : List (RefId × Option RefId)
  mIdCacheIndex : Nat
  mExteriorCreated : List (ExteriorCellLocation × RefId)
  deriving DecidableEq, Repr

/-- Helper `emplaceCellStore`: `cells.emplace(id, CellStore(cell, ...)).first->second`.
The store already under `id` is kept as it is; otherwise a fresh store is added. The
result is the pointer to the store under `id`. -/
def emplaceCellStore (id : RefId) (cell : Cell) (cells : List (RefId × CellStore)) :
    RefId × List (RefId × CellStore) :=
  (id, hashEmplace id (CellStore.create cell) cells)

/-- Helper `createEsmCell`: a default exterior definition at the location, inserted
into the content store. -/
def createEsmCell (location : ExteriorCellLocation) (store : ESMStore) : ESM.Cell × ESMStore :=
  let record : ESM.Cell :=
    { mId := RefId.empty, mName := "", mFlags := ESM.Cell.HasWater, mX := location.mX,
      mY := location.mY, mWater := 0, mMapColor := 0, mRegion := RefId.empty, mRefs := [] }
  store.insertCell record.updateId

/-- Helper `createEsm4Cell`: a default ESM4 exterior definition at the location,
inserted into the content store. -/
def createEsm4Cell (location : ExteriorCellLocation) (store : ESMStore) : ESM4.Cell × ESMStore :=
  let record : ESM4.Cell :=
    { mId := RefId.empty, mParent := location.mWorldspace, mX := location.mX, mY := location.mY,
      mCellFlags := 0, mEditorId := "", mRefs := [] }
  store.insertEsm4Cell record

/-- Helper `createExteriorCell`: the definition at the location, taken from the content
store or synthesized, with the flag `created` telling which; fails for an ESM4
worldspace the content store does not know. -/
def createExteriorCell (location : ExteriorCellLocation) (store : ESMStore) :
    Except String (Cell × Bool × ESMStore) :=
  if isEsm4Ext location.mWorldspace then
    if (store.searchWorld location.mWorldspace).isNone then
      Except.error "Exterior ESM4 world is not found"
    else
      match store.searchExterior location with
      | some cell => Except.ok (Cell.ofEsm4 cell, false, store)
      | none =>
          let r := createEsm4Cell location store
          Except.ok (Cell.ofEsm4 r.1, true, r.2)
  else
    match store.searchGrid location.mX location.mY with
    | some cell => Except.ok (Cell.ofEsm3 cell, false, store)
    | none =>
        let r := createEsmCell location store
        Except.ok (Cell.ofEsm3 r.1, true, r.2)

/-- Helper `createCell`: the definition of an identifier, ESM4 first, then ESM3. -/
def createCell (id : RefId) (store : ESMStore) : Option Cell :=
  match store.searchEsm4Id id with
  | some cell => some (Cell.ofEsm4 cell)
  | none =>
      match store.searchId id with
      | some cell => some (Cell.ofEsm3 cell)
      | none => none

namespace WorldModel

/-- Constructor `WorldModel(store, readers)`: empty tables and a pointer cache of
`Settings::cells().mPointersCacheSize` empty slots. -/
def create (store : ESMStore) (pointersCacheSize : Nat) : WorldModel :=
  { mStore := store, mCells := [], mInteriors := [], mExteriors := [],
    mIdCache := List.replicate pointersCacheSize (RefId.empty, none), mIdCacheIndex := 0,
    mExteriorCreated := [] }

/-- The statement `if (forceLoad && cellStore->getState() != State_Loaded) cellStore->load();`
on the store a pointer refers to. -/
def loadIf (forceLoad : Bool) (cellStore : RefId) (w : WorldModel) : WorldModel :=
  match tableFind cellStore w.mCells with
  | none => w
  | some cs =>
      if forceLoad && decide (cs.getState ≠ State.State_Loaded) then
        { w with mCells := tableModify cellStore CellStore.load w.mCells }
      else w

/-- The state of the store a pointer refers to. -/
def stateOf (cellStore : RefId) (w : WorldModel) : Option State :=
  (tableFind cellStore w.mCells).map CellStore.getState

/-- Member `insertCellStore`: a store for an ESM3 definition, entered in the master
table and in the index table of its kind. -/
def insertCellStore (cell : ESM.Cell) (w : WorldModel) : RefId × WorldModel :=
  let r := emplaceCellStore cell.mId (Cell.ofEsm3 cell) w.mCells
  if (cell.mFlags &&& ESM.Cell.Interior) != 0 then
    (r.1, { w with mCells := r.2,
                   mInteriors := mapEmplace stringLt (lowerCase cell.mName) r.1 w.mInteriors })
  else
    (r.1, { w with mCells := r.2,
                   mExteriors := mapEmplace ExteriorCellLocation.lt
                     { mX := cell.getGridX, mY := cell.getGridY,
                       mWorldspace := ESM.Cell.sDefaultWorldspaceId } r.1 w.mExteriors })

/-- Member `getOrInsertCellStore`. -/
def getOrInsertCellStore (cell : ESM.Cell) (w : WorldModel) : RefId × WorldModel :=
  if tableContains cell.mId w.mCells then (cell.mId, w) else w.insertCellStore cell

/-- Member `clear`: empties the three tables and resets the pointer cache. -/
def clear (w : WorldModel) : WorldModel :=
  { w with mInteriors := [], mExteriors := [], mCells := [],
           mIdCache := w.mIdCache.map (fun _ => (RefId.empty, none)), mIdCacheIndex := 0 }

/-- Member `getExterior`: the store of a grid location, created on first reference. -/
def getExterior (location : ExteriorCellLocation) (forceLoad : Bool) (w : WorldModel) :
    Except String (RefId × WorldModel) :=
  match tableFind location w.mExteriors with
  | none =>
      match createExteriorCell location w.mStore with
      | Except.error e => Except.error e
      | Except.ok (cell, created, store) =>
          let r := emplaceCellStore cell.mId cell w.mCells
          let w1 : WorldModel :=
            { w with mStore := store, mCells := r.2,
                     mExteriors := mapEmplace ExteriorCellLocation.lt location r.1 w.mExteriors,
                     mExteriorCreated :=
                       if created then w.mExteriorCreated ++ [(location, r.1)]
                       else w.mExteriorCreated }
          Except.ok (r.1, w1.loadIf forceLoad r.1)
  | some cellStore => Except.ok (cellStore, w.loadIf forceLoad cellStore)

/-- Member `findInterior`: the store of a named cell, or null when neither the index
nor the content store knows the name. -/
def findInterior (name : String) (forceLoad : Bool) (w : WorldModel) :
    Option RefId × WorldModel :=
  match tableFind (lowerCase name) w.mInteriors with
  | none =>
      match w.mStore.searchName name with
      | some cell =>
          let r := emplaceCellStore cell.mId (Cell.ofEsm3 cell) w.mCells
          (some r.1, ({ w with mCells := r.2 } : WorldModel).loadIf forceLoad r.1)
      | none =>
          match w.mStore.searchCellName name with
          | some cell4 =>
              let r := emplaceCellStore cell4.mId (Cell.ofEsm4 cell4) w.mCells
              (some r.1, ({ w with mCells := r.2 } : WorldModel).loadIf forceLoad r.1)
          | none => (none, w)
  | some cellStore => (some cellStore, w.loadIf forceLoad cellStore)

/-- Member `getInterior`: as `findInterior`, failing on null. -/
def getInterior (name : String) (forceLoad : Bool) (w : WorldModel) :
    Except String (RefId × WorldModel) :=
  match w.findInterior name forceLoad with
  | (none, _) => Except.error "Interior cell is not found"
  | (some cellStore, w1) => Except.ok (cellStore, w1)

end WorldModel

namespace WorldModel

/-- Member `findCell(ESM::RefId, bool)`: the store of an identifier; a grid chunk is
synthesized only for an ESM3 exterior identifier. -/
def findCell (id : RefId) (forceLoad : Bool) (w : WorldModel) :
    Except String (Option RefId × WorldModel) :=
  if tableContains id w.mCells then Except.ok (some id, w)
  else
    match id.getIfEsm3ExteriorCell with
    | some (x, y) =>
        match w.getExterior { mX := x, mY := y, mWorldspace := ESM.Cell.sDefaultWorldspaceId }
            forceLoad with
        | Except.error e => Except.error e
        | Except.ok (cellStore, w1) => Except.ok (some cellStore, w1)
    | none =>
        match createCell id w.mStore with
        | none => Except.ok (none, w)
        | some cell =>
            let r := emplaceCellStore id cell w.mCells
            let w1 : WorldModel :=
              if cell.mIsExterior then
                { w with mCells := r.2,
                         mExteriors := mapEmplace ExteriorCellLocation.lt
                           { mX := cell.mGridX, mY := cell.mGridY, mWorldspace := cell.mWorldSpace }
                           r.1 w.mExteriors }
              else
                { w with mCells := r.2,
                         mInteriors := mapEmplace stringLt (lowerCase cell.mNameID) r.1 w.mInteriors }
            Except.ok (some r.1, w1.loadIf forceLoad r.1)

/-- Member `getCell(ESM::RefId, bool)`: as `findCell`, failing on null. -/
def getCell (id : RefId) (forceLoad : Bool) (w : WorldModel) :
    Except String (RefId × WorldModel) :=
  match w.findCell id forceLoad with
  | Except.error e => Except.error e
  | Except.ok (none, _) => Except.error "Cell does not exist"
  | Except.ok (some cellStore, w1) => Except.ok (cellStore, w1)

/-- The exterior definition `findCell(std::string_view, bool)` settles on after the
named lookup failed: by display name, then the unnamed exterior when the name is the
default cell name, then by the first region of that name. -/
def searchExteriorByName (store : ESMStore) (name : String) : Option ESM.Cell :=
  let cell := store.searchExtByName name
  let cell :=
    if cell.isNone then
      if ciEqual name store.sDefaultCellname then store.searchExtByName "" else cell
    else cell
  if cell.isNone then
    match store.mRegions.find? (fun v => ciEqual name v.mName) with
    | some region => store.searchExtByRegion region.mId
    | none => cell
  else cell

/-- Member `findCell(std::string_view, bool)`: the named cell, else the grid chunk of
an exterior definition found by name or region. -/
def findCellByName (name : String) (forceLoad : Bool) (w : WorldModel) :
    Except String (Option RefId × WorldModel) :=
  match w.findInterior name forceLoad with
  | (some cellStore, w1) => Except.ok (some cellStore, w1)
  | (none, w1) =>
      match searchExteriorByName w1.mStore name with
      | none => Except.ok (none, w1)
      | some cell =>
          match w1.getExterior
              { mX := cell.getGridX, mY := cell.getGridY,
                mWorldspace := ESM.Cell.sDefaultWorldspaceId } forceLoad with
          | Except.error e => Except.error e
          | Except.ok (cellStore, w2) => Except.ok (some cellStore, w2)

/-- Member `getCell(std::string_view, bool)`: as the lookup by name, failing on null. -/
def getCellByName (name : String) (forceLoad : Bool) (w : WorldModel) :
    Except String (RefId × WorldModel) :=
  match w.findCellByName name forceLoad with
  | Except.error e => Except.error e
  | Except.ok (none, _) => Except.error "Can't find cell with name"
  | Except.ok (some cellStore, w1) => Except.ok (cellStore, w1)

/-- The call `cellStore->getPtr(name)` through a pointer into the master table; the
store may be preloaded or loaded by the call. -/
def cellGetPtr (name : RefId) (cellStore : RefId) (w : WorldModel) : Ptr × WorldModel :=
  match tableFind cellStore w.mCells with
  | none => (Ptr.empty, w)
  | some cs =>
      let r := cs.getPtr cellStore name
      (r.1, { w with mCells := tableModify cellStore (fun _ => r.2) w.mCells })

/-- Member `getPtrAndCache`: the lookup in one store; a found object is written into
the cache slot at the write index, which then advances and wraps. -/
def getPtrAndCache (name : RefId) (cellStore : RefId) (w : WorldModel) : Ptr × WorldModel :=
  let r := w.cellGetPtr name cellStore
  if !r.1.isEmpty && r.1.isInCell then
    let cache := r.2.mIdCache.set r.2.mIdCacheIndex (name, some cellStore)
    let index := r.2.mIdCacheIndex + 1
    (r.1, { r.2 with mIdCache := cache,
                     mIdCacheIndex := if index ≥ cache.length then 0 else index })
  else (r.1, r.2)

/-- First loop of `getPtr`: the cache slots whose identifier is `name`, in slot order;
a slot whose store no longer yields the object is passed over. -/
def searchCache (name : RefId) : List (RefId × Option RefId) → WorldModel → Option Ptr × WorldModel
  | [], w => (none, w)
  | (cachedId, cellStore) :: rest, w =>
      match cellStore with
      | none => searchCache name rest w
      | some k =>
          if cachedId ≠ name then searchCache name rest w
          else
            let r := w.cellGetPtr name k
            if !r.1.isEmpty then (some r.1, r.2) else searchCache name rest r.2

/-- Second and third loop of `getPtr`: the stores of an index table in the given
order, each through `getPtrAndCache`, up to the first that yields the object. -/
def searchStores (name : RefId) : List RefId → WorldModel → Option Ptr × WorldModel
  | [], w => (none, w)
  | k :: rest, w =>
      let r := w.getPtrAndCache name k
      if !r.1.isEmpty then (some r.1, r.2) else searchStores name rest r.2

/-- Fourth and fifth loop of `getPtr`: the definitions of the content store that have
no store yet, each instantiated and searched, up to the first that yields the object. -/
def searchDefinitions (name : RefId) : List ESM.Cell → WorldModel → Option Ptr × WorldModel
  | [], w => (none, w)
  | c :: rest, w =>
      if tableContains c.mId w.mCells then searchDefinitions name rest w
      else
        let i := w.insertCellStore c
        let r := i.2.getPtrAndCache name i.1
        if !r.1.isEmpty then (some r.1, r.2) else searchDefinitions name rest r.2

/-- The full search of `getPtr`, everything after the cache loop: grid chunks in
reverse order of the grid index, named chunks in order of the name index, then the
exterior and the interior definitions not yet instantiated. -/
def fullSearch (name : RefId) (w : WorldModel) : Ptr × WorldModel :=
  match searchStores name (w.mExteriors.reverse.map Prod.snd) w with
  | (some ptr, w1) => (ptr, w1)
  | (none, w1) =>
      match searchStores name (w1.mInteriors.map Prod.snd) w1 with
      | (some ptr, w2) => (ptr, w2)
      | (none, w2) =>
          match searchDefinitions name w2.mStore.extCells w2 with
          | (some ptr, w3) => (ptr, w3)
          | (none, w3) =>
              match searchDefinitions name w3.mStore.intCells w3 with
              | (some ptr, w4) => (ptr, w4)
              | (none, w4) => (Ptr.empty, w4)

/-- Member `getPtr(const ESM::RefId&)`: the pointer cache first, then the full search. -/
def getPtr (name : RefId) (w : WorldModel) : Ptr × WorldModel :=
  match searchCache name w.mIdCache w with
  | (some ptr, w1) => (ptr, w1)
  | (none, w1) => fullSearch name w1

/-- The loop of `getExteriorPtrs` over the exterior definitions. -/
def getExteriorPtrsLoop (name : RefId) :
    List ESM.Cell → List Ptr → WorldModel → List Ptr × WorldModel
  | [], out, w => (out, w)
  | c :: rest, out, w =>
      let i := w.getOrInsertCellStore c
      let r := i.2.getPtrAndCache name i.1
      getExteriorPtrsLoop name rest (if !r.1.isEmpty then out ++ [r.1] else out) r.2

/-- Member `getExteriorPtrs`: one handle for each exterior definition whose store
yields the object, appended to `out`. -/
def getExteriorPtrs (name : RefId) (out : List Ptr) (w : WorldModel) : List Ptr × WorldModel :=
  getExteriorPtrsLoop name w.mStore.extCells out w

/-- Body of the loop of `getAll` for one store of the master table: the handles it
contributes and the store after the visit. -/
def getAllVisit (id : RefId) (cellId : RefId) (cellStore : CellStore) : List Ptr × CellStore :=
  let cs1 := if cellStore.getState = State.State_Unloaded then cellStore.preload else cellStore
  if cs1.getState = State.State_Preloaded then
    if !cs1.hasId id then ([], cs1)
    else
      let cs2 := cs1.load
      ((cs2.forEach cellId).filter (fun p => decide (p.mRef.map CellRef.mRefID = some id)), cs2)
  else ((cs1.forEach cellId).filter (fun p => decide (p.mRef.map CellRef.mRefID = some id)), cs1)

/-- The loop of `getAll` over the master table. -/
def getAllLoop (id : RefId) : List (RefId × CellStore) → List Ptr × List (RefId × CellStore)
  | [] => ([], [])
  | (cellId, cellStore) :: rest =>
      let r := getAllVisit id cellId cellStore
      let t := getAllLoop id rest
      (r.1 ++ t.1, (cellId, r.2) :: t.2)

/-- Member `getAll`: the objects of record `id` over the stores of the master table. -/
def getAll (id : RefId) (w : WorldModel) : List Ptr × WorldModel :=
  let r := getAllLoop id w.mCells
  (r.1, { w with mCells := r.2 })

/-- Modelled from the spec: a change of the contained objects of a loaded store made
by gameplay code through the store (objects added, removed or moved away); it marks
the store as carrying a delta. Stores that are not loaded cannot be changed. -/
def setObjects (cellStore : RefId) (refs : List CellRef) (w : WorldModel) : WorldModel :=
  { w with
    mCells :=
      tableModify cellStore
        (fun cs =>
          if cs.mState = State.State_Loaded then { cs with mMergedRefs := refs, mHasState := true }
          else cs)
        w.mCells }

end WorldModel

/-- A call on the world index, as made by the rest of the engine. The accessors
`getInterior` and `getCell` change the state exactly as `findInterior` and `findCell`
do and are not listed apart. -/
inductive Op where
  | clear
  | getExterior (location : ExteriorCellLocation) (forceLoad : Bool)
  | findInterior (name : String) (forceLoad : Bool)
  | findCell (id : RefId) (forceLoad : Bool)
  | findCellByName (name : String) (forceLoad : Bool)
  | getPtr (name : RefId)
  | getExteriorPtrs (name : RefId)
  | getAll (id : RefId)
  | setObjects (cellStore : RefId) (refs : List CellRef)
  deriving DecidableEq, Repr

/-- The state after a call; a call that throws leaves the state as it was (every
exception above is raised before the first write). -/
def Op.apply (op : Op) (w : WorldModel) : WorldModel :=
  match op with
  | Op.clear => w.clear
  | Op.getExterior location forceLoad =>
      match w.getExterior location forceLoad with
      | Except.ok r => r.2
      | Except.error _ => w
  | Op.findInterior name forceLoad => (w.findInterior name forceLoad).2
  | Op.findCell id forceLoad =>
      match w.findCell id forceLoad with
      | Except.ok r => r.2
      | Except.error _ => w
  | Op.findCellByName name forceLoad =>
      match w.findCellByName name forceLoad with
      | Except.ok r => r.2
      | Except.error _ => w
  | Op.getPtr name => (w.getPtr name).2
  | Op.getExteriorPtrs name => (w.getExteriorPtrs name []).2
  | Op.getAll id => (w.getAll id).2
  | Op.setObjects cellStore refs => w.setObjects cellStore refs

/-- The state after a sequence of calls. -/
def runOps : List Op → WorldModel → WorldModel
  | [], w => w
  | op :: rest, w => runOps rest (op.apply w)

/-- The states a world index can be in: those reached from a freshly constructed index
by a sequence of calls. -/
inductive Reachable : WorldModel → Prop where
  | init (store : ESMStore) (pointersCacheSize : Nat) :
      Reachable (WorldModel.create store pointersCacheSize)
  | step (op : Op) (w : WorldModel) : Reachable w → Reachable (op.apply w)

/-- Whether the content store holds a cell definition at a grid location: the outcome
of the search `createExteriorCell` makes there (`searchExterior` for an ESM4
worldspace, `search(x, y)` otherwise). -/
def ESMStore.definedAt (store : ESMStore) (location : ExteriorCellLocation) : Bool :=
  if isEsm4Ext location.mWorldspace then (store.searchExterior location).isSome
  else (store.searchGrid location.mX location.mY).isSome

namespace Sample

/-- Record identifier of the plank that two exterior cells of the sample content list. -/
def plank : RefId := RefId.stringRefId "chargen_plank"

/-- An interior of the sample content. -/
def balmora : ESM.Cell :=
  { mId := RefId.stringRefId "balmora", mName := "Balmora", mFlags := 1, mX := 0, mY := 0,
    mWater := 0, mMapColor := 0, mRegion := RefId.empty,
    mRefs := [{ mRefID := RefId.stringRefId "chest", mRefNum := 1 }] }

/-- The exterior at (-2, -9) of the sample content. -/
def cellNear : ESM.Cell :=
  { mId := RefId.esm3ExteriorCell (-2) (-9), mName := "", mFlags := 2, mX := -2, mY := -9,
    mWater := 0, mMapColor := 0, mRegion := RefId.stringRefId "bitter coast",
    mRefs := [{ mRefID := plank, mRefNum := 2 }] }

/-- The exterior at (-22, 16) of the sample content. -/
def cellFar : ESM.Cell :=
  { mId := RefId.esm3ExteriorCell (-22) 16, mName := "", mFlags := 2, mX := -22, mY := 16,
    mWater := 0, mMapColor := 0, mRegion := RefId.empty,
    mRefs := [{ mRefID := plank, mRefNum := 3 }] }

/-- An ESM4 worldspace the sample content knows. -/
def knownWorld : RefId := RefId.formId 60

/-- An ESM4 worldspace the sample content does not know. -/
def unknownWorld : RefId := RefId.formId 99

/-- An ESM4 interior of the sample content. -/
def vault : ESM4.Cell :=
  { mId := RefId.formId 7, mParent := RefId.empty, mX := 0, mY := 0, mCellFlags := 1,
    mEditorId := "Vault", mRefs := [] }

/-- Sample content store: one interior, two exteriors, one ESM4 interior, one ESM4
worldspace, one region. -/
def store : ESMStore :=
  { mCells := [balmora, cellNear, cellFar], mEsm4Cells := [vault], mEsm4Worlds := [knownWorld],
    mRegions := [{ mId := RefId.stringRefId "bitter coast", mName := "Bitter Coast" }],
    sDefaultCellname := "Wilderness", mDynamicCount := 0 }

/-- Sample world index: freshly constructed over the sample content, with a pointer
cache of two slots. -/
def world : WorldModel := WorldModel.create store 2

/-- The default-worldspace location (5, 5), for which the sample content has no cell. -/
def wilderness : ExteriorCellLocation :=
  { mX := 5, mY := 5, mWorldspace := ESM.Cell.sDefaultWorldspaceId }

/-- A location in the worldspace the sample content does not know. -/
def nowhere : ExteriorCellLocation := { mX := 0, mY := 0, mWorldspace := unknownWorld }

end Sample

/-- Bookkeeping of the `exteriorCreated` notifications of an index that started over
the content store `store0`: no location was notified twice, every notified location
has a definition now and had none in `store0`, and every location defined in `store0`
is still defined. -/
def NotifiedOnce (store0 : ESMStore) (w : WorldModel) : Prop :=
  (w.mExteriorCreated.map Prod.fst).Nodup ∧
    (∀ p ∈ w.mExteriorCreated, w.mStore.definedAt p.1 = true ∧ store0.definedAt p.1 = false) ∧
    ∀ l, store0.definedAt l = true → w.mStore.definedAt l = true

/-- A table kept in strictly increasing key order, as `std::map` keeps it. -/
def KeysSorted {κ β : Type} (lt : κ → κ → Bool) (t : List (κ × β)) : Prop :=
  t.Pairwise (fun a b => lt a.1 b.1 = true)

/-- Invariant of the world index: every pointer held in an index table refers to a
store of the master table, every pointer held in the pointer cache refers to a loaded
store of the master table, the index tables are in key order, and the master table
holds one store per identifier. -/
structure WellFormed (w : WorldModel) : Prop where
  exteriorsValid : ∀ p ∈ w.mExteriors, tableContains p.2 w.mCells = true
  interiorsValid : ∀ p ∈ w.mInteriors, tableContains p.2 w.mCells = true
  cacheLoaded : ∀ p ∈ w.mIdCache, ∀ k, p.2 = some k → w.stateOf k = some State.State_Loaded
  exteriorsSorted : KeysSorted ExteriorCellLocation.lt w.mExteriors
  interiorsSorted : KeysSorted stringLt w.mInteriors
  cellsNodup : (w.mCells.map Prod.fst).Nodup

/-- The same state with every slot of the pointer cache emptied (the cache part of
`clear`). -/
def WorldModel.emptyCache (w : WorldModel) : WorldModel :=
  { w with mIdCache := w.mIdCache.map (fun _ => (RefId.empty, none)), mIdCacheIndex := 0 }

/-- Whether the lookup `cellStore->getPtr(id)` through a pointer yields an object in the
given state. -/
def WorldModel.yields (id : RefId) (cellStore : RefId) (w : WorldModel) : Bool :=
  !(w.cellGetPtr id cellStore).1.isEmpty

/-- The objects a store holds once it is loaded: its objects if it is loaded, those
`load` builds otherwise. -/
def CellStore.contents (cs : CellStore) : List CellRef := cs.load.mMergedRefs

/-- Two states that agree on everything but the pointer cache, its write index and the
record of notifications. -/
def SameButCache (w w2 : WorldModel) : Prop :=
  w2.mStore = w.mStore ∧ w2.mCells = w.mCells ∧ w2.mInteriors = w.mInteriors ∧
    w2.mExteriors = w.mExteriors

namespace Sample

/-- A state with a stale cache slot: the plank is looked up on a fresh index (found in
the cell at (-2, -9) and cached), then removed from that cell. -/
def staleWorld : WorldModel :=
  runOps [Op.getPtr plank, Op.setObjects cellNear.mId []] world

end Sample

namespace Sample

/-- Grid location of the sample exterior at (-2, -9). -/
def near : ExteriorCellLocation :=
  { mX := -2, mY := -9, mWorldspace := ESM.Cell.sDefaultWorldspaceId }

/-- Grid location of the sample exterior at (-22, 16). -/
def far : ExteriorCellLocation :=
  { mX := -22, mY := 16, mWorldspace := ESM.Cell.sDefaultWorldspaceId }

/-- A state with both sample exteriors instantiated, the one at (-2, -9) first and the
one at (-22, 16) after it; the pointer cache is still empty. -/
def twoChunks : WorldModel :=
  runOps [Op.getExterior near true, Op.getExterior far true] world

end Sample

namespace Sample

/-- A state with preloaded stores: a chest is looked up on a fresh index, which
preloads both exteriors (neither lists a chest) and loads the interior that holds it. -/
def preloadedWorld : WorldModel := runOps [Op.getPtr (RefId.stringRefId "chest")] world

end Sample

end MWWorld

namespace ESM

/-- Modelled from the spec: the tag of the record that holds the saved delta of one
chunk (`ESM::REC_CSTA`, whose header is absent): the four characters `CSTA`. -/
def REC_CSTA : Nat := 0x41545343

/-- Modelled from the spec: the snapshot part of a saved delta (`ESM::CellState`, whose
header is absent): the identity of the chunk and its lifecycle, position and
fog-of-war data. -/
structure CellState where
  mId : RefId
  mIsInterior : Bool
  mWaterLevel : Int
  mHasFogOfWar : Bool
  mLastRespawn : Nat
  deriving DecidableEq, Repr

/-- Modelled from the spec: one record of a saved game, as laid out between
`startRecord` and `endRecord`: the tag, the chunk identity (`writeCellId`), the
snapshot (`CellState::save`), the fog of war and the per-object deltas. -/
structure SavedRecord where
  mType : Nat
  mCellId : RefId
  mState : CellState
  mFog : Option Nat
  mRefs : List CellRef
  deriving DecidableEq, Repr

/-- Modelled from the spec: the writer of a saved game (`ESM::ESMWriter`, absent): the
records written so far. -/
structure ESMWriter where
  mRecords : List SavedRecord
  deriving DecidableEq, Repr

/-- Modelled from the spec: the reader of a saved game (`ESM::ESMReader`, absent): the
records not yet consumed; the reader stands at the payload of the first one, whose tag
the caller has read. -/
structure ESMReader where
  mRecords : List SavedRecord
  deriving DecidableEq, Repr

/-- Modelled from the spec: `ESMReader::skipRecord`, which passes over the payload of
the current record. -/
def ESMReader.skipRecord (reader : ESMReader) : ESMReader := { mRecords := reader.mRecords.tail }

end ESM

namespace MWWorld

open ESM

/-- Modelled from the spec: `CellStore::saveState`, the snapshot of a store. -/
def CellStore.saveState (cs : CellStore) : CellState :=
  { mId := cs.mCellVariant.mId, mIsInterior := !cs.isExterior, mWaterLevel := cs.mWaterLevel,
    mHasFogOfWar := cs.mFogState.isSome, mLastRespawn := cs.mLastRespawn }

/-- Modelled from the spec: `CellStore::loadState`, which restores a snapshot and marks
the store as carrying a delta. -/
def CellStore.loadState (state : CellState) (cs : CellStore) : CellStore :=
  { cs with mHasState := true, mWaterLevel := state.mWaterLevel,
            mLastRespawn := state.mLastRespawn }

/-- Modelled from the spec: `CellStore::writeFog`, the fog-of-war state written, if the
store has one. -/
def CellStore.writeFog (cs : CellStore) : Option Nat := cs.mFogState

/-- Modelled from the spec: `CellStore::readFog`. -/
def CellStore.readFog (fog : Option Nat) (cs : CellStore) : CellStore :=
  { cs with mFogState := fog }

/-- Modelled from the spec: `CellStore::writeReferences`, the per-object deltas of the
store. -/
def CellStore.writeReferences (cs : CellStore) : List CellRef := cs.mMergedRefs

/-- Modelled from the spec: `CellStore::readReferences`, which restores the per-object
deltas of a loaded store. References that moved to another cell, for which the
original asks the callback for the other store, are not modelled. -/
def CellStore.readReferences (refs : List CellRef) (cs : CellStore) : CellStore :=
  { cs with mMergedRefs := refs }

namespace WorldModel

/-- Member `writeCell`: loads the store if need be and writes its record. -/
def writeCell (writer : ESMWriter) (cell : CellStore) : ESMWriter × CellStore :=
  let cell1 := if cell.getState ≠ State.State_Loaded then cell.load else cell
  let cellState := cell1.saveState
  ({ mRecords := writer.mRecords ++
      [{ mType := REC_CSTA, mCellId := cellState.mId, mState := cellState,
         mFog := cell1.writeFog, mRefs := cell1.writeReferences }] }, cell1)

/-- Member `countSavedGameRecords`: the number of stores with a delta. -/
def countSavedGameRecords (w : WorldModel) : Nat :=
  List.countP (fun v => v.2.hasState) w.mCells

/-- The loop of `write` over the master table: the writer, the progress count and the
table after the visit of each store. -/
def writeLoop : List (RefId × CellStore) → ESMWriter → Nat →
    ESMWriter × Nat × List (RefId × CellStore)
  | [], writer, progress => (writer, progress, [])
  | (id, cellStore) :: rest, writer, progress =>
      if cellStore.hasState then
        let r := writeCell writer cellStore
        let t := writeLoop rest r.1 (progress + 1)
        (t.1, t.2.1, (id, r.2) :: t.2.2)
      else
        let t := writeLoop rest writer progress
        (t.1, t.2.1, (id, cellStore) :: t.2.2)

/-- Member `write`: one record for each store with a delta; `progress` counts the calls
of `Loading::Listener::increaseProgress`. -/
def write (writer : ESMWriter) (progress : Nat) (w : WorldModel) :
    ESMWriter × Nat × WorldModel :=
  let r := writeLoop w.mCells writer progress
  (r.1, r.2.1, { w with mCells := r.2.2 })

/-- A call of a member of `CellStore` that writes the store, made through a pointer
into the master table. -/
def modifyStore (cellStore : RefId) (g : CellStore → CellStore) (w : WorldModel) : WorldModel :=
  { w with mCells := tableModify cellStore g w.mCells }

/-- Member `readRecord`: restores the delta of the chunk a `REC_CSTA` record names, or
drops the record when `findCell` does not resolve the chunk; other record types are
not handled. -/
def readRecord (reader : ESMReader) (type : Nat) (w : WorldModel) :
    Except String (Bool × ESMReader × WorldModel) :=
  if type = REC_CSTA then
    match reader.mRecords with
    | [] => Except.error "unexpected end of file"
    | record :: rest =>
        match w.findCell record.mCellId true with
        | Except.error e => Except.error e
        | Except.ok (none, w1) => Except.ok (true, reader.skipRecord, w1)
        | Except.ok (some cellStore, w1) =>
            let state := record.mState
            let w2 := w1.modifyStore cellStore (CellStore.loadState state)
            let w3 :=
              if state.mHasFogOfWar then w2.modifyStore cellStore (CellStore.readFog record.mFog)
              else w2
            let w4 := w3.loadIf true cellStore
            Except.ok (true, { mRecords := rest },
              w4.modifyStore cellStore (CellStore.readReferences record.mRefs))
  else Except.ok (false, reader, w)

/-- Modelled from the spec: the loop of the save loader over the records of a saved
game, each passed to `readRecord` under its tag; a record `readRecord` does not handle
is left to the other subsystems. -/
def readRecords : List SavedRecord → WorldModel → Except String WorldModel
  | [], w => Except.ok w
  | record :: rest, w =>
      match w.readRecord { mRecords := record :: rest } record.mType with
      | Except.error e => Except.error e
      | Except.ok r => readRecords rest r.2.2

end WorldModel


/-- The record `writeCell` writes for a store: that of the store once loaded. -/
def CellStore.savedRecord (cs : CellStore) : SavedRecord :=
  { mType := REC_CSTA, mCellId := cs.load.saveState.mId, mState := cs.load.saveState,
    mFog := cs.load.writeFog, mRefs := cs.load.writeReferences }


/-- A saved record for a cell the sample content does not define. -/
def Sample.staleRecord : SavedRecord :=
  { mType := REC_CSTA, mCellId := RefId.stringRefId "gone",
    mState := { mId := RefId.stringRefId "gone", mIsInterior := true, mWaterLevel := 3,
                mHasFogOfWar := false, mLastRespawn := 7 },
    mFog := none, mRefs := [{ mRefID := Sample.plank, mRefNum := 9 }] }


/-- The order of resolution the specification gives for the lookup of a chunk by name,
written after its words: the named lookup when it yields a store; otherwise the grid
chunk of the first definition found by display name, by the default-name alias (the
definition found for the empty name when `name` is the default cell name), or by the
first region of that name; and null, with nothing done, when there is none. -/
def WorldModel.findCellByNameSpec (name : String) (forceLoad : Bool) (w : WorldModel) :
    Except String (Option RefId × WorldModel) :=
  match w.findInterior name forceLoad with
  | (some cellStore, w1) => Except.ok (some cellStore, w1)
  | (none, _) =>
      let byName := w.mStore.searchExtByName name
      let byAlias :=
        if ciEqual name w.mStore.sDefaultCellname then w.mStore.searchExtByName "" else none
      let byRegion :=
        (w.mStore.mRegions.find? (fun v => ciEqual name v.mName)).bind
          (fun region => w.mStore.searchExtByRegion region.mId)
      match (byName.orElse (fun _ => byAlias)).orElse (fun _ => byRegion) with
      | none => Except.ok (none, w)
      | some cell =>
          match w.getExterior
              { mX := cell.mX, mY := cell.mY, mWorldspace := ESM.Cell.sDefaultWorldspaceId }
              forceLoad with
          | Except.error e => Except.error e
          | Except.ok (cellStore, w2) => Except.ok (some cellStore, w2)


/-- The slots of a ring buffer in order of age, from the slot at the write index (the
next to be overwritten) round to the slot written last. -/
def ageView {α : Type} (cache : List α) (index : Nat) : List α :=
  cache.drop index ++ cache.take index

/-- A sequence of lookups `getPtrAndCache(name, cellStore)`, as the loops of `getPtr`
and `getExteriorPtrs` make them. -/
def WorldModel.runLookups : List (RefId × RefId) → WorldModel → WorldModel
  | [], w => w
  | (name, cellStore) :: rest, w => runLookups rest (w.getPtrAndCache name cellStore).2

/-- Whether each lookup of the sequence finds a non-empty in-cell handle. -/
def WorldModel.lookupsSucceed : List (RefId × RefId) → WorldModel → Bool
  | [], _ => true
  | (name, cellStore) :: rest, w =>
      let r := w.getPtrAndCache name cellStore
      !r.1.isEmpty && r.1.isInCell && lookupsSucceed rest r.2


/-- A state with a valid cache slot for a chunk the full search would not reach first:
the exterior at (-22, 16) is instantiated and the plank looked up (found there and
cached), then the exterior at (-2, -9) is instantiated. -/
def Sample.cachedFar : WorldModel :=
  runOps [Op.getExterior Sample.far true, Op.getPtr Sample.plank,
    Op.getExterior Sample.near true] Sample.world

/-- A state with two valid cache slots for the plank: after the steps of `cachedFar`
the plank is collected from every exterior with `getExteriorPtrs`, which caches it for
the chunk at (-2, -9) in the second slot and again for the chunk at (-22, 16) in the
first. -/
def Sample.bothCached : WorldModel :=
  runOps [Op.getExterior Sample.far true, Op.getPtr Sample.plank,
    Op.getExterior Sample.near true, Op.getExteriorPtrs Sample.plank] Sample.world


/-- A state with an interior instantiated through `findInterior`: the named lookup of
"Balmora" on a fresh index, with the default `forceLoad = true`. -/
def Sample.balmoraFound : WorldModel := runOps [Op.findInterior "Balmora" true] Sample.world

/-- The same interior instantiated through `findCell(id)` instead. -/
def Sample.balmoraById : WorldModel := runOps [Op.findCell Sample.balmora.mId true] Sample.world


/-- Modelled from the spec: an entry of the prefetch cache
(`CellPreloader::PreloadEntry`): the time of the last request and whether the
background work is finished (state Ready, `mWorkItem` done) or still Pending.
Timestamps are `double` in the original and integers here. -/
structure PreloadEntry where
  mTimeStamp : Int
  mReady : Bool
  deriving DecidableEq, Repr

/-- Modelled from the spec: the prefetch cache (`CellPreloader`): the expiry delay, the
size bounds and the entries (`mPreloadCells`, a map keyed by the chunk store), in
iteration order. -/
structure CellPreloader where
  mExpiryDelay : Int
  mMinCacheSize : Nat
  mMaxCacheSize : Nat
  mPreloadCells : List (RefId × PreloadEntry)
  deriving DecidableEq, Repr

namespace CellPreloader

/-- Modelled from the spec: a Ready entry whose age at `timestamp` exceeds the expiry
delay. -/
def expired (p : CellPreloader) (timestamp : Int) (e : RefId × PreloadEntry) : Bool :=
  e.2.mReady && decide (e.2.mTimeStamp < timestamp - p.mExpiryDelay)

/-- Modelled from the spec: the age pass of `updateCache` (the body is absent): each
expired Ready entry is removed, but only while the number of entries exceeds the
minimum. `kept` holds the entries already passed. -/
def sweepLoop (p : CellPreloader) (timestamp : Int) :
    List (RefId × PreloadEntry) → List (RefId × PreloadEntry) → List (RefId × PreloadEntry)
  | [], kept => kept
  | e :: rest, kept =>
      if kept.length + (rest.length + 1) > p.mMinCacheSize ∧ p.expired timestamp e = true then
        sweepLoop p timestamp rest kept
      else sweepLoop p timestamp rest (kept ++ [e])

/-- Modelled from the spec: the least timestamp among the entries. -/
def oldestStamp : List (RefId × PreloadEntry) → Option Int
  | [] => none
  | e :: rest => some (rest.foldl (fun m x => min m x.2.mTimeStamp) e.2.mTimeStamp)

/-- Modelled from the spec: eviction of the oldest entry. -/
def evictOldest (cells : List (RefId × PreloadEntry)) : List (RefId × PreloadEntry) :=
  match oldestStamp cells with
  | none => cells
  | some t => cells.eraseP (fun e => decide (e.2.mTimeStamp = t))

/-- Modelled from the spec: the size pass of `updateCache`: oldest-first eviction until
the number of entries is at or below the minimum; `fuel` bounds the number of rounds. -/
def evictLoop (minCacheSize : Nat) : Nat → List (RefId × PreloadEntry) → List (RefId × PreloadEntry)
  | 0, cells => cells
  | fuel + 1, cells =>
      if cells.length > minCacheSize then evictLoop minCacheSize fuel (evictOldest cells)
      else cells

/-- Modelled from the spec: `updateCache(timestamp)` (declared in `cellpreloader.hpp`,
its body is absent): the age pass, then, if the number of entries exceeds the maximum,
the size pass. -/
def updateCache (timestamp : Int) (p : CellPreloader) : CellPreloader :=
  let swept := p.sweepLoop timestamp p.mPreloadCells []
  { p with
    mPreloadCells :=
      if swept.length > p.mMaxCacheSize then evictLoop p.mMinCacheSize swept.length swept
      else swept }

end CellPreloader


/-- Modelled from the spec: whether an identifier is one a cell record of the second
content format carries: a form identifier, or an identifier the content store has
already generated. -/
def ESMStore.isEsm4Id (store : ESMStore) : RefId → Bool
  | RefId.formId _ => true
  | RefId.generated n => decide (n < store.mDynamicCount)
  | _ => false

/-- Modelled from the spec: what the content store (absent) guarantees about its cell
records. An ESM3 cell carries the identifier `updateId` gives it (grid coordinates for
an exterior, name for an interior); no two cells of a format share an identifier; an
ESM4 cell carries a form identifier or a generated one; an ESM4 exterior lies in an
ESM4 worldspace. -/
structure ESMStore.Consistent (store : ESMStore) : Prop where
  esm3Ids : ∀ c ∈ store.mCells, c.updateId = c
  esm3Unique : (store.mCells.map ESM.Cell.mId).Nodup
  esm4Ids : ∀ c ∈ store.mEsm4Cells, store.isEsm4Id c.mId = true
  esm4Unique : (store.mEsm4Cells.map ESM4.Cell.mId).Nodup
  esm4Worlds : ∀ c ∈ store.mEsm4Cells, c.isExterior = true → isEsm4Ext c.mParent = true

/-- The definition the content store gives for a chunk identity, as `findCell(id)`
looks it up: the exterior at the grid position for an ESM3 exterior identifier,
otherwise what `createCell` finds. -/
def ESMStore.resolve (store : ESMStore) (id : RefId) : Option Cell :=
  match id.getIfEsm3ExteriorCell with
  | some (x, y) => (store.searchGrid x y).map Cell.ofEsm3
  | none => createCell id store

/-- Invariant of the world index over a consistent content store: every store of the
master table is built on the definition the content store gives for its key, and the
grid index sends a location of the default worldspace to the store whose key is the
ESM3 exterior identifier of that location. -/
structure Coherent (w : WorldModel) : Prop where
  storeConsistent : w.mStore.Consistent
  resolves : ∀ p ∈ w.mCells, w.mStore.resolve p.1 = some p.2.mCellVariant
  gridIndex : ∀ p ∈ w.mExteriors, isEsm4Ext p.1.mWorldspace = false →
    p.2 = RefId.esm3ExteriorCell p.1.mX p.1.mY


/-- What `readRecord` does to the store it resolved: the statements after the null
test, `loadState`, `readFog` when the snapshot has a fog of war, and `readReferences`,
on a store that is loaded. -/
def CellStore.restoreFrom (record : SavedRecord) (cs : CellStore) : CellStore :=
  let cs1 := cs.loadState record.mState
  let cs2 := if record.mState.mHasFogOfWar then cs1.readFog record.mFog else cs1
  cs2.readReferences record.mRefs

/-- The store a fresh index holds for a chunk after `readRecord` has read the record
written for the store `cs`: created on the definition of `cs`, loaded, and restored
from the record. -/
def CellStore.restored (cs : CellStore) : CellStore :=
  CellStore.restoreFrom cs.savedRecord (CellStore.create cs.mCellVariant).load

/-- A state in which the sample exterior at (-2, -9) carries a delta: the chunk is
instantiated and loaded, then its plank is replaced by a moved one. -/
def Sample.modifiedWorld : WorldModel :=
  runOps [Op.getExterior Sample.near true, Op.findInterior "Balmora" true,
    Op.setObjects Sample.cellNear.mId [{ mRefID := Sample.plank, mRefNum := 12 }]] Sample.world


/-- A call of a public member of the world index: one of the calls of `Op`, or one of
the two serialization members. -/
inductive Call where
  | op (call : Op)
  | readRecord (reader : ESMReader) (type : Nat)
  | write (writer : ESMWriter) (progress : Nat)
  deriving DecidableEq, Repr

/-- The state after a call of a public member; a call that throws leaves the state as
it was (`readRecord` throws before its first write). -/
def Call.apply (call : Call) (w : WorldModel) : WorldModel :=
  match call with
  | Call.op o => o.apply w
  | Call.readRecord reader type =>
      match w.readRecord reader type with
      | Except.ok r => r.2.2
      | Except.error _ => w
  | Call.write writer progress => (w.write writer progress).2.2

/-- The state after a sequence of calls of public members. -/
def runCalls : List Call → WorldModel → WorldModel
  | [], w => w
  | call :: rest, w => runCalls rest (call.apply w)

/-- The states a world index can be in when the serialization members are called too:
those reached from a freshly constructed index by a sequence of calls of public
members. -/
inductive Reached : WorldModel → Prop where
  | init (store : ESMStore) (pointersCacheSize : Nat) :
      Reached (WorldModel.create store pointersCacheSize)
  | step (call : Call) (w : WorldModel) : Reached w → Reached (call.apply w)

/-- Bounds of the pointer cache: it has `n` slots and the write index is below `n`. -/
def CacheBounds (n : Nat) (w : WorldModel) : Prop :=
  w.mIdCache.length = n ∧ w.mIdCacheIndex < n


/-- A state reached through every kind of call: lookups that fill the pointer cache, a
`write`, a `readRecord` of a record nothing resolves, and a `clear` in between. -/
def Sample.busyWorld : WorldModel :=
  runCalls
    [Call.op (Op.getExterior Sample.near true), Call.op (Op.getPtr Sample.plank),
      Call.write { mRecords := [] } 0, Call.op Op.clear,
      Call.readRecord { mRecords := [Sample.staleRecord] } REC_CSTA,
      Call.op (Op.getExterior Sample.far true), Call.op (Op.getPtr Sample.plank)]
    Sample.world


end MWWorld

namespace ESM

/-- Modelled from the spec: the requirements of one rank of a faction
(`ESM::RankData`, whose header `loadfact.hpp` is absent). -/
structure RankData where
  mAttribute1 : Int
  mAttribute2 : Int
  mPrimarySkill : Int
  mFavouredSkill : Int
  mFactReaction : Int
  deriving DecidableEq, Repr

/-- Modelled from the spec: a faction record (`ESM::Faction`, whose header is absent):
identifier, display name, the rank-data entries (`mData.mRankData`) and the rank names
(`mRanks`), a rank with an empty name being one that does not exist. -/
structure Faction where
  mId : RefId
  mName : String
  mRankData : List RankData
  mRanks : List String
  deriving DecidableEq, Repr

end ESM

namespace MWMechanics

open ESM MWWorld

/-- Modelled from the spec: `getESMStore()->get<ESM::Faction>().find(id)` (absent): the
record of the faction, or an exception when there is none. -/
def findFaction (factions : List Faction) (id : RefId) : Except String Faction :=
  match factions.find? (fun f => decide (f.mId = id)) with
  | some f => Except.ok f
  | none => Except.error "Faction record not found"

/-- The faction part of the state of `MWMechanics::NpcStats`: the ranks in the factions
joined (`mFactionRank`, a `std::map`) and the factions that expelled the NPC
(`mExpelled`, a `std::set`). The other members are not touched by the functions
below and are left out. -/
structure NpcStats where
  mFactionRank : List (RefId × Int)
  mExpelled : List RefId
  deriving DecidableEq, Repr

namespace NpcStats

/-- Member `getFactionRank`: the rank in a faction, -1 if the NPC is not a member. -/
def getFactionRank (faction : RefId) (stats : NpcStats) : Int :=
  match tableFind faction stats.mFactionRank with
  | some rank => rank
  | none => -1

/-- Member `joinFaction`: membership with the initial rank 0, unless already a member. -/
def joinFaction (faction : RefId) (stats : NpcStats) : NpcStats :=
  match tableFind faction stats.mFactionRank with
  | none => { stats with mFactionRank := stats.mFactionRank ++ [(faction, 0)] }
  | some _ => stats

/-- Member `getExpelled(factionID)`. -/
def getExpelled (factionID : RefId) (stats : NpcStats) : Bool :=
  decide (factionID ∈ stats.mExpelled)

/-- Member `isInFaction`. -/
def isInFaction (faction : RefId) (stats : NpcStats) : Bool :=
  (tableFind faction stats.mFactionRank).isSome

/-- The loop `do it->second = newRank; while (newRank > 0 && mRanks[newRank--].empty());`
of `setFactionRank`, on a rank that is not negative: the rank is stored, and while it
is positive and has an empty name the next lower rank is stored instead. A read past
the end of `mRanks` is an error. -/
def setRankLoop (mRanks : List String) (faction : RefId) : Nat → NpcStats → Except String NpcStats
  | 0, stats =>
      Except.ok { stats with mFactionRank := tableModify faction (fun _ => 0) stats.mFactionRank }
  | newRank + 1, stats =>
      let stats1 : NpcStats :=
        { stats with
          mFactionRank := tableModify faction (fun _ => ((newRank + 1 : Nat) : Int)) stats.mFactionRank }
      match mRanks.get? (newRank + 1) with
      | none => Except.error "array index out of range"
      | some name => if name = "" then setRankLoop mRanks faction newRank stats1 else Except.ok stats1

/-- Member `setFactionRank`: for a member of the faction, a negative rank removes
membership and expulsion, a rank below the number of rank-data entries is stored if it
exists (otherwise the next lower one that does), any other rank is ignored. -/
def setFactionRank (factions : List Faction) (faction : RefId) (newRank : Int)
    (stats : NpcStats) : Except String NpcStats :=
  match tableFind faction stats.mFactionRank with
  | none => Except.ok stats
  | some _ =>
      match findFaction factions faction with
      | Except.error e => Except.error e
      | Except.ok factionPtr =>
          if newRank < 0 then
            Except.ok
              { mFactionRank := stats.mFactionRank.filter (fun p => decide (p.1 ≠ faction)),
                mExpelled := stats.mExpelled.filter (fun id => decide (id ≠ faction)) }
          else if newRank < (factionPtr.mRankData.length : Int) then
            setRankLoop factionPtr.mRanks faction newRank.toNat stats
          else Except.ok stats

end NpcStats

/-- Sample faction: five rank-data entries and rank names, of which ranks 2 and 3 have
an empty name. -/
def Sample.guild : Faction :=
  { mId := RefId.stringRefId "fighters guild", mName := "Fighters Guild",
    mRankData := List.replicate 5 { mAttribute1 := 0, mAttribute2 := 0, mPrimarySkill := 0,
                                    mFavouredSkill := 0, mFactReaction := 0 },
    mRanks := ["Associate", "Apprentice", "", "", "Champion"] }

/-- Sample state: a member of the sample faction at rank 0, expelled from it. -/
def Sample.member : NpcStats :=
  { mFactionRank := [(RefId.stringRefId "fighters guild", 0)],
    mExpelled := [RefId.stringRefId "fighters guild"] }

end MWMechanics

namespace MWWorld

open ESM


end MWWorld

namespace MWMechanics

/-- Number of binary digits of `a` (`fuel` bounds the recursion; `a` itself suffices). -/
def bitLength : Nat → Nat → Nat
  | 0, _ => 0
  | fuel + 1, a => if a = 0 then 0 else bitLength fuel (a / 2) + 1

/-- A value of the C++ type `float` (IEEE 754 single precision). Every finite value is an
integer multiple of 2^-149, the smallest subnormal, and is kept as that integer
(`units`); the two zeros, which no operation used here tells apart, are both
`finite 0`. -/
inductive Float32 where
  | nan
  | inf (negative : Bool)
  | finite (units : Int)
  deriving DecidableEq, Repr

namespace Float32

/-- The `float` nearest to `n * 2^-(149 + shift)`: at most 24 significant bits and no bit
below 2^-149 are kept, the `e` low bits beyond them are rounded off to nearest, ties to
the even significand; a result of magnitude 2^128 or more is an infinity. -/
def round (shift : Nat) (n : Int) : Float32 :=
  let a := n.natAbs
  let e := max shift (bitLength a a - 24)
  let q := a >>> e
  let r := a % (1 <<< e)
  let half := (1 <<< e) >>> 1
  let q2 := if half < r ∨ (r = half ∧ e ≠ 0 ∧ q % 2 = 1) then q + 1 else q
  let units := q2 <<< (e - shift)
  if 1 <<< 277 ≤ units then inf (decide (n < 0)) else finite (Int.sign n * (units : Int))

/-- The `float` with value `m * 2^-k`, for `k <= 149` and `m` of at most 24 bits. -/
def dyadic (m : Int) (k : Nat) : Float32 := finite (m * 2 ^ (149 - k))

/-- The `float` with the value of a small integer. -/
def ofInt (n : Int) : Float32 := finite (n * 2 ^ 149)

/-- Unary minus. -/
def neg : Float32 → Float32
  | nan => nan
  | inf s => inf (!s)
  | finite a => finite (-a)

/-- Single-precision addition: the exact sum, rounded. -/
def add : Float32 → Float32 → Float32
  | nan, _ => nan
  | _, nan => nan
  | inf s, inf t => if s = t then inf s else nan
  | inf s, finite _ => inf s
  | finite _, inf t => inf t
  | finite a, finite b => round 0 (a + b)

/-- Single-precision subtraction. -/
def sub (a b : Float32) : Float32 := a.add b.neg

/-- Single-precision multiplication: the exact product, rounded. -/
def mul : Float32 → Float32 → Float32
  | nan, _ => nan
  | _, nan => nan
  | inf s, inf t => inf (s != t)
  | inf s, finite b => if b = 0 then nan else inf (s != decide (b < 0))
  | finite a, inf t => if a = 0 then nan else inf (decide (a < 0) != t)
  | finite a, finite b => round 149 (a * b)

/-- Comparison `a < b`: false when either side is not a number. -/
def lt : Float32 → Float32 → Bool
  | nan, _ => false
  | _, nan => false
  | inf s, inf t => s && !t
  | inf s, finite _ => s
  | finite _, inf t => !t
  | finite a, finite b => decide (a < b)

/-- Comparison `a <= b`: false when either side is not a number. -/
def le : Float32 → Float32 → Bool
  | nan, _ => false
  | _, nan => false
  | inf s, inf t => s || !t
  | inf s, finite _ => s
  | finite _, inf t => !t
  | finite a, finite b => decide (a ≤ b)

/-- Comparison `a >= b`. -/
def ge (a b : Float32) : Bool := b.le a

/-- Comparison `a != b`: true when either side is not a number. -/
def ne : Float32 → Float32 → Bool
  | nan, _ => true
  | _, nan => true
  | inf s, inf t => s != t
  | inf _, finite _ => true
  | finite _, inf _ => true
  | finite a, finite b => decide (a ≠ b)

end Float32

/-- Modelled from the spec: a vector of three `float` coordinates (`osg::Vec3f`,
absent). -/
structure Vec3f where
  x : Float32
  y : Float32
  z : Float32
  deriving DecidableEq, Repr

/-- Difference of two vectors (`operator-` of `osg::Vec3f`), coordinate by coordinate. -/
def Vec3f.sub (a b : Vec3f) : Vec3f := { x := a.x.sub b.x, y := a.y.sub b.y, z := a.z.sub b.z }

/-- Inequality of two vectors (`operator!=` of `osg::Vec3f`): some coordinate differs. -/
def Vec3f.ne (a b : Vec3f) : Bool := a.x.ne b.x || a.y.ne b.y || a.z.ne b.z

/-- Constant `DIST_SAME_SPOT = 0.5f`. -/
def DIST_SAME_SPOT : Float32 := Float32.dyadic 1 1

/-- Constant `DURATION_SAME_SPOT = 1.5f`: how long before the actor is considered
stuck. -/
def DURATION_SAME_SPOT : Float32 := Float32.dyadic 3 1

/-- Constant `DURATION_TO_EVADE = 0.4f`: how long to move sideways. The `float` nearest
to 0.4 is 13421773 * 2^-25, a little above 0.4. -/
def DURATION_TO_EVADE : Float32 := Float32.dyadic 13421773 25

/-- Modelled from the spec: the number of rows of `evadeDirections`
(`NUM_EVADE_DIRECTIONS`, declared in the absent `obstacle.hpp`). -/
def NUM_EVADE_DIRECTIONS : Nat := 4

/-- Modelled from the spec: the walking states of `ObstacleCheck` (`WalkState`, declared
in the absent `obstacle.hpp`). -/
inductive WalkState where
  | Initial
  | Norm
  | CheckStuck
  | Evade
  deriving DecidableEq, Repr

/-- Modelled from the spec: the members of `ObstacleCheck` (declared in the absent
`obstacle.hpp`) that `update` reads and writes. -/
structure ObstacleCheck where
  mPrev : Vec3f
  mDestination : Vec3f
  mWalkState : WalkState
  mStateDuration : Float32
  mEvadeDirectionIndex : Nat
  mInitialDistance : Float32
  deriving DecidableEq, Repr

namespace ObstacleCheck

/-- Member `clear`. -/
def clear (o : ObstacleCheck) : ObstacleCheck := { o with mWalkState := WalkState.Initial }

/-- Member `isEvading`. -/
def isEvading (o : ObstacleCheck) : Bool := decide (o.mWalkState = WalkState.Evade)

/-- Member `chooseEvasionDirection`: the next direction, round the table. -/
def chooseEvasionDirection (o : ObstacleCheck) : ObstacleCheck :=
  let index := o.mEvadeDirectionIndex + 1
  { o with mEvadeDirectionIndex := if index = NUM_EVADE_DIRECTIONS then 0 else index }

/-- Member `update`. The position and the current speed of the actor are passed in, as
is the length of a vector (`osg::Vec3f::length`, of the absent library). Every
arithmetic step is a single-precision operation. -/
def update (length : Vec3f → Float32) (position : Vec3f) (speed : Float32)
    (destination : Vec3f) (duration : Float32) (o : ObstacleCheck) : ObstacleCheck :=
  if o.mWalkState = WalkState.Initial then
    { o with mWalkState := WalkState.Norm, mStateDuration := Float32.finite 0,
             mPrev := position,
             mInitialDistance := length (destination.sub position),
             mDestination := destination }
  else if o.mWalkState ≠ WalkState.Evade then
    let o1 : ObstacleCheck :=
      if o.mDestination.ne destination then
        { o with mInitialDistance := length (destination.sub o.mPrev),
                 mDestination := destination }
      else o
    let distSameSpot := (DIST_SAME_SPOT.mul speed).mul duration
    let prevDistance := length (destination.sub o1.mPrev)
    let currentDistance := length (destination.sub position)
    let movedDistance := prevDistance.sub currentDistance
    let movedFromInitialDistance := o1.mInitialDistance.sub currentDistance
    let o2 : ObstacleCheck := { o1 with mPrev := position }
    if movedDistance.ge distSameSpot && movedFromInitialDistance.ge distSameSpot then
      { o2 with mWalkState := WalkState.Norm, mStateDuration := Float32.finite 0 }
    else if o2.mWalkState = WalkState.Norm then
      { o2 with mWalkState := WalkState.CheckStuck, mStateDuration := duration,
                mInitialDistance := length (destination.sub position) }
    else
      let o3 : ObstacleCheck := { o2 with mStateDuration := o2.mStateDuration.add duration }
      if o3.mStateDuration.lt DURATION_SAME_SPOT then o3
      else
        chooseEvasionDirection
          { o3 with mWalkState := WalkState.Evade, mStateDuration := Float32.finite 0 }
  else
    let o1 : ObstacleCheck := { o with mStateDuration := o.mStateDuration.add duration }
    if o1.mStateDuration.ge DURATION_TO_EVADE then
      { o1 with mWalkState := WalkState.Norm, mStateDuration := Float32.finite 0,
                mPrev := position }
    else o1

end ObstacleCheck

namespace Sample

/-- The length of a vector along the first axis, the only vectors of the examples: the
absolute value of the first coordinate. -/
def length (v : Vec3f) : Float32 := if v.x.lt (Float32.finite 0) then v.x.neg else v.x

/-- The origin. -/
def origin : Vec3f := { x := Float32.finite 0, y := Float32.finite 0, z := Float32.finite 0 }

/-- The point (10, 0, 0). -/
def target : Vec3f := { x := Float32.ofInt 10, y := Float32.finite 0, z := Float32.finite 0 }

/-- An actor checked for being stuck for 1.4f seconds (11744051 * 2^-23), standing at
the origin on its way to (10, 0, 0). -/
def stuck : ObstacleCheck :=
  { mPrev := origin, mDestination := target, mWalkState := WalkState.CheckStuck,
    mStateDuration := Float32.dyadic 11744051 23, mEvadeDirectionIndex := 3,
    mInitialDistance := Float32.ofInt 10 }

/-- An actor that has been evading for 0.35f seconds (11744051 * 2^-25). -/
def evading : ObstacleCheck :=
  { mPrev := origin, mDestination := target, mWalkState := WalkState.Evade,
    mStateDuration := Float32.dyadic 11744051 25, mEvadeDirectionIndex := 0,
    mInitialDistance := Float32.ofInt 10 }

end Sample

end MWMechanics

namespace MWWorld

open ESM


end MWWorld

namespace ESM

/-- Modelled from the spec: the grid position of a land record of the first content
format (`ESM::Land::mX`, `mY`; `loadland.hpp` is absent). -/
structure Land where
  mX : Int
  mY : Int
  deriving DecidableEq, Repr

end ESM

namespace MWRender

open ESM

/-- Modelled from the spec: the two land stores of `MWWorld::ESMStore` that
`TerrainStorage::getBounds` reads: the records `get<ESM::Land>()` iterates over, and the
keys of the map `get<ESM4::Land>().getLands()`. -/
structure LandStore where
  mLands : List Land
  mEsm4Lands : List ExteriorCellLocation
  deriving Repr

/-- Number of binary digits of `a` (`fuel` bounds the recursion; `a` itself suffices). -/
def bitLength : Nat → Nat → Nat
  | 0, _ => 0
  | fuel + 1, a => if a = 0 then 0 else bitLength fuel (a / 2) + 1

/-- Value of `static_cast<float>(n)` for an `int`, as an integer: single precision keeps
24 significant bits, so the low bits beyond them are rounded off, to nearest with ties
to the even significand. No `int` is large enough to overflow a `float`. -/
def toFloat (n : Int) : Int :=
  let a := n.natAbs
  let e := bitLength (a / 2 ^ 24) (a / 2 ^ 24)
  let q := a / 2 ^ e
  let r := a % 2 ^ e
  let half := 2 ^ e / 2
  let q2 := if half < r ∨ (r = half ∧ e ≠ 0 ∧ q % 2 = 1) then q + 1 else q
  Int.sign n * ((q2 * 2 ^ e : Nat) : Int)

/-- Single-precision sum of two integer-valued floats: the exact sum, rounded. -/
def floatAdd (a b : Int) : Int := toFloat (a + b)

/-- The four `float` out-parameters of `getBounds`; every value they take is integral. -/
structure Bounds where
  minX : Int
  maxX : Int
  minY : Int
  maxY : Int
  deriving DecidableEq, Repr

/-- The static helper `BoundUnion` of `terrainstorage.cpp`. -/
def BoundUnion (b : Bounds) (x y : Int) : Bounds :=
  let minX := if x < b.minX then x else b.minX
  let maxX := if x > b.maxX then x else b.maxX
  let minY := if y < b.minY then y else b.minY
  let maxY := if y > b.maxY then y else b.maxY
  { minX := minX, maxX := maxX, minY := minY, maxY := maxY }

/-- The method `TerrainStorage::getBounds`. -/
def getBounds (esmStore : LandStore) (worldspace : RefId) : Bounds :=
  let start : Bounds := { minX := 0, maxX := 0, minY := 0, maxY := 0 }
  let b :=
    if isEsm4Ext worldspace then
      esmStore.mEsm4Lands.foldl
        (fun b landPos =>
          if landPos.mWorldspace = worldspace then
            BoundUnion b (toFloat landPos.mX) (toFloat landPos.mY)
          else b)
        start
    else
      esmStore.mLands.foldl (fun b it => BoundUnion b (toFloat it.mX) (toFloat it.mY)) start
  { minX := b.minX, maxX := floatAdd b.maxX 1, minY := b.minY, maxY := floatAdd b.maxY 1 }

/-- Grid positions of the land records a call of `getBounds` takes into account: in a
worldspace of the second content format the lands of that worldspace, otherwise every
land record of the first format. -/
def consideredLands (esmStore : LandStore) (worldspace : RefId) : List (Int × Int) :=
  if isEsm4Ext worldspace then
    (esmStore.mEsm4Lands.filter (fun landPos => landPos.mWorldspace = worldspace)).map
      (fun landPos => (landPos.mX, landPos.mY))
  else esmStore.mLands.map (fun it => (it.mX, it.mY))

namespace Sample

/-- A land store with three lands of the default worldspace and two of another one. -/
def lands : LandStore :=
  { mLands := [{ mX := -3, mY := 2 }, { mX := 4, mY := -7 }, { mX := 0, mY := 5 }],
    mEsm4Lands := [{ mX := 10, mY := 11, mWorldspace := RefId.formId 60 },
                   { mX := -1, mY := 1, mWorldspace := RefId.formId 7 },
                   { mX := 2, mY := -2, mWorldspace := RefId.formId 7 }] }

/-- A land store whose only land lies at grid x = 2^24 = 16777216. -/
def remote : LandStore := { mLands := [{ mX := 16777216, mY := 0 }], mEsm4Lands := [] }

end Sample

end MWRender

namespace VFS

/-- Modelled from the spec: the virtual file system (`VFS::Manager`, whose header is
absent), reduced to the answer of `exists` for every name; any contents and any
normalisation of names is an instance. -/
structure Manager where
  mIndex : List Char → Bool

/-- Modelled from the spec: the query `VFS::Manager::exists`. -/
def Manager.exists (vfs : Manager) (name : List Char) : Bool := vfs.mIndex name

end VFS

namespace Misc

/-- Modelled from the spec: `Misc::StringUtils::lowerCase` (header absent) on a string
given by its characters. -/
def StringUtils.lowerCase (s : List Char) : List Char := s.map Char.toLower

/-- The functor `MatchPathSeparator`. -/
def MatchPathSeparator (ch : Char) : Bool := ch == '\\' || ch == '/'

/-- The helper `getBasename`: what follows the last path separator, the whole name
when there is none. -/
def getBasename (pathname : List Char) : List Char :=
  (pathname.reverse.takeWhile (fun ch => !MatchPathSeparator ch)).reverse

/-- The call `s.rfind(ch)` of `std::string`: the last position of `ch`, `none` for
`npos`. -/
def rfind : List Char → Char → Option Nat
  | [], _ => none
  | c :: s, ch =>
      match rfind s ch with
      | some pos => some (pos + 1)
      | none => if c = ch then some 0 else none

/-- The call `s.starts_with(p)` of `std::string`. -/
def startsWith : List Char → List Char → Bool
  | _, [] => true
  | [], _ :: _ => false
  | c :: s, d :: p => c == d && startsWith s p

/-- The call `s.substr(pos)` of `std::string` with `pos` the result of a search: it
raises `std::out_of_range` when `pos` exceeds the size, as `npos` always does. -/
def substrFrom (s : List Char) (pos : Option Nat) : Except String (List Char) :=
  match pos with
  | some p => if p ≤ s.length then Except.ok (s.drop p) else Except.error "std::out_of_range"
  | none => Except.error "std::out_of_range"

/-- The call `s.substr(0, count)` of `std::string` with `count` the result of a search:
at most `count` characters, all of them for `npos`. -/
def substrTo (s : List Char) (count : Option Nat) : List Char :=
  match count with
  | some n => s.take n
  | none => s

/-- The text `operator<<` writes for an `int`. -/
def formatInt (n : Int) : List Char :=
  if n < 0 then '-' :: Nat.toDigits 10 n.natAbs else Nat.toDigits 10 n.natAbs

/-- The function `changeExtension`: the flag returned and the new value of `path`. -/
def changeExtension (path ext : List Char) : Bool × List Char :=
  match rfind path '.' with
  | some pos => if path.drop pos ≠ ext then (true, path.take pos ++ ext) else (false, path)
  | none => (false, path)

namespace ResourceHelpers

/-- The function `changeExtensionToDds`. -/
def changeExtensionToDds (path : List Char) : Bool × List Char :=
  changeExtension path ".dds".toList

/-- The function `correctResourcePath`. -/
def correctResourcePath (topLevelDirectory resPath : List Char) (vfs : VFS.Manager) :
    List Char :=
  let correctedPath :=
    (StringUtils.lowerCase resPath).dropWhile (fun ch => ch == '/' || ch == '\\')
  let correctedPath :=
    if !startsWith correctedPath topLevelDirectory ||
        decide (correctedPath.length ≤ topLevelDirectory.length) ||
        (correctedPath.get? topLevelDirectory.length != some '/' &&
          correctedPath.get? topLevelDirectory.length != some '\\') then
      topLevelDirectory ++ '\\' :: correctedPath
    else correctedPath
  let origExt := correctedPath
  let changed := changeExtensionToDds correctedPath
  let changedToDds := changed.1
  let correctedPath := changed.2
  if vfs.exists correctedPath then correctedPath
  else if changedToDds && vfs.exists origExt then origExt
  else
    let fallback := topLevelDirectory ++ '\\' :: getBasename correctedPath
    if vfs.exists fallback then fallback
    else
      if changedToDds && vfs.exists (topLevelDirectory ++ '\\' :: getBasename origExt) then
        topLevelDirectory ++ '\\' :: getBasename origExt
      else correctedPath

/-- The function `correctTexturePath`. -/
def correctTexturePath (resPath : List Char) (vfs : VFS.Manager) : List Char :=
  correctResourcePath "textures".toList resPath vfs

/-- The function `correctIconPath`. -/
def correctIconPath (resPath : List Char) (vfs : VFS.Manager) : List Char :=
  correctResourcePath "icons".toList resPath vfs

/-- The function `correctBookartPath` with two arguments. -/
def correctBookartPath (resPath : List Char) (vfs : VFS.Manager) : List Char :=
  correctResourcePath "bookart".toList resPath vfs

/-- The overload `correctBookartPath(resPath, width, height, vfs)`; an exception of
`substr` is an error result. -/
def correctBookartPathSized (resPath : List Char) (width height : Int) (vfs : VFS.Manager) :
    Except String (List Char) :=
  let image := correctBookartPath resPath vfs
  if !vfs.exists image then
    match substrFrom image (rfind image '.') with
    | Except.ok ext =>
        Except.ok (correctBookartPath
          (substrTo image (rfind image '.') ++ '_' :: formatInt width ++
            '_' :: formatInt height ++ ext) vfs)
    | Except.error e => Except.error e
  else Except.ok image

namespace Sample

/-- A file system without any file. -/
def emptyVfs : VFS.Manager := { mIndex := fun _ => false }

/-- A file system whose only file is the sized book art image. -/
def sizedVfs : VFS.Manager :=
  { mIndex := fun name => decide (name = "bookart\\scroll_256_128.dds".toList) }

/-- A file system that holds a texture under its original extension only. -/
def tgaVfs : VFS.Manager :=
  { mIndex := fun name => decide (name = "textures\\rock.tga".toList) }

end Sample

end ResourceHelpers

end Misc

namespace MWWorld

open ESM

end MWWorld

/-! # Properties of the world index -/

namespace MWWorld

open ESM

section Tables

variable {κ β : Type} [DecidableEq κ]

theorem tableFind_append_of_some {k : κ} {x : β} (t u : List (κ × β))
    (h : tableFind k t = some x) : tableFind k (t ++ u) = some x := by
  induction t with
  | nil => simp [tableFind] at h
  | cons p t ih =>
    obtain ⟨k2, v⟩ := p
    by_cases hk : k2 = k
    · simpa [tableFind, hk] using h
    · simp only [tableFind, hk, if_false, List.cons_append] at h ⊢
      exact ih h

theorem tableFind_append_of_none {k : κ} (t u : List (κ × β))
    (h : tableFind k t = none) : tableFind k (t ++ u) = tableFind k u := by
  induction t with
  | nil => rfl
  | cons p t ih =>
    obtain ⟨k2, v⟩ := p
    by_cases hk : k2 = k
    · simp [tableFind, hk] at h
    · simp only [tableFind, hk, if_false, List.cons_append] at h ⊢
      exact ih h

theorem tableFind_append_single_ne {k k2 : κ} (v : β) (t : List (κ × β)) (hne : k2 ≠ k) :
    tableFind k (t ++ [(k2, v)]) = tableFind k t := by
  induction t with
  | nil => simp [tableFind, hne]
  | cons p t ih =>
    obtain ⟨k3, v3⟩ := p
    by_cases hk : k3 = k
    · simp [tableFind, hk]
    · simp only [tableFind, hk, if_false, List.cons_append]
      exact ih

theorem tableContains_iff_mem {k : κ} (t : List (κ × β)) :
    tableContains k t = true ↔ k ∈ t.map Prod.fst := by
  induction t with
  | nil => simp [tableContains, tableFind]
  | cons p t ih =>
    obtain ⟨k2, v⟩ := p
    by_cases hk : k2 = k
    · simp [tableContains, tableFind, hk]
    · have hk2 : ¬ k = k2 := fun h => hk h.symm
      simp only [tableContains, tableFind, hk, if_false, List.map_cons, List.mem_cons, hk2,
        false_or]
      exact ih

theorem tableFind_eq_none_iff {k : κ} (t : List (κ × β)) :
    tableFind k t = none ↔ tableContains k t = false := by
  simp [tableContains]

theorem tableFind_hashEmplace_self (k : κ) (v : β) (t : List (κ × β)) :
    tableFind k (hashEmplace k v t) = some ((tableFind k t).getD v) := by
  unfold hashEmplace tableContains
  cases h : tableFind k t with
  | none => simp [tableFind_append_of_none t _ h, tableFind]
  | some x => simp [h]

theorem tableFind_hashEmplace_ne {k k2 : κ} (v : β) (t : List (κ × β)) (hne : k2 ≠ k) :
    tableFind k (hashEmplace k2 v t) = tableFind k t := by
  unfold hashEmplace
  split
  · rfl
  · exact tableFind_append_single_ne v t hne

theorem tableFind_hashEmplace_of_some {k k2 : κ} {x : β} (v : β) (t : List (κ × β))
    (h : tableFind k t = some x) : tableFind k (hashEmplace k2 v t) = some x := by
  unfold hashEmplace
  split
  · exact h
  · exact tableFind_append_of_some t _ h

theorem hashEmplace_of_contains {k : κ} (v : β) (t : List (κ × β))
    (h : tableContains k t = true) : hashEmplace k v t = t := by
  simp [hashEmplace, h]

theorem tableContains_hashEmplace_self (k : κ) (v : β) (t : List (κ × β)) :
    tableContains k (hashEmplace k v t) = true := by
  simp [tableContains, tableFind_hashEmplace_self]

theorem tableContains_hashEmplace_of_contains {k k2 : κ} (v : β) (t : List (κ × β))
    (h : tableContains k t = true) : tableContains k (hashEmplace k2 v t) = true := by
  unfold tableContains at h ⊢
  cases hx : tableFind k t with
  | none => simp [hx] at h
  | some x => simp [tableFind_hashEmplace_of_some v t hx]

theorem tableFind_insertSorted_self (lt : κ → κ → Bool) (k : κ) (v : β) (t : List (κ × β))
    (h : tableFind k t = none) : tableFind k (insertSorted lt k v t) = some v := by
  induction t with
  | nil => simp [insertSorted, tableFind]
  | cons p t ih =>
    obtain ⟨k2, v2⟩ := p
    by_cases hk : k2 = k
    · simp [tableFind, hk] at h
    · simp only [tableFind, hk, if_false] at h
      unfold insertSorted
      split
      · simp [tableFind]
      · simp only [tableFind, hk, if_false]
        exact ih h

theorem tableFind_insertSorted_ne (lt : κ → κ → Bool) {k k2 : κ} (v : β) (t : List (κ × β))
    (hne : k2 ≠ k) : tableFind k (insertSorted lt k2 v t) = tableFind k t := by
  induction t with
  | nil => simp [insertSorted, tableFind, hne]
  | cons p t ih =>
    obtain ⟨k3, v3⟩ := p
    unfold insertSorted
    split
    · simp [tableFind, hne]
    · by_cases hk : k3 = k
      · simp [tableFind, hk]
      · simp only [tableFind, hk, if_false]
        exact ih

theorem tableFind_mapEmplace_self (lt : κ → κ → Bool) (k : κ) (v : β) (t : List (κ × β)) :
    tableFind k (mapEmplace lt k v t) = some ((tableFind k t).getD v) := by
  unfold mapEmplace tableContains
  cases h : tableFind k t with
  | none => simp [tableFind_insertSorted_self lt k v t h]
  | some x => simp [h]

theorem tableFind_mapEmplace_ne (lt : κ → κ → Bool) {k k2 : κ} (v : β) (t : List (κ × β))
    (hne : k2 ≠ k) : tableFind k (mapEmplace lt k2 v t) = tableFind k t := by
  unfold mapEmplace
  split
  · rfl
  · exact tableFind_insertSorted_ne lt v t hne

theorem tableFind_tableModify (k k2 : κ) (f : β → β) (t : List (κ × β)) :
    tableFind k2 (tableModify k f t) =
      if k2 = k then (tableFind k t).map f else tableFind k2 t := by
  induction t with
  | nil => simp [tableModify, tableFind]
  | cons p t ih =>
    obtain ⟨k3, v3⟩ := p
    unfold tableModify
    by_cases hk : k3 = k
    · subst hk
      by_cases h2 : k3 = k2
      · subst h2; simp [tableFind]
      · have h3 : ¬ k2 = k3 := fun h => h2 h.symm
        simp [tableFind, h2, h3]
    · simp only [hk, if_false, tableFind]
      by_cases h2 : k3 = k2
      · subst h2; simp [hk]
      · simp only [h2, if_false]; rw [ih]

theorem map_fst_tableModify (k : κ) (f : β → β) (t : List (κ × β)) :
    (tableModify k f t).map Prod.fst = t.map Prod.fst := by
  induction t with
  | nil => rfl
  | cons p t ih =>
    obtain ⟨k3, v3⟩ := p
    unfold tableModify
    split
    · simp
    · simp [ih]

theorem length_tableModify (k : κ) (f : β → β) (t : List (κ × β)) :
    (tableModify k f t).length = t.length := by
  have h := congrArg List.length (map_fst_tableModify k f t)
  simpa using h

theorem tableContains_tableModify (k k2 : κ) (f : β → β) (t : List (κ × β)) :
    tableContains k2 (tableModify k f t) = tableContains k2 t := by
  unfold tableContains
  rw [tableFind_tableModify]
  split
  · next h => subst h; cases tableFind k2 t <;> rfl
  · rfl

end Tables

end MWWorld

namespace MWWorld

open ESM

theorem CellStore.getState_load (cs : CellStore) : cs.load.getState = State.State_Loaded := by
  unfold CellStore.load CellStore.getState
  split
  · assumption
  · rfl

theorem CellStore.load_of_loaded (cs : CellStore) (h : cs.getState = State.State_Loaded) :
    cs.load = cs := by
  unfold CellStore.getState at h
  simp [CellStore.load, h]

namespace WorldModel

@[simp] theorem loadIf_mStore (f : Bool) (k : RefId) (w : WorldModel) :
    (w.loadIf f k).mStore = w.mStore := by
  unfold loadIf; split
  · rfl
  · split <;> rfl

@[simp] theorem loadIf_mExteriors (f : Bool) (k : RefId) (w : WorldModel) :
    (w.loadIf f k).mExteriors = w.mExteriors := by
  unfold loadIf; split
  · rfl
  · split <;> rfl

@[simp] theorem loadIf_mInteriors (f : Bool) (k : RefId) (w : WorldModel) :
    (w.loadIf f k).mInteriors = w.mInteriors := by
  unfold loadIf; split
  · rfl
  · split <;> rfl

@[simp] theorem loadIf_mIdCache (f : Bool) (k : RefId) (w : WorldModel) :
    (w.loadIf f k).mIdCache = w.mIdCache := by
  unfold loadIf; split
  · rfl
  · split <;> rfl

@[simp] theorem loadIf_mIdCacheIndex (f : Bool) (k : RefId) (w : WorldModel) :
    (w.loadIf f k).mIdCacheIndex = w.mIdCacheIndex := by
  unfold loadIf; split
  · rfl
  · split <;> rfl

@[simp] theorem loadIf_mExteriorCreated (f : Bool) (k : RefId) (w : WorldModel) :
    (w.loadIf f k).mExteriorCreated = w.mExteriorCreated := by
  unfold loadIf; split
  · rfl
  · split <;> rfl

@[simp] theorem loadIf_false (k : RefId) (w : WorldModel) : w.loadIf false k = w := by
  unfold loadIf; split <;> simp

theorem loadIf_keys (f : Bool) (k : RefId) (w : WorldModel) :
    (w.loadIf f k).mCells.map Prod.fst = w.mCells.map Prod.fst := by
  unfold loadIf; split
  · rfl
  · split
    · exact map_fst_tableModify _ _ _
    · rfl

theorem loadIf_length (f : Bool) (k : RefId) (w : WorldModel) :
    (w.loadIf f k).mCells.length = w.mCells.length := by
  have h := congrArg List.length (loadIf_keys f k w)
  simpa using h

theorem tableContains_loadIf (f : Bool) (k k2 : RefId) (w : WorldModel) :
    tableContains k2 (w.loadIf f k).mCells = tableContains k2 w.mCells := by
  unfold loadIf; split
  · rfl
  · split
    · exact tableContains_tableModify _ _ _ _
    · rfl

/-- The store under `k2` after the load statement on `k`: loaded if it is the store
written to, untouched otherwise. -/
theorem tableFind_loadIf (f : Bool) (k k2 : RefId) (w : WorldModel) :
    tableFind k2 (w.loadIf f k).mCells =
      if k2 = k ∧ f = true then (tableFind k2 w.mCells).map CellStore.load
      else tableFind k2 w.mCells := by
  unfold loadIf
  cases hk : tableFind k w.mCells with
  | none =>
    by_cases h2 : k2 = k
    · subst h2; simp [hk]
    · simp [h2]
  | some cs =>
    by_cases hf : f = true
    · subst hf
      by_cases hs : cs.getState = State.State_Loaded
      · by_cases h2 : k2 = k
        · subst h2; simp [hs, hk, CellStore.load_of_loaded cs hs]
        · simp [hs, h2]
      · by_cases h2 : k2 = k
        · subst h2; simp [hs, hk, tableFind_tableModify]
        · simp [hs, h2, tableFind_tableModify]
    · simp [hf]

theorem stateOf_loadIf_true (k : RefId) (w : WorldModel) (h : tableContains k w.mCells = true) :
    (w.loadIf true k).stateOf k = some State.State_Loaded := by
  unfold stateOf
  rw [tableFind_loadIf]
  unfold tableContains at h
  cases hk : tableFind k w.mCells with
  | none => simp [hk] at h
  | some cs => simp [CellStore.getState_load]

theorem loadIf_loadIf_true (f2 : Bool) (k : RefId) (w : WorldModel) :
    (w.loadIf true k).loadIf f2 k = w.loadIf true k := by
  have key : ∀ w2 : WorldModel, (∀ cs, tableFind k w2.mCells = some cs →
      cs.getState = State.State_Loaded) → w2.loadIf f2 k = w2 := by
    intro w2 h2
    unfold loadIf
    cases hk : tableFind k w2.mCells with
    | none => rfl
    | some cs => simp [h2 cs hk]
  apply key
  intro cs hcs
  rw [tableFind_loadIf] at hcs
  simp only [and_true, if_true] at hcs
  cases hk : tableFind k w.mCells with
  | none => simp [hk] at hcs
  | some cs0 =>
    simp only [hk, Option.map_some', Option.some.injEq] at hcs
    rw [← hcs]; exact CellStore.getState_load cs0

end WorldModel

theorem createExteriorCell_ok (location : ExteriorCellLocation) (store : ESMStore)
    (h : isEsm4Ext location.mWorldspace = false ∨
      (store.searchWorld location.mWorldspace).isSome = true) :
    ∃ r, createExteriorCell location store = Except.ok r := by
  unfold createExteriorCell
  cases hw : isEsm4Ext location.mWorldspace with
  | false =>
    simp only [Bool.false_eq_true, if_false]
    cases store.searchGrid location.mX location.mY <;> exact ⟨_, rfl⟩
  | true =>
    rcases h with h | h
    · rw [hw] at h; cases h
    · cases hs : store.searchWorld location.mWorldspace with
      | none => simp [hs] at h
      | some x =>
        simp only [if_true, Option.isNone_some, Bool.false_eq_true, if_false]
        cases store.searchExterior location <;> exact ⟨_, rfl⟩

namespace WorldModel

theorem getExterior_of_indexed (w : WorldModel) (location : ExteriorCellLocation) (f : Bool)
    (c : RefId) (h : tableFind location w.mExteriors = some c) :
    w.getExterior location f = Except.ok (c, w.loadIf f c) := by
  simp [getExterior, h]

/-- Shape of a returning call of `getExterior`: the result is a state on which the load
statement was run for the returned store, and the location is indexed to that store. -/
theorem getExterior_shape (w : WorldModel) (location : ExteriorCellLocation) (f : Bool)
    (c : RefId) (w1 : WorldModel) (h : w.getExterior location f = Except.ok (c, w1)) :
    (∃ x : WorldModel, w1 = x.loadIf f c) ∧ tableFind location w1.mExteriors = some c := by
  unfold getExterior at h
  cases hfind : tableFind location w.mExteriors with
  | some k =>
    simp only [hfind, Except.ok.injEq, Prod.mk.injEq] at h
    obtain ⟨h1, h2⟩ := h
    subst h1; subst h2
    exact ⟨⟨w, rfl⟩, by simpa using hfind⟩
  | none =>
    simp only [hfind] at h
    cases hr : createExteriorCell location w.mStore with
    | error e => simp [hr] at h
    | ok r =>
      obtain ⟨cell, created, store⟩ := r
      simp only [hr, emplaceCellStore, Except.ok.injEq, Prod.mk.injEq] at h
      obtain ⟨h1, h2⟩ := h
      subst h1; subst h2
      exact ⟨⟨_, rfl⟩, by simp [tableFind_mapEmplace_self, hfind]⟩

theorem getExterior_ok (w : WorldModel) (location : ExteriorCellLocation) (f : Bool)
    (h : isEsm4Ext location.mWorldspace = false ∨
      (w.mStore.searchWorld location.mWorldspace).isSome = true ∨
      tableContains location w.mExteriors = true) :
    ∃ c w1, w.getExterior location f = Except.ok (c, w1) := by
  cases hfind : tableFind location w.mExteriors with
  | some c => exact ⟨c, _, getExterior_of_indexed w location f c hfind⟩
  | none =>
    have hc : tableContains location w.mExteriors = false := by simp [tableContains, hfind]
    have h2 : isEsm4Ext location.mWorldspace = false ∨
        (w.mStore.searchWorld location.mWorldspace).isSome = true := by
      rcases h with h | h | h
      · exact Or.inl h
      · exact Or.inr h
      · rw [hc] at h; cases h
    obtain ⟨⟨cell, created, store⟩, hr⟩ := createExteriorCell_ok location w.mStore h2
    exact ⟨_, _, by simp only [getExterior, hfind, hr]; rfl⟩

end WorldModel

/-- Claim C1, as amended. For every state and every grid location whose worldspace is
the default one, or an ESM4 worldspace the content store knows, or that is already in
the grid index, `getExterior` returns, and two successive calls return the same store:
the second call returns the pointer of the first, adds no store to the master table
(same keys, same number of stores), leaves the content store and the notifications as
they are, and changes nothing at all when the first call was made with `forceLoad`. -/
theorem getExterior_twice_same_store (w : WorldModel) (location : ExteriorCellLocation)
    (f1 f2 : Bool)
    (h : isEsm4Ext location.mWorldspace = false ∨
      (w.mStore.searchWorld location.mWorldspace).isSome = true ∨
      tableContains location w.mExteriors = true) :
    ∃ c w1, w.getExterior location f1 = Except.ok (c, w1) ∧
      w1.getExterior location f2 = Except.ok (c, w1.loadIf f2 c) ∧
      (w1.loadIf f2 c).mCells.map Prod.fst = w1.mCells.map Prod.fst ∧
      (w1.loadIf f2 c).mCells.length = w1.mCells.length ∧
      (w1.loadIf f2 c).mStore = w1.mStore ∧
      (w1.loadIf f2 c).mExteriorCreated = w1.mExteriorCreated ∧
      (f1 = true → w1.loadIf f2 c = w1) := by
  obtain ⟨c, w1, hcall⟩ := WorldModel.getExterior_ok w location f1 h
  obtain ⟨⟨x, hx⟩, hidx⟩ := WorldModel.getExterior_shape w location f1 c w1 hcall
  refine ⟨c, w1, hcall, WorldModel.getExterior_of_indexed w1 location f2 c hidx,
    WorldModel.loadIf_keys _ _ _, WorldModel.loadIf_length _ _ _, by simp, by simp, ?_⟩
  intro hf
  subst hf
  rw [hx]
  exact WorldModel.loadIf_loadIf_true f2 c x

end MWWorld

namespace MWWorld

open ESM

/-- Witness of `getExterior_twice_same_store`: the location (5, 5) of the default
worldspace on a fresh index over the sample content. -/
theorem getExterior_twice_same_store_witness :
    (isEsm4Ext Sample.wilderness.mWorldspace = false ∨
      (Sample.world.mStore.searchWorld Sample.wilderness.mWorldspace).isSome = true ∨
      tableContains Sample.wilderness Sample.world.mExteriors = true) ∧
    ∃ c w1, Sample.world.getExterior Sample.wilderness true = Except.ok (c, w1) ∧
      w1.getExterior Sample.wilderness true = Except.ok (c, w1.loadIf true c) ∧
      (w1.loadIf true c).mCells.map Prod.fst = w1.mCells.map Prod.fst ∧
      (w1.loadIf true c).mCells.length = w1.mCells.length ∧
      (w1.loadIf true c).mStore = w1.mStore ∧
      (w1.loadIf true c).mExteriorCreated = w1.mExteriorCreated ∧
      (true = true → w1.loadIf true c = w1) :=
  ⟨Or.inl (by decide),
    getExterior_twice_same_store Sample.world Sample.wilderness true true (Or.inl (by decide))⟩

/-- Claim C1 as stated fails: on a fresh index over the sample content (a reachable
state), `getExterior` for a location in an ESM4 worldspace the content store does not
know returns no store at all, it throws. -/
theorem getExterior_unknown_worldspace_returns_nothing :
    Reachable Sample.world ∧
      Sample.world.getExterior Sample.nowhere true
        = Except.error "Exterior ESM4 world is not found" ∧
      ¬ ∃ c w1, Sample.world.getExterior Sample.nowhere true = Except.ok (c, w1) := by
  refine ⟨Reachable.init _ _, rfl, ?_⟩
  rintro ⟨c, w1, h⟩
  have h2 : Sample.world.getExterior Sample.nowhere true
      = Except.error "Exterior ESM4 world is not found" := rfl
  rw [h2] at h
  cases h

end MWWorld

namespace MWWorld

open ESM

theorem find?_append_isSome {α : Type} (p : α → Bool) (l u : List α)
    (h : (l.find? p).isSome = true) : ((l ++ u).find? p).isSome = true := by
  rw [List.find?_append]
  cases hl : l.find? p with
  | none => simp [hl] at h
  | some x => simp

theorem find?_append_single_isSome {α : Type} (p : α → Bool) (l : List α) (a : α)
    (h : p a = true) : ((l ++ [a]).find? p).isSome = true := by
  rw [List.find?_append]
  cases hl : l.find? p with
  | none => simp [List.find?, h]
  | some x => simp

namespace ESMStore

theorem definedAt_insertCell (store : ESMStore) (record : ESM.Cell) (l : ExteriorCellLocation)
    (h : store.definedAt l = true) : (store.insertCell record).2.definedAt l = true := by
  unfold definedAt at h ⊢
  split
  · next h4 => simpa [h4, insertCell, searchExterior] using h
  · next h4 =>
    simp only [h4, Bool.false_eq_true, if_false] at h
    exact find?_append_isSome _ _ _ h

theorem definedAt_insertEsm4Cell (store : ESMStore) (record : ESM4.Cell)
    (l : ExteriorCellLocation) (h : store.definedAt l = true) :
    (store.insertEsm4Cell record).2.definedAt l = true := by
  unfold definedAt at h ⊢
  split
  · next h4 =>
    simp only [h4, if_true] at h
    exact find?_append_isSome _ _ _ h
  · next h4 => simpa [h4, insertEsm4Cell, searchGrid] using h

end ESMStore

/-- Outcome of `createExteriorCell` when it returns: `created` tells that the content
store had no definition at the location; the store is unchanged unless a definition
was synthesized; afterwards a definition exists there, and every location defined
before is still defined. -/
theorem createExteriorCell_spec (location : ExteriorCellLocation) (store : ESMStore)
    (cell : Cell) (created : Bool) (store2 : ESMStore)
    (h : createExteriorCell location store = Except.ok (cell, created, store2)) :
    created = !store.definedAt location ∧ (created = false → store2 = store) ∧
      store2.definedAt location = true ∧
      ∀ l, store.definedAt l = true → store2.definedAt l = true := by
  unfold createExteriorCell at h
  cases h4 : isEsm4Ext location.mWorldspace with
  | true =>
    simp only [h4, if_true] at h
    cases hw : store.searchWorld location.mWorldspace with
    | none => simp [hw] at h
    | some x =>
      simp only [hw, Option.isNone_some, Bool.false_eq_true, if_false] at h
      cases hs : store.searchExterior location with
      | some c =>
        simp only [hs, Except.ok.injEq, Prod.mk.injEq] at h
        obtain ⟨-, h2, h3⟩ := h
        subst h2; subst h3
        simp [ESMStore.definedAt, h4, hs]
      | none =>
        simp only [hs, Except.ok.injEq, Prod.mk.injEq] at h
        obtain ⟨-, h2, h3⟩ := h
        subst h2; subst h3
        refine ⟨by simp [ESMStore.definedAt, h4, hs], by simp, ?_, ?_⟩
        · simp only [ESMStore.definedAt, h4, if_true, createEsm4Cell, ESMStore.insertEsm4Cell,
            ESMStore.searchExterior]
          apply find?_append_single_isSome
          simp [ESM4.Cell.isExterior]
        · intro l hl
          exact ESMStore.definedAt_insertEsm4Cell _ _ _ hl
  | false =>
    simp only [h4, Bool.false_eq_true, if_false] at h
    cases hs : store.searchGrid location.mX location.mY with
    | some c =>
      simp only [hs, Except.ok.injEq, Prod.mk.injEq] at h
      obtain ⟨-, h2, h3⟩ := h
      subst h2; subst h3
      simp [ESMStore.definedAt, h4, hs]
    | none =>
      simp only [hs, Except.ok.injEq, Prod.mk.injEq] at h
      obtain ⟨-, h2, h3⟩ := h
      subst h2; subst h3
      refine ⟨by simp [ESMStore.definedAt, h4, hs], by simp, ?_, ?_⟩
      · simp only [ESMStore.definedAt, h4, Bool.false_eq_true, if_false, createEsmCell,
          ESMStore.insertCell, ESMStore.searchGrid]
        apply find?_append_single_isSome
        simp [ESM.Cell.updateId, ESM.Cell.isExterior, ESM.Cell.isInterior, ESM.Cell.HasWater,
          ESM.Cell.Interior]
      · intro l hl
        exact ESMStore.definedAt_insertCell _ _ _ hl

end MWWorld

namespace MWWorld

open ESM

namespace WorldModel

theorem insertCellStore_content (c : ESM.Cell) (w : WorldModel) :
    (w.insertCellStore c).2.mStore = w.mStore ∧
      (w.insertCellStore c).2.mExteriorCreated = w.mExteriorCreated := by
  unfold insertCellStore
  split <;> exact ⟨rfl, rfl⟩

theorem getOrInsertCellStore_content (c : ESM.Cell) (w : WorldModel) :
    (w.getOrInsertCellStore c).2.mStore = w.mStore ∧
      (w.getOrInsertCellStore c).2.mExteriorCreated = w.mExteriorCreated := by
  unfold getOrInsertCellStore
  split
  · exact ⟨rfl, rfl⟩
  · exact insertCellStore_content c w

theorem cellGetPtr_content (name k : RefId) (w : WorldModel) :
    (w.cellGetPtr name k).2.mStore = w.mStore ∧
      (w.cellGetPtr name k).2.mExteriorCreated = w.mExteriorCreated := by
  unfold cellGetPtr
  split <;> exact ⟨rfl, rfl⟩

theorem getPtrAndCache_content (name k : RefId) (w : WorldModel) :
    (w.getPtrAndCache name k).2.mStore = w.mStore ∧
      (w.getPtrAndCache name k).2.mExteriorCreated = w.mExteriorCreated := by
  unfold getPtrAndCache
  simp only
  split
  · exact cellGetPtr_content name k w
  · exact cellGetPtr_content name k w

theorem searchCache_content (name : RefId) (cache : List (RefId × Option RefId))
    (w : WorldModel) :
    (searchCache name cache w).2.mStore = w.mStore ∧
      (searchCache name cache w).2.mExteriorCreated = w.mExteriorCreated := by
  induction cache generalizing w with
  | nil => exact ⟨rfl, rfl⟩
  | cons p rest ih =>
    obtain ⟨cachedId, cellStore⟩ := p
    cases cellStore with
    | none => simpa [searchCache] using ih w
    | some k =>
      unfold searchCache
      simp only
      split
      · exact ih w
      · split
        · exact cellGetPtr_content name k w
        · have h1 := ih (w.cellGetPtr name k).2
          have h2 := cellGetPtr_content name k w
          exact ⟨h1.1.trans h2.1, h1.2.trans h2.2⟩

theorem searchStores_content (name : RefId) (ks : List RefId) (w : WorldModel) :
    (searchStores name ks w).2.mStore = w.mStore ∧
      (searchStores name ks w).2.mExteriorCreated = w.mExteriorCreated := by
  induction ks generalizing w with
  | nil => exact ⟨rfl, rfl⟩
  | cons k rest ih =>
    unfold searchStores
    simp only
    split
    · exact getPtrAndCache_content name k w
    · have h1 := ih (w.getPtrAndCache name k).2
      have h2 := getPtrAndCache_content name k w
      exact ⟨h1.1.trans h2.1, h1.2.trans h2.2⟩

theorem searchDefinitions_content (name : RefId) (cs : List ESM.Cell) (w : WorldModel) :
    (searchDefinitions name cs w).2.mStore = w.mStore ∧
      (searchDefinitions name cs w).2.mExteriorCreated = w.mExteriorCreated := by
  induction cs generalizing w with
  | nil => exact ⟨rfl, rfl⟩
  | cons c rest ih =>
    unfold searchDefinitions
    split
    · exact ih w
    · simp only
      have h3 := insertCellStore_content c w
      have h2 := getPtrAndCache_content name (w.insertCellStore c).1 (w.insertCellStore c).2
      split
      · exact ⟨h2.1.trans h3.1, h2.2.trans h3.2⟩
      · have h1 := ih ((w.insertCellStore c).2.getPtrAndCache name (w.insertCellStore c).1).2
        exact ⟨h1.1.trans (h2.1.trans h3.1), h1.2.trans (h2.2.trans h3.2)⟩

theorem fullSearch_content (name : RefId) (w : WorldModel) :
    (fullSearch name w).2.mStore = w.mStore ∧
      (fullSearch name w).2.mExteriorCreated = w.mExteriorCreated := by
  unfold fullSearch
  have e1 := searchStores_content name (w.mExteriors.reverse.map Prod.snd) w
  rcases h1 : searchStores name (w.mExteriors.reverse.map Prod.snd) w with ⟨_ | p, w1⟩
  all_goals rw [h1] at e1; simp only at e1 ⊢
  swap; exact e1
  have e2 := searchStores_content name (w1.mInteriors.map Prod.snd) w1
  rcases h2 : searchStores name (w1.mInteriors.map Prod.snd) w1 with ⟨_ | p, w2⟩
  all_goals rw [h2] at e2; simp only at e2 ⊢
  swap; exact ⟨e2.1.trans e1.1, e2.2.trans e1.2⟩
  have e3 := searchDefinitions_content name w2.mStore.extCells w2
  rcases h3 : searchDefinitions name w2.mStore.extCells w2 with ⟨_ | p, w3⟩
  all_goals rw [h3] at e3; simp only at e3 ⊢
  swap; exact ⟨e3.1.trans (e2.1.trans e1.1), e3.2.trans (e2.2.trans e1.2)⟩
  have e4 := searchDefinitions_content name w3.mStore.intCells w3
  rcases h4 : searchDefinitions name w3.mStore.intCells w3 with ⟨_ | p, w4⟩
  all_goals rw [h4] at e4; simp only at e4 ⊢
  all_goals exact ⟨e4.1.trans (e3.1.trans (e2.1.trans e1.1)),
    e4.2.trans (e3.2.trans (e2.2.trans e1.2))⟩

theorem getPtr_content (name : RefId) (w : WorldModel) :
    (w.getPtr name).2.mStore = w.mStore ∧
      (w.getPtr name).2.mExteriorCreated = w.mExteriorCreated := by
  unfold getPtr
  have e1 := searchCache_content name w.mIdCache w
  rcases h1 : searchCache name w.mIdCache w with ⟨_ | p, w1⟩
  all_goals rw [h1] at e1; simp only at e1 ⊢
  · have e2 := fullSearch_content name w1
    exact ⟨e2.1.trans e1.1, e2.2.trans e1.2⟩
  · exact e1

theorem getExteriorPtrsLoop_content (name : RefId) (cs : List ESM.Cell) (out : List Ptr)
    (w : WorldModel) :
    (getExteriorPtrsLoop name cs out w).2.mStore = w.mStore ∧
      (getExteriorPtrsLoop name cs out w).2.mExteriorCreated = w.mExteriorCreated := by
  induction cs generalizing w out with
  | nil => exact ⟨rfl, rfl⟩
  | cons c rest ih =>
    unfold getExteriorPtrsLoop
    simp only
    have h3 := getOrInsertCellStore_content c w
    have h2 := getPtrAndCache_content name (w.getOrInsertCellStore c).1
      (w.getOrInsertCellStore c).2
    have h1 := ih (if !((w.getOrInsertCellStore c).2.getPtrAndCache name
      (w.getOrInsertCellStore c).1).1.isEmpty then
        out ++ [((w.getOrInsertCellStore c).2.getPtrAndCache name
          (w.getOrInsertCellStore c).1).1] else out)
      ((w.getOrInsertCellStore c).2.getPtrAndCache name (w.getOrInsertCellStore c).1).2
    exact ⟨h1.1.trans (h2.1.trans h3.1), h1.2.trans (h2.2.trans h3.2)⟩

theorem findInterior_content (name : String) (f : Bool) (w : WorldModel) :
    (w.findInterior name f).2.mStore = w.mStore ∧
      (w.findInterior name f).2.mExteriorCreated = w.mExteriorCreated := by
  unfold findInterior
  split
  · split
    · simp
    · split <;> simp
  · simp

end WorldModel

end MWWorld

namespace MWWorld

open ESM

/-- What a returning call of `getExterior` does to the notifications and to the content
store: it notifies exactly when the location was not indexed and had no definition,
and it keeps every definition. -/
theorem WorldModel.getExterior_notifies (w : WorldModel) (location : ExteriorCellLocation)
    (f : Bool) (c : RefId) (w1 : WorldModel)
    (h : w.getExterior location f = Except.ok (c, w1)) :
    w1.mExteriorCreated =
        (if tableFind location w.mExteriors = none ∧ w.mStore.definedAt location = false then
          w.mExteriorCreated ++ [(location, c)] else w.mExteriorCreated) ∧
      (w1.mExteriorCreated ≠ w.mExteriorCreated → w1.mStore.definedAt location = true) ∧
      ∀ l, w.mStore.definedAt l = true → w1.mStore.definedAt l = true := by
  unfold WorldModel.getExterior at h
  cases hfind : tableFind location w.mExteriors with
  | some k =>
    simp only [hfind, Except.ok.injEq, Prod.mk.injEq] at h
    obtain ⟨h1, h2⟩ := h
    subst h1; subst h2
    simp
  | none =>
    simp only [hfind] at h
    cases hr : createExteriorCell location w.mStore with
    | error e => simp [hr] at h
    | ok r =>
      obtain ⟨cell, created, store⟩ := r
      obtain ⟨hc, hsame, hdef, hmono⟩ := createExteriorCell_spec location w.mStore cell created
        store hr
      simp only [hr, emplaceCellStore, Except.ok.injEq, Prod.mk.injEq] at h
      obtain ⟨h1, h2⟩ := h
      subst h1; subst h2
      simp only [WorldModel.loadIf_mExteriorCreated, WorldModel.loadIf_mStore, true_and]
      refine ⟨?_, fun _ => hdef, hmono⟩
      cases hd : w.mStore.definedAt location with
      | true => simp [hc, hd]
      | false => simp [hc, hd]

theorem NotifiedOnce.once_of_content {store0 : ESMStore} {w w2 : WorldModel}
    (h : NotifiedOnce store0 w)
    (e : w2.mStore = w.mStore ∧ w2.mExteriorCreated = w.mExteriorCreated) :
    NotifiedOnce store0 w2 := by
  unfold NotifiedOnce at h ⊢
  rw [e.1, e.2]
  exact h

theorem NotifiedOnce.once_getExterior {store0 : ESMStore} {w : WorldModel}
    (h : NotifiedOnce store0 w) (location : ExteriorCellLocation) (f : Bool) (c : RefId)
    (w1 : WorldModel) (hc : w.getExterior location f = Except.ok (c, w1)) :
    NotifiedOnce store0 w1 := by
  obtain ⟨hlog, hdef, hmono⟩ := WorldModel.getExterior_notifies w location f c w1 hc
  obtain ⟨hn, hp, hs⟩ := h
  by_cases hcond : tableFind location w.mExteriors = none ∧ w.mStore.definedAt location = false
  · rw [if_pos hcond] at hlog
    have hne : w1.mExteriorCreated ≠ w.mExteriorCreated := by
      rw [hlog]; intro he
      have := congrArg List.length he
      simp at this
    have hd := hdef hne
    refine ⟨?_, ?_, fun l hl => hmono l (hs l hl)⟩
    · rw [hlog, List.map_append, List.nodup_append]
      refine ⟨hn, by simp, ?_⟩
      intro a ha hb
      simp only [List.map_cons, List.map_nil, List.mem_singleton] at hb
      subst hb
      obtain ⟨p, hp1, hp2⟩ := List.mem_map.mp ha
      have := (hp p hp1).1
      rw [hp2, hcond.2] at this
      cases this
    · intro p hpm
      rw [hlog, List.mem_append] at hpm
      rcases hpm with hpm | hpm
      · exact ⟨hmono _ (hp p hpm).1, (hp p hpm).2⟩
      · simp only [List.mem_singleton] at hpm
        subst hpm
        refine ⟨hd, ?_⟩
        cases h0 : store0.definedAt location with
        | false => rfl
        | true => rw [hs _ h0] at hcond; cases hcond.2
  · rw [if_neg hcond] at hlog
    refine ⟨by rw [hlog]; exact hn, ?_, fun l hl => hmono l (hs l hl)⟩
    intro p hpm
    rw [hlog] at hpm
    exact ⟨hmono _ (hp p hpm).1, (hp p hpm).2⟩

theorem NotifiedOnce.once_findCell {store0 : ESMStore} {w : WorldModel} (h : NotifiedOnce store0 w)
    (id : RefId) (f : Bool) (r : Option RefId × WorldModel)
    (hc : w.findCell id f = Except.ok r) : NotifiedOnce store0 r.2 := by
  unfold WorldModel.findCell at hc
  split at hc
  · cases hc; exact h
  · split at hc
    · next x y _ =>
      split at hc
      · cases hc
      · next cellStore w1 hg => cases hc; exact h.once_getExterior _ f cellStore w1 hg
    · split at hc
      · cases hc; exact h
      · next cell _ =>
        cases hc
        apply h.once_of_content
        cases cell.mIsExterior <;> simp [emplaceCellStore]

theorem NotifiedOnce.once_findCellByName {store0 : ESMStore} {w : WorldModel}
    (h : NotifiedOnce store0 w) (name : String) (f : Bool) (r : Option RefId × WorldModel)
    (hc : w.findCellByName name f = Except.ok r) : NotifiedOnce store0 r.2 := by
  unfold WorldModel.findCellByName at hc
  have h1 := h.once_of_content (WorldModel.findInterior_content name f w)
  split at hc
  · next cellStore w1 heq => cases hc; rw [heq] at h1; exact h1
  · next w1 heq =>
    rw [heq] at h1
    split at hc
    · cases hc; exact h1
    · next cell _ =>
      split at hc
      · cases hc
      · next cellStore w2 hg => cases hc; exact h1.once_getExterior _ f cellStore w2 hg

theorem NotifiedOnce.once_apply {store0 : ESMStore} {w : WorldModel} (h : NotifiedOnce store0 w)
    (op : Op) : NotifiedOnce store0 (op.apply w) := by
  cases op with
  | clear => exact h.once_of_content ⟨rfl, rfl⟩
  | getExterior location f =>
    simp only [Op.apply]
    cases hc : w.getExterior location f with
    | error e => exact h
    | ok r => exact h.once_getExterior location f r.1 r.2 hc
  | findInterior name f => exact h.once_of_content (WorldModel.findInterior_content name f w)
  | findCell id f =>
    simp only [Op.apply]
    cases hc : w.findCell id f with
    | error e => exact h
    | ok r => exact h.once_findCell id f r hc
  | findCellByName name f =>
    simp only [Op.apply]
    cases hc : w.findCellByName name f with
    | error e => exact h
    | ok r => exact h.once_findCellByName name f r hc
  | getPtr name => exact h.once_of_content (WorldModel.getPtr_content name w)
  | getExteriorPtrs name =>
    exact h.once_of_content (WorldModel.getExteriorPtrsLoop_content name _ [] w)
  | getAll id => exact h.once_of_content ⟨rfl, rfl⟩
  | setObjects k refs => exact h.once_of_content ⟨rfl, rfl⟩

theorem NotifiedOnce.once_runOps {store0 : ESMStore} (ops : List Op) {w : WorldModel}
    (h : NotifiedOnce store0 w) : NotifiedOnce store0 (runOps ops w) := by
  induction ops generalizing w with
  | nil => exact h
  | cons op rest ih => exact ih (h.once_apply op)

theorem NotifiedOnce.once_create (store : ESMStore) (n : Nat) :
    NotifiedOnce store (WorldModel.create store n) :=
  ⟨List.nodup_nil, fun p hp => by simp [WorldModel.create] at hp, fun _ hl => hl⟩

/-- Claim C2, as amended. A call `getExterior(location)` that returns sends the
`exteriorCreated` notification (for the returned store) if and only if the location was
not in the grid index and the content store held no definition at the location before
the call; over any sequence of calls on an index constructed over a content store, no
location is notified twice and no notified location had a definition in that content
store. (A call that throws, for an unknown ESM4 worldspace, notifies nothing.) -/
theorem exteriorCreated_iff_synthesized (w : WorldModel) (location : ExteriorCellLocation)
    (f : Bool) (c : RefId) (w1 : WorldModel) (store : ESMStore) (n : Nat) (ops : List Op)
    (h : w.getExterior location f = Except.ok (c, w1)) :
    (w1.mExteriorCreated =
        if tableFind location w.mExteriors = none ∧ w.mStore.definedAt location = false then
          w.mExteriorCreated ++ [(location, c)] else w.mExteriorCreated) ∧
      ((runOps ops (WorldModel.create store n)).mExteriorCreated.map Prod.fst).Nodup ∧
      ∀ p ∈ (runOps ops (WorldModel.create store n)).mExteriorCreated,
        store.definedAt p.1 = false := by
  refine ⟨(WorldModel.getExterior_notifies w location f c w1 h).1, ?_, ?_⟩
  · exact ((NotifiedOnce.once_create store n).once_runOps ops).1
  · intro p hp
    exact (((NotifiedOnce.once_create store n).once_runOps ops).2.1 p hp).2

end MWWorld

namespace MWWorld

open ESM

/-- Witness of `exteriorCreated_iff_synthesized`: the first call for the location
(5, 5) on a fresh index over the sample content, and the sequence "get, clear, get"
for that location. -/
theorem exteriorCreated_iff_synthesized_witness :
    Sample.world.getExterior Sample.wilderness true =
        Except.ok (RefId.esm3ExteriorCell 5 5,
          (Op.getExterior Sample.wilderness true).apply Sample.world) ∧
      ((Op.getExterior Sample.wilderness true).apply Sample.world).mExteriorCreated =
        (if tableFind Sample.wilderness Sample.world.mExteriors = none ∧
            Sample.world.mStore.definedAt Sample.wilderness = false then
          Sample.world.mExteriorCreated ++ [(Sample.wilderness, RefId.esm3ExteriorCell 5 5)]
        else Sample.world.mExteriorCreated) ∧
      ((runOps [Op.getExterior Sample.wilderness true, Op.clear,
          Op.getExterior Sample.wilderness true]
        (WorldModel.create Sample.store 2)).mExteriorCreated.map Prod.fst).Nodup :=
  ⟨rfl,
    (exteriorCreated_iff_synthesized Sample.world Sample.wilderness true
      (RefId.esm3ExteriorCell 5 5) ((Op.getExterior Sample.wilderness true).apply Sample.world)
      Sample.store 2 [] rfl).1,
    (exteriorCreated_iff_synthesized Sample.world Sample.wilderness true
      (RefId.esm3ExteriorCell 5 5) ((Op.getExterior Sample.wilderness true).apply Sample.world)
      Sample.store 2 [Op.getExterior Sample.wilderness true, Op.clear,
        Op.getExterior Sample.wilderness true] rfl).2.1⟩

/-- Claim C2 as stated fails: on a fresh index over the sample content, a location in
an ESM4 worldspace the content store does not know is not in the grid index and has no
definition in the content store, yet the call sends no notification: it throws and the
notifications stay as they were. -/
theorem getExterior_unknown_worldspace_notifies_nothing :
    tableFind Sample.nowhere Sample.world.mExteriors = none ∧
      Sample.world.mStore.definedAt Sample.nowhere = false ∧
      Sample.world.getExterior Sample.nowhere true
        = Except.error "Exterior ESM4 world is not found" ∧
      ((Op.getExterior Sample.nowhere true).apply Sample.world).mExteriorCreated = [] := by
  refine ⟨by decide, by decide, rfl, by decide⟩

end MWWorld

namespace ESM

theorem codesLt_irrefl (a : List Nat) : codesLt a a = false := by
  induction a with
  | nil => rfl
  | cons x xs ih => simp [codesLt, ih]

theorem codesLt_trans {a b c : List Nat} (h1 : codesLt a b = true) (h2 : codesLt b c = true) :
    codesLt a c = true := by
  induction a generalizing b c with
  | nil =>
    cases b with
    | nil => simp [codesLt] at h1
    | cons y ys =>
      cases c with
      | nil => simp [codesLt] at h2
      | cons z zs => simp [codesLt]
  | cons x xs ih =>
    cases b with
    | nil => simp [codesLt] at h1
    | cons y ys =>
      cases c with
      | nil => simp [codesLt] at h2
      | cons z zs =>
        simp only [codesLt, Bool.or_eq_true, decide_eq_true_eq, Bool.and_eq_true] at h1 h2 ⊢
        rcases h1 with h1 | ⟨h1, h1'⟩
        · rcases h2 with h2 | ⟨h2, _⟩
          · exact Or.inl (by omega)
          · exact Or.inl (by omega)
        · rcases h2 with h2 | ⟨h2, h2'⟩
          · exact Or.inl (by omega)
          · exact Or.inr ⟨by omega, ih h1' h2'⟩

theorem codesLt_total (a b : List Nat) : codesLt a b = true ∨ a = b ∨ codesLt b a = true := by
  induction a generalizing b with
  | nil =>
    cases b with
    | nil => exact Or.inr (Or.inl rfl)
    | cons y ys => exact Or.inl rfl
  | cons x xs ih =>
    cases b with
    | nil => exact Or.inr (Or.inr rfl)
    | cons y ys =>
      simp only [codesLt, Bool.or_eq_true, decide_eq_true_eq, Bool.and_eq_true, List.cons.injEq]
      rcases Nat.lt_trichotomy x y with h | h | h
      · exact Or.inl (Or.inl h)
      · rcases ih ys with h2 | h2 | h2
        · exact Or.inl (Or.inr ⟨h, h2⟩)
        · exact Or.inr (Or.inl ⟨h, h2⟩)
        · exact Or.inr (Or.inr (Or.inr ⟨h.symm, h2⟩))
      · exact Or.inr (Or.inr (Or.inl h))

theorem charCodes_injective {a b : String}
    (h : a.data.map Char.toNat = b.data.map Char.toNat) : a = b := by
  have hinj : Function.Injective Char.toNat := by
    intro x y hxy
    apply Char.ext
    apply UInt32.ext
    exact hxy
  have := List.map_injective_iff.mpr hinj h
  cases a; cases b; simp_all

theorem stringLt_irrefl (a : String) : stringLt a a = false := codesLt_irrefl _

theorem stringLt_trans {a b c : String} (h1 : stringLt a b = true) (h2 : stringLt b c = true) :
    stringLt a c = true := codesLt_trans h1 h2

theorem stringLt_total (a b : String) : stringLt a b = true ∨ a = b ∨ stringLt b a = true := by
  rcases codesLt_total (a.data.map Char.toNat) (b.data.map Char.toNat) with h | h | h
  · exact Or.inl h
  · exact Or.inr (Or.inl (charCodes_injective h))
  · exact Or.inr (Or.inr h)

theorem RefId.idLt_irrefl (a : RefId) : RefId.lt a a = false := by
  cases a <;> simp [RefId.lt, stringLt_irrefl]

theorem RefId.idLt_trans {a b c : RefId} (h1 : RefId.lt a b = true) (h2 : RefId.lt b c = true) :
    RefId.lt a c = true := by
  cases a <;> cases b <;> simp [RefId.lt, RefId.rank] at h1 <;>
    cases c <;> simp [RefId.lt, RefId.rank] at h2 ⊢
  · exact stringLt_trans h1 h2
  · omega
  · omega
  · omega

theorem RefId.idLt_total (a b : RefId) : RefId.lt a b = true ∨ a = b ∨ RefId.lt b a = true := by
  cases a <;> cases b <;> simp [RefId.lt, RefId.rank]
  · exact stringLt_total _ _
  · omega
  · omega
  · omega

theorem ExteriorCellLocation.locLt_irrefl (a : ExteriorCellLocation) :
    ExteriorCellLocation.lt a a = false := by
  simp [ExteriorCellLocation.lt, RefId.idLt_irrefl]

theorem ExteriorCellLocation.locLt_trans {a b c : ExteriorCellLocation}
    (h1 : ExteriorCellLocation.lt a b = true) (h2 : ExteriorCellLocation.lt b c = true) :
    ExteriorCellLocation.lt a c = true := by
  simp only [ExteriorCellLocation.lt, Bool.or_eq_true, decide_eq_true_eq, Bool.and_eq_true]
    at h1 h2 ⊢
  rcases h1 with h1 | ⟨h1, h1' | ⟨h1', h1''⟩⟩ <;> rcases h2 with h2 | ⟨h2, h2' | ⟨h2', h2''⟩⟩
  · exact Or.inl (by omega)
  · exact Or.inl (by omega)
  · exact Or.inl (by omega)
  · exact Or.inl (by omega)
  · exact Or.inr ⟨by omega, Or.inl (by omega)⟩
  · exact Or.inr ⟨by omega, Or.inl (by omega)⟩
  · exact Or.inl (by omega)
  · exact Or.inr ⟨by omega, Or.inl (by omega)⟩
  · exact Or.inr ⟨by omega, Or.inr ⟨by omega, RefId.idLt_trans h1'' h2''⟩⟩

theorem ExteriorCellLocation.locLt_total (a b : ExteriorCellLocation) :
    ExteriorCellLocation.lt a b = true ∨ a = b ∨ ExteriorCellLocation.lt b a = true := by
  obtain ⟨ax, ay, aw⟩ := a
  obtain ⟨bx, b_y, bw⟩ := b
  simp only [ExteriorCellLocation.lt, Bool.or_eq_true, decide_eq_true_eq, Bool.and_eq_true,
    ExteriorCellLocation.mk.injEq]
  rcases Int.lt_trichotomy ax bx with h | h | h
  · exact Or.inl (Or.inl h)
  · rcases Int.lt_trichotomy ay b_y with h2 | h2 | h2
    · exact Or.inl (Or.inr ⟨h, Or.inl h2⟩)
    · rcases RefId.idLt_total aw bw with h3 | h3 | h3
      · exact Or.inl (Or.inr ⟨h, Or.inr ⟨h2, h3⟩⟩)
      · exact Or.inr (Or.inl ⟨h, h2, h3⟩)
      · exact Or.inr (Or.inr (Or.inr ⟨h.symm, Or.inr ⟨h2.symm, h3⟩⟩))
    · exact Or.inr (Or.inr (Or.inr ⟨h.symm, Or.inl h2⟩))
  · exact Or.inr (Or.inr (Or.inl h))

end ESM

namespace MWWorld

open ESM

section SortedTables

variable {κ β : Type} [DecidableEq κ]

theorem tableFind_mem {k : κ} {v : β} (t : List (κ × β)) (h : tableFind k t = some v) :
    (k, v) ∈ t := by
  induction t with
  | nil => simp [tableFind] at h
  | cons p t ih =>
    obtain ⟨k2, v2⟩ := p
    by_cases hk : k2 = k
    · simp only [tableFind, hk, if_true, Option.some.injEq] at h
      simp [hk, h]
    · simp only [tableFind, hk, if_false] at h
      exact List.mem_cons_of_mem _ (ih h)

theorem mem_insertSorted (lt : κ → κ → Bool) (k : κ) (v : β) (t : List (κ × β)) (p : κ × β) :
    p ∈ insertSorted lt k v t ↔ p = (k, v) ∨ p ∈ t := by
  induction t with
  | nil => simp [insertSorted]
  | cons q t ih =>
    obtain ⟨k2, v2⟩ := q
    unfold insertSorted
    split
    · simp
    · simp only [List.mem_cons, ih]
      tauto

theorem mem_mapEmplace (lt : κ → κ → Bool) (k : κ) (v : β) (t : List (κ × β)) (p : κ × β)
    (h : p ∈ mapEmplace lt k v t) : p = (k, v) ∨ p ∈ t := by
  unfold mapEmplace at h
  split at h
  · exact Or.inr h
  · exact (mem_insertSorted lt k v t p).mp h

theorem KeysSorted.insertSorted {lt : κ → κ → Bool}
    (htrans : ∀ a b c, lt a b = true → lt b c = true → lt a c = true)
    (htotal : ∀ a b, lt a b = true ∨ a = b ∨ lt b a = true)
    (k : κ) (v : β) (t : List (κ × β)) (hs : KeysSorted lt t)
    (hk : tableContains k t = false) : KeysSorted lt (insertSorted lt k v t) := by
  induction t with
  | nil => simp [MWWorld.insertSorted, KeysSorted]
  | cons q t ih =>
    obtain ⟨k2, v2⟩ := q
    unfold KeysSorted at hs
    rw [List.pairwise_cons] at hs
    have hne : k2 ≠ k := by
      intro he
      simp [tableContains, tableFind, he] at hk
    have hk2 : tableContains k t = false := by
      simpa [tableContains, tableFind, hne] using hk
    unfold MWWorld.insertSorted
    split
    · next hlt =>
      unfold KeysSorted
      rw [List.pairwise_cons, List.pairwise_cons]
      refine ⟨?_, hs⟩
      intro a ha
      rcases List.mem_cons.mp ha with ha | ha
      · subst ha; exact hlt
      · exact htrans _ _ _ hlt (hs.1 a ha)
    · next hlt =>
      have hgt : lt k2 k = true := by
        rcases htotal k k2 with h | h | h
        · exact absurd h hlt
        · exact absurd h.symm hne
        · exact h
      unfold KeysSorted
      rw [List.pairwise_cons]
      refine ⟨?_, ih hs.2 hk2⟩
      intro a ha
      rcases (mem_insertSorted lt k v t a).mp ha with ha | ha
      · subst ha; exact hgt
      · exact hs.1 a ha

theorem KeysSorted.mapEmplace {lt : κ → κ → Bool}
    (htrans : ∀ a b c, lt a b = true → lt b c = true → lt a c = true)
    (htotal : ∀ a b, lt a b = true ∨ a = b ∨ lt b a = true)
    (k : κ) (v : β) (t : List (κ × β)) (hs : KeysSorted lt t) :
    KeysSorted lt (mapEmplace lt k v t) := by
  unfold MWWorld.mapEmplace
  split
  · exact hs
  · next h => exact hs.insertSorted htrans htotal k v t (by simpa using h)

theorem nodup_keys_hashEmplace (k : κ) (v : β) (t : List (κ × β))
    (h : (t.map Prod.fst).Nodup) : ((hashEmplace k v t).map Prod.fst).Nodup := by
  unfold hashEmplace
  split
  · exact h
  · next hc =>
    rw [List.map_append, List.nodup_append]
    refine ⟨h, by simp, ?_⟩
    intro a ha hb
    simp only [List.map_cons, List.map_nil, List.mem_singleton] at hb
    subst hb
    exact hc ((tableContains_iff_mem t).mpr ha)

end SortedTables

theorem locations_sorted_mapEmplace (location : ExteriorCellLocation) (k : RefId)
    (t : List (ExteriorCellLocation × RefId)) (hs : KeysSorted ExteriorCellLocation.lt t) :
    KeysSorted ExteriorCellLocation.lt (mapEmplace ExteriorCellLocation.lt location k t) :=
  @KeysSorted.mapEmplace _ _ _ ExteriorCellLocation.lt
    (fun _ _ _ h1 h2 => ExteriorCellLocation.locLt_trans h1 h2) ExteriorCellLocation.locLt_total
    location k t hs

theorem names_sorted_mapEmplace (name : String) (k : RefId)
    (t : List (String × RefId)) (hs : KeysSorted stringLt t) :
    KeysSorted stringLt (mapEmplace stringLt name k t) :=
  @KeysSorted.mapEmplace _ _ _ stringLt (fun _ _ _ h1 h2 => stringLt_trans h1 h2)
    stringLt_total name k t hs

end MWWorld

namespace MWWorld

open ESM

theorem WellFormed.wf_congr {w w2 : WorldModel} (h : WellFormed w) (e1 : w2.mCells = w.mCells)
    (e2 : w2.mExteriors = w.mExteriors) (e3 : w2.mInteriors = w.mInteriors)
    (e4 : w2.mIdCache = w.mIdCache) : WellFormed w2 := by
  constructor
  · rw [e1, e2]; exact h.exteriorsValid
  · rw [e1, e3]; exact h.interiorsValid
  · rw [e4]; intro p hp k hk
    have := h.cacheLoaded p hp k hk
    simpa [WorldModel.stateOf, e1] using this
  · rw [e2]; exact h.exteriorsSorted
  · rw [e3]; exact h.interiorsSorted
  · rw [e1]; exact h.cellsNodup

/-- A write through a pointer that keeps a loaded store loaded preserves the invariant. -/
theorem WellFormed.wf_modify {w w2 : WorldModel} (h : WellFormed w) (k : RefId) (g : CellStore → CellStore)
    (hg : ∀ cs, tableFind k w.mCells = some cs → cs.getState = State.State_Loaded →
      (g cs).getState = State.State_Loaded)
    (e1 : w2.mCells = tableModify k g w.mCells)
    (e2 : w2.mExteriors = w.mExteriors) (e3 : w2.mInteriors = w.mInteriors)
    (e4 : w2.mIdCache = w.mIdCache) : WellFormed w2 := by
  constructor
  · rw [e1, e2]; intro p hp
    rw [tableContains_tableModify]; exact h.exteriorsValid p hp
  · rw [e1, e3]; intro p hp
    rw [tableContains_tableModify]; exact h.interiorsValid p hp
  · rw [e4]; intro p hp k2 hk2
    have hl := h.cacheLoaded p hp k2 hk2
    unfold WorldModel.stateOf at hl ⊢
    rw [e1, tableFind_tableModify]
    by_cases hkk : k2 = k
    · subst hkk
      simp only [if_true]
      cases hf : tableFind k2 w.mCells with
      | none => simp [hf] at hl
      | some cs =>
        simp only [hf, Option.map_some', Option.some.injEq] at hl
        simp [hg cs hf hl]
    · simpa [hkk] using hl
  · rw [e2]; exact h.exteriorsSorted
  · rw [e3]; exact h.interiorsSorted
  · rw [e1, map_fst_tableModify]; exact h.cellsNodup

/-- Adding a store to the master table preserves the invariant. -/
theorem WellFormed.wf_emplaceStore {w w2 : WorldModel} (h : WellFormed w) (id : RefId) (cs : CellStore)
    (e1 : w2.mCells = hashEmplace id cs w.mCells)
    (e2 : w2.mExteriors = w.mExteriors) (e3 : w2.mInteriors = w.mInteriors)
    (e4 : w2.mIdCache = w.mIdCache) : WellFormed w2 := by
  constructor
  · rw [e1, e2]; intro p hp
    exact tableContains_hashEmplace_of_contains _ _ (h.exteriorsValid p hp)
  · rw [e1, e3]; intro p hp
    exact tableContains_hashEmplace_of_contains _ _ (h.interiorsValid p hp)
  · rw [e4]; intro p hp k2 hk2
    have hl := h.cacheLoaded p hp k2 hk2
    unfold WorldModel.stateOf at hl ⊢
    rw [e1]
    cases hf : tableFind k2 w.mCells with
    | none => simp [hf] at hl
    | some x =>
      rw [tableFind_hashEmplace_of_some _ _ hf]
      simpa [hf] using hl
  · rw [e2]; exact h.exteriorsSorted
  · rw [e3]; exact h.interiorsSorted
  · rw [e1]; exact nodup_keys_hashEmplace _ _ _ h.cellsNodup

/-- Entering a pointer to a store of the master table into the grid index preserves
the invariant. -/
theorem WellFormed.wf_emplaceExterior {w w2 : WorldModel} (h : WellFormed w)
    (location : ExteriorCellLocation) (k : RefId) (hk : tableContains k w.mCells = true)
    (e1 : w2.mCells = w.mCells)
    (e2 : w2.mExteriors = mapEmplace ExteriorCellLocation.lt location k w.mExteriors)
    (e3 : w2.mInteriors = w.mInteriors) (e4 : w2.mIdCache = w.mIdCache) : WellFormed w2 := by
  constructor
  · rw [e1, e2]; intro p hp
    rcases mem_mapEmplace _ _ _ _ _ hp with hp | hp
    · subst hp; exact hk
    · exact h.exteriorsValid p hp
  · rw [e1, e3]; exact h.interiorsValid
  · rw [e4]; intro p hp k2 hk2
    have := h.cacheLoaded p hp k2 hk2
    simpa [WorldModel.stateOf, e1] using this
  · rw [e2]; exact locations_sorted_mapEmplace _ _ _ h.exteriorsSorted
  · rw [e3]; exact h.interiorsSorted
  · rw [e1]; exact h.cellsNodup

/-- Entering a pointer to a store of the master table into the name index preserves
the invariant. -/
theorem WellFormed.wf_emplaceInterior {w w2 : WorldModel} (h : WellFormed w)
    (name : String) (k : RefId) (hk : tableContains k w.mCells = true)
    (e1 : w2.mCells = w.mCells) (e2 : w2.mExteriors = w.mExteriors)
    (e3 : w2.mInteriors = mapEmplace stringLt name k w.mInteriors)
    (e4 : w2.mIdCache = w.mIdCache) : WellFormed w2 := by
  constructor
  · rw [e1, e2]; exact h.exteriorsValid
  · rw [e1, e3]; intro p hp
    rcases mem_mapEmplace _ _ _ _ _ hp with hp | hp
    · subst hp; exact hk
    · exact h.interiorsValid p hp
  · rw [e4]; intro p hp k2 hk2
    have := h.cacheLoaded p hp k2 hk2
    simpa [WorldModel.stateOf, e1] using this
  · rw [e2]; exact h.exteriorsSorted
  · rw [e3]; exact names_sorted_mapEmplace _ _ _ h.interiorsSorted
  · rw [e1]; exact h.cellsNodup

/-- Writing a pointer to a loaded store into a cache slot preserves the invariant. -/
theorem WellFormed.wf_setCache {w w2 : WorldModel} (h : WellFormed w) (i : Nat) (name k : RefId)
    (hk : w.stateOf k = some State.State_Loaded)
    (e1 : w2.mCells = w.mCells) (e2 : w2.mExteriors = w.mExteriors)
    (e3 : w2.mInteriors = w.mInteriors)
    (e4 : w2.mIdCache = w.mIdCache.set i (name, some k)) : WellFormed w2 := by
  constructor
  · rw [e1, e2]; exact h.exteriorsValid
  · rw [e1, e3]; exact h.interiorsValid
  · rw [e4]; intro p hp k2 hk2
    have hst : ∀ k3, w2.stateOf k3 = w.stateOf k3 := by
      intro k3; simp [WorldModel.stateOf, e1]
    rw [hst]
    rcases List.mem_or_eq_of_mem_set hp with hp | hp
    · exact h.cacheLoaded p hp k2 hk2
    · subst hp
      simp only [Option.some.injEq] at hk2
      subst hk2; exact hk
  · rw [e2]; exact h.exteriorsSorted
  · rw [e3]; exact h.interiorsSorted
  · rw [e1]; exact h.cellsNodup

end MWWorld

namespace MWWorld

open ESM

theorem CellStore.getState_preload (cs : CellStore) (h : cs.mState = State.State_Unloaded) :
    cs.preload.mState = State.State_Preloaded := by
  simp [CellStore.preload, h]

/-- A loaded store is searched as it is: the lookup does not change it. -/
theorem CellStore.getPtr_of_loaded (self id : RefId) (cs : CellStore)
    (h : cs.getState = State.State_Loaded) :
    cs.getPtr self id =
      (match cs.search id with
        | some r => { mRef := some r, mCell := some self }
        | none => Ptr.empty, cs) := by
  unfold CellStore.getState at h
  simp [CellStore.getPtr, h]

theorem CellStore.getPtr_snd_of_loaded (self id : RefId) (cs : CellStore)
    (h : cs.getState = State.State_Loaded) : (cs.getPtr self id).2 = cs := by
  rw [CellStore.getPtr_of_loaded self id cs h]

theorem CellStore.getPtr_of_preloaded (self id : RefId) (cs : CellStore)
    (h : cs.mState = State.State_Preloaded) :
    cs.getPtr self id =
      if cs.hasId id then
        (match cs.load.search id with
          | some r => { mRef := some r, mCell := some self }
          | none => Ptr.empty, cs.load)
      else (Ptr.empty, cs) := by
  simp [CellStore.getPtr, h]

theorem CellStore.getPtr_of_unloaded (self id : RefId) (cs : CellStore)
    (h : cs.mState = State.State_Unloaded) :
    cs.getPtr self id = cs.preload.getPtr self id := by
  have hp := CellStore.getState_preload cs h
  rw [CellStore.getPtr_of_preloaded self id cs.preload hp]
  simp [CellStore.getPtr, h, hp]

/-- A lookup that yields an object leaves the store loaded, and the handle names the
store. -/
theorem CellStore.getPtr_found (self id : RefId) (cs : CellStore)
    (h : (cs.getPtr self id).1.isEmpty = false) :
    (cs.getPtr self id).2.getState = State.State_Loaded ∧
      (cs.getPtr self id).1.mCell = some self := by
  have key : ∀ c : CellStore, c.getState = State.State_Loaded →
      (match c.search id with
        | some r => ({ mRef := some r, mCell := some self } : Ptr)
        | none => Ptr.empty).isEmpty = false →
      c.getState = State.State_Loaded ∧
      (match c.search id with
        | some r => ({ mRef := some r, mCell := some self } : Ptr)
        | none => Ptr.empty).mCell = some self := by
    intro c hc hne
    refine ⟨hc, ?_⟩
    cases hs : c.search id with
    | none => simp [hs, Ptr.empty, Ptr.isEmpty] at hne
    | some r => rfl
  have pre : ∀ c : CellStore, c.mState = State.State_Preloaded →
      (c.getPtr self id).1.isEmpty = false →
      (c.getPtr self id).2.getState = State.State_Loaded ∧
        (c.getPtr self id).1.mCell = some self := by
    intro c hc hne
    rw [CellStore.getPtr_of_preloaded self id c hc] at hne ⊢
    by_cases hid : c.hasId id = true
    · simp only [hid, if_true] at hne ⊢
      exact key _ (CellStore.getState_load _) hne
    · simp [hid, Ptr.empty, Ptr.isEmpty] at hne
  cases hst : cs.mState with
  | State_Unloaded =>
    rw [CellStore.getPtr_of_unloaded self id cs hst] at h ⊢
    exact pre _ (CellStore.getState_preload cs hst) h
  | State_Preloaded => exact pre cs hst h
  | State_Loaded =>
    rw [CellStore.getPtr_of_loaded self id cs hst] at h ⊢
    exact key _ hst h

theorem WellFormed.wf_loadIf {w : WorldModel} (h : WellFormed w) (f : Bool) (k : RefId) :
    WellFormed (w.loadIf f k) := by
  unfold WorldModel.loadIf
  split
  · exact h
  · split
    · exact h.wf_modify k CellStore.load (fun cs _ _ => CellStore.getState_load cs) rfl rfl rfl rfl
    · exact h

theorem WellFormed.wf_cellGetPtr {w : WorldModel} (h : WellFormed w) (name k : RefId) :
    WellFormed (w.cellGetPtr name k).2 := by
  unfold WorldModel.cellGetPtr
  split
  · exact h
  · next cs hcs =>
    refine h.wf_modify k (fun _ => (cs.getPtr k name).2) ?_ rfl rfl rfl rfl
    intro cs2 hcs2 hl
    rw [hcs] at hcs2
    cases hcs2
    simp only
    rw [CellStore.getPtr_snd_of_loaded k name cs hl]
    exact hl

/-- A lookup through a pointer that yields an object leaves the store it points to
loaded. -/
theorem WorldModel.cellGetPtr_found (w : WorldModel) (name k : RefId)
    (h : (w.cellGetPtr name k).1.isEmpty = false) :
    (w.cellGetPtr name k).2.stateOf k = some State.State_Loaded := by
  unfold WorldModel.cellGetPtr at h ⊢
  split
  · next hn => simp [hn, Ptr.empty, Ptr.isEmpty] at h
  · next cs hcs =>
    simp only [hcs] at h
    have hk : tableContains k w.mCells = true := by simp [tableContains, hcs]
    simp only [WorldModel.stateOf, tableFind_tableModify, if_true, hcs, Option.map_some']
    rw [(CellStore.getPtr_found k name cs h).1]

end MWWorld

namespace MWWorld

open ESM

theorem WellFormed.wf_getPtrAndCache {w : WorldModel} (h : WellFormed w) (name k : RefId) :
    WellFormed (w.getPtrAndCache name k).2 := by
  unfold WorldModel.getPtrAndCache
  simp only
  split
  · next hfound =>
    have hne : (w.cellGetPtr name k).1.isEmpty = false := by
      cases he : (w.cellGetPtr name k).1.isEmpty
      · rfl
      · simp [he] at hfound
    exact (h.wf_cellGetPtr name k).wf_setCache _ name k (WorldModel.cellGetPtr_found w name k hne)
      rfl rfl rfl rfl
  · exact h.wf_cellGetPtr name k

theorem WellFormed.wf_searchCache {w : WorldModel} (h : WellFormed w) (name : RefId)
    (cache : List (RefId × Option RefId)) : WellFormed (WorldModel.searchCache name cache w).2 := by
  induction cache generalizing w with
  | nil => exact h
  | cons p rest ih =>
    obtain ⟨cachedId, cellStore⟩ := p
    cases cellStore with
    | none => simpa [WorldModel.searchCache] using ih h
    | some k =>
      unfold WorldModel.searchCache
      simp only
      split
      · exact ih h
      · split
        · exact h.wf_cellGetPtr name k
        · exact ih (h.wf_cellGetPtr name k)

theorem WellFormed.wf_searchStores {w : WorldModel} (h : WellFormed w) (name : RefId)
    (ks : List RefId) : WellFormed (WorldModel.searchStores name ks w).2 := by
  induction ks generalizing w with
  | nil => exact h
  | cons k rest ih =>
    unfold WorldModel.searchStores
    simp only
    split
    · exact h.wf_getPtrAndCache name k
    · exact ih (h.wf_getPtrAndCache name k)

theorem WellFormed.wf_insertCellStore {w : WorldModel} (h : WellFormed w) (c : ESM.Cell) :
    WellFormed (w.insertCellStore c).2 := by
  have h1 : WellFormed { w with mCells := (emplaceCellStore c.mId (Cell.ofEsm3 c) w.mCells).2 } :=
    h.wf_emplaceStore c.mId _ rfl rfl rfl rfl
  have hk : tableContains c.mId (emplaceCellStore c.mId (Cell.ofEsm3 c) w.mCells).2 = true :=
    tableContains_hashEmplace_self _ _ _
  unfold WorldModel.insertCellStore
  split
  · exact h1.wf_emplaceInterior (lowerCase c.mName) c.mId hk rfl rfl rfl rfl
  · exact h1.wf_emplaceExterior _ c.mId hk rfl rfl rfl rfl

theorem WellFormed.wf_getOrInsertCellStore {w : WorldModel} (h : WellFormed w) (c : ESM.Cell) :
    WellFormed (w.getOrInsertCellStore c).2 := by
  unfold WorldModel.getOrInsertCellStore
  split
  · exact h
  · exact h.wf_insertCellStore c

theorem WellFormed.wf_searchDefinitions {w : WorldModel} (h : WellFormed w) (name : RefId)
    (cs : List ESM.Cell) : WellFormed (WorldModel.searchDefinitions name cs w).2 := by
  induction cs generalizing w with
  | nil => exact h
  | cons c rest ih =>
    unfold WorldModel.searchDefinitions
    split
    · exact ih h
    · simp only
      split
      · exact (h.wf_insertCellStore c).wf_getPtrAndCache name _
      · exact ih ((h.wf_insertCellStore c).wf_getPtrAndCache name _)

theorem WellFormed.wf_fullSearch {w : WorldModel} (h : WellFormed w) (name : RefId) :
    WellFormed (WorldModel.fullSearch name w).2 := by
  unfold WorldModel.fullSearch
  have e1 := h.wf_searchStores name (w.mExteriors.reverse.map Prod.snd)
  rcases h1 : WorldModel.searchStores name (w.mExteriors.reverse.map Prod.snd) w with ⟨_ | p, w1⟩
  all_goals rw [h1] at e1; simp only at e1 ⊢
  swap; exact e1
  have e2 := e1.wf_searchStores name (w1.mInteriors.map Prod.snd)
  rcases h2 : WorldModel.searchStores name (w1.mInteriors.map Prod.snd) w1 with ⟨_ | p, w2⟩
  all_goals rw [h2] at e2; simp only at e2 ⊢
  swap; exact e2
  have e3 := e2.wf_searchDefinitions name w2.mStore.extCells
  rcases h3 : WorldModel.searchDefinitions name w2.mStore.extCells w2 with ⟨_ | p, w3⟩
  all_goals rw [h3] at e3; simp only at e3 ⊢
  swap; exact e3
  have e4 := e3.wf_searchDefinitions name w3.mStore.intCells
  rcases h4 : WorldModel.searchDefinitions name w3.mStore.intCells w3 with ⟨_ | p, w4⟩
  all_goals rw [h4] at e4; simp only at e4 ⊢
  all_goals exact e4

theorem WellFormed.wf_getPtr {w : WorldModel} (h : WellFormed w) (name : RefId) :
    WellFormed (w.getPtr name).2 := by
  unfold WorldModel.getPtr
  have e1 := h.wf_searchCache name w.mIdCache
  rcases h1 : WorldModel.searchCache name w.mIdCache w with ⟨_ | p, w1⟩
  all_goals rw [h1] at e1; simp only at e1 ⊢
  · exact e1.wf_fullSearch name
  · exact e1

theorem WellFormed.wf_getExteriorPtrsLoop {w : WorldModel} (h : WellFormed w) (name : RefId)
    (cs : List ESM.Cell) (out : List Ptr) :
    WellFormed (WorldModel.getExteriorPtrsLoop name cs out w).2 := by
  induction cs generalizing w out with
  | nil => exact h
  | cons c rest ih =>
    unfold WorldModel.getExteriorPtrsLoop
    simp only
    exact ih ((h.wf_getOrInsertCellStore c).wf_getPtrAndCache name _) _

end MWWorld

namespace MWWorld

open ESM

namespace WorldModel

theorem getAllVisit_of_loaded (id k : RefId) (cs : CellStore)
    (h : cs.getState = State.State_Loaded) : (getAllVisit id k cs).2 = cs := by
  unfold CellStore.getState at h
  simp [getAllVisit, CellStore.getState, h]

theorem map_fst_getAllLoop (id : RefId) (t : List (RefId × CellStore)) :
    (getAllLoop id t).2.map Prod.fst = t.map Prod.fst := by
  induction t with
  | nil => rfl
  | cons p t ih =>
    obtain ⟨k, cs⟩ := p
    simp [getAllLoop, ih]

theorem tableFind_getAllLoop (id k : RefId) (t : List (RefId × CellStore)) :
    tableFind k (getAllLoop id t).2 = (tableFind k t).map (fun cs => (getAllVisit id k cs).2) := by
  induction t with
  | nil => rfl
  | cons p t ih =>
    obtain ⟨k2, cs⟩ := p
    by_cases hk : k2 = k
    · subst hk; simp [getAllLoop, tableFind]
    · simp [getAllLoop, tableFind, hk, ih]

end WorldModel

theorem WellFormed.wf_getAll {w : WorldModel} (h : WellFormed w) (id : RefId) :
    WellFormed (w.getAll id).2 := by
  have hc : ∀ k, tableContains k (WorldModel.getAllLoop id w.mCells).2 = tableContains k w.mCells := by
    intro k
    unfold tableContains
    rw [WorldModel.tableFind_getAllLoop]
    cases tableFind k w.mCells <;> rfl
  constructor
  · intro p hp
    simp only [WorldModel.getAll, hc]
    exact h.exteriorsValid p hp
  · intro p hp
    simp only [WorldModel.getAll, hc]
    exact h.interiorsValid p hp
  · intro p hp k hk
    have hl := h.cacheLoaded p hp k hk
    unfold WorldModel.stateOf at hl ⊢
    simp only [WorldModel.getAll, WorldModel.tableFind_getAllLoop]
    cases hf : tableFind k w.mCells with
    | none => simp [hf] at hl
    | some cs =>
      simp only [hf, Option.map_some', Option.some.injEq] at hl
      simp [WorldModel.getAllVisit_of_loaded id k cs hl, hl]
  · exact h.exteriorsSorted
  · exact h.interiorsSorted
  · simp only [WorldModel.getAll, WorldModel.map_fst_getAllLoop]
    exact h.cellsNodup

theorem WellFormed.wf_getExterior {w : WorldModel} (h : WellFormed w)
    (location : ExteriorCellLocation) (f : Bool) (c : RefId) (w1 : WorldModel)
    (hc : w.getExterior location f = Except.ok (c, w1)) :
    WellFormed w1 ∧ tableContains c w1.mCells = true := by
  unfold WorldModel.getExterior at hc
  cases hfind : tableFind location w.mExteriors with
  | some k =>
    simp only [hfind, Except.ok.injEq, Prod.mk.injEq] at hc
    obtain ⟨h1, h2⟩ := hc
    subst h1; subst h2
    refine ⟨h.wf_loadIf f k, ?_⟩
    rw [WorldModel.tableContains_loadIf]
    exact h.exteriorsValid _ (tableFind_mem _ hfind)
  | none =>
    simp only [hfind] at hc
    cases hr : createExteriorCell location w.mStore with
    | error e => simp [hr] at hc
    | ok r =>
      obtain ⟨cell, created, store⟩ := r
      simp only [hr, Except.ok.injEq, Prod.mk.injEq] at hc
      obtain ⟨h1, h2⟩ := hc
      subst h1; subst h2
      have hA : WellFormed { w with mCells := (emplaceCellStore cell.mId cell w.mCells).2 } :=
        h.wf_emplaceStore cell.mId _ rfl rfl rfl rfl
      have hk : tableContains cell.mId (emplaceCellStore cell.mId cell w.mCells).2 = true :=
        tableContains_hashEmplace_self _ _ _
      refine ⟨WellFormed.wf_loadIf ?_ f _, ?_⟩
      · exact hA.wf_emplaceExterior location cell.mId hk rfl rfl rfl rfl
      · rw [WorldModel.tableContains_loadIf]; exact hk

theorem WellFormed.wf_findInterior {w : WorldModel} (h : WellFormed w) (name : String) (f : Bool) :
    WellFormed (w.findInterior name f).2 ∧
      ∀ c, (w.findInterior name f).1 = some c →
        tableContains c (w.findInterior name f).2.mCells = true := by
  unfold WorldModel.findInterior
  split
  · split
    · next cell _ =>
      have hA : WellFormed { w with mCells := (emplaceCellStore cell.mId (Cell.ofEsm3 cell)
          w.mCells).2 } := h.wf_emplaceStore cell.mId _ rfl rfl rfl rfl
      refine ⟨hA.wf_loadIf f _, ?_⟩
      intro c hc
      simp only [Option.some.injEq] at hc
      subst hc
      rw [WorldModel.tableContains_loadIf]
      exact tableContains_hashEmplace_self _ _ _
    · split
      · next cell4 _ =>
        have hA : WellFormed { w with mCells := (emplaceCellStore cell4.mId (Cell.ofEsm4 cell4)
            w.mCells).2 } := h.wf_emplaceStore cell4.mId _ rfl rfl rfl rfl
        refine ⟨hA.wf_loadIf f _, ?_⟩
        intro c hc
        simp only [Option.some.injEq] at hc
        subst hc
        rw [WorldModel.tableContains_loadIf]
        exact tableContains_hashEmplace_self _ _ _
      · exact ⟨h, fun c hc => by cases hc⟩
  · next k hfind =>
    refine ⟨h.wf_loadIf f k, ?_⟩
    intro c hc
    simp only [Option.some.injEq] at hc
    subst hc
    rw [WorldModel.tableContains_loadIf]
    exact h.interiorsValid _ (tableFind_mem _ hfind)

end MWWorld

namespace MWWorld

open ESM

theorem WellFormed.wf_findCell {w : WorldModel} (h : WellFormed w) (id : RefId) (f : Bool)
    (r : Option RefId × WorldModel) (hc : w.findCell id f = Except.ok r) :
    WellFormed r.2 ∧ ∀ c, r.1 = some c → tableContains c r.2.mCells = true := by
  unfold WorldModel.findCell at hc
  split at hc
  · next hin =>
    cases hc
    exact ⟨h, fun c hc => by simp only [Option.some.injEq] at hc; subst hc; exact hin⟩
  · split at hc
    · next x y _ =>
      split at hc
      · cases hc
      · next cellStore w1 hg =>
        cases hc
        have := h.wf_getExterior _ f cellStore w1 hg
        exact ⟨this.1, fun c hc => by simp only [Option.some.injEq] at hc; subst hc; exact this.2⟩
    · split at hc
      · cases hc
        exact ⟨h, fun c hc => by cases hc⟩
      · next cell _ =>
        cases hc
        have hA : WellFormed { w with mCells := (emplaceCellStore id cell w.mCells).2 } :=
          h.wf_emplaceStore id _ rfl rfl rfl rfl
        have hk : tableContains id (emplaceCellStore id cell w.mCells).2 = true :=
          tableContains_hashEmplace_self _ _ _
        simp only
        constructor
        · apply WellFormed.wf_loadIf
          cases cell.mIsExterior
          · exact hA.wf_emplaceInterior _ id hk rfl rfl rfl rfl
          · exact hA.wf_emplaceExterior _ id hk rfl rfl rfl rfl
        · intro c hc
          simp only [Option.some.injEq] at hc
          subst hc
          rw [WorldModel.tableContains_loadIf]
          cases cell.mIsExterior <;> exact hk

theorem WellFormed.wf_findCellByName {w : WorldModel} (h : WellFormed w) (name : String)
    (f : Bool) (r : Option RefId × WorldModel) (hc : w.findCellByName name f = Except.ok r) :
    WellFormed r.2 ∧ ∀ c, r.1 = some c → tableContains c r.2.mCells = true := by
  unfold WorldModel.findCellByName at hc
  have h1 := h.wf_findInterior name f
  split at hc
  · next cellStore w1 heq =>
    cases hc
    rw [heq] at h1
    exact ⟨h1.1, fun c hc => h1.2 c hc⟩
  · next w1 heq =>
    rw [heq] at h1
    split at hc
    · cases hc
      exact ⟨h1.1, fun c hc => by cases hc⟩
    · next cell _ =>
      split at hc
      · cases hc
      · next cellStore w2 hg =>
        cases hc
        have := h1.1.wf_getExterior _ f cellStore w2 hg
        exact ⟨this.1, fun c hc => by simp only [Option.some.injEq] at hc; subst hc; exact this.2⟩

theorem WellFormed.wf_clear {w : WorldModel} (_h : WellFormed w) : WellFormed w.clear := by
  constructor
  · intro p hp; simp [WorldModel.clear] at hp
  · intro p hp; simp [WorldModel.clear] at hp
  · intro p hp k hk
    simp only [WorldModel.clear, List.mem_map] at hp
    obtain ⟨q, -, hq⟩ := hp
    subst hq
    cases hk
  · simp [WorldModel.clear, KeysSorted]
  · simp [WorldModel.clear, KeysSorted]
  · simp [WorldModel.clear]

theorem WellFormed.wf_setObjects {w : WorldModel} (h : WellFormed w) (k : RefId)
    (refs : List CellRef) : WellFormed (w.setObjects k refs) := by
  refine h.wf_modify k _ ?_ rfl rfl rfl rfl
  intro cs _ hl
  unfold CellStore.getState at hl ⊢
  simp [hl]

theorem WellFormed.wf_create (store : ESMStore) (n : Nat) :
    WellFormed (WorldModel.create store n) := by
  constructor
  · intro p hp; simp [WorldModel.create] at hp
  · intro p hp; simp [WorldModel.create] at hp
  · intro p hp k hk
    simp only [WorldModel.create] at hp
    have := List.eq_of_mem_replicate hp
    subst this
    cases hk
  · simp [WorldModel.create, KeysSorted]
  · simp [WorldModel.create, KeysSorted]
  · simp [WorldModel.create]

theorem WellFormed.wf_apply {w : WorldModel} (h : WellFormed w) (op : Op) :
    WellFormed (op.apply w) := by
  cases op with
  | clear => exact h.wf_clear
  | getExterior location f =>
    simp only [Op.apply]
    cases hc : w.getExterior location f with
    | error e => exact h
    | ok r => exact (h.wf_getExterior location f r.1 r.2 hc).1
  | findInterior name f => exact (h.wf_findInterior name f).1
  | findCell id f =>
    simp only [Op.apply]
    cases hc : w.findCell id f with
    | error e => exact h
    | ok r => exact (h.wf_findCell id f r hc).1
  | findCellByName name f =>
    simp only [Op.apply]
    cases hc : w.findCellByName name f with
    | error e => exact h
    | ok r => exact (h.wf_findCellByName name f r hc).1
  | getPtr name => exact h.wf_getPtr name
  | getExteriorPtrs name => exact h.wf_getExteriorPtrsLoop name _ []
  | getAll id => exact h.wf_getAll id
  | setObjects k refs => exact h.wf_setObjects k refs

/-- Every reachable state of the world index is well formed. -/
theorem Reachable.wellFormed {w : WorldModel} (h : Reachable w) : WellFormed w := by
  induction h with
  | init store n => exact WellFormed.wf_create store n
  | step op w _ ih => exact ih.wf_apply op

end MWWorld

namespace MWWorld

open ESM

/-- Without `forceLoad`, a returning call of `getExterior` leaves every store of the
master table as it was, and a store it adds is unloaded. -/
theorem WorldModel.getExterior_noload (w : WorldModel) (hw : WellFormed w)
    (location : ExteriorCellLocation) (c : RefId) (w1 : WorldModel)
    (h : w.getExterior location false = Except.ok (c, w1)) :
    (∀ k cs, tableFind k w.mCells = some cs → tableFind k w1.mCells = some cs) ∧
      (tableContains c w.mCells = false → w1.stateOf c = some State.State_Unloaded) := by
  unfold WorldModel.getExterior at h
  cases hfind : tableFind location w.mExteriors with
  | some k =>
    simp only [hfind, Except.ok.injEq, Prod.mk.injEq, WorldModel.loadIf_false] at h
    obtain ⟨h1, h2⟩ := h
    subst h1; subst h2
    refine ⟨fun k cs hk => hk, ?_⟩
    intro hc
    rw [hw.exteriorsValid _ (tableFind_mem _ hfind)] at hc
    cases hc
  | none =>
    simp only [hfind] at h
    cases hr : createExteriorCell location w.mStore with
    | error e => simp [hr] at h
    | ok r =>
      obtain ⟨cell, created, store⟩ := r
      simp only [hr, Except.ok.injEq, Prod.mk.injEq, WorldModel.loadIf_false, emplaceCellStore]
        at h
      obtain ⟨h1, h2⟩ := h
      subst h1; subst h2
      refine ⟨fun k cs hk => tableFind_hashEmplace_of_some _ _ hk, ?_⟩
      intro hc
      have hn : tableFind cell.mId w.mCells = none := by simpa [tableContains] using hc
      simp [WorldModel.stateOf, tableFind_hashEmplace_self, hn, CellStore.getState,
        CellStore.create]

/-- Claim C3, as amended. In every reachable state, for every grid location whose
worldspace is the default one, or an ESM4 worldspace the content store knows, or that
is already in the grid index, `getExterior(location, forceLoad)` returns a store; with
`forceLoad` the returned store is in state Loaded; without it no load is performed:
every store of the master table is left exactly as it was, and the returned store, when
it was not in the master table before, is in its initial state Unloaded. -/
theorem getExterior_load_policy (w : WorldModel) (hr : Reachable w)
    (location : ExteriorCellLocation) (f : Bool)
    (h : isEsm4Ext location.mWorldspace = false ∨
      (w.mStore.searchWorld location.mWorldspace).isSome = true ∨
      tableContains location w.mExteriors = true) :
    ∃ c w1, w.getExterior location f = Except.ok (c, w1) ∧
      (f = true → w1.stateOf c = some State.State_Loaded) ∧
      (f = false →
        (∀ k cs, tableFind k w.mCells = some cs → tableFind k w1.mCells = some cs) ∧
        (tableContains c w.mCells = false → w1.stateOf c = some State.State_Unloaded)) := by
  obtain ⟨c, w1, hcall⟩ := WorldModel.getExterior_ok w location f h
  refine ⟨c, w1, hcall, ?_, ?_⟩
  · intro hf
    subst hf
    obtain ⟨⟨x, hx⟩, -⟩ := WorldModel.getExterior_shape w location true c w1 hcall
    have hk := (hr.wellFormed.wf_getExterior location true c w1 hcall).2
    subst hx
    rw [WorldModel.tableContains_loadIf] at hk
    exact WorldModel.stateOf_loadIf_true c x hk
  · intro hf
    subst hf
    exact WorldModel.getExterior_noload w hr.wellFormed location c w1 hcall

/-- Witness of `getExterior_load_policy`: the location (5, 5), first requested without
`forceLoad` on a fresh index over the sample content, then requested with it. -/
theorem getExterior_load_policy_witness :
    Reachable ((Op.getExterior Sample.wilderness false).apply Sample.world) ∧
      (isEsm4Ext Sample.wilderness.mWorldspace = false ∨
        (((Op.getExterior Sample.wilderness false).apply Sample.world).mStore.searchWorld
          Sample.wilderness.mWorldspace).isSome = true ∨
        tableContains Sample.wilderness
          ((Op.getExterior Sample.wilderness false).apply Sample.world).mExteriors = true) ∧
      ∃ c w1, ((Op.getExterior Sample.wilderness false).apply Sample.world).getExterior
          Sample.wilderness true = Except.ok (c, w1) ∧
        (true = true → w1.stateOf c = some State.State_Loaded) ∧
        (true = false →
          (∀ k cs, tableFind k ((Op.getExterior Sample.wilderness false).apply
              Sample.world).mCells = some cs → tableFind k w1.mCells = some cs) ∧
          (tableContains c ((Op.getExterior Sample.wilderness false).apply
              Sample.world).mCells = false → w1.stateOf c = some State.State_Unloaded)) :=
  ⟨Reachable.step _ _ (Reachable.init _ _), Or.inl (by decide),
    getExterior_load_policy _ (Reachable.step _ _ (Reachable.init _ _)) Sample.wilderness true
      (Or.inl (by decide))⟩

/-- Claim C3 as stated fails: on a fresh index over the sample content (a reachable
state), `getExterior(location, true)` for a location in an ESM4 worldspace the content
store does not know returns no store in state Loaded, nor any store. -/
theorem getExterior_unknown_worldspace_loads_nothing :
    Reachable Sample.world ∧
      ¬ ∃ c w1, Sample.world.getExterior Sample.nowhere true = Except.ok (c, w1) ∧
        w1.stateOf c = some State.State_Loaded := by
  refine ⟨Reachable.init _ _, ?_⟩
  rintro ⟨c, w1, h, -⟩
  have h2 : Sample.world.getExterior Sample.nowhere true
      = Except.error "Exterior ESM4 world is not found" := rfl
  rw [h2] at h
  cases h

end MWWorld

namespace MWWorld

open ESM

theorem hashEmplace_hashEmplace_self {κ β : Type} [DecidableEq κ] (k : κ) (v v2 : β)
    (t : List (κ × β)) : hashEmplace k v2 (hashEmplace k v t) = hashEmplace k v t :=
  hashEmplace_of_contains _ _ (tableContains_hashEmplace_self k v t)

/-- Shape of a successful `findInterior`: the result is a state on which the load
statement was run for the returned store, which the master table holds whenever the
index pointers are valid; the content store and the name index are as before. -/
theorem WorldModel.findInterior_shape (w : WorldModel) (hw : WellFormed w) (name : String)
    (f : Bool) (c : RefId) (h : (w.findInterior name f).1 = some c) :
    ∃ x : WorldModel, (w.findInterior name f).2 = x.loadIf f c ∧
      tableContains c x.mCells = true := by
  unfold WorldModel.findInterior at h ⊢
  cases hfind : tableFind (lowerCase name) w.mInteriors with
  | some k =>
    simp only [hfind, Option.some.injEq] at h ⊢
    subst h
    exact ⟨w, rfl, hw.interiorsValid _ (tableFind_mem _ hfind)⟩
  | none =>
    simp only [hfind] at h ⊢
    cases h3 : w.mStore.searchName name with
    | some cell =>
      simp only [h3, Option.some.injEq, emplaceCellStore] at h ⊢
      subst h
      exact ⟨_, rfl, tableContains_hashEmplace_self _ _ _⟩
    | none =>
      simp only [h3] at h ⊢
      cases h4 : w.mStore.searchCellName name with
      | some cell4 =>
        simp only [h4, Option.some.injEq, emplaceCellStore] at h ⊢
        subst h
        exact ⟨_, rfl, tableContains_hashEmplace_self _ _ _⟩
      | none => simp [h4] at h

theorem WorldModel.findInterior_of_indexed (w : WorldModel) (name : String) (f : Bool)
    (k : RefId) (h : tableFind (lowerCase name) w.mInteriors = some k) :
    w.findInterior name f = (some k, w.loadIf f k) := by
  simp [WorldModel.findInterior, h]

theorem WorldModel.findInterior_of_esm3 (w : WorldModel) (name : String) (f : Bool)
    (cell : ESM.Cell) (h : tableFind (lowerCase name) w.mInteriors = none)
    (h3 : w.mStore.searchName name = some cell) :
    w.findInterior name f =
      (some cell.mId, WorldModel.loadIf f cell.mId
        { w with mCells := (emplaceCellStore cell.mId (Cell.ofEsm3 cell) w.mCells).2 }) := by
  simp [WorldModel.findInterior, h, h3, emplaceCellStore]

theorem WorldModel.findInterior_of_esm4 (w : WorldModel) (name : String) (f : Bool)
    (cell4 : ESM4.Cell) (h : tableFind (lowerCase name) w.mInteriors = none)
    (h3 : w.mStore.searchName name = none) (h4 : w.mStore.searchCellName name = some cell4) :
    w.findInterior name f =
      (some cell4.mId, WorldModel.loadIf f cell4.mId
        { w with mCells := (emplaceCellStore cell4.mId (Cell.ofEsm4 cell4) w.mCells).2 }) := by
  simp [WorldModel.findInterior, h, h3, h4, emplaceCellStore]

theorem WorldModel.findInterior_of_unknown (w : WorldModel) (name : String) (f : Bool)
    (h : tableFind (lowerCase name) w.mInteriors = none)
    (h3 : w.mStore.searchName name = none) (h4 : w.mStore.searchCellName name = none) :
    w.findInterior name f = (none, w) := by
  simp [WorldModel.findInterior, h, h3, h4]

theorem emplaceCellStore_absorb (w : WorldModel) (id : RefId) (cell : Cell)
    (h : tableContains id w.mCells = true) :
    ({ w with mCells := (emplaceCellStore id cell w.mCells).2 } : WorldModel) = w := by
  simp only [emplaceCellStore]
  rw [hashEmplace_of_contains _ _ h]

/-- A second `findInterior` for the same name returns the pointer of the first and
only runs the load statement on that store. -/
theorem WorldModel.findInterior_again (w : WorldModel) (name : String) (f1 f2 : Bool)
    (c : RefId) (h : (w.findInterior name f1).1 = some c) :
    (w.findInterior name f1).2.findInterior name f2 =
      (some c, (w.findInterior name f1).2.loadIf f2 c) := by
  cases hfind : tableFind (lowerCase name) w.mInteriors with
  | some k =>
    have e := WorldModel.findInterior_of_indexed w name f1 k hfind
    rw [e] at h ⊢
    simp only [Option.some.injEq] at h
    subst h
    exact WorldModel.findInterior_of_indexed _ name f2 k (by simpa using hfind)
  | none =>
    cases h3 : w.mStore.searchName name with
    | some cell =>
      have e := WorldModel.findInterior_of_esm3 w name f1 cell hfind h3
      rw [e] at h ⊢
      simp only [Option.some.injEq] at h
      subst h
      rw [WorldModel.findInterior_of_esm3 _ name f2 cell (by simpa using hfind)
        (by simpa using h3)]
      rw [emplaceCellStore_absorb]
      rw [WorldModel.tableContains_loadIf]
      exact tableContains_hashEmplace_self _ _ _
    | none =>
      cases h4 : w.mStore.searchCellName name with
      | some cell4 =>
        have e := WorldModel.findInterior_of_esm4 w name f1 cell4 hfind h3 h4
        rw [e] at h ⊢
        simp only [Option.some.injEq] at h
        subst h
        rw [WorldModel.findInterior_of_esm4 _ name f2 cell4 (by simpa using hfind)
          (by simpa using h3) (by simpa using h4)]
        rw [emplaceCellStore_absorb]
        rw [WorldModel.tableContains_loadIf]
        exact tableContains_hashEmplace_self _ _ _
      | none =>
        rw [WorldModel.findInterior_of_unknown w name f1 hfind h3 h4] at h
        cases h

/-- Claim C4. In every reachable state, for every interior name the content store
defines (as an ESM3 interior or as an ESM4 cell name), two successive calls
`findInterior(name)` with the default `forceLoad = true` return the same store; the
store is in state Loaded after the first call and after the second, and the second
call changes nothing. -/
theorem findInterior_twice_same_store (w : WorldModel) (hr : Reachable w) (name : String)
    (hdef : (w.mStore.searchName name).isSome = true ∨
      (w.mStore.searchCellName name).isSome = true) :
    ∃ c, (w.findInterior name true).1 = some c ∧
      ((w.findInterior name true).2.findInterior name true).1 = some c ∧
      (w.findInterior name true).2.stateOf c = some State.State_Loaded ∧
      ((w.findInterior name true).2.findInterior name true).2.stateOf c
        = some State.State_Loaded ∧
      ((w.findInterior name true).2.findInterior name true).2 = (w.findInterior name true).2 := by
  have hsome : ∃ c, (w.findInterior name true).1 = some c := by
    unfold WorldModel.findInterior
    cases hfind : tableFind (lowerCase name) w.mInteriors with
    | some k => exact ⟨k, rfl⟩
    | none =>
      cases h3 : w.mStore.searchName name with
      | some cell => exact ⟨_, rfl⟩
      | none =>
        cases h4 : w.mStore.searchCellName name with
        | some cell4 => exact ⟨_, rfl⟩
        | none => simp [h3, h4] at hdef
  obtain ⟨c, hc⟩ := hsome
  obtain ⟨x, hx, hk⟩ := WorldModel.findInterior_shape w hr.wellFormed name true c hc
  have hagain := WorldModel.findInterior_again w name true true c hc
  have hfix : (w.findInterior name true).2.loadIf true c = (w.findInterior name true).2 := by
    rw [hx]; exact WorldModel.loadIf_loadIf_true true c x
  have hl : (w.findInterior name true).2.stateOf c = some State.State_Loaded := by
    rw [hx]; exact WorldModel.stateOf_loadIf_true c x hk
  refine ⟨c, hc, ?_, hl, ?_, ?_⟩
  · rw [hagain]
  · rw [hagain]; simp only; rw [hfix]; exact hl
  · rw [hagain]; exact hfix

/-- Witness of `findInterior_twice_same_store`: the name "Balmora" on a fresh index
over the sample content. -/
theorem findInterior_twice_same_store_witness :
    Reachable Sample.world ∧
      ((Sample.world.mStore.searchName "Balmora").isSome = true ∨
        (Sample.world.mStore.searchCellName "Balmora").isSome = true) ∧
      ∃ c, (Sample.world.findInterior "Balmora" true).1 = some c ∧
        ((Sample.world.findInterior "Balmora" true).2.findInterior "Balmora" true).1 = some c ∧
        (Sample.world.findInterior "Balmora" true).2.stateOf c = some State.State_Loaded ∧
        ((Sample.world.findInterior "Balmora" true).2.findInterior "Balmora" true).2.stateOf c
          = some State.State_Loaded ∧
        ((Sample.world.findInterior "Balmora" true).2.findInterior "Balmora" true).2
          = (Sample.world.findInterior "Balmora" true).2 :=
  ⟨Reachable.init _ _, Or.inl (by decide),
    findInterior_twice_same_store Sample.world (Reachable.init _ _) "Balmora"
      (Or.inl (by decide))⟩

end MWWorld

namespace MWWorld

open ESM

/-- Claim C5. `findInterior(name)` returns null if and only if the name is not in the
interior index and the content store finds neither an ESM3 cell nor an ESM4 cell of
that name; it never writes to the content store (no definition is synthesized, no
notification is sent), and when it returns null the whole state (master table, both
index tables, content store, pointer cache) is unchanged. -/
theorem findInterior_null_iff (w : WorldModel) (name : String) (f : Bool) :
    ((w.findInterior name f).1 = none ↔
        tableFind (lowerCase name) w.mInteriors = none ∧
        w.mStore.searchName name = none ∧ w.mStore.searchCellName name = none) ∧
      (w.findInterior name f).2.mStore = w.mStore ∧
      (w.findInterior name f).2.mExteriorCreated = w.mExteriorCreated ∧
      ((w.findInterior name f).1 = none → (w.findInterior name f).2 = w) := by
  refine ⟨?_, (WorldModel.findInterior_content name f w).1,
    (WorldModel.findInterior_content name f w).2, ?_⟩
  · cases hfind : tableFind (lowerCase name) w.mInteriors with
    | some k => simp [WorldModel.findInterior_of_indexed w name f k hfind]
    | none =>
      cases h3 : w.mStore.searchName name with
      | some cell => simp [WorldModel.findInterior_of_esm3 w name f cell hfind h3]
      | none =>
        cases h4 : w.mStore.searchCellName name with
        | some cell4 => simp [WorldModel.findInterior_of_esm4 w name f cell4 hfind h3 h4]
        | none => simp [WorldModel.findInterior_of_unknown w name f hfind h3 h4]
  · intro hn
    cases hfind : tableFind (lowerCase name) w.mInteriors with
    | some k => simp [WorldModel.findInterior_of_indexed w name f k hfind] at hn
    | none =>
      cases h3 : w.mStore.searchName name with
      | some cell => simp [WorldModel.findInterior_of_esm3 w name f cell hfind h3] at hn
      | none =>
        cases h4 : w.mStore.searchCellName name with
        | some cell4 =>
          simp [WorldModel.findInterior_of_esm4 w name f cell4 hfind h3 h4] at hn
        | none => simp [WorldModel.findInterior_of_unknown w name f hfind h3 h4]

/-- Witness of `findInterior_null_iff`: a name the sample content does not know, on a
fresh index: the call returns null and leaves the state as it was. -/
theorem findInterior_null_iff_witness :
    (Sample.world.findInterior "Nowhere" true).1 = none ∧
      (Sample.world.findInterior "Nowhere" true).2 = Sample.world :=
  ⟨(findInterior_null_iff Sample.world "Nowhere" true).1.mpr
      ⟨by decide, by decide, by decide⟩,
    (findInterior_null_iff Sample.world "Nowhere" true).2.2.2
      ((findInterior_null_iff Sample.world "Nowhere" true).1.mpr
        ⟨by decide, by decide, by decide⟩)⟩

theorem isEsm4Ext_default : isEsm4Ext ESM.Cell.sDefaultWorldspaceId = false := by decide

theorem WorldModel.getExterior_default_ok (w : WorldModel) (x y : Int) (f : Bool) :
    ∃ c w1, w.getExterior (ExteriorCellLocation.mk x y ESM.Cell.sDefaultWorldspaceId) f
      = Except.ok (c, w1) :=
  WorldModel.getExterior_ok w _ f (Or.inl isEsm4Ext_default)

/-- A returning call of `getExterior` for a location that was not indexed leaves the
content store with a definition at that location. -/
theorem WorldModel.getExterior_defined (w : WorldModel) (location : ExteriorCellLocation)
    (f : Bool) (c : RefId) (w1 : WorldModel)
    (h : w.getExterior location f = Except.ok (c, w1))
    (hfind : tableFind location w.mExteriors = none) : w1.mStore.definedAt location = true := by
  unfold WorldModel.getExterior at h
  simp only [hfind] at h
  cases hr : createExteriorCell location w.mStore with
  | error e => simp [hr] at h
  | ok r =>
    obtain ⟨cell, created, store⟩ := r
    simp only [hr, Except.ok.injEq, Prod.mk.injEq] at h
    obtain ⟨-, h2⟩ := h
    subst h2
    simpa using (createExteriorCell_spec _ _ _ _ _ hr).2.2.1

/-- Claim C6. `findCell(id)` returns the store already in the master table when `id`
is a key of it, leaving the state as it is; otherwise, when `id` is an ESM3 exterior
identifier, it returns a non-null store, that of `getExterior` for the encoded grid
position in the default worldspace (which synthesizes a definition when the location is
not indexed and the content store has none, so that one exists afterwards); otherwise
it returns null exactly when the content store has neither an ESM4 nor an ESM3 cell
with that identifier, in which case the state is unchanged, and it never writes to the
content store. In every reachable state a store returned is a store held in the master
table after the call. -/
theorem findCell_cases (w : WorldModel) (id : RefId) (f : Bool) :
    (tableContains id w.mCells = true → w.findCell id f = Except.ok (some id, w)) ∧
      (tableContains id w.mCells = false → ∀ x y, id = RefId.esm3ExteriorCell x y →
        ∃ c w1, w.findCell id f = Except.ok (some c, w1) ∧
          w.getExterior (ExteriorCellLocation.mk x y ESM.Cell.sDefaultWorldspaceId) f
            = Except.ok (c, w1) ∧
          (tableFind (ExteriorCellLocation.mk x y ESM.Cell.sDefaultWorldspaceId) w.mExteriors
              = none →
            w1.mStore.definedAt (ExteriorCellLocation.mk x y ESM.Cell.sDefaultWorldspaceId)
              = true)) ∧
      (tableContains id w.mCells = false → id.getIfEsm3ExteriorCell = none →
        ∃ r, w.findCell id f = Except.ok r ∧
          (r.1 = none ↔ w.mStore.searchEsm4Id id = none ∧ w.mStore.searchId id = none) ∧
          (r.1 = none → r.2 = w) ∧ r.2.mStore = w.mStore) ∧
      (Reachable w → ∀ r, w.findCell id f = Except.ok r → ∀ c, r.1 = some c →
        tableContains c r.2.mCells = true) := by
  refine ⟨?_, ?_, ?_, fun hr r hf => (hr.wellFormed.wf_findCell id f r hf).2⟩
  · intro h
    simp [WorldModel.findCell, h]
  · intro h x y hid
    subst hid
    obtain ⟨c, w1, hc⟩ := WorldModel.getExterior_default_ok w x y f
    refine ⟨c, w1, ?_, hc, WorldModel.getExterior_defined w _ f c w1 hc⟩
    simp [WorldModel.findCell, h, RefId.getIfEsm3ExteriorCell, hc]
  · intro h hx
    cases h4 : w.mStore.searchEsm4Id id with
    | some cell4 =>
      refine ⟨_, by simp only [WorldModel.findCell, h, hx, createCell, h4]; rfl, ?_⟩
      cases (Cell.ofEsm4 cell4).mIsExterior <;> simp
    | none =>
      cases h3 : w.mStore.searchId id with
      | some cell =>
        refine ⟨_, by simp only [WorldModel.findCell, h, hx, createCell, h4, h3]; rfl, ?_⟩
        cases (Cell.ofEsm3 cell).mIsExterior <;> simp
      | none =>
        exact ⟨(none, w), by simp [WorldModel.findCell, h, hx, createCell, h4, h3], by simp⟩

end MWWorld

namespace MWWorld

open ESM

/-- Witness of `findCell_cases`: on a fresh index over the sample content, an
identifier the content does not know resolves to null and changes nothing, the ESM3
exterior identifier of (5, 5) resolves to a store that the master table holds after the
call, and once it is in the master table it resolves to itself. -/
theorem findCell_cases_witness :
    (∃ r, Sample.world.findCell (RefId.stringRefId "nowhere") true = Except.ok r ∧
      (r.1 = none ↔ Sample.world.mStore.searchEsm4Id (RefId.stringRefId "nowhere") = none ∧
        Sample.world.mStore.searchId (RefId.stringRefId "nowhere") = none) ∧
      (r.1 = none → r.2 = Sample.world) ∧ r.2.mStore = Sample.world.mStore) ∧
    ((Op.findCell (RefId.esm3ExteriorCell 5 5) true).apply Sample.world).findCell
        (RefId.esm3ExteriorCell 5 5) true =
      Except.ok (some (RefId.esm3ExteriorCell 5 5),
        (Op.findCell (RefId.esm3ExteriorCell 5 5) true).apply Sample.world) ∧
    tableContains (RefId.esm3ExteriorCell 5 5) Sample.world.mCells = false ∧
    (∃ c w1, Sample.world.findCell (RefId.esm3ExteriorCell 5 5) true = Except.ok (some c, w1) ∧
      tableContains c w1.mCells = true) :=
  ⟨(findCell_cases Sample.world (RefId.stringRefId "nowhere") true).2.2.1 (by decide)
      (by decide),
    (findCell_cases ((Op.findCell (RefId.esm3ExteriorCell 5 5) true).apply Sample.world)
      (RefId.esm3ExteriorCell 5 5) true).1 (by decide),
    by decide,
    Exists.elim
      ((findCell_cases Sample.world (RefId.esm3ExteriorCell 5 5) true).2.1 (by decide) 5 5 rfl)
      (fun c hc => Exists.elim hc (fun w1 h => ⟨c, w1, h.1,
        (findCell_cases Sample.world (RefId.esm3ExteriorCell 5 5) true).2.2.2
          (Reachable.init Sample.store 2) (some c, w1) h.1 c rfl⟩))⟩

theorem WorldModel.findCell_ok (w : WorldModel) (id : RefId) (f : Bool) :
    ∃ r, w.findCell id f = Except.ok r := by
  unfold WorldModel.findCell
  split
  · exact ⟨_, rfl⟩
  · split
    · next x y _ =>
      obtain ⟨c, w1, hc⟩ := WorldModel.getExterior_default_ok w x y f
      rw [hc]
      exact ⟨_, rfl⟩
    · split
      · exact ⟨_, rfl⟩
      · exact ⟨_, rfl⟩

theorem WorldModel.findCellByName_ok (w : WorldModel) (name : String) (f : Bool) :
    ∃ r, w.findCellByName name f = Except.ok r := by
  unfold WorldModel.findCellByName
  split
  · exact ⟨_, rfl⟩
  · next w1 _ =>
    split
    · exact ⟨_, rfl⟩
    · next cell _ =>
      obtain ⟨c, w2, hc⟩ := WorldModel.getExterior_default_ok w1 cell.getGridX cell.getGridY f
      rw [hc]
      exact ⟨_, rfl⟩

/-- Claim C7. Each hard accessor fails exactly when its soft counterpart is empty:
`getInterior` throws iff `findInterior` returns null, `getCell(id)` throws iff
`findCell(id)` returns null, `getCell(name)` throws iff `findCell(name)` returns null;
when the soft accessor returns a store the hard accessor returns that store and the
same state; and the soft accessors never throw (`findInterior` is a total function,
`findCell` by identifier and by name always return). -/
theorem hard_accessor_throws_iff_soft_null (w : WorldModel) (name : String) (id : RefId)
    (f : Bool) :
    (((∃ e, w.getInterior name f = Except.error e) ↔ (w.findInterior name f).1 = none) ∧
      ∀ c, (w.findInterior name f).1 = some c →
        w.getInterior name f = Except.ok (c, (w.findInterior name f).2)) ∧
    (∃ r, w.findCell id f = Except.ok r ∧
      ((∃ e, w.getCell id f = Except.error e) ↔ r.1 = none) ∧
      ∀ c, r.1 = some c → w.getCell id f = Except.ok (c, r.2)) ∧
    (∃ r, w.findCellByName name f = Except.ok r ∧
      ((∃ e, w.getCellByName name f = Except.error e) ↔ r.1 = none) ∧
      ∀ c, r.1 = some c → w.getCellByName name f = Except.ok (c, r.2)) := by
  refine ⟨?_, ?_, ?_⟩
  · unfold WorldModel.getInterior
    rcases hr : w.findInterior name f with ⟨_ | c, w1⟩
    · simp
    · simp
  · obtain ⟨⟨o, w1⟩, hr⟩ := WorldModel.findCell_ok w id f
    refine ⟨_, hr, ?_⟩
    unfold WorldModel.getCell
    rw [hr]
    cases o <;> simp
  · obtain ⟨⟨o, w1⟩, hr⟩ := WorldModel.findCellByName_ok w name f
    refine ⟨_, hr, ?_⟩
    unfold WorldModel.getCellByName
    rw [hr]
    cases o <;> simp

/-- Witness of `hard_accessor_throws_iff_soft_null`: on a fresh index over the sample
content, `getInterior` returns the store `findInterior` returns for "Balmora". -/
theorem hard_accessor_throws_iff_soft_null_witness :
    (Sample.world.findInterior "Balmora" true).1 = some (RefId.stringRefId "balmora") ∧
      Sample.world.getInterior "Balmora" true =
        Except.ok (RefId.stringRefId "balmora", (Sample.world.findInterior "Balmora" true).2) :=
  ⟨by decide,
    (hard_accessor_throws_iff_soft_null Sample.world "Balmora" RefId.empty true).1.2
      (RefId.stringRefId "balmora") (by decide)⟩

end MWWorld

namespace MWWorld

open ESM

theorem tableModify_self {κ β : Type} [DecidableEq κ] (k : κ) (v : β) (t : List (κ × β))
    (h : tableFind k t = some v) : tableModify k (fun _ => v) t = t := by
  induction t with
  | nil => rfl
  | cons p t ih =>
    obtain ⟨k2, v2⟩ := p
    by_cases hk : k2 = k
    · simp only [tableFind, hk, if_true, Option.some.injEq] at h
      simp [tableModify, hk, h]
    · simp only [tableFind, hk, if_false] at h
      simp [tableModify, hk, ih h]

/-- The lookup through a pointer to a loaded store that does not hold the object yields
nothing and leaves the state as it is. -/
theorem WorldModel.cellGetPtr_of_loaded_miss (w : WorldModel) (id k : RefId) (cs : CellStore)
    (hk : tableFind k w.mCells = some cs) (hl : cs.getState = State.State_Loaded)
    (hs : cs.search id = none) : w.cellGetPtr id k = (Ptr.empty, w) := by
  unfold WorldModel.cellGetPtr
  simp only [hk]
  rw [CellStore.getPtr_of_loaded k id cs hl, hs]
  simp only
  rw [tableModify_self k cs w.mCells hk]

/-- The cache loop over slots that are stale for `id` (each slot holding `id` points to
a loaded store without the object) finds nothing and leaves the state as it is. -/
theorem WorldModel.searchCache_of_stale (w : WorldModel) (id : RefId)
    (cache : List (RefId × Option RefId))
    (hl : ∀ p ∈ cache, ∀ k, p.2 = some k → w.stateOf k = some State.State_Loaded)
    (hs : ∀ p ∈ cache, p.1 = id → ∀ k, p.2 = some k →
      ∀ cs, tableFind k w.mCells = some cs → cs.search id = none) :
    WorldModel.searchCache id cache w = (none, w) := by
  induction cache with
  | nil => rfl
  | cons p rest ih =>
    obtain ⟨cachedId, cellStore⟩ := p
    have ih2 := ih (fun q hq => hl q (List.mem_cons_of_mem _ hq))
      (fun q hq => hs q (List.mem_cons_of_mem _ hq))
    cases cellStore with
    | none => simpa [WorldModel.searchCache] using ih2
    | some k =>
      unfold WorldModel.searchCache
      simp only
      by_cases hid : cachedId = id
      · subst hid
        have hst := hl (cachedId, some k) (List.mem_cons_self _ _) k rfl
        unfold WorldModel.stateOf at hst
        cases hf : tableFind k w.mCells with
        | none => simp [hf] at hst
        | some cs =>
          simp only [hf, Option.map_some', Option.some.injEq] at hst
          have hmiss := hs (cachedId, some k) (List.mem_cons_self _ _) rfl k rfl cs hf
          rw [WorldModel.cellGetPtr_of_loaded_miss w cachedId k cs hf hst hmiss]
          simpa [Ptr.empty, Ptr.isEmpty] using ih2
      · simpa [hid] using ih2

theorem WorldModel.searchCache_emptyCache (w : WorldModel) (id : RefId) :
    WorldModel.searchCache id w.emptyCache.mIdCache w.emptyCache = (none, w.emptyCache) := by
  have key : ∀ (l : List (RefId × Option RefId)) (x : WorldModel),
      WorldModel.searchCache id (l.map (fun _ => (RefId.empty, none))) x = (none, x) := by
    intro l x
    induction l with
    | nil => rfl
    | cons p rest ih => simpa [WorldModel.searchCache] using ih
  exact key _ _

end MWWorld

namespace MWWorld

open ESM

namespace WorldModel

theorem cellGetPtr_sameButCache {w w2 : WorldModel} (h : SameButCache w w2) (id k : RefId) :
    (w2.cellGetPtr id k).1 = (w.cellGetPtr id k).1 ∧
      SameButCache (w.cellGetPtr id k).2 (w2.cellGetPtr id k).2 := by
  obtain ⟨h1, h2, h3, h4⟩ := h
  unfold cellGetPtr
  rw [h2]
  cases tableFind k w.mCells with
  | none => exact ⟨rfl, h1, h2, h3, h4⟩
  | some cs => exact ⟨rfl, h1, by simp [h2], h3, h4⟩

theorem getPtrAndCache_sameButCache {w w2 : WorldModel} (h : SameButCache w w2) (id k : RefId) :
    (w2.getPtrAndCache id k).1 = (w.getPtrAndCache id k).1 ∧
      SameButCache (w.getPtrAndCache id k).2 (w2.getPtrAndCache id k).2 := by
  obtain ⟨e, h1, h2, h3, h4⟩ := cellGetPtr_sameButCache h id k
  unfold getPtrAndCache
  simp only [e]
  split
  · exact ⟨rfl, h1, h2, h3, h4⟩
  · exact ⟨rfl, h1, h2, h3, h4⟩

theorem searchStores_sameButCache (id : RefId) (ks : List RefId) {w w2 : WorldModel}
    (h : SameButCache w w2) :
    (searchStores id ks w2).1 = (searchStores id ks w).1 ∧
      SameButCache (searchStores id ks w).2 (searchStores id ks w2).2 := by
  induction ks generalizing w w2 with
  | nil => exact ⟨rfl, h⟩
  | cons k rest ih =>
    obtain ⟨e, hr⟩ := getPtrAndCache_sameButCache h id k
    unfold searchStores
    simp only [e]
    split
    · exact ⟨rfl, hr⟩
    · exact ih hr

theorem insertCellStore_sameButCache {w w2 : WorldModel} (h : SameButCache w w2)
    (c : ESM.Cell) :
    (w2.insertCellStore c).1 = (w.insertCellStore c).1 ∧
      SameButCache (w.insertCellStore c).2 (w2.insertCellStore c).2 := by
  obtain ⟨h1, h2, h3, h4⟩ := h
  unfold insertCellStore
  split
  · exact ⟨by simp [emplaceCellStore], h1, by simp [h2], by simp [h2, h3, emplaceCellStore], h4⟩
  · exact ⟨by simp [emplaceCellStore], h1, by simp [h2], h3, by simp [h2, h4, emplaceCellStore]⟩

theorem searchDefinitions_sameButCache (id : RefId) (cs : List ESM.Cell) {w w2 : WorldModel}
    (h : SameButCache w w2) :
    (searchDefinitions id cs w2).1 = (searchDefinitions id cs w).1 ∧
      SameButCache (searchDefinitions id cs w).2 (searchDefinitions id cs w2).2 := by
  induction cs generalizing w w2 with
  | nil => exact ⟨rfl, h⟩
  | cons c rest ih =>
    unfold searchDefinitions
    rw [h.2.1]
    split
    · exact ih h
    · obtain ⟨e1, hr1⟩ := insertCellStore_sameButCache h c
      obtain ⟨e2, hr2⟩ := getPtrAndCache_sameButCache hr1 id (w.insertCellStore c).1
      simp only [e1, e2]
      split
      · exact ⟨rfl, hr2⟩
      · exact ih hr2

/-- The full search does not read the pointer cache: from two states that differ only
in the cache it returns the same handle. -/
theorem fullSearch_sameButCache (id : RefId) {w w2 : WorldModel} (h : SameButCache w w2) :
    (fullSearch id w2).1 = (fullSearch id w).1 := by
  unfold fullSearch
  rw [h.2.2.2]
  obtain ⟨a1, b1⟩ := searchStores_sameButCache id (w.mExteriors.reverse.map Prod.snd) h
  rcases h1 : searchStores id (w.mExteriors.reverse.map Prod.snd) w with ⟨o1, x1⟩
  rcases g1 : searchStores id (w.mExteriors.reverse.map Prod.snd) w2 with ⟨p1, y1⟩
  rw [h1, g1] at a1 b1
  simp only at a1 b1
  subst a1
  cases p1 with
  | some ptr => rfl
  | none =>
    simp only
    rw [b1.2.2.1]
    obtain ⟨a2, b2⟩ := searchStores_sameButCache id (x1.mInteriors.map Prod.snd) b1
    rcases h2 : searchStores id (x1.mInteriors.map Prod.snd) x1 with ⟨o2, x2⟩
    rcases g2 : searchStores id (x1.mInteriors.map Prod.snd) y1 with ⟨p2, y2⟩
    rw [h2, g2] at a2 b2
    simp only at a2 b2
    subst a2
    cases p2 with
    | some ptr => rfl
    | none =>
      simp only
      rw [b2.1]
      obtain ⟨a3, b3⟩ := searchDefinitions_sameButCache id x2.mStore.extCells b2
      rcases h3 : searchDefinitions id x2.mStore.extCells x2 with ⟨o3, x3⟩
      rcases g3 : searchDefinitions id x2.mStore.extCells y2 with ⟨p3, y3⟩
      rw [h3, g3] at a3 b3
      simp only at a3 b3
      subst a3
      cases p3 with
      | some ptr => rfl
      | none =>
        simp only
        rw [b3.1]
        obtain ⟨a4, b4⟩ := searchDefinitions_sameButCache id x3.mStore.intCells b3
        rcases h4 : searchDefinitions id x3.mStore.intCells x3 with ⟨o4, x4⟩
        rcases g4 : searchDefinitions id x3.mStore.intCells y3 with ⟨p4, y4⟩
        rw [h4, g4] at a4 b4
        simp only at a4 b4
        subst a4
        cases p4 <;> rfl

end WorldModel

/-- With no valid cache hit for `id`, `getPtr` is the full search. -/
theorem getPtr_eq_fullSearch_of_stale (w : WorldModel) (hw : WellFormed w) (id : RefId)
    (hstale : ∀ p ∈ w.mIdCache, p.1 = id → ∀ k, p.2 = some k →
      ∀ cs, tableFind k w.mCells = some cs → cs.search id = none) :
    w.getPtr id = WorldModel.fullSearch id w := by
  unfold WorldModel.getPtr
  rw [WorldModel.searchCache_of_stale w id w.mIdCache hw.cacheLoaded hstale]

/-- Claim C8. Stale pointer-cache entries are harmless: in every reachable state in
which each cache slot holding `id` points to a store that does not hold the object,
`getPtr(id)` returns exactly the result of the full search, which is also what it
returns from the same state with the cache emptied; the result may be the empty
handle. (`getPtr` is a total function: it never fails.) -/
theorem getPtr_stale_cache_harmless (w : WorldModel) (hr : Reachable w) (id : RefId)
    (hstale : ∀ p ∈ w.mIdCache, p.1 = id → ∀ k, p.2 = some k →
      ∀ cs, tableFind k w.mCells = some cs → cs.search id = none) :
    (w.getPtr id).1 = (WorldModel.fullSearch id w).1 ∧
      (w.getPtr id).1 = (w.emptyCache.getPtr id).1 := by
  have hg := getPtr_eq_fullSearch_of_stale w hr.wellFormed id hstale
  refine ⟨by rw [hg], ?_⟩
  rw [hg]
  unfold WorldModel.getPtr
  rw [WorldModel.searchCache_emptyCache]
  simp only
  have hsb : SameButCache w w.emptyCache := ⟨rfl, rfl, rfl, rfl⟩
  exact (WorldModel.fullSearch_sameButCache id hsb).symm

end MWWorld

namespace MWWorld

open ESM

theorem Reachable.runOps_reachable (ops : List Op) {w : WorldModel} (h : Reachable w) :
    Reachable (runOps ops w) := by
  induction ops generalizing w with
  | nil => exact h
  | cons op rest ih => exact ih (Reachable.step op w h)

theorem Sample.staleWorld_stale :
    ∀ p ∈ Sample.staleWorld.mIdCache, p.1 = Sample.plank → ∀ k, p.2 = some k →
      ∀ cs, tableFind k Sample.staleWorld.mCells = some cs →
        cs.search Sample.plank = none := by
  have hcache : Sample.staleWorld.mIdCache =
      [(Sample.plank, some Sample.cellNear.mId), (RefId.empty, none)] := by decide
  intro p hp hid k hk cs hcs
  rw [hcache] at hp
  simp only [List.mem_cons, List.mem_singleton, List.not_mem_nil, or_false] at hp
  rcases hp with hp | hp
  · subst hp
    simp only [Option.some.injEq] at hk
    subst hk
    have hfind : (tableFind Sample.cellNear.mId Sample.staleWorld.mCells).map
        (fun c => c.search Sample.plank) = some none := by decide
    rw [hcs] at hfind
    simpa using hfind
  · subst hp
    cases hk

/-- Witness of `getPtr_stale_cache_harmless`: the plank was found in the cell at
(-2, -9) and cached, then removed from that cell; the lookup falls back to the full
search and finds the plank of the cell at (-22, 16). -/
theorem getPtr_stale_cache_harmless_witness :
    Reachable Sample.staleWorld ∧
      (∀ p ∈ Sample.staleWorld.mIdCache, p.1 = Sample.plank → ∀ k, p.2 = some k →
        ∀ cs, tableFind k Sample.staleWorld.mCells = some cs →
          cs.search Sample.plank = none) ∧
      Sample.staleWorld.mIdCache =
        [(Sample.plank, some Sample.cellNear.mId), (RefId.empty, none)] ∧
      (Sample.staleWorld.getPtr Sample.plank).1 =
        { mRef := some { mRefID := Sample.plank, mRefNum := 3 },
          mCell := some Sample.cellFar.mId } ∧
      (Sample.staleWorld.getPtr Sample.plank).1
        = (WorldModel.fullSearch Sample.plank Sample.staleWorld).1 ∧
      (Sample.staleWorld.getPtr Sample.plank).1
        = (Sample.staleWorld.emptyCache.getPtr Sample.plank).1 :=
  ⟨Reachable.runOps_reachable _ (Reachable.init _ _), Sample.staleWorld_stale, by decide,
    by decide,
    getPtr_stale_cache_harmless Sample.staleWorld
      (Reachable.runOps_reachable _ (Reachable.init _ _)) Sample.plank
      Sample.staleWorld_stale⟩

end MWWorld

namespace MWWorld

open ESM

/-- Looking up the same identifier again in the store a lookup left behind gives the
same handle. -/
theorem CellStore.getPtr_again (self id : RefId) (cs : CellStore) :
    ((cs.getPtr self id).2.getPtr self id).1 = (cs.getPtr self id).1 := by
  have loaded : ∀ c : CellStore, c.getState = State.State_Loaded →
      ((c.getPtr self id).2.getPtr self id).1 = (c.getPtr self id).1 := by
    intro c hc
    rw [CellStore.getPtr_snd_of_loaded self id c hc]
  have pre : ∀ c : CellStore, c.mState = State.State_Preloaded →
      ((c.getPtr self id).2.getPtr self id).1 = (c.getPtr self id).1 := by
    intro c hc
    by_cases hid : c.hasId id = true
    · have e : c.getPtr self id = c.load.getPtr self id := by
        rw [CellStore.getPtr_of_preloaded self id c hc,
          CellStore.getPtr_of_loaded self id c.load (CellStore.getState_load c)]
        simp [hid]
      rw [e]
      exact loaded _ (CellStore.getState_load c)
    · have e : c.getPtr self id = (Ptr.empty, c) := by
        rw [CellStore.getPtr_of_preloaded self id c hc]
        simp [hid]
      rw [e]
      simp only
      rw [e]
  cases hst : cs.mState with
  | State_Unloaded =>
    rw [CellStore.getPtr_of_unloaded self id cs hst]
    exact pre _ (CellStore.getState_preload cs hst)
  | State_Preloaded => exact pre cs hst
  | State_Loaded => exact loaded cs hst

namespace WorldModel

theorem getPtrAndCache_fst (w : WorldModel) (id k : RefId) :
    (w.getPtrAndCache id k).1 = (w.cellGetPtr id k).1 := by
  unfold getPtrAndCache
  simp only
  split <;> rfl

theorem getPtrAndCache_of_miss (w : WorldModel) (id k : RefId)
    (h : (w.cellGetPtr id k).1.isEmpty = true) :
    w.getPtrAndCache id k = w.cellGetPtr id k := by
  unfold getPtrAndCache
  simp [h]

/-- A lookup through one pointer does not change what a later lookup of the same
identifier through any pointer yields. -/
theorem cellGetPtr_after_cellGetPtr (w : WorldModel) (id k k2 : RefId) :
    ((w.cellGetPtr id k).2.cellGetPtr id k2).1 = (w.cellGetPtr id k2).1 := by
  cases hk : tableFind k w.mCells with
  | none =>
    have e : w.cellGetPtr id k = (Ptr.empty, w) := by simp [cellGetPtr, hk]
    rw [e]
  | some cs =>
    have e : w.cellGetPtr id k = ((cs.getPtr k id).1,
        { w with mCells := tableModify k (fun _ => (cs.getPtr k id).2) w.mCells }) := by
      simp [cellGetPtr, hk]
    rw [e]
    by_cases hkk : k2 = k
    · subst hkk
      simp only [cellGetPtr, tableFind_tableModify, if_true, hk, Option.map_some']
      exact CellStore.getPtr_again k2 id cs
    · simp only [cellGetPtr, tableFind_tableModify, hkk, if_false]
      cases tableFind k2 w.mCells <;> rfl

/-- The loop over stores returns the handle of the first store that yields the object:
stores that yield nothing are passed over. -/
theorem searchStores_first_yield (id k2 : RefId) (pre rest : List RefId) (w : WorldModel)
    (hpre : ∀ k ∈ pre, w.yields id k = false) (h2 : w.yields id k2 = true) :
    (searchStores id (pre ++ k2 :: rest) w).1 = some (w.cellGetPtr id k2).1 := by
  induction pre generalizing w with
  | nil =>
    simp only [List.nil_append, searchStores, getPtrAndCache_fst]
    simp only [yields, Bool.not_eq_true'] at h2
    simp [h2]
  | cons k pre ih =>
    have hk := hpre k (List.mem_cons_self _ _)
    simp only [yields, Bool.not_eq_false'] at hk
    simp only [List.cons_append, searchStores, getPtrAndCache_fst, hk]
    simp only [Bool.not_true, Bool.false_eq_true, if_false]
    rw [getPtrAndCache_of_miss w id k hk]
    show (searchStores id (pre ++ k2 :: rest) (w.cellGetPtr id k).2).1 = _
    rw [ih (w.cellGetPtr id k).2]
    · rw [cellGetPtr_after_cellGetPtr]
    · intro k3 hk3
      have := hpre k3 (List.mem_cons_of_mem _ hk3)
      simp only [yields] at this ⊢
      rw [cellGetPtr_after_cellGetPtr]; exact this
    · simp only [yields] at h2 ⊢
      rw [cellGetPtr_after_cellGetPtr]; exact h2

end WorldModel

end MWWorld

namespace MWWorld

open ESM

/-- Claim C9, as amended. In every reachable state, when the pointer cache has no valid
hit for `id` and, among the instantiated grid chunks, only those at two locations
`loc1 < loc2` (in the key order of the grid index) can hold the object, and the one at
`loc2` does, `getPtr(id)` returns the object of the chunk at `loc2`, the greater
location key, whatever the order in which the two chunks were inserted. -/
theorem getPtr_prefers_greater_location (w : WorldModel) (hr : Reachable w) (id : RefId)
    (hstale : ∀ p ∈ w.mIdCache, p.1 = id → ∀ k, p.2 = some k →
      ∀ cs, tableFind k w.mCells = some cs → cs.search id = none)
    (loc1 loc2 : ExteriorCellLocation) (k2 : RefId)
    (hlt : ExteriorCellLocation.lt loc1 loc2 = true)
    (h2 : tableFind loc2 w.mExteriors = some k2)
    (hy2 : w.yields id k2 = true)
    (honly : ∀ p ∈ w.mExteriors, p.1 ≠ loc1 → p.1 ≠ loc2 → w.yields id p.2 = false) :
    (w.getPtr id).1 = (w.cellGetPtr id k2).1 ∧ (w.getPtr id).1.isEmpty = false ∧
      (w.getPtr id).1.mCell = some k2 := by
  have hwf := hr.wellFormed
  have hg := (getPtr_eq_fullSearch_of_stale w hwf id hstale)
  obtain ⟨A, B, hAB⟩ := List.append_of_mem (tableFind_mem _ h2)
  have hsorted := hwf.exteriorsSorted
  unfold KeysSorted at hsorted
  rw [hAB, List.pairwise_append] at hsorted
  have hB : ∀ b ∈ B, ExteriorCellLocation.lt loc2 b.1 = true :=
    (List.pairwise_cons.mp hsorted.2.1).1
  have hpre : ∀ k ∈ B.reverse.map Prod.snd, w.yields id k = false := by
    intro k hk
    obtain ⟨b, hb, hbk⟩ := List.mem_map.mp hk
    subst hbk
    have hbB : b ∈ B := List.mem_reverse.mp hb
    have hmem : b ∈ w.mExteriors := by
      rw [hAB]; exact List.mem_append_right _ (List.mem_cons_of_mem _ hbB)
    apply honly b hmem
    · intro he
      have h3 := ExteriorCellLocation.locLt_trans hlt (hB b hbB)
      rw [he, ExteriorCellLocation.locLt_irrefl] at h3
      cases h3
    · intro he
      have h3 := hB b hbB
      rw [he, ExteriorCellLocation.locLt_irrefl] at h3
      cases h3
  have hlist : w.mExteriors.reverse.map Prod.snd =
      B.reverse.map Prod.snd ++ k2 :: A.reverse.map Prod.snd := by
    rw [hAB]; simp
  have hfirst := WorldModel.searchStores_first_yield id k2 (B.reverse.map Prod.snd)
    (A.reverse.map Prod.snd) w hpre hy2
  rw [← hlist] at hfirst
  have hfull : (WorldModel.fullSearch id w).1 = (w.cellGetPtr id k2).1 := by
    unfold WorldModel.fullSearch
    rcases hs : WorldModel.searchStores id (w.mExteriors.reverse.map Prod.snd) w with ⟨o, x⟩
    rw [hs] at hfirst
    simp only at hfirst
    subst hfirst
    rfl
  have hne : (w.cellGetPtr id k2).1.isEmpty = false := by
    simpa [WorldModel.yields] using hy2
  refine ⟨by rw [hg, hfull], by rw [hg, hfull]; exact hne, ?_⟩
  rw [hg, hfull]
  unfold WorldModel.cellGetPtr at hne ⊢
  cases hk : tableFind k2 w.mCells with
  | none => simp [hk, Ptr.empty, Ptr.isEmpty] at hne
  | some cs =>
    simp only [hk] at hne ⊢
    exact (CellStore.getPtr_found k2 id cs hne).2

end MWWorld

namespace MWWorld

open ESM

theorem Sample.twoChunks_noCache :
    ∀ p ∈ Sample.twoChunks.mIdCache, p.1 = Sample.plank → ∀ k, p.2 = some k →
      ∀ cs, tableFind k Sample.twoChunks.mCells = some cs →
        cs.search Sample.plank = none := by
  have hcache : Sample.twoChunks.mIdCache = [(RefId.empty, none), (RefId.empty, none)] := by
    decide
  intro p hp _ k hk
  rw [hcache] at hp
  simp only [List.mem_cons, List.mem_singleton, List.not_mem_nil, or_false, or_self] at hp
  subst hp
  cases hk

theorem Sample.twoChunks_only :
    ∀ p ∈ Sample.twoChunks.mExteriors, p.1 ≠ Sample.far → p.1 ≠ Sample.near →
      Sample.twoChunks.yields Sample.plank p.2 = false := by
  have hext : Sample.twoChunks.mExteriors =
      [(Sample.far, Sample.cellFar.mId), (Sample.near, Sample.cellNear.mId)] := by decide
  intro p hp h1 h2
  rw [hext] at hp
  simp only [List.mem_cons, List.mem_singleton, List.not_mem_nil, or_false] at hp
  rcases hp with hp | hp
  · subst hp; exact absurd rfl h1
  · subst hp; exact absurd rfl h2

/-- Witness of `getPtr_prefers_greater_location`: both sample exteriors are
instantiated, (-22, 16) < (-2, -9) in key order, and the plank of (-2, -9) is
returned. -/
theorem getPtr_prefers_greater_location_witness :
    Reachable Sample.twoChunks ∧
      (∀ p ∈ Sample.twoChunks.mIdCache, p.1 = Sample.plank → ∀ k, p.2 = some k →
        ∀ cs, tableFind k Sample.twoChunks.mCells = some cs →
          cs.search Sample.plank = none) ∧
      (∀ p ∈ Sample.twoChunks.mExteriors, p.1 ≠ Sample.far → p.1 ≠ Sample.near →
        Sample.twoChunks.yields Sample.plank p.2 = false) ∧
      ExteriorCellLocation.lt Sample.far Sample.near = true ∧
      tableFind Sample.near Sample.twoChunks.mExteriors = some Sample.cellNear.mId ∧
      Sample.twoChunks.yields Sample.plank Sample.cellNear.mId = true ∧
      (Sample.twoChunks.getPtr Sample.plank).1
        = (Sample.twoChunks.cellGetPtr Sample.plank Sample.cellNear.mId).1 ∧
      (Sample.twoChunks.getPtr Sample.plank).1.isEmpty = false ∧
      (Sample.twoChunks.getPtr Sample.plank).1.mCell = some Sample.cellNear.mId :=
  ⟨Reachable.runOps_reachable _ (Reachable.init _ _), Sample.twoChunks_noCache,
    Sample.twoChunks_only, by decide, by decide, by decide,
    getPtr_prefers_greater_location Sample.twoChunks
      (Reachable.runOps_reachable _ (Reachable.init _ _)) Sample.plank
      Sample.twoChunks_noCache Sample.far Sample.near Sample.cellNear.mId
      (by decide) (by decide) (by decide) Sample.twoChunks_only⟩

/-- Claim C9 as stated fails: the chunk at (-2, -9) is inserted first and the chunk at
(-22, 16) after it, both hold the plank and the pointer cache is empty, yet `getPtr`
returns the plank of the chunk at (-2, -9), the one inserted earlier, and not that of
the chunk inserted later. -/
theorem getPtr_returns_earlier_inserted_chunk :
    Sample.twoChunks =
        runOps [Op.getExterior Sample.near true, Op.getExterior Sample.far true] Sample.world ∧
      Sample.twoChunks.mCells.map Prod.fst = [Sample.cellNear.mId, Sample.cellFar.mId] ∧
      Sample.twoChunks.yields Sample.plank Sample.cellNear.mId = true ∧
      Sample.twoChunks.yields Sample.plank Sample.cellFar.mId = true ∧
      Sample.twoChunks.mIdCache = [(RefId.empty, none), (RefId.empty, none)] ∧
      (Sample.twoChunks.getPtr Sample.plank).1 =
        { mRef := some { mRefID := Sample.plank, mRefNum := 2 },
          mCell := some Sample.cellNear.mId } ∧
      (Sample.twoChunks.getPtr Sample.plank).1
        ≠ (Sample.twoChunks.cellGetPtr Sample.plank Sample.cellFar.mId).1 := by
  refine ⟨rfl, by decide, by decide, by decide, by decide, by decide, by decide⟩

end MWWorld

namespace MWWorld

open ESM

theorem CellStore.contents_of_loaded (cs : CellStore) (h : cs.mState = State.State_Loaded) :
    cs.contents = cs.mMergedRefs := by
  simp [CellStore.contents, CellStore.load, h]

theorem CellStore.contents_of_not_loaded (cs : CellStore) (h : cs.mState ≠ State.State_Loaded) :
    cs.contents = cs.mCellVariant.mRefs := by
  simp [CellStore.contents, CellStore.load, h]

theorem CellStore.mem_forEach_filter (self id : RefId) (cs : CellStore)
    (h : cs.mState = State.State_Loaded) (ptr : Ptr) :
    ptr ∈ (cs.forEach self).filter (fun p => decide (p.mRef.map CellRef.mRefID = some id)) ↔
      ∃ r ∈ cs.mMergedRefs, r.mRefID = id ∧ ptr = { mRef := some r, mCell := some self } := by
  simp only [CellStore.forEach, h, if_true, List.mem_filter, List.mem_map, decide_eq_true_eq]
  constructor
  · rintro ⟨⟨r, hr, rfl⟩, hid⟩
    exact ⟨r, hr, by simpa using hid, rfl⟩
  · rintro ⟨r, hr, hid, rfl⟩
    exact ⟨⟨r, hr, rfl⟩, by simp [hid]⟩

/-- What one store contributes to `getAll`: the handles of its objects of record `id`,
provided the identifier set of a preloaded store tells the truth about `id`. -/
theorem WorldModel.mem_getAllVisit (id k : RefId) (cs : CellStore)
    (hids : cs.mState = State.State_Preloaded →
      (cs.hasId id = true ↔ ∃ r ∈ cs.contents, r.mRefID = id)) (ptr : Ptr) :
    ptr ∈ (WorldModel.getAllVisit id k cs).1 ↔
      ∃ r ∈ cs.contents, r.mRefID = id ∧ ptr = { mRef := some r, mCell := some k } := by
  have pre : ∀ c : CellStore, c.mState = State.State_Preloaded →
      (c.hasId id = true ↔ ∃ r ∈ c.contents, r.mRefID = id) →
      (ptr ∈ (WorldModel.getAllVisit id k c).1 ↔
        ∃ r ∈ c.contents, r.mRefID = id ∧ ptr = { mRef := some r, mCell := some k }) := by
    intro c hc hh
    by_cases hid : c.hasId id = true
    · have e : (WorldModel.getAllVisit id k c).1 =
          (c.load.forEach k).filter (fun p => decide (p.mRef.map CellRef.mRefID = some id)) := by
        simp [WorldModel.getAllVisit, CellStore.getState, hc, hid]
      rw [e, CellStore.mem_forEach_filter k id c.load (CellStore.getState_load c)]
      rfl
    · have e : (WorldModel.getAllVisit id k c).1 = [] := by
        simp [WorldModel.getAllVisit, CellStore.getState, hc, hid]
      rw [e]
      constructor
      · intro h; cases h
      · rintro ⟨r, hr, hrid, -⟩
        exact absurd (hh.mpr ⟨r, hr, hrid⟩) hid
  cases hst : cs.mState with
  | State_Loaded =>
    have e : (WorldModel.getAllVisit id k cs).1 =
        (cs.forEach k).filter (fun p => decide (p.mRef.map CellRef.mRefID = some id)) := by
      simp [WorldModel.getAllVisit, CellStore.getState, hst]
    rw [e, CellStore.mem_forEach_filter k id cs hst, CellStore.contents_of_loaded cs hst]
  | State_Preloaded => exact pre cs hst (hids hst)
  | State_Unloaded =>
    have hp := CellStore.getState_preload cs hst
    have e : WorldModel.getAllVisit id k cs = WorldModel.getAllVisit id k cs.preload := by
      simp [WorldModel.getAllVisit, CellStore.getState, hst, hp]
    have hcon : cs.preload.contents = cs.contents := by
      rw [CellStore.contents_of_not_loaded cs (by simp [hst]),
        CellStore.contents_of_not_loaded cs.preload (by simp [hp])]
      simp [CellStore.preload, hst]
    rw [e, ← hcon]
    apply pre cs.preload hp
    rw [CellStore.contents_of_not_loaded cs.preload (by simp [hp])]
    simp only [CellStore.hasId, hp, decide_eq_true_eq]
    simp [CellStore.preload, hst]

theorem WorldModel.mem_getAllLoop (id : RefId) (t : List (RefId × CellStore)) (ptr : Ptr) :
    ptr ∈ (WorldModel.getAllLoop id t).1 ↔
      ∃ p ∈ t, ptr ∈ (WorldModel.getAllVisit id p.1 p.2).1 := by
  induction t with
  | nil => simp [WorldModel.getAllLoop]
  | cons q t ih =>
    obtain ⟨k, cs⟩ := q
    simp only [WorldModel.getAllLoop, List.mem_append, ih, List.mem_cons, exists_eq_or_imp]

/-- Claim C10. Provided the identifier set of every preloaded store of the master table
contains `id` exactly when the store holds an object of record `id`, `getAll(id)`
returns exactly the objects of record `id` over the stores of the master table: a
handle is returned if and only if it is the handle of an object of record `id` held by
a store that was in the master table before the call; the call leaves the keys of the
master table, the index tables and the content store as they were, so no further chunk
is instantiated. -/
theorem getAll_exact (w : WorldModel) (id : RefId)
    (hids : ∀ p ∈ w.mCells, p.2.mState = State.State_Preloaded →
      (p.2.hasId id = true ↔ ∃ r ∈ p.2.contents, r.mRefID = id)) :
    (∀ ptr, ptr ∈ (w.getAll id).1 ↔
        ∃ k cs r, (k, cs) ∈ w.mCells ∧ r ∈ cs.contents ∧ r.mRefID = id ∧
          ptr = { mRef := some r, mCell := some k }) ∧
      (w.getAll id).2.mCells.map Prod.fst = w.mCells.map Prod.fst ∧
      (w.getAll id).2.mStore = w.mStore ∧
      (w.getAll id).2.mExteriors = w.mExteriors ∧
      (w.getAll id).2.mInteriors = w.mInteriors := by
  refine ⟨?_, WorldModel.map_fst_getAllLoop id w.mCells, rfl, rfl, rfl⟩
  intro ptr
  simp only [WorldModel.getAll, WorldModel.mem_getAllLoop]
  constructor
  · rintro ⟨⟨k, cs⟩, hp, hin⟩
    obtain ⟨r, hr, hid, he⟩ := (WorldModel.mem_getAllVisit id k cs (hids _ hp) ptr).mp hin
    exact ⟨k, cs, r, hp, hr, hid, he⟩
  · rintro ⟨k, cs, r, hp, hr, hid, he⟩
    exact ⟨(k, cs), hp, (WorldModel.mem_getAllVisit id k cs (hids _ hp) ptr).mpr ⟨r, hr, hid, he⟩⟩

end MWWorld

namespace MWWorld

open ESM

/-- The identifier set captured by `preload` tells the truth about every identifier. -/
theorem CellStore.hasId_iff_of_preloaded (cs : CellStore) (id : RefId)
    (hst : cs.mState = State.State_Preloaded)
    (hids : cs.mIds = cs.mCellVariant.mRefs.map CellRef.mRefID) :
    cs.hasId id = true ↔ ∃ r ∈ cs.contents, r.mRefID = id := by
  rw [CellStore.contents_of_not_loaded cs (by simp [hst])]
  simp only [CellStore.hasId, hst, decide_eq_true_eq, hids, List.mem_map]

theorem Sample.preloadedWorld_ids :
    ∀ p ∈ Sample.preloadedWorld.mCells, p.2.mState = State.State_Preloaded →
      (p.2.hasId Sample.plank = true ↔ ∃ r ∈ p.2.contents, r.mRefID = Sample.plank) := by
  have h : ∀ p ∈ Sample.preloadedWorld.mCells, p.2.mState = State.State_Preloaded →
      p.2.mIds = p.2.mCellVariant.mRefs.map CellRef.mRefID := by decide
  intro p hp hst
  exact CellStore.hasId_iff_of_preloaded p.2 Sample.plank hst (h p hp hst)

/-- Witness of `getAll_exact`: after a lookup that left both sample exteriors
preloaded, `getAll` for the plank returns the plank of each exterior and nothing
else. -/
theorem getAll_exact_witness :
    (∀ p ∈ Sample.preloadedWorld.mCells, p.2.mState = State.State_Preloaded →
      (p.2.hasId Sample.plank = true ↔ ∃ r ∈ p.2.contents, r.mRefID = Sample.plank)) ∧
    (Sample.preloadedWorld.getAll Sample.plank).1 =
      [{ mRef := some { mRefID := Sample.plank, mRefNum := 2 },
         mCell := some Sample.cellNear.mId },
       { mRef := some { mRefID := Sample.plank, mRefNum := 3 },
         mCell := some Sample.cellFar.mId }] ∧
    (∀ ptr, ptr ∈ (Sample.preloadedWorld.getAll Sample.plank).1 ↔
      ∃ k cs r, (k, cs) ∈ Sample.preloadedWorld.mCells ∧ r ∈ cs.contents ∧
        r.mRefID = Sample.plank ∧ ptr = { mRef := some r, mCell := some k }) ∧
    (Sample.preloadedWorld.getAll Sample.plank).2.mCells.map Prod.fst
      = Sample.preloadedWorld.mCells.map Prod.fst :=
  ⟨Sample.preloadedWorld_ids, by decide,
    (getAll_exact Sample.preloadedWorld Sample.plank Sample.preloadedWorld_ids).1,
    (getAll_exact Sample.preloadedWorld Sample.plank Sample.preloadedWorld_ids).2.1⟩

end MWWorld


namespace MWWorld

open ESM

theorem CellStore.preload_of_not_unloaded (cs : CellStore)
    (h : cs.mState ≠ State.State_Unloaded) : cs.preload = cs := by
  simp [CellStore.preload, h]

/-- What the loop body of `getAll` does to the lifecycle of one store. -/
theorem WorldModel.getAllVisit_state (id k : RefId) (cs : CellStore) :
    (cs.mState = State.State_Loaded → (WorldModel.getAllVisit id k cs).2 = cs) ∧
      (cs.preload.hasId id = true →
        (WorldModel.getAllVisit id k cs).2.mState = State.State_Loaded) ∧
      (cs.mState ≠ State.State_Loaded → cs.preload.hasId id = false →
        (WorldModel.getAllVisit id k cs).2.mState = State.State_Preloaded) := by
  have pre : ∀ c : CellStore, c.mState = State.State_Preloaded →
      (c.hasId id = true → (WorldModel.getAllVisit id k c).2.mState = State.State_Loaded) ∧
      (c.hasId id = false → (WorldModel.getAllVisit id k c).2.mState = State.State_Preloaded) := by
    intro c hc
    constructor
    · intro hid
      have e : (WorldModel.getAllVisit id k c).2 = c.load := by
        simp [WorldModel.getAllVisit, CellStore.getState, hc, hid]
      rw [e]; exact CellStore.getState_load c
    · intro hid
      have e : (WorldModel.getAllVisit id k c).2 = c := by
        simp [WorldModel.getAllVisit, CellStore.getState, hc, hid]
      rw [e]; exact hc
  cases hst : cs.mState with
  | State_Loaded =>
    have e := WorldModel.getAllVisit_of_loaded id k cs hst
    refine ⟨fun _ => e, fun _ => by rw [e]; exact hst, fun h => absurd rfl h⟩
  | State_Preloaded =>
    have hp : cs.preload = cs := CellStore.preload_of_not_unloaded cs (by simp [hst])
    rw [hp]
    exact ⟨(fun h => by cases h), (pre cs hst).1, fun _ => (pre cs hst).2⟩
  | State_Unloaded =>
    have hp := CellStore.getState_preload cs hst
    have e : WorldModel.getAllVisit id k cs = WorldModel.getAllVisit id k cs.preload := by
      simp [WorldModel.getAllVisit, CellStore.getState, hst, hp]
    rw [e]
    exact ⟨(fun h => by cases h), (pre cs.preload hp).1, fun _ => (pre cs.preload hp).2⟩

/-- Claim C11. `getAll(id)` fully loads only matching chunks. For every store of the
master table, with "identifier set" the set captured by `preload` (captured by the call
itself for a store that was unloaded): a store that was Loaded is left exactly as it
was; a store whose identifier set contains `id` is Loaded after the call; a store that
was Unloaded or Preloaded and whose identifier set does not contain `id` is Preloaded
after the call. -/
theorem getAll_loads_only_matching (w : WorldModel) (id k : RefId) (cs : CellStore)
    (h : tableFind k w.mCells = some cs) :
    ∃ cs2, tableFind k (w.getAll id).2.mCells = some cs2 ∧
      (cs.mState = State.State_Loaded → cs2 = cs) ∧
      (cs.preload.hasId id = true → cs2.mState = State.State_Loaded) ∧
      (cs.mState ≠ State.State_Loaded → cs.preload.hasId id = false →
        cs2.mState = State.State_Preloaded) := by
  refine ⟨(WorldModel.getAllVisit id k cs).2, ?_, WorldModel.getAllVisit_state id k cs⟩
  simp [WorldModel.getAll, WorldModel.tableFind_getAllLoop, h]

end MWWorld

namespace MWWorld

open ESM

/-- Witness of `getAll_loads_only_matching`: in the state with both sample exteriors
preloaded, the store of the exterior at (-2, -9) is in the master table and the
statement holds for it and the plank. -/
theorem getAll_loads_only_matching_witness :
    tableFind Sample.cellNear.mId Sample.preloadedWorld.mCells
        = some (CellStore.create (Cell.ofEsm3 Sample.cellNear)).preload ∧
      ∃ cs2, tableFind Sample.cellNear.mId
          (Sample.preloadedWorld.getAll Sample.plank).2.mCells = some cs2 ∧
        ((CellStore.create (Cell.ofEsm3 Sample.cellNear)).preload.mState = State.State_Loaded →
          cs2 = (CellStore.create (Cell.ofEsm3 Sample.cellNear)).preload) ∧
        ((CellStore.create (Cell.ofEsm3 Sample.cellNear)).preload.preload.hasId Sample.plank = true →
          cs2.mState = State.State_Loaded) ∧
        ((CellStore.create (Cell.ofEsm3 Sample.cellNear)).preload.mState ≠ State.State_Loaded →
          (CellStore.create (Cell.ofEsm3 Sample.cellNear)).preload.preload.hasId Sample.plank = false →
          cs2.mState = State.State_Preloaded) :=
  ⟨by decide,
    getAll_loads_only_matching Sample.preloadedWorld Sample.plank Sample.cellNear.mId
      (CellStore.create (Cell.ofEsm3 Sample.cellNear)).preload (by decide)⟩

end MWWorld

namespace MWWorld

open ESM

namespace WorldModel

theorem writeCell_eq (writer : ESMWriter) (cs : CellStore) :
    writeCell writer cs = ({ mRecords := writer.mRecords ++ [cs.savedRecord] }, cs.load) := by
  by_cases h : cs.mState = State.State_Loaded
  · simp [writeCell, CellStore.savedRecord, CellStore.getState, CellStore.load, h]
  · simp [writeCell, CellStore.savedRecord, CellStore.getState, h]

theorem writeLoop_records (t : List (RefId × CellStore)) (writer : ESMWriter) (progress : Nat) :
    (writeLoop t writer progress).1.mRecords
        = writer.mRecords ++ (t.filter (fun v => v.2.hasState)).map (fun v => v.2.savedRecord) ∧
      (writeLoop t writer progress).2.1 = progress + t.countP (fun v => v.2.hasState) := by
  induction t generalizing writer progress with
  | nil => simp [writeLoop]
  | cons p rest ih =>
    obtain ⟨id, cs⟩ := p
    by_cases h : cs.hasState = true
    · have e := ih (writeCell writer cs).1 (progress + 1)
      simp only [writeLoop, h, if_true, List.filter_cons_of_pos, List.map_cons,
        List.countP_cons_of_pos]
      rw [e.1, e.2, writeCell_eq]
      constructor
      · simp
      · omega
    · have e := ih writer progress
      simp only [Bool.not_eq_true] at h
      simp [writeLoop, h, e.1, e.2]

end WorldModel

/-- Claim C12. `write` emits exactly one `REC_CSTA` record for each store of the master
table whose `hasState()` is true, in table order, and none for any other store: the
records appended to the writer are those of the stores with a delta, each tagged
`REC_CSTA` and naming its chunk; their number, and the number of progress increments,
is `countSavedGameRecords()` of the same state. -/
theorem write_one_record_per_modified_chunk (w : WorldModel) (writer : ESMWriter)
    (progress : Nat) :
    ∃ records : List SavedRecord,
      (w.write writer progress).1.mRecords = writer.mRecords ++ records ∧
      records = (w.mCells.filter (fun v => v.2.hasState)).map (fun v => v.2.savedRecord) ∧
      records.map SavedRecord.mCellId
        = (w.mCells.filter (fun v => v.2.hasState)).map (fun v => v.2.mCellVariant.mId) ∧
      (∀ r ∈ records, r.mType = REC_CSTA) ∧
      records.length = w.countSavedGameRecords ∧
      (w.write writer progress).2.1 = progress + w.countSavedGameRecords := by
  refine ⟨_, (WorldModel.writeLoop_records w.mCells writer progress).1, rfl, ?_, ?_, ?_,
    (WorldModel.writeLoop_records w.mCells writer progress).2⟩
  · simp only [List.map_map]
    apply List.map_congr_left
    intro v _
    by_cases h : v.2.mState = State.State_Loaded <;>
      simp [CellStore.savedRecord, CellStore.saveState, CellStore.load, h]
  · intro r hr
    simp only [List.mem_map] at hr
    obtain ⟨v, _, rfl⟩ := hr
    rfl
  · simp [WorldModel.countSavedGameRecords, List.countP_eq_length_filter]

end MWWorld

namespace MWWorld

open ESM

/-- Claim C13. `readRecord` drops a `REC_CSTA` record whose chunk identity no longer
resolves: when the identity read from the record names no store of the master table,
is not an ESM3 exterior identifier (for which a grid chunk is always made) and has no
definition in the content store, the call returns true without an error, the reader
has passed over the payload of the record, and the world index (master table, index
tables, content store, every store) is exactly as before; for a record type other
than `REC_CSTA` the call returns false and neither the reader nor the index
changes. -/
theorem readRecord_drops_unresolvable (w : WorldModel) (reader : ESMReader) (type : Nat) :
    (∀ record rest, reader.mRecords = record :: rest →
        tableContains record.mCellId w.mCells = false →
        record.mCellId.getIfEsm3ExteriorCell = none →
        createCell record.mCellId w.mStore = none →
        w.readRecord reader REC_CSTA = Except.ok (true, { mRecords := rest }, w)) ∧
      (type ≠ REC_CSTA → w.readRecord reader type = Except.ok (false, reader, w)) := by
  constructor
  · intro record rest hrec hc he hd
    have hf : w.findCell record.mCellId true = Except.ok (none, w) := by
      simp [WorldModel.findCell, hc, he, hd]
    simp [WorldModel.readRecord, hrec, hf, ESMReader.skipRecord]
  · intro ht
    simp [WorldModel.readRecord, ht]

end MWWorld

namespace MWWorld

open ESM

/-- Witness of `readRecord_drops_unresolvable`: on a fresh index over the sample
content, the record of a cell the content does not define is dropped, and a record of
type 0 is not handled. -/
theorem readRecord_drops_unresolvable_witness :
    tableContains Sample.staleRecord.mCellId Sample.world.mCells = false ∧
      Sample.staleRecord.mCellId.getIfEsm3ExteriorCell = none ∧
      createCell Sample.staleRecord.mCellId Sample.world.mStore = none ∧
      (0 : Nat) ≠ REC_CSTA ∧
      Sample.world.readRecord { mRecords := [Sample.staleRecord] } REC_CSTA
        = Except.ok (true, { mRecords := [] }, Sample.world) ∧
      Sample.world.readRecord { mRecords := [Sample.staleRecord] } 0
        = Except.ok (false, { mRecords := [Sample.staleRecord] }, Sample.world) :=
  ⟨by decide, by decide, by decide, by decide,
    (readRecord_drops_unresolvable Sample.world { mRecords := [Sample.staleRecord] } 0).1
      Sample.staleRecord [] rfl (by decide) (by decide) (by decide),
    (readRecord_drops_unresolvable Sample.world { mRecords := [Sample.staleRecord] } 0).2
      (by decide)⟩

end MWWorld

namespace MWWorld

open ESM

theorem WorldModel.findInterior_none_state (w : WorldModel) (name : String) (f : Bool)
    (w1 : WorldModel) (h : w.findInterior name f = (none, w1)) : w1 = w := by
  unfold WorldModel.findInterior at h
  split at h
  · split at h
    · cases h
    · split at h
      · cases h
      · simp only [Prod.mk.injEq, true_and] at h
        exact h.symm
  · cases h

theorem WorldModel.searchExteriorByName_eq (store : ESMStore) (name : String) :
    WorldModel.searchExteriorByName store name =
      ((store.searchExtByName name).orElse
        (fun _ => if ciEqual name store.sDefaultCellname then store.searchExtByName "" else none)).orElse
        (fun _ => (store.mRegions.find? (fun v => ciEqual name v.mName)).bind
          (fun region => store.searchExtByRegion region.mId)) := by
  unfold WorldModel.searchExteriorByName
  cases h1 : store.searchExtByName name with
  | some c => simp
  | none =>
    by_cases hd : ciEqual name store.sDefaultCellname = true
    · cases h2 : store.searchExtByName "" with
      | some c => simp [hd, h2]
      | none =>
        cases h3 : store.mRegions.find? (fun v => ciEqual name v.mName) <;> simp [hd, h2, h3]
    · cases h3 : store.mRegions.find? (fun v => ciEqual name v.mName) <;> simp [hd, h3]

/-- Claim C15. `findCell(name)` resolves in the stated order: it is the same function
as the resolution written after the specification: `findInterior(name)` when that is
non-null; otherwise the grid chunk (in the default worldspace, at the grid position of
the definition) of the exterior definition whose display name matches; otherwise, when
`name` equals `sDefaultCellname` without regard to case, of the exterior definition
found for the empty name; otherwise of the definition found for the first region whose
name equals `name` without regard to case; and null, with the state unchanged, when
none of these yields a definition. -/
theorem findCellByName_resolution_order (w : WorldModel) (name : String) (forceLoad : Bool) :
    w.findCellByName name forceLoad = w.findCellByNameSpec name forceLoad := by
  unfold WorldModel.findCellByName WorldModel.findCellByNameSpec
  cases h : w.findInterior name forceLoad with
  | mk r w1 =>
    cases r with
    | some k => rfl
    | none =>
      have e := WorldModel.findInterior_none_state w name forceLoad w1 h
      subst e
      simp only
      rw [WorldModel.searchExteriorByName_eq]
      rfl

end MWWorld

namespace MWWorld

open ESM

theorem ageView_write {α : Type} (l : List α) (i : Nat) (e : α) (h : i < l.length) :
    ageView (l.set i e) (if i + 1 ≥ (l.set i e).length then 0 else i + 1)
      = (ageView l i).tail ++ [e] := by
  have hd : l.drop i = l[i] :: l.drop (i + 1) := List.drop_eq_getElem_cons h
  by_cases hn : i + 1 ≥ l.length
  · have hnil : l.drop (i + 1) = [] := List.drop_eq_nil_of_le (by omega)
    simp only [List.length_set, hn, if_true, ageView, List.drop_zero, List.take_zero,
      List.append_nil, hd, hnil, List.cons_append, List.nil_append, List.tail_cons]
    rw [List.set_eq_take_append_cons_drop]
    simp [h, hnil]
  · simp only [List.length_set, hn, if_false, ageView, hd, List.cons_append, List.tail_cons]
    rw [List.set_eq_take_append_cons_drop]
    simp only [h, if_true]
    have e1 : (List.take i l ++ e :: List.drop (i + 1) l)
        = (List.take i l ++ [e]) ++ List.drop (i + 1) l := by simp
    have hl : (List.take i l ++ [e]).length = i + 1 := by
      simp [List.length_take]; omega
    rw [e1, List.drop_left' hl, List.take_left' hl, List.append_assoc]

end MWWorld

namespace MWWorld

open ESM

theorem length_ageView {α : Type} (l : List α) (i : Nat) : (ageView l i).length = l.length := by
  simp only [ageView, List.length_append, List.length_drop, List.length_take]
  omega

namespace WorldModel

theorem cellGetPtr_cache (w : WorldModel) (name k : RefId) :
    (w.cellGetPtr name k).2.mIdCache = w.mIdCache ∧
      (w.cellGetPtr name k).2.mIdCacheIndex = w.mIdCacheIndex := by
  unfold cellGetPtr
  split <;> simp

theorem getPtrAndCache_cache_found (w : WorldModel) (name k : RefId)
    (hf : (!(w.cellGetPtr name k).1.isEmpty && (w.cellGetPtr name k).1.isInCell) = true) :
    (w.getPtrAndCache name k).2.mIdCache = w.mIdCache.set w.mIdCacheIndex (name, some k) ∧
      (w.getPtrAndCache name k).2.mIdCacheIndex
        = (if w.mIdCacheIndex + 1 ≥ (w.mIdCache.set w.mIdCacheIndex (name, some k)).length
            then 0 else w.mIdCacheIndex + 1) := by
  have hc := cellGetPtr_cache w name k
  unfold getPtrAndCache
  simp [hf, hc.1, hc.2]

theorem getPtrAndCache_cache_missed (w : WorldModel) (name k : RefId)
    (hf : (!(w.cellGetPtr name k).1.isEmpty && (w.cellGetPtr name k).1.isInCell) = false) :
    (w.getPtrAndCache name k).2.mIdCache = w.mIdCache ∧
      (w.getPtrAndCache name k).2.mIdCacheIndex = w.mIdCacheIndex := by
  have hc := cellGetPtr_cache w name k
  unfold getPtrAndCache
  simp [hf, hc.1, hc.2]

theorem getPtrAndCache_found_iff (w : WorldModel) (name k : RefId) :
    (!(w.getPtrAndCache name k).1.isEmpty && (w.getPtrAndCache name k).1.isInCell)
      = (!(w.cellGetPtr name k).1.isEmpty && (w.cellGetPtr name k).1.isInCell) := by
  rw [getPtrAndCache_fst]

theorem runLookups_ageView (lookups : List (RefId × RefId)) (w : WorldModel)
    (h : w.mIdCacheIndex < w.mIdCache.length) (hs : w.lookupsSucceed lookups = true) :
    (w.runLookups lookups).mIdCache.length = w.mIdCache.length ∧
      (w.runLookups lookups).mIdCacheIndex < w.mIdCache.length ∧
      ageView (w.runLookups lookups).mIdCache (w.runLookups lookups).mIdCacheIndex
        = (ageView w.mIdCache w.mIdCacheIndex
            ++ lookups.map (fun p => (p.1, some p.2))).drop lookups.length := by
  induction lookups generalizing w with
  | nil => simp [runLookups, h]
  | cons p rest ih =>
    obtain ⟨name, k⟩ := p
    simp only [lookupsSucceed, Bool.and_eq_true] at hs
    have hf : (!(w.cellGetPtr name k).1.isEmpty && (w.cellGetPtr name k).1.isInCell) = true := by
      rw [← getPtrAndCache_found_iff]
      simp only [Bool.and_eq_true]
      exact hs.1
    have hc := getPtrAndCache_cache_found w name k hf
    have hv := ageView_write w.mIdCache w.mIdCacheIndex (name, some k) h
    have hlen : (w.getPtrAndCache name k).2.mIdCache.length = w.mIdCache.length := by
      rw [hc.1, List.length_set]
    have hidx : (w.getPtrAndCache name k).2.mIdCacheIndex
        < (w.getPtrAndCache name k).2.mIdCache.length := by
      rw [hlen, hc.2, List.length_set]
      split <;> omega
    have e := ih (w.getPtrAndCache name k).2 hidx hs.2
    simp only [runLookups]
    refine ⟨by rw [e.1, hlen], by rw [← hlen]; exact e.2.1, ?_⟩
    rw [e.2.2, hc.1, hc.2, hv]
    have hne : (ageView w.mIdCache w.mIdCacheIndex).length = w.mIdCache.length :=
      length_ageView _ _
    cases hview : ageView w.mIdCache w.mIdCacheIndex with
    | nil => rw [hview] at hne; simp at hne; omega
    | cons a t => simp

end WorldModel

end MWWorld

namespace MWWorld

open ESM

/-- Claim C16. Every successful lookup overwrites the oldest slot of the pointer cache.
For a cache of `n >= 1` slots whose write index is below `n`: a `getPtrAndCache` that
finds a non-empty in-cell handle writes `(id, store)` into the slot at the write index
and advances the index by one modulo `n`, and in order of age the cache loses its
oldest slot and gains the new pair as its newest; a lookup that finds nothing leaves
cache and write index unchanged; and after a sequence of successful lookups the cache
holds, in order of age, what was there followed by the new pairs, cut to the last `n`,
hence exactly the last `n` lookups once there were at least `n`. -/
theorem getPtrAndCache_overwrites_oldest (w : WorldModel)
    (h : w.mIdCacheIndex < w.mIdCache.length) :
    (∀ name k,
        (!(w.cellGetPtr name k).1.isEmpty && (w.cellGetPtr name k).1.isInCell) = true →
        (w.getPtrAndCache name k).2.mIdCache = w.mIdCache.set w.mIdCacheIndex (name, some k) ∧
        (w.getPtrAndCache name k).2.mIdCacheIndex = (w.mIdCacheIndex + 1) % w.mIdCache.length ∧
        ageView (w.getPtrAndCache name k).2.mIdCache (w.getPtrAndCache name k).2.mIdCacheIndex
          = (ageView w.mIdCache w.mIdCacheIndex).tail ++ [(name, some k)]) ∧
      (∀ name k,
        (!(w.cellGetPtr name k).1.isEmpty && (w.cellGetPtr name k).1.isInCell) = false →
        (w.getPtrAndCache name k).2.mIdCache = w.mIdCache ∧
        (w.getPtrAndCache name k).2.mIdCacheIndex = w.mIdCacheIndex) ∧
      (∀ lookups, w.lookupsSucceed lookups = true →
        (w.runLookups lookups).mIdCache.length = w.mIdCache.length ∧
        ageView (w.runLookups lookups).mIdCache (w.runLookups lookups).mIdCacheIndex
          = (ageView w.mIdCache w.mIdCacheIndex
              ++ lookups.map (fun p => (p.1, some p.2))).drop lookups.length ∧
        (w.mIdCache.length ≤ lookups.length →
          ageView (w.runLookups lookups).mIdCache (w.runLookups lookups).mIdCacheIndex
            = (lookups.map (fun p => (p.1, some p.2))).drop
                (lookups.length - w.mIdCache.length))) := by
  refine ⟨?_, ?_, ?_⟩
  · intro name k hf
    have hc := WorldModel.getPtrAndCache_cache_found w name k hf
    refine ⟨hc.1, ?_, ?_⟩
    · rw [hc.2, List.length_set]
      by_cases hn : w.mIdCacheIndex + 1 ≥ w.mIdCache.length
      · have e : w.mIdCacheIndex + 1 = w.mIdCache.length := by omega
        simp [hn, e]
      · simp only [hn, if_false]
        exact (Nat.mod_eq_of_lt (by omega)).symm
    · rw [hc.1, hc.2]
      exact ageView_write _ _ _ h
  · intro name k hf
    exact WorldModel.getPtrAndCache_cache_missed w name k hf
  · intro lookups hs
    have e := WorldModel.runLookups_ageView lookups w h hs
    refine ⟨e.1, e.2.2, ?_⟩
    intro hn
    rw [e.2.2, List.drop_append_eq_append_drop, length_ageView,
      List.drop_eq_nil_of_le (by rw [length_ageView]; exact hn)]
    rfl

end MWWorld

namespace MWWorld

open ESM

/-- Witness of `getPtrAndCache_overwrites_oldest`: with both sample exteriors loaded and
a cache of two slots, one successful lookup fills slot 0 and moves the index to 1, a
lookup that finds nothing leaves the cache alone, and after three successful lookups
the cache holds the last two. -/
theorem getPtrAndCache_overwrites_oldest_witness :
    Sample.twoChunks.mIdCacheIndex < Sample.twoChunks.mIdCache.length ∧
      (Sample.twoChunks.getPtrAndCache Sample.plank Sample.cellNear.mId).2.mIdCache
        = [(Sample.plank, some Sample.cellNear.mId), (RefId.empty, none)] ∧
      (Sample.twoChunks.getPtrAndCache Sample.plank Sample.cellNear.mId).2.mIdCacheIndex = 1 ∧
      (Sample.twoChunks.getPtrAndCache (RefId.stringRefId "chest") Sample.cellNear.mId).2.mIdCache
        = Sample.twoChunks.mIdCache ∧
      ageView
          (Sample.twoChunks.runLookups
            [(Sample.plank, Sample.cellNear.mId), (Sample.plank, Sample.cellFar.mId),
              (Sample.plank, Sample.cellNear.mId)]).mIdCache
          (Sample.twoChunks.runLookups
            [(Sample.plank, Sample.cellNear.mId), (Sample.plank, Sample.cellFar.mId),
              (Sample.plank, Sample.cellNear.mId)]).mIdCacheIndex
        = [(Sample.plank, some Sample.cellFar.mId), (Sample.plank, some Sample.cellNear.mId)] :=
  ⟨by decide,
    ((getPtrAndCache_overwrites_oldest Sample.twoChunks (by decide)).1
      Sample.plank Sample.cellNear.mId (by decide)).1,
    ((getPtrAndCache_overwrites_oldest Sample.twoChunks (by decide)).1
      Sample.plank Sample.cellNear.mId (by decide)).2.1,
    ((getPtrAndCache_overwrites_oldest Sample.twoChunks (by decide)).2.1
      (RefId.stringRefId "chest") Sample.cellNear.mId (by decide)).1,
    ((getPtrAndCache_overwrites_oldest Sample.twoChunks (by decide)).2.2
      [(Sample.plank, Sample.cellNear.mId), (Sample.plank, Sample.cellFar.mId),
        (Sample.plank, Sample.cellNear.mId)] (by decide)).2.2 (by decide)⟩

end MWWorld

namespace MWWorld

open ESM

theorem WorldModel.cellGetPtr_of_loaded_hit (w : WorldModel) (id k : RefId) (cs : CellStore)
    (r : CellRef) (hk : tableFind k w.mCells = some cs) (hl : cs.getState = State.State_Loaded)
    (hs : cs.search id = some r) :
    w.cellGetPtr id k = ({ mRef := some r, mCell := some k }, w) := by
  unfold WorldModel.cellGetPtr
  simp only [hk]
  rw [CellStore.getPtr_of_loaded k id cs hl, hs]
  simp only
  rw [tableModify_self k cs w.mCells hk]

/-- The cache loop over slots that point to loaded stores: the first slot for `id`
whose store holds the object decides, and the state is left as it is. -/
theorem WorldModel.searchCache_cases (w : WorldModel) (id : RefId)
    (cache : List (RefId × Option RefId))
    (hl : ∀ p ∈ cache, ∀ k, p.2 = some k → w.stateOf k = some State.State_Loaded) :
    (∃ k cs r, (id, some k) ∈ cache ∧ tableFind k w.mCells = some cs ∧ cs.search id = some r ∧
        WorldModel.searchCache id cache w = (some { mRef := some r, mCell := some k }, w)) ∨
      ((∀ p ∈ cache, p.1 = id → ∀ k, p.2 = some k →
          ∀ cs, tableFind k w.mCells = some cs → cs.search id = none) ∧
        WorldModel.searchCache id cache w = (none, w)) := by
  induction cache with
  | nil => exact Or.inr ⟨(fun p hp => by cases hp), rfl⟩
  | cons p rest ih =>
    obtain ⟨cachedId, cellStore⟩ := p
    have ih2 := ih (fun q hq => hl q (List.mem_cons_of_mem _ hq))
    have lift : ∀ (e : WorldModel.searchCache id ((cachedId, cellStore) :: rest) w
          = WorldModel.searchCache id rest w)
        (hnew : cachedId = id → ∀ k, cellStore = some k →
          ∀ cs, tableFind k w.mCells = some cs → cs.search id = none),
        (∃ k cs r, (id, some k) ∈ (cachedId, cellStore) :: rest ∧
            tableFind k w.mCells = some cs ∧ cs.search id = some r ∧
            WorldModel.searchCache id ((cachedId, cellStore) :: rest) w
              = (some { mRef := some r, mCell := some k }, w)) ∨
          ((∀ p ∈ (cachedId, cellStore) :: rest, p.1 = id → ∀ k, p.2 = some k →
              ∀ cs, tableFind k w.mCells = some cs → cs.search id = none) ∧
            WorldModel.searchCache id ((cachedId, cellStore) :: rest) w = (none, w)) := by
      intro e hnew
      rcases ih2 with ⟨k, cs, r, hm, hk, hs, hres⟩ | ⟨hst, hres⟩
      · exact Or.inl ⟨k, cs, r, List.mem_cons_of_mem _ hm, hk, hs, by rw [e, hres]⟩
      · refine Or.inr ⟨?_, by rw [e, hres]⟩
        intro q hq
        rcases List.mem_cons.mp hq with rfl | hq
        · exact hnew
        · exact hst q hq
    cases cellStore with
    | none =>
      exact lift (by simp [WorldModel.searchCache]) (fun _ k hk => by cases hk)
    | some k =>
      by_cases hid : cachedId = id
      · subst hid
        have hst := hl (cachedId, some k) (List.mem_cons_self _ _) k rfl
        unfold WorldModel.stateOf at hst
        cases hf : tableFind k w.mCells with
        | none => simp [hf] at hst
        | some cs =>
          simp only [hf, Option.map_some', Option.some.injEq] at hst
          cases hs : cs.search cachedId with
          | none =>
            refine lift ?_ ?_
            · simp only [WorldModel.searchCache]
              rw [WorldModel.cellGetPtr_of_loaded_miss w cachedId k cs hf hst hs]
              simp [Ptr.empty, Ptr.isEmpty]
            · intro _ k2 hk2 cs2 hcs2
              simp only [Option.some.injEq] at hk2
              subst hk2
              rw [hf] at hcs2
              simp only [Option.some.injEq] at hcs2
              subst hcs2
              exact hs
          | some r =>
            refine Or.inl ⟨k, cs, r, List.mem_cons_self _ _, hf, hs, ?_⟩
            simp only [WorldModel.searchCache]
            rw [WorldModel.cellGetPtr_of_loaded_hit w cachedId k cs r hf hst hs]
            simp [Ptr.isEmpty]
      · exact lift (by simp [WorldModel.searchCache, hid])
          (fun h => absurd h hid)

/-- The cache loop over slots that point to loaded stores, with the position of the
deciding slot: every slot for `id` before it is stale. -/
theorem WorldModel.searchCache_first (w : WorldModel) (id : RefId)
    (cache : List (RefId × Option RefId))
    (hl : ∀ p ∈ cache, ∀ k, p.2 = some k → w.stateOf k = some State.State_Loaded) :
    (∃ before after k cs r, cache = before ++ (id, some k) :: after ∧
        (∀ p ∈ before, p.1 = id → ∀ k2, p.2 = some k2 →
          ∀ cs2, tableFind k2 w.mCells = some cs2 → cs2.search id = none) ∧
        tableFind k w.mCells = some cs ∧ cs.search id = some r ∧
        WorldModel.searchCache id cache w = (some { mRef := some r, mCell := some k }, w)) ∨
      ((∀ p ∈ cache, p.1 = id → ∀ k, p.2 = some k →
          ∀ cs, tableFind k w.mCells = some cs → cs.search id = none) ∧
        WorldModel.searchCache id cache w = (none, w)) := by
  induction cache with
  | nil => exact Or.inr ⟨(fun p hp => by cases hp), rfl⟩
  | cons p rest ih =>
    obtain ⟨cachedId, cellStore⟩ := p
    have ih2 := ih (fun q hq => hl q (List.mem_cons_of_mem _ hq))
    have lift : ∀ (e : WorldModel.searchCache id ((cachedId, cellStore) :: rest) w
          = WorldModel.searchCache id rest w)
        (hnew : cachedId = id → ∀ k, cellStore = some k →
          ∀ cs, tableFind k w.mCells = some cs → cs.search id = none),
        (∃ before after k cs r, (cachedId, cellStore) :: rest = before ++ (id, some k) :: after ∧
            (∀ p ∈ before, p.1 = id → ∀ k2, p.2 = some k2 →
              ∀ cs2, tableFind k2 w.mCells = some cs2 → cs2.search id = none) ∧
            tableFind k w.mCells = some cs ∧ cs.search id = some r ∧
            WorldModel.searchCache id ((cachedId, cellStore) :: rest) w
              = (some { mRef := some r, mCell := some k }, w)) ∨
          ((∀ p ∈ (cachedId, cellStore) :: rest, p.1 = id → ∀ k, p.2 = some k →
              ∀ cs, tableFind k w.mCells = some cs → cs.search id = none) ∧
            WorldModel.searchCache id ((cachedId, cellStore) :: rest) w = (none, w)) := by
      intro e hnew
      rcases ih2 with ⟨before, after, k, cs, r, hm, hb, hk, hs, hres⟩ | ⟨hst, hres⟩
      · refine Or.inl ⟨(cachedId, cellStore) :: before, after, k, cs, r, ?_, ?_, hk, hs,
          by rw [e, hres]⟩
        · rw [hm]; rfl
        · intro q hq
          rcases List.mem_cons.mp hq with rfl | hq
          · exact hnew
          · exact hb q hq
      · refine Or.inr ⟨?_, by rw [e, hres]⟩
        intro q hq
        rcases List.mem_cons.mp hq with rfl | hq
        · exact hnew
        · exact hst q hq
    cases cellStore with
    | none =>
      exact lift (by simp [WorldModel.searchCache]) (fun _ k hk => by cases hk)
    | some k =>
      by_cases hid : cachedId = id
      · subst hid
        have hst := hl (cachedId, some k) (List.mem_cons_self _ _) k rfl
        unfold WorldModel.stateOf at hst
        cases hf : tableFind k w.mCells with
        | none => simp [hf] at hst
        | some cs =>
          simp only [hf, Option.map_some', Option.some.injEq] at hst
          cases hs : cs.search cachedId with
          | none =>
            refine lift ?_ ?_
            · simp only [WorldModel.searchCache]
              rw [WorldModel.cellGetPtr_of_loaded_miss w cachedId k cs hf hst hs]
              simp [Ptr.empty, Ptr.isEmpty]
            · intro _ k2 hk2 cs2 hcs2
              simp only [Option.some.injEq] at hk2
              subst hk2
              rw [hf] at hcs2
              simp only [Option.some.injEq] at hcs2
              subst hcs2
              exact hs
          | some r =>
            refine Or.inl ⟨[], rest, k, cs, r, rfl, (fun p hp => by cases hp), hf, hs, ?_⟩
            simp only [WorldModel.searchCache]
            rw [WorldModel.cellGetPtr_of_loaded_hit w cachedId k cs r hf hst hs]
            simp [Ptr.isEmpty]
      · exact lift (by simp [WorldModel.searchCache, hid])
          (fun h => absurd h hid)

/-- Claim C17, which the code does not meet. The pointer cache is not a pure
optimization: a valid slot decides. In every reachable state `getPtr(id)` either
returns the object of the first cache slot for `id` whose store holds such an object
(every slot for `id` before it being stale), leaving the state as it is, whatever the
full search would find; or, when every slot for `id` is stale, returns the object it
returns from the same state with every cache slot emptied. -/
theorem getPtr_cache_hit_or_full_search (w : WorldModel) (hr : Reachable w) (id : RefId) :
    (∃ before after k cs r, w.mIdCache = before ++ (id, some k) :: after ∧
        (∀ p ∈ before, p.1 = id → ∀ k2, p.2 = some k2 →
          ∀ cs2, tableFind k2 w.mCells = some cs2 → cs2.search id = none) ∧
        tableFind k w.mCells = some cs ∧ cs.search id = some r ∧
        w.getPtr id = ({ mRef := some r, mCell := some k }, w)) ∨
      ((∀ p ∈ w.mIdCache, p.1 = id → ∀ k, p.2 = some k →
          ∀ cs, tableFind k w.mCells = some cs → cs.search id = none) ∧
        (w.getPtr id).1 = (w.emptyCache.getPtr id).1) := by
  rcases WorldModel.searchCache_first w id w.mIdCache hr.wellFormed.cacheLoaded with
    ⟨before, after, k, cs, r, hm, hb, hk, hs, hres⟩ | ⟨hst, _⟩
  · refine Or.inl ⟨before, after, k, cs, r, hm, hb, hk, hs, ?_⟩
    unfold WorldModel.getPtr
    rw [hres]
  · refine Or.inr ⟨hst, ?_⟩
    rw [getPtr_eq_fullSearch_of_stale w hr.wellFormed id hst]
    unfold WorldModel.getPtr
    rw [WorldModel.searchCache_emptyCache]
    simp only
    have hsb : SameButCache w w.emptyCache := ⟨rfl, rfl, rfl, rfl⟩
    exact (WorldModel.fullSearch_sameButCache id hsb).symm

end MWWorld

namespace MWWorld

open ESM

/-- Witness of `getPtr_cache_hit_or_full_search`: the state with the plank cached for
the exterior at (-22, 16) in the first slot and for the exterior at (-2, -9) in the
second is reachable; there `getPtr` returns the plank of the first slot, that of
(-22, 16), while from the same state with an emptied cache it returns the plank of
(-2, -9); and the statement holds for that state and the plank. -/
theorem getPtr_cache_hit_or_full_search_witness :
    Reachable Sample.bothCached ∧
      Sample.bothCached.mIdCache
        = [(Sample.plank, some Sample.cellFar.mId), (Sample.plank, some Sample.cellNear.mId)] ∧
      (Sample.bothCached.getPtr Sample.plank).1
        = { mRef := some { mRefID := Sample.plank, mRefNum := 3 },
            mCell := some Sample.cellFar.mId } ∧
      (Sample.bothCached.emptyCache.getPtr Sample.plank).1
        = { mRef := some { mRefID := Sample.plank, mRefNum := 2 },
            mCell := some Sample.cellNear.mId } ∧
      ((∃ before after k cs r,
          Sample.bothCached.mIdCache = before ++ (Sample.plank, some k) :: after ∧
          (∀ p ∈ before, p.1 = Sample.plank → ∀ k2, p.2 = some k2 →
            ∀ cs2, tableFind k2 Sample.bothCached.mCells = some cs2 →
              cs2.search Sample.plank = none) ∧
          tableFind k Sample.bothCached.mCells = some cs ∧ cs.search Sample.plank = some r ∧
          Sample.bothCached.getPtr Sample.plank
            = ({ mRef := some r, mCell := some k }, Sample.bothCached)) ∨
        ((∀ p ∈ Sample.bothCached.mIdCache, p.1 = Sample.plank → ∀ k, p.2 = some k →
            ∀ cs, tableFind k Sample.bothCached.mCells = some cs →
              cs.search Sample.plank = none) ∧
          (Sample.bothCached.getPtr Sample.plank).1
            = (Sample.bothCached.emptyCache.getPtr Sample.plank).1)) :=
  ⟨Reachable.runOps_reachable _ (Reachable.init Sample.store 2), by decide, by decide,
    by decide,
    getPtr_cache_hit_or_full_search Sample.bothCached
      (Reachable.runOps_reachable _ (Reachable.init Sample.store 2)) Sample.plank⟩

/-- The case of the comment in `getPtr` ("there is one at -22,16 and one at -2,-9, the
latter should be used"): in the reachable state where the plank was cached for the
exterior at (-22, 16) before the exterior at (-2, -9) was instantiated, `getPtr`
returns the plank of the cached chunk, while from the same state with every cache slot
emptied it returns the plank of the chunk at (-2, -9). -/
theorem getPtr_valid_cache_hit_differs :
    Reachable Sample.cachedFar ∧
      (Sample.cachedFar.getPtr Sample.plank).1
        = { mRef := some { mRefID := Sample.plank, mRefNum := 3 },
            mCell := some Sample.cellFar.mId } ∧
      (Sample.cachedFar.emptyCache.getPtr Sample.plank).1
        = { mRef := some { mRefID := Sample.plank, mRefNum := 2 },
            mCell := some Sample.cellNear.mId } ∧
      (Sample.cachedFar.getPtr Sample.plank).1
        ≠ (Sample.cachedFar.emptyCache.getPtr Sample.plank).1 :=
  ⟨Reachable.runOps_reachable _ (Reachable.init Sample.store 2), by decide, by decide,
    by decide⟩

end MWWorld

namespace MWWorld

open ESM

/-- Claim C18. The full search of `getPtr(id)` does not cover every chunk: a chunk
instantiated through `findInterior` is entered in the master table but not in the name
index, so the loop over the name index does not visit it, and the loop over the
interior definitions skips it because the master table already holds its identifier.
On a fresh index over the sample content, after `findInterior("Balmora")` the master
table holds the loaded chunk Balmora with the chest in it, yet `getPtr(chest)` returns
the empty handle; after `findCell(id of Balmora)` instead, which enters the chunk in
the name index, the same `getPtr(chest)` returns the chest. -/
theorem getPtr_misses_chunk_from_findInterior :
    Reachable Sample.balmoraFound ∧
      tableFind Sample.balmora.mId Sample.balmoraFound.mCells
        = some (CellStore.create (Cell.ofEsm3 Sample.balmora)).load ∧
      (CellStore.create (Cell.ofEsm3 Sample.balmora)).load.search (RefId.stringRefId "chest")
        = some { mRefID := RefId.stringRefId "chest", mRefNum := 1 } ∧
      Sample.balmoraFound.mInteriors = [] ∧
      (Sample.balmoraFound.getPtr (RefId.stringRefId "chest")).1 = Ptr.empty ∧
      (Sample.balmoraById.getPtr (RefId.stringRefId "chest")).1
        = { mRef := some { mRefID := RefId.stringRefId "chest", mRefNum := 1 },
            mCell := some Sample.balmora.mId } :=
  ⟨Reachable.runOps_reachable _ (Reachable.init Sample.store 2), by decide, by decide,
    by decide, by decide, by decide⟩

end MWWorld

namespace MWWorld

open ESM

namespace CellPreloader

theorem sweepLoop_keeps_unexpired (p : CellPreloader) (t : Int)
    (l kept : List (RefId × PreloadEntry))
    (h : p.mMinCacheSize ≤ kept.length + (l.filter (fun e => !p.expired t e)).length) :
    p.sweepLoop t l kept = kept ++ l.filter (fun e => !p.expired t e) := by
  induction l generalizing kept with
  | nil => simp [sweepLoop]
  | cons e rest ih =>
    have hle : (rest.filter (fun e => !p.expired t e)).length ≤ rest.length :=
      List.length_filter_le _ _
    by_cases he : p.expired t e = true
    · have hf : (e :: rest).filter (fun e => !p.expired t e)
          = rest.filter (fun e => !p.expired t e) := by simp [he]
      rw [hf] at h ⊢
      have hc : kept.length + (rest.length + 1) > p.mMinCacheSize := by omega
      simp only [sweepLoop, hc, he, and_self, if_true]
      exact ih kept h
    · have hf : (e :: rest).filter (fun e => !p.expired t e)
          = e :: rest.filter (fun e => !p.expired t e) := by simp [he]
      rw [hf] at h ⊢
      simp only [sweepLoop, he, and_false, if_false]
      rw [ih (kept ++ [e]) (by simp only [List.length_append, List.length_cons,
        List.length_nil] at h ⊢; omega)]
      simp

theorem length_sweepLoop (p : CellPreloader) (t : Int) (l kept : List (RefId × PreloadEntry)) :
    min (kept.length + l.length) p.mMinCacheSize ≤ (p.sweepLoop t l kept).length := by
  induction l generalizing kept with
  | nil => simp [sweepLoop]
  | cons e rest ih =>
    by_cases hc : kept.length + (rest.length + 1) > p.mMinCacheSize ∧ p.expired t e = true
    · simp only [sweepLoop, hc, and_self, if_true]
      have := ih kept
      simp only [List.length_cons]
      omega
    · simp only [sweepLoop, hc, if_false]
      have := ih (kept ++ [e])
      simp only [List.length_append, List.length_cons, List.length_nil] at this ⊢
      omega

theorem length_eraseP_ge {α : Type} (q : α → Bool) (l : List α) :
    l.length ≤ (l.eraseP q).length + 1 := by
  induction l with
  | nil => simp
  | cons a rest ih =>
    by_cases h : q a = true
    · simp [List.eraseP_cons, h]
    · simp [List.eraseP_cons, h]
      exact ih

theorem length_evictOldest (l : List (RefId × PreloadEntry)) :
    l.length ≤ (evictOldest l).length + 1 := by
  unfold evictOldest
  split
  · omega
  · exact length_eraseP_ge _ _

theorem length_evictLoop (m fuel : Nat) (l : List (RefId × PreloadEntry)) :
    min l.length m ≤ (evictLoop m fuel l).length := by
  induction fuel generalizing l with
  | zero => simp [evictLoop]
  | succ n ih =>
    by_cases h : l.length > m
    · simp only [evictLoop, h, if_true]
      have := ih (evictOldest l)
      have := length_evictOldest l
      omega
    · simp only [evictLoop, h, if_false]
      omega

end CellPreloader

/-- Claim C20. Prefetch eviction respects the size bounds. `updateCache` never leaves
fewer entries than the minimum cache size, or than there were if there were fewer.
With minimum 2 and maximum 4, for five Ready entries with increasing timestamps, in
whatever order the map holds them, a call at a time for which the three oldest are
past the expiry delay and the two newest are not leaves exactly the two newest. -/
theorem updateCache_respects_size_bounds :
    (∀ (p : CellPreloader) (t : Int),
        min p.mPreloadCells.length p.mMinCacheSize ≤ (p.updateCache t).mPreloadCells.length) ∧
      ∀ (c1 c2 c3 c4 c5 : RefId) (t1 t2 t3 t4 t5 d t : Int)
        (cells : List (RefId × PreloadEntry)),
        cells.Perm
          [(c1, { mTimeStamp := t1, mReady := true }), (c2, { mTimeStamp := t2, mReady := true }),
            (c3, { mTimeStamp := t3, mReady := true }), (c4, { mTimeStamp := t4, mReady := true }),
            (c5, { mTimeStamp := t5, mReady := true })] →
        t1 < t2 → t2 < t3 → t3 < t4 → t4 < t5 → t3 < t - d → t - d ≤ t4 →
        (CellPreloader.updateCache t
            { mExpiryDelay := d, mMinCacheSize := 2, mMaxCacheSize := 4,
              mPreloadCells := cells }).mPreloadCells.Perm
          [(c4, { mTimeStamp := t4, mReady := true }), (c5, { mTimeStamp := t5, mReady := true })] := by
  constructor
  · intro p t
    have h1 := CellPreloader.length_sweepLoop p t p.mPreloadCells []
    simp only [List.length_nil, Nat.zero_add] at h1
    unfold CellPreloader.updateCache
    simp only
    split
    · have h2 := CellPreloader.length_evictLoop p.mMinCacheSize
        (p.sweepLoop t p.mPreloadCells []).length (p.sweepLoop t p.mPreloadCells [])
      omega
    · exact h1
  · intro c1 c2 c3 c4 c5 t1 t2 t3 t4 t5 d t cells hperm h12 h23 h34 h45 hexp hfresh
    generalize hp :
      ({ mExpiryDelay := d, mMinCacheSize := 2, mMaxCacheSize := 4, mPreloadCells := cells } :
        CellPreloader) = p
    have hpd : p.mExpiryDelay = d := by rw [← hp]
    have hpmin : p.mMinCacheSize = 2 := by rw [← hp]
    have hpmax : p.mMaxCacheSize = 4 := by rw [← hp]
    have hpc : p.mPreloadCells = cells := by rw [← hp]
    have hfilter :
        ([(c1, ({ mTimeStamp := t1, mReady := true } : PreloadEntry)),
          (c2, { mTimeStamp := t2, mReady := true }),
          (c3, { mTimeStamp := t3, mReady := true }), (c4, { mTimeStamp := t4, mReady := true }),
          (c5, { mTimeStamp := t5, mReady := true })].filter (fun e => !p.expired t e))
          = [(c4, { mTimeStamp := t4, mReady := true }),
              (c5, { mTimeStamp := t5, mReady := true })] := by
      have e1 : t1 < t - d := by omega
      have e2 : t2 < t - d := by omega
      have e4 : ¬ t4 < t - d := by omega
      have e5 : ¬ t5 < t - d := by omega
      simp [CellPreloader.expired, hpd, e1, e2, hexp, e4, e5]
    have hfp := (hperm.filter (fun e => !p.expired t e))
    rw [hfilter] at hfp
    have hlen : (cells.filter (fun e => !p.expired t e)).length = 2 := by
      rw [hfp.length_eq]; rfl
    have hsweep := CellPreloader.sweepLoop_keeps_unexpired p t cells []
      (by rw [hpmin, hlen]; simp)
    simp only [List.nil_append] at hsweep
    unfold CellPreloader.updateCache
    simp only [hpc, hsweep, hlen, hpmax]
    simpa using hfp

end MWWorld

namespace MWWorld

open ESM

/-- Witness of `updateCache_respects_size_bounds`: five Ready entries stamped 10 to 50,
expiry delay 15, swept at time 50: the entries stamped 40 and 50 remain. -/
theorem updateCache_respects_size_bounds_witness :
    (CellPreloader.updateCache 50
        { mExpiryDelay := 15, mMinCacheSize := 2, mMaxCacheSize := 4,
          mPreloadCells :=
            [(RefId.formId 1, { mTimeStamp := 10, mReady := true }),
              (RefId.formId 2, { mTimeStamp := 20, mReady := true }),
              (RefId.formId 3, { mTimeStamp := 30, mReady := true }),
              (RefId.formId 4, { mTimeStamp := 40, mReady := true }),
              (RefId.formId 5, { mTimeStamp := 50, mReady := true })] }).mPreloadCells.Perm
      [(RefId.formId 4, { mTimeStamp := 40, mReady := true }),
        (RefId.formId 5, { mTimeStamp := 50, mReady := true })] :=
  updateCache_respects_size_bounds.2 (RefId.formId 1) (RefId.formId 2) (RefId.formId 3)
    (RefId.formId 4) (RefId.formId 5) 10 20 30 40 50 15 50 _ (List.Perm.refl _)
    (by decide) (by decide) (by decide) (by decide) (by decide) (by decide)

end MWWorld

namespace MWWorld

open ESM

theorem find?_of_nodup_map {α β : Type} [DecidableEq β] (f : α → β) (l : List α)
    (hn : (l.map f).Nodup) (a : α) (ha : a ∈ l) :
    l.find? (fun b => decide (f b = f a)) = some a := by
  induction l with
  | nil => cases ha
  | cons b rest ih =>
    simp only [List.map_cons, List.nodup_cons] at hn
    by_cases hb : f b = f a
    · rcases List.mem_cons.mp ha with rfl | hmem
      · simp
      · exact absurd (hb ▸ List.mem_map_of_mem f hmem) hn.1
    · rcases List.mem_cons.mp ha with rfl | hmem
      · exact absurd rfl hb
      · simp only [List.find?_cons, hb, decide_False]
        exact ih hn.2 hmem

theorem Cell.id_of_updateId_exterior (c : ESM.Cell) (h : c.updateId = c)
    (he : c.isExterior = true) : c.mId = RefId.esm3ExteriorCell c.mX c.mY := by
  have := congrArg ESM.Cell.mId h
  simp only [ESM.Cell.updateId, he, if_true] at this
  exact this.symm

theorem Cell.id_of_updateId_interior (c : ESM.Cell) (h : c.updateId = c)
    (he : c.isExterior = false) : c.mId = RefId.ofString c.mName := by
  have := congrArg ESM.Cell.mId h
  simp only [ESM.Cell.updateId, he, Bool.false_eq_true, if_false] at this
  exact this.symm

namespace ESMStore

theorem searchGrid_some (store : ESMStore) (x y : Int) (c : ESM.Cell)
    (h : store.searchGrid x y = some c) :
    c ∈ store.mCells ∧ c.isExterior = true ∧ c.mX = x ∧ c.mY = y := by
  unfold searchGrid at h
  have h1 := List.mem_of_find?_eq_some h
  have h2 := List.find?_some h
  simp only [Bool.and_eq_true, decide_eq_true_eq] at h2
  exact ⟨h1, h2.1.1, h2.1.2, h2.2⟩

theorem searchId_some (store : ESMStore) (id : RefId) (c : ESM.Cell)
    (h : store.searchId id = some c) : c ∈ store.mCells ∧ c.mId = id := by
  unfold searchId at h
  have h2 := List.find?_some h
  simp only [decide_eq_true_eq] at h2
  exact ⟨List.mem_of_find?_eq_some h, h2⟩

theorem searchEsm4Id_some (store : ESMStore) (id : RefId) (c : ESM4.Cell)
    (h : store.searchEsm4Id id = some c) : c ∈ store.mEsm4Cells ∧ c.mId = id := by
  unfold searchEsm4Id at h
  have h2 := List.find?_some h
  simp only [decide_eq_true_eq] at h2
  exact ⟨List.mem_of_find?_eq_some h, h2⟩

theorem searchId_of_mem (store : ESMStore) (hs : store.Consistent) (c : ESM.Cell)
    (hc : c ∈ store.mCells) : store.searchId c.mId = some c :=
  find?_of_nodup_map ESM.Cell.mId store.mCells hs.esm3Unique c hc

theorem searchEsm4Id_of_mem (store : ESMStore) (hs : store.Consistent) (c : ESM4.Cell)
    (hc : c ∈ store.mEsm4Cells) : store.searchEsm4Id c.mId = some c :=
  find?_of_nodup_map ESM4.Cell.mId store.mEsm4Cells hs.esm4Unique c hc

theorem esm3_id_shape (store : ESMStore) (hs : store.Consistent) (c : ESM.Cell)
    (hc : c ∈ store.mCells) :
    (c.isExterior = true ∧ c.mId = RefId.esm3ExteriorCell c.mX c.mY) ∨
      (c.isExterior = false ∧ c.mId = RefId.ofString c.mName) := by
  cases he : c.isExterior
  · exact Or.inr ⟨rfl, Cell.id_of_updateId_interior c (hs.esm3Ids c hc) he⟩
  · exact Or.inl ⟨rfl, Cell.id_of_updateId_exterior c (hs.esm3Ids c hc) he⟩

theorem esm3_not_esm4Id (store : ESMStore) (hs : store.Consistent) (c : ESM.Cell)
    (hc : c ∈ store.mCells) : store.isEsm4Id c.mId = false := by
  rcases store.esm3_id_shape hs c hc with ⟨_, h⟩ | ⟨_, h⟩ <;> rw [h] <;> rfl

theorem searchEsm4Id_of_esm3 (store : ESMStore) (hs : store.Consistent) (c : ESM.Cell)
    (hc : c ∈ store.mCells) : store.searchEsm4Id c.mId = none := by
  cases h : store.searchEsm4Id c.mId with
  | none => rfl
  | some c4 =>
    have h4 := store.searchEsm4Id_some _ _ h
    have := hs.esm4Ids c4 h4.1
    rw [h4.2, store.esm3_not_esm4Id hs c hc] at this
    cases this

theorem esm4_not_exteriorId (store : ESMStore) (hs : store.Consistent) (c : ESM4.Cell)
    (hc : c ∈ store.mEsm4Cells) : c.mId.getIfEsm3ExteriorCell = none := by
  have := hs.esm4Ids c hc
  cases hid : c.mId <;> simp [hid, isEsm4Id] at this <;> rfl

theorem resolve_of_mem_esm3 (store : ESMStore) (hs : store.Consistent) (c : ESM.Cell)
    (hc : c ∈ store.mCells) : store.resolve c.mId = some (Cell.ofEsm3 c) := by
  rcases store.esm3_id_shape hs c hc with ⟨he, hid⟩ | ⟨he, hid⟩
  · have hfound : (store.searchGrid c.mX c.mY).isSome = true := by
      unfold searchGrid
      rw [List.find?_isSome]
      exact ⟨c, hc, by simp [he]⟩
    cases hg : store.searchGrid c.mX c.mY with
    | none => simp [hg] at hfound
    | some c2 =>
      have h2 := store.searchGrid_some _ _ _ hg
      have hid2 := Cell.id_of_updateId_exterior c2 (hs.esm3Ids c2 h2.1) h2.2.1
      have hsame : c2.mId = c.mId := by rw [hid2, hid, h2.2.2.1, h2.2.2.2]
      have e1 := store.searchId_of_mem hs c2 h2.1
      have e2 := store.searchId_of_mem hs c hc
      rw [hsame, e2] at e1
      simp only [Option.some.injEq] at e1
      subst e1
      simp [resolve, hid, RefId.getIfEsm3ExteriorCell, hg]
  · have hnone : c.mId.getIfEsm3ExteriorCell = none := by rw [hid]; rfl
    simp [resolve, hnone, createCell, store.searchEsm4Id_of_esm3 hs c hc,
      store.searchId_of_mem hs c hc]

theorem resolve_of_mem_esm4 (store : ESMStore) (hs : store.Consistent) (c : ESM4.Cell)
    (hc : c ∈ store.mEsm4Cells) : store.resolve c.mId = some (Cell.ofEsm4 c) := by
  simp [resolve, store.esm4_not_exteriorId hs c hc, createCell, store.searchEsm4Id_of_mem hs c hc]

theorem resolve_id (store : ESMStore) (hs : store.Consistent) (id : RefId) (cell : Cell)
    (h : store.resolve id = some cell) : cell.mId = id := by
  unfold resolve at h
  split at h
  · next x y hxy =>
    cases hg : store.searchGrid x y with
    | none => simp [hg] at h
    | some c =>
      simp only [hg, Option.map_some', Option.some.injEq] at h
      subst h
      have h2 := store.searchGrid_some _ _ _ hg
      have hid := Cell.id_of_updateId_exterior c (hs.esm3Ids c h2.1) h2.2.1
      cases id <;> simp [RefId.getIfEsm3ExteriorCell] at hxy
      simp [Cell.ofEsm3, hid, h2.2.2.1, h2.2.2.2, hxy.1, hxy.2]
  · unfold createCell at h
    split at h
    · next c4 h4 =>
      simp only [Option.some.injEq] at h
      subst h
      exact (store.searchEsm4Id_some _ _ h4).2
    · split at h
      · next c h3 =>
        simp only [Option.some.injEq] at h
        subst h
        exact (store.searchId_some _ _ h3).2
      · cases h

end ESMStore

end MWWorld

namespace MWWorld

open ESM

namespace ESMStore

theorem createEsmCell_fst (location : ExteriorCellLocation) (store : ESMStore) :
    (createEsmCell location store).1.isExterior = true ∧
      (createEsmCell location store).1.mId
        = RefId.esm3ExteriorCell location.mX location.mY ∧
      (createEsmCell location store).1.mX = location.mX ∧
      (createEsmCell location store).1.mY = location.mY ∧
      (createEsmCell location store).1.updateId = (createEsmCell location store).1 ∧
      (createEsmCell location store).2
        = { store with mCells := store.mCells ++ [(createEsmCell location store).1] } := by
  have he : ∀ (id : RefId), ESM.Cell.isExterior
      { mId := id, mName := "", mFlags := ESM.Cell.HasWater, mX := location.mX,
        mY := location.mY, mWater := 0, mMapColor := 0, mRegion := RefId.empty,
        mRefs := [] } = true := by
    intro id
    simp only [ESM.Cell.isExterior, ESM.Cell.isInterior]
    decide
  simp [createEsmCell, insertCell, ESM.Cell.updateId, he]

theorem consistent_createEsmCell (store : ESMStore) (hs : store.Consistent)
    (location : ExteriorCellLocation)
    (hn : store.searchGrid location.mX location.mY = none) :
    (createEsmCell location store).2.Consistent := by
  obtain ⟨he, hid, hx, hy, hu, hstore⟩ := createEsmCell_fst location store
  rw [hstore]
  constructor
  · intro c hc
    simp only [List.mem_append, List.mem_singleton] at hc
    rcases hc with hc | rfl
    · exact hs.esm3Ids c hc
    · exact hu
  · simp only [List.map_append, List.map_cons, List.map_nil]
    rw [List.nodup_append]
    refine ⟨hs.esm3Unique, List.nodup_singleton _, ?_⟩
    intro a ha hb
    simp only [List.mem_singleton] at hb
    subst hb
    simp only [List.mem_map] at ha
    obtain ⟨c, hc, hcid⟩ := ha
    rw [hid] at hcid
    rcases store.esm3_id_shape hs c hc with ⟨hce, hcs⟩ | ⟨_, hcs⟩
    · rw [hcs] at hcid
      simp only [RefId.esm3ExteriorCell.injEq] at hcid
      have hfound : (store.searchGrid location.mX location.mY).isSome = true := by
        unfold searchGrid
        rw [List.find?_isSome]
        exact ⟨c, hc, by simp [hce, hcid.1, hcid.2]⟩
      simp [hn] at hfound
    · rw [hcs] at hcid
      cases hcid
  · exact hs.esm4Ids
  · exact hs.esm4Unique
  · exact hs.esm4Worlds

theorem resolve_mono_cells (store s2 : ESMStore) (r : ESM.Cell)
    (h2c : s2.mCells = store.mCells ++ [r]) (h24 : s2.mEsm4Cells = store.mEsm4Cells)
    (id : RefId) (cell : Cell) (h : store.resolve id = some cell) :
    s2.resolve id = some cell := by
  have hg : ∀ x y c, store.searchGrid x y = some c → s2.searchGrid x y = some c := by
    intro x y c hc
    unfold searchGrid at hc ⊢
    rw [h2c, List.find?_append, hc]
    rfl
  have h4 : s2.searchEsm4Id id = store.searchEsm4Id id := by
    unfold searchEsm4Id
    rw [h24]
  have h3 : ∀ c, store.searchId id = some c → s2.searchId id = some c := by
    intro c hc
    unfold searchId at hc ⊢
    rw [h2c, List.find?_append, hc]
    rfl
  cases hx : id.getIfEsm3ExteriorCell with
  | some xy =>
    obtain ⟨x, y⟩ := xy
    simp only [resolve, hx] at h ⊢
    cases hgs : store.searchGrid x y with
    | none => simp [hgs] at h
    | some c =>
      rw [hgs] at h
      rw [hg x y c hgs]
      exact h
  | none =>
    simp only [resolve, hx, createCell] at h ⊢
    rw [h4]
    cases h4s : store.searchEsm4Id id with
    | some c4 => simpa [h4s] using h
    | none =>
      simp only [h4s] at h ⊢
      cases h3s : store.searchId id with
      | none => simp [h3s] at h
      | some c =>
        rw [h3s] at h
        rw [h3 c h3s]
        exact h

theorem resolve_createEsmCell (store : ESMStore) (location : ExteriorCellLocation)
    (id : RefId) (cell : Cell) (h : store.resolve id = some cell) :
    (createEsmCell location store).2.resolve id = some cell := by
  obtain ⟨_, _, _, _, _, hstore⟩ := createEsmCell_fst location store
  exact resolve_mono_cells store _ (createEsmCell location store).1
    (by rw [hstore]) (by rw [hstore]) id cell h

theorem createEsm4Cell_fst (location : ExteriorCellLocation) (store : ESMStore) :
    (createEsm4Cell location store).1.isExterior = true ∧
      (createEsm4Cell location store).1.mId = RefId.generated store.mDynamicCount ∧
      (createEsm4Cell location store).1.mParent = location.mWorldspace ∧
      (createEsm4Cell location store).2
        = { store with mEsm4Cells := store.mEsm4Cells ++ [(createEsm4Cell location store).1],
                       mDynamicCount := store.mDynamicCount + 1 } := by
  refine ⟨?_, rfl, rfl, rfl⟩
  simp only [createEsm4Cell, insertEsm4Cell, ESM4.Cell.isExterior]
  decide

theorem isEsm4Id_mono (store s2 : ESMStore) (hc : store.mDynamicCount ≤ s2.mDynamicCount)
    (id : RefId) (h : store.isEsm4Id id = true) : s2.isEsm4Id id = true := by
  cases id <;> simp [isEsm4Id] at h ⊢
  omega

theorem consistent_createEsm4Cell (store : ESMStore) (hs : store.Consistent)
    (location : ExteriorCellLocation) (hw : isEsm4Ext location.mWorldspace = true) :
    (createEsm4Cell location store).2.Consistent := by
  obtain ⟨he, hid, hpar, hstore⟩ := createEsm4Cell_fst location store
  rw [hstore]
  constructor
  · exact hs.esm3Ids
  · exact hs.esm3Unique
  · intro c hc
    simp only [List.mem_append, List.mem_singleton] at hc
    rcases hc with hc | rfl
    · exact isEsm4Id_mono store _ (Nat.le_succ _) _ (hs.esm4Ids c hc)
    · rw [hid]
      simp [isEsm4Id]
  · simp only [List.map_append, List.map_cons, List.map_nil]
    rw [List.nodup_append]
    refine ⟨hs.esm4Unique, List.nodup_singleton _, ?_⟩
    intro a ha hb
    simp only [List.mem_singleton] at hb
    subst hb
    simp only [List.mem_map] at ha
    obtain ⟨c, hc, hcid⟩ := ha
    have := hs.esm4Ids c hc
    rw [hcid, hid] at this
    simp [isEsm4Id] at this
  · intro c hc hce
    simp only [List.mem_append, List.mem_singleton] at hc
    rcases hc with hc | rfl
    · exact hs.esm4Worlds c hc hce
    · rw [hpar]; exact hw

theorem resolve_createEsm4Cell (store : ESMStore) (hs : store.Consistent)
    (location : ExteriorCellLocation) (id : RefId) (cell : Cell)
    (h : store.resolve id = some cell) :
    (createEsm4Cell location store).2.resolve id = some cell := by
  obtain ⟨_, hid, _, hstore⟩ := createEsm4Cell_fst location store
  generalize (createEsm4Cell location store).1 = r at hid hstore
  generalize (createEsm4Cell location store).2 = s2 at hstore
  have h2c : s2.mCells = store.mCells := by rw [hstore]
  have h24 : s2.mEsm4Cells = store.mEsm4Cells ++ [r] := by rw [hstore]
  have hg : ∀ x y, s2.searchGrid x y = store.searchGrid x y := by
    intro x y
    unfold searchGrid
    rw [h2c]
  have h3 : s2.searchId id = store.searchId id := by
    unfold searchId
    rw [h2c]
  cases hx : id.getIfEsm3ExteriorCell with
  | some xy =>
    obtain ⟨x, y⟩ := xy
    simp only [resolve, hx] at h ⊢
    rw [hg]
    exact h
  | none =>
    simp only [resolve, hx, createCell] at h ⊢
    rw [h3]
    cases h4s : store.searchEsm4Id id with
    | some c4 =>
      have : s2.searchEsm4Id id = some c4 := by
        unfold searchEsm4Id at h4s ⊢
        rw [h24, List.find?_append, h4s]
        rfl
      rw [this]
      simpa [h4s] using h
    | none =>
      simp only [h4s] at h
      cases h3s : store.searchId id with
      | none => simp [h3s] at h
      | some c =>
        have h3m := store.searchId_some _ _ h3s
        have hne : r.mId ≠ id := by
          intro e
          rcases store.esm3_id_shape hs c h3m.1 with ⟨_, hsh⟩ | ⟨_, hsh⟩ <;>
            · rw [h3m.2, ← e, hid] at hsh
              cases hsh
        have : s2.searchEsm4Id id = none := by
          unfold searchEsm4Id at h4s ⊢
          rw [h24, List.find?_append, h4s]
          simp [hne]
        rw [this]
        simpa [h3s] using h

end ESMStore

end MWWorld

namespace MWWorld

open ESM

theorem ESMStore.searchExterior_some (store : ESMStore) (location : ExteriorCellLocation)
    (c : ESM4.Cell) (h : store.searchExterior location = some c) : c ∈ store.mEsm4Cells :=
  List.mem_of_find?_eq_some h

/-- What `createExteriorCell` gives over a consistent content store: the content store
stays consistent and keeps every definition it gave, the definition returned is the
one the new content store gives for its identifier, and for the default worldspace
that identifier is the ESM3 exterior identifier of the location. -/
theorem createExteriorCell_coherent (store : ESMStore) (hs : store.Consistent)
    (location : ExteriorCellLocation) (cell : Cell) (created : Bool) (store2 : ESMStore)
    (h : createExteriorCell location store = Except.ok (cell, created, store2)) :
    store2.Consistent ∧
      (∀ id c, store.resolve id = some c → store2.resolve id = some c) ∧
      store2.resolve cell.mId = some cell ∧
      (isEsm4Ext location.mWorldspace = false →
        cell.mId = RefId.esm3ExteriorCell location.mX location.mY) := by
  unfold createExteriorCell at h
  cases hw : isEsm4Ext location.mWorldspace with
  | true =>
    simp only [hw, if_true] at h
    split at h
    · cases h
    · cases hx : store.searchExterior location with
      | some c4 =>
        simp only [hx, Except.ok.injEq, Prod.mk.injEq] at h
        obtain ⟨h1, -, h3⟩ := h
        subst h1; subst h3
        have hm := store.searchExterior_some location c4 hx
        refine ⟨hs, fun _ _ hr => hr, ?_, fun hf => by cases hf⟩
        exact store.resolve_of_mem_esm4 hs c4 hm
      | none =>
        simp only [hx, Except.ok.injEq, Prod.mk.injEq] at h
        obtain ⟨h1, -, h3⟩ := h
        subst h1; subst h3
        have hc2 := store.consistent_createEsm4Cell hs location hw
        obtain ⟨_, _, _, hstore⟩ := ESMStore.createEsm4Cell_fst location store
        refine ⟨hc2, fun id c hr => store.resolve_createEsm4Cell hs location id c hr, ?_,
          fun hf => by cases hf⟩
        apply ESMStore.resolve_of_mem_esm4 _ hc2
        rw [hstore]
        simp
  | false =>
    simp only [hw, Bool.false_eq_true, if_false] at h
    cases hx : store.searchGrid location.mX location.mY with
    | some c =>
      simp only [hx, Except.ok.injEq, Prod.mk.injEq] at h
      obtain ⟨h1, -, h3⟩ := h
      subst h1; subst h3
      have hm := store.searchGrid_some _ _ _ hx
      refine ⟨hs, fun _ _ hr => hr, store.resolve_of_mem_esm3 hs c hm.1, fun _ => ?_⟩
      have := Cell.id_of_updateId_exterior c (hs.esm3Ids c hm.1) hm.2.1
      simp [Cell.ofEsm3, this, hm.2.2.1, hm.2.2.2]
    | none =>
      simp only [hx, Except.ok.injEq, Prod.mk.injEq] at h
      obtain ⟨h1, -, h3⟩ := h
      subst h1; subst h3
      have hc2 := store.consistent_createEsmCell hs location hx
      obtain ⟨_, hid, _, _, _, hstore⟩ := ESMStore.createEsmCell_fst location store
      refine ⟨hc2, fun id c hr => store.resolve_createEsmCell location id c hr, ?_,
        fun _ => by simp [Cell.ofEsm3, hid]⟩
      apply ESMStore.resolve_of_mem_esm3 _ hc2
      rw [hstore]
      simp

theorem mem_tableModify {κ β : Type} [DecidableEq κ] (k : κ) (g : β → β) (t : List (κ × β))
    (p : κ × β) (h : p ∈ tableModify k g t) :
    ∃ q ∈ t, q.1 = p.1 ∧ (p.2 = q.2 ∨ (tableFind k t = some q.2 ∧ p.2 = g q.2)) := by
  induction t with
  | nil => cases h
  | cons a rest ih =>
    obtain ⟨k2, v⟩ := a
    unfold tableModify at h
    split at h
    · next hk =>
      rcases List.mem_cons.mp h with rfl | hm
      · exact ⟨(k2, v), List.mem_cons_self _ _, rfl, Or.inr ⟨by simp [tableFind, hk], rfl⟩⟩
      · exact ⟨p, List.mem_cons_of_mem _ hm, rfl, Or.inl rfl⟩
    · next hk =>
      rcases List.mem_cons.mp h with rfl | hm
      · exact ⟨(k2, v), List.mem_cons_self _ _, rfl, Or.inl rfl⟩
      · obtain ⟨q, hq, e1, e2⟩ := ih hm
        refine ⟨q, List.mem_cons_of_mem _ hq, e1, ?_⟩
        rcases e2 with e2 | ⟨e2, e3⟩
        · exact Or.inl e2
        · exact Or.inr ⟨by simp [tableFind, hk, e2], e3⟩

theorem mem_hashEmplace {κ β : Type} [DecidableEq κ] (k : κ) (v : β) (t : List (κ × β))
    (p : κ × β) (h : p ∈ hashEmplace k v t) : p = (k, v) ∨ p ∈ t := by
  unfold hashEmplace at h
  split at h
  · exact Or.inr h
  · simp only [List.mem_append, List.mem_singleton] at h
    exact h.symm

theorem Coherent.coh_cells {w w2 : WorldModel} (h : Coherent w) (hs : w2.mStore = w.mStore)
    (he : w2.mExteriors = w.mExteriors)
    (hc : ∀ p ∈ w2.mCells, ∃ q ∈ w.mCells, q.1 = p.1 ∧ q.2.mCellVariant = p.2.mCellVariant) :
    Coherent w2 := by
  constructor
  · rw [hs]; exact h.storeConsistent
  · intro p hp
    obtain ⟨q, hq, e1, e2⟩ := hc p hp
    rw [hs, ← e1, ← e2]
    exact h.resolves q hq
  · rw [he]; exact h.gridIndex

theorem Coherent.coh_congr {w w2 : WorldModel} (h : Coherent w) (hs : w2.mStore = w.mStore)
    (he : w2.mExteriors = w.mExteriors) (hc : w2.mCells = w.mCells) : Coherent w2 :=
  h.coh_cells hs he (fun p hp => ⟨p, hc ▸ hp, rfl, rfl⟩)

theorem Coherent.coh_modify {w w2 : WorldModel} (h : Coherent w) (k : RefId)
    (g : CellStore → CellStore)
    (hg : ∀ cs, tableFind k w.mCells = some cs → (g cs).mCellVariant = cs.mCellVariant)
    (hs : w2.mStore = w.mStore) (he : w2.mExteriors = w.mExteriors)
    (hc : w2.mCells = tableModify k g w.mCells) : Coherent w2 := by
  refine h.coh_cells hs he ?_
  intro p hp
  rw [hc] at hp
  obtain ⟨q, hq, e1, e2⟩ := mem_tableModify k g _ p hp
  refine ⟨q, hq, e1, ?_⟩
  rcases e2 with e2 | ⟨e2, e3⟩
  · rw [e2]
  · rw [e3]; exact (hg q.2 e2).symm

theorem Coherent.coh_emplace {w w2 : WorldModel} (h : Coherent w) (id : RefId) (cell : Cell)
    (hr : w.mStore.resolve id = some cell) (hs : w2.mStore = w.mStore)
    (he : w2.mExteriors = w.mExteriors)
    (hc : w2.mCells = (emplaceCellStore id cell w.mCells).2) : Coherent w2 := by
  constructor
  · rw [hs]; exact h.storeConsistent
  · intro p hp
    rw [hc] at hp
    rcases mem_hashEmplace _ _ _ p hp with rfl | hm
    · rw [hs]; exact hr
    · rw [hs]; exact h.resolves p hm
  · rw [he]; exact h.gridIndex

theorem Coherent.coh_exterior {w w2 : WorldModel} (h : Coherent w)
    (location : ExteriorCellLocation) (k : RefId)
    (hk : isEsm4Ext location.mWorldspace = false →
      k = RefId.esm3ExteriorCell location.mX location.mY)
    (hs : w2.mStore = w.mStore) (hc : w2.mCells = w.mCells)
    (he : w2.mExteriors = mapEmplace ExteriorCellLocation.lt location k w.mExteriors) :
    Coherent w2 := by
  constructor
  · rw [hs]; exact h.storeConsistent
  · rw [hs, hc]; exact h.resolves
  · intro p hp
    rw [he] at hp
    rcases mem_mapEmplace _ _ _ _ p hp with rfl | hm
    · exact hk
    · exact h.gridIndex p hm

theorem Coherent.coh_store {w w2 : WorldModel} (h : Coherent w) (hcons : w2.mStore.Consistent)
    (hmono : ∀ id c, w.mStore.resolve id = some c → w2.mStore.resolve id = some c)
    (hc : w2.mCells = w.mCells) (he : w2.mExteriors = w.mExteriors) : Coherent w2 := by
  constructor
  · exact hcons
  · intro p hp
    rw [hc] at hp
    exact hmono _ _ (h.resolves p hp)
  · rw [he]; exact h.gridIndex

end MWWorld

namespace MWWorld

open ESM

theorem CellStore.load_variant (cs : CellStore) : cs.load.mCellVariant = cs.mCellVariant := by
  unfold CellStore.load
  split <;> rfl

theorem CellStore.preload_variant (cs : CellStore) :
    cs.preload.mCellVariant = cs.mCellVariant := by
  unfold CellStore.preload
  split <;> rfl

theorem CellStore.getPtr_variant (self id : RefId) (cs : CellStore) :
    (cs.getPtr self id).2.mCellVariant = cs.mCellVariant := by
  have key : ∀ (b : Bool) (x y : Ptr × CellStore), x.2.mCellVariant = cs.mCellVariant →
      y.2.mCellVariant = cs.mCellVariant → (if b = true then x else y).2.mCellVariant
        = cs.mCellVariant := by
    intro b x y hx hy
    cases b <;> simp [hx, hy]
  unfold CellStore.getPtr
  simp only
  split
  · split
    · exact key _ _ _ (by simp [CellStore.load_variant, CellStore.preload_variant])
        (by simp [CellStore.preload_variant])
    · simp [CellStore.preload_variant]
  · split
    · exact key _ _ _ (by simp [CellStore.load_variant]) rfl
    · rfl

theorem Coherent.coh_loadIf {w : WorldModel} (h : Coherent w) (f : Bool) (k : RefId) :
    Coherent (w.loadIf f k) := by
  unfold WorldModel.loadIf
  split
  · exact h
  · split
    · exact h.coh_modify k CellStore.load (fun cs _ => cs.load_variant) rfl rfl rfl
    · exact h

theorem Coherent.coh_cellGetPtr {w : WorldModel} (h : Coherent w) (name k : RefId) :
    Coherent (w.cellGetPtr name k).2 := by
  unfold WorldModel.cellGetPtr
  split
  · exact h
  · next cs hcs =>
    refine h.coh_modify k (fun _ => (cs.getPtr k name).2) ?_ rfl rfl rfl
    intro cs2 hcs2
    rw [hcs] at hcs2
    cases hcs2
    exact CellStore.getPtr_variant k name cs

theorem Coherent.coh_getPtrAndCache {w : WorldModel} (h : Coherent w) (name k : RefId) :
    Coherent (w.getPtrAndCache name k).2 := by
  unfold WorldModel.getPtrAndCache
  simp only
  split
  · exact (h.coh_cellGetPtr name k).coh_congr rfl rfl rfl
  · exact h.coh_cellGetPtr name k

theorem Coherent.coh_searchCache {w : WorldModel} (h : Coherent w) (name : RefId)
    (cache : List (RefId × Option RefId)) : Coherent (WorldModel.searchCache name cache w).2 := by
  induction cache generalizing w with
  | nil => exact h
  | cons p rest ih =>
    obtain ⟨cachedId, cellStore⟩ := p
    cases cellStore with
    | none => simpa [WorldModel.searchCache] using ih h
    | some k =>
      unfold WorldModel.searchCache
      simp only
      split
      · exact ih h
      · split
        · exact h.coh_cellGetPtr name k
        · exact ih (h.coh_cellGetPtr name k)

theorem Coherent.coh_searchStores {w : WorldModel} (h : Coherent w) (name : RefId)
    (ks : List RefId) : Coherent (WorldModel.searchStores name ks w).2 := by
  induction ks generalizing w with
  | nil => exact h
  | cons k rest ih =>
    unfold WorldModel.searchStores
    simp only
    split
    · exact h.coh_getPtrAndCache name k
    · exact ih (h.coh_getPtrAndCache name k)

theorem Coherent.coh_insertCellStore {w : WorldModel} (h : Coherent w) (c : ESM.Cell)
    (hc : c ∈ w.mStore.mCells) : Coherent (w.insertCellStore c).2 := by
  have hr := w.mStore.resolve_of_mem_esm3 h.storeConsistent c hc
  have h1 : Coherent { w with mCells := (emplaceCellStore c.mId (Cell.ofEsm3 c) w.mCells).2 } :=
    h.coh_emplace c.mId _ hr rfl rfl rfl
  unfold WorldModel.insertCellStore
  split
  · exact h1.coh_congr rfl rfl rfl
  · next hflag =>
    refine h1.coh_exterior _ c.mId ?_ rfl rfl rfl
    intro _
    have he : c.isExterior = true := by
      simp only [ESM.Cell.isExterior, ESM.Cell.isInterior]
      simpa using hflag
    exact Cell.id_of_updateId_exterior c (h.storeConsistent.esm3Ids c hc) he

theorem Coherent.coh_getOrInsertCellStore {w : WorldModel} (h : Coherent w) (c : ESM.Cell)
    (hc : c ∈ w.mStore.mCells) : Coherent (w.getOrInsertCellStore c).2 := by
  unfold WorldModel.getOrInsertCellStore
  split
  · exact h
  · exact h.coh_insertCellStore c hc

theorem Coherent.coh_searchDefinitions {w : WorldModel} (h : Coherent w) (name : RefId)
    (cs : List ESM.Cell) (hcs : ∀ c ∈ cs, c ∈ w.mStore.mCells) :
    Coherent (WorldModel.searchDefinitions name cs w).2 := by
  induction cs generalizing w with
  | nil => exact h
  | cons c rest ih =>
    have hc := hcs c (List.mem_cons_self _ _)
    have hrest : ∀ c2 ∈ rest, c2 ∈ w.mStore.mCells :=
      fun c2 h2 => hcs c2 (List.mem_cons_of_mem _ h2)
    unfold WorldModel.searchDefinitions
    split
    · exact ih h hrest
    · simp only
      have h2 := (h.coh_insertCellStore c hc).coh_getPtrAndCache name (w.insertCellStore c).1
      split
      · exact h2
      · refine ih h2 ?_
        rw [(WorldModel.getPtrAndCache_content _ _ _).1, (WorldModel.insertCellStore_content _ _).1]
        exact hrest

theorem ESMStore.mem_of_mem_extCells (store : ESMStore) (c : ESM.Cell)
    (h : c ∈ store.extCells) : c ∈ store.mCells := (List.mem_filter.mp h).1

theorem ESMStore.mem_of_mem_intCells (store : ESMStore) (c : ESM.Cell)
    (h : c ∈ store.intCells) : c ∈ store.mCells := (List.mem_filter.mp h).1

theorem Coherent.coh_fullSearch {w : WorldModel} (h : Coherent w) (name : RefId) :
    Coherent (WorldModel.fullSearch name w).2 := by
  unfold WorldModel.fullSearch
  have e1 := h.coh_searchStores name (w.mExteriors.reverse.map Prod.snd)
  rcases h1 : WorldModel.searchStores name (w.mExteriors.reverse.map Prod.snd) w with ⟨_ | p, w1⟩
  all_goals rw [h1] at e1; simp only at e1 ⊢
  swap; exact e1
  have e2 := e1.coh_searchStores name (w1.mInteriors.map Prod.snd)
  rcases h2 : WorldModel.searchStores name (w1.mInteriors.map Prod.snd) w1 with ⟨_ | p, w2⟩
  all_goals rw [h2] at e2; simp only at e2 ⊢
  swap; exact e2
  have e3 := e2.coh_searchDefinitions name w2.mStore.extCells
    (fun c hc => w2.mStore.mem_of_mem_extCells c hc)
  rcases h3 : WorldModel.searchDefinitions name w2.mStore.extCells w2 with ⟨_ | p, w3⟩
  all_goals rw [h3] at e3; simp only at e3 ⊢
  swap; exact e3
  have e4 := e3.coh_searchDefinitions name w3.mStore.intCells
    (fun c hc => w3.mStore.mem_of_mem_intCells c hc)
  rcases h4 : WorldModel.searchDefinitions name w3.mStore.intCells w3 with ⟨_ | p, w4⟩
  all_goals rw [h4] at e4; simp only at e4 ⊢
  all_goals exact e4

theorem Coherent.coh_getPtr {w : WorldModel} (h : Coherent w) (name : RefId) :
    Coherent (w.getPtr name).2 := by
  unfold WorldModel.getPtr
  have e1 := h.coh_searchCache name w.mIdCache
  rcases h1 : WorldModel.searchCache name w.mIdCache w with ⟨_ | p, w1⟩
  all_goals rw [h1] at e1; simp only at e1 ⊢
  · exact e1.coh_fullSearch name
  · exact e1

theorem Coherent.coh_getExteriorPtrsLoop {w : WorldModel} (h : Coherent w) (name : RefId)
    (cs : List ESM.Cell) (hcs : ∀ c ∈ cs, c ∈ w.mStore.mCells) (out : List Ptr) :
    Coherent (WorldModel.getExteriorPtrsLoop name cs out w).2 := by
  induction cs generalizing w out with
  | nil => exact h
  | cons c rest ih =>
    unfold WorldModel.getExteriorPtrsLoop
    simp only
    refine ih ((h.coh_getOrInsertCellStore c (hcs c (List.mem_cons_self _ _))).coh_getPtrAndCache
      name _) ?_ _
    rw [(WorldModel.getPtrAndCache_content _ _ _).1,
      (WorldModel.getOrInsertCellStore_content _ _).1]
    exact fun c2 h2 => hcs c2 (List.mem_cons_of_mem _ h2)

end MWWorld

namespace MWWorld

open ESM

theorem CellStore.getAllVisit_variant (id k : RefId) (cs : CellStore) :
    (WorldModel.getAllVisit id k cs).2.mCellVariant = cs.mCellVariant := by
  unfold WorldModel.getAllVisit
  simp only
  split
  · split
    · split
      · simp [CellStore.preload_variant]
      · simp [CellStore.load_variant, CellStore.preload_variant]
    · simp [CellStore.preload_variant]
  · split
    · split
      · rfl
      · simp [CellStore.load_variant]
    · rfl

theorem WorldModel.mem_getAllLoop_snd (id : RefId) (t : List (RefId × CellStore))
    (p : RefId × CellStore) (h : p ∈ (WorldModel.getAllLoop id t).2) :
    ∃ q ∈ t, q.1 = p.1 ∧ q.2.mCellVariant = p.2.mCellVariant := by
  induction t with
  | nil => simp [WorldModel.getAllLoop] at h
  | cons a rest ih =>
    obtain ⟨k, cs⟩ := a
    simp only [WorldModel.getAllLoop, List.mem_cons] at h
    rcases h with rfl | hm
    · exact ⟨(k, cs), List.mem_cons_self _ _, rfl, (CellStore.getAllVisit_variant id k cs).symm⟩
    · obtain ⟨q, hq, e⟩ := ih hm
      exact ⟨q, List.mem_cons_of_mem _ hq, e⟩

theorem Coherent.coh_getAll {w : WorldModel} (h : Coherent w) (id : RefId) :
    Coherent (w.getAll id).2 :=
  h.coh_cells rfl rfl (fun p hp => WorldModel.mem_getAllLoop_snd id w.mCells p hp)

theorem Coherent.coh_getExterior {w : WorldModel} (h : Coherent w)
    (location : ExteriorCellLocation) (f : Bool) (c : RefId) (w1 : WorldModel)
    (hc : w.getExterior location f = Except.ok (c, w1)) :
    Coherent w1 ∧
      (isEsm4Ext location.mWorldspace = false →
        c = RefId.esm3ExteriorCell location.mX location.mY) := by
  unfold WorldModel.getExterior at hc
  cases hfind : tableFind location w.mExteriors with
  | some k =>
    simp only [hfind, Except.ok.injEq, Prod.mk.injEq] at hc
    obtain ⟨h1, h2⟩ := hc
    subst h1; subst h2
    exact ⟨h.coh_loadIf f k, h.gridIndex (location, k) (tableFind_mem _ hfind)⟩
  | none =>
    simp only [hfind] at hc
    cases hr : createExteriorCell location w.mStore with
    | error e => simp [hr] at hc
    | ok r =>
      obtain ⟨cell, created, store⟩ := r
      simp only [hr, Except.ok.injEq, Prod.mk.injEq] at hc
      obtain ⟨h1, h2⟩ := hc
      subst h1; subst h2
      obtain ⟨hcons, hmono, hres, hid⟩ :=
        createExteriorCell_coherent w.mStore h.storeConsistent location cell created store hr
      have hA : Coherent { w with mStore := store } := h.coh_store hcons hmono rfl rfl
      have hB : Coherent (⟨store, (emplaceCellStore cell.mId cell w.mCells).2, w.mInteriors,
          w.mExteriors, w.mIdCache, w.mIdCacheIndex, w.mExteriorCreated⟩ : WorldModel) :=
        hA.coh_emplace cell.mId cell hres rfl rfl rfl
      refine ⟨Coherent.coh_loadIf ?_ f _, hid⟩
      exact hB.coh_exterior location cell.mId hid rfl rfl rfl

theorem Coherent.coh_findInterior {w : WorldModel} (h : Coherent w) (name : String) (f : Bool) :
    Coherent (w.findInterior name f).2 := by
  unfold WorldModel.findInterior
  split
  · split
    · next cell hcell =>
      have hm : cell ∈ w.mStore.mCells := List.mem_of_find?_eq_some hcell
      have hA : Coherent { w with mCells := (emplaceCellStore cell.mId (Cell.ofEsm3 cell)
          w.mCells).2 } :=
        h.coh_emplace cell.mId _ (w.mStore.resolve_of_mem_esm3 h.storeConsistent cell hm)
          rfl rfl rfl
      exact hA.coh_loadIf f _
    · split
      · next cell4 hcell =>
        have hm : cell4 ∈ w.mStore.mEsm4Cells := List.mem_of_find?_eq_some hcell
        have hA : Coherent { w with mCells := (emplaceCellStore cell4.mId (Cell.ofEsm4 cell4)
            w.mCells).2 } :=
          h.coh_emplace cell4.mId _ (w.mStore.resolve_of_mem_esm4 h.storeConsistent cell4 hm)
            rfl rfl rfl
        exact hA.coh_loadIf f _
      · exact h
  · exact h.coh_loadIf f _

theorem createCell_exterior_worldspace (store : ESMStore) (hs : store.Consistent) (id : RefId)
    (cell : Cell) (hid : id.getIfEsm3ExteriorCell = none) (h : createCell id store = some cell)
    (he : cell.mIsExterior = true) : isEsm4Ext cell.mWorldSpace = true := by
  unfold createCell at h
  split at h
  · next c4 h4 =>
    simp only [Option.some.injEq] at h
    subst h
    exact hs.esm4Worlds c4 (store.searchEsm4Id_some _ _ h4).1 he
  · split at h
    · next c h3 =>
      simp only [Option.some.injEq] at h
      subst h
      have hm := store.searchId_some _ _ h3
      have hsh := Cell.id_of_updateId_exterior c (hs.esm3Ids c hm.1) he
      rw [hm.2] at hsh
      rw [hsh] at hid
      cases hid
    · cases h

theorem Coherent.coh_findCell {w : WorldModel} (h : Coherent w) (id : RefId) (f : Bool)
    (r : Option RefId × WorldModel) (hc : w.findCell id f = Except.ok r) : Coherent r.2 := by
  unfold WorldModel.findCell at hc
  split at hc
  · cases hc
    exact h
  · split at hc
    · next x y _ =>
      split at hc
      · cases hc
      · next cellStore w1 hg =>
        cases hc
        exact (h.coh_getExterior _ f cellStore w1 hg).1
    · next hid =>
      split at hc
      · cases hc
        exact h
      · next cell hcell =>
        cases hc
        have hres : w.mStore.resolve id = some cell := by
          simp only [ESMStore.resolve, hid]
          exact hcell
        have hA : Coherent { w with mCells := (emplaceCellStore id cell w.mCells).2 } :=
          h.coh_emplace id cell hres rfl rfl rfl
        simp only
        apply Coherent.coh_loadIf
        cases he : cell.mIsExterior
        · exact hA.coh_congr rfl rfl rfl
        · refine hA.coh_exterior _ id ?_ rfl rfl rfl
          intro hw
          have := createCell_exterior_worldspace w.mStore h.storeConsistent id cell hid hcell he
          rw [this] at hw
          cases hw

theorem Coherent.coh_findCellByName {w : WorldModel} (h : Coherent w) (name : String)
    (f : Bool) (r : Option RefId × WorldModel) (hc : w.findCellByName name f = Except.ok r) :
    Coherent r.2 := by
  unfold WorldModel.findCellByName at hc
  have h1 := h.coh_findInterior name f
  split at hc
  · next cellStore w1 heq =>
    cases hc
    rw [heq] at h1
    exact h1
  · next w1 heq =>
    rw [heq] at h1
    split at hc
    · cases hc
      exact h1
    · next cell _ =>
      split at hc
      · cases hc
      · next cellStore w2 hg =>
        cases hc
        exact (h1.coh_getExterior _ f cellStore w2 hg).1

theorem Coherent.coh_clear {w : WorldModel} (h : Coherent w) : Coherent w.clear := by
  constructor
  · exact h.storeConsistent
  · intro p hp; simp [WorldModel.clear] at hp
  · intro p hp; simp [WorldModel.clear] at hp

theorem Coherent.coh_setObjects {w : WorldModel} (h : Coherent w) (k : RefId)
    (refs : List CellRef) : Coherent (w.setObjects k refs) := by
  refine h.coh_modify k _ ?_ rfl rfl rfl
  intro cs _
  split <;> rfl

theorem Coherent.coh_create (store : ESMStore) (hs : store.Consistent) (n : Nat) :
    Coherent (WorldModel.create store n) := by
  constructor
  · exact hs
  · intro p hp; simp [WorldModel.create] at hp
  · intro p hp; simp [WorldModel.create] at hp

theorem Coherent.coh_apply {w : WorldModel} (h : Coherent w) (op : Op) :
    Coherent (op.apply w) := by
  cases op with
  | clear => exact h.coh_clear
  | getExterior location f =>
    simp only [Op.apply]
    cases hc : w.getExterior location f with
    | error e => exact h
    | ok r => exact (h.coh_getExterior location f r.1 r.2 hc).1
  | findInterior name f => exact h.coh_findInterior name f
  | findCell id f =>
    simp only [Op.apply]
    cases hc : w.findCell id f with
    | error e => exact h
    | ok r => exact h.coh_findCell id f r hc
  | findCellByName name f =>
    simp only [Op.apply]
    cases hc : w.findCellByName name f with
    | error e => exact h
    | ok r => exact h.coh_findCellByName name f r hc
  | getPtr name => exact h.coh_getPtr name
  | getExteriorPtrs name =>
    exact h.coh_getExteriorPtrsLoop name _ (fun c hc => w.mStore.mem_of_mem_extCells c hc) []
  | getAll id => exact h.coh_getAll id
  | setObjects k refs => exact h.coh_setObjects k refs

/-- Every state reached from a fresh index over a consistent content store is
coherent. -/
theorem Coherent.coh_runOps (ops : List Op) {w : WorldModel} (h : Coherent w) :
    Coherent (runOps ops w) := by
  induction ops generalizing w with
  | nil => exact h
  | cons op rest ih => exact ih (h.coh_apply op)

end MWWorld

namespace MWWorld

open ESM

namespace WorldModel

theorem findCell_of_contains (w : WorldModel) (id : RefId) (f : Bool)
    (h : tableContains id w.mCells = true) : w.findCell id f = Except.ok (some id, w) := by
  simp [findCell, h]

theorem findCell_of_createCell (w : WorldModel) (id : RefId) (f : Bool) (cell : Cell)
    (hin : tableContains id w.mCells = false) (hid : id.getIfEsm3ExteriorCell = none)
    (hcell : createCell id w.mStore = some cell) :
    ∃ w1, w.findCell id f = Except.ok (some id, w1) ∧ w1.mStore = w.mStore ∧
      w1.mInteriors = (if cell.mIsExterior then w.mInteriors
        else mapEmplace stringLt (lowerCase cell.mNameID) id w.mInteriors) := by
  cases he : cell.mIsExterior
  · refine ⟨_, by simp only [findCell, hin, hid, hcell, he]; rfl, ?_, ?_⟩
    · simp [emplaceCellStore]
    · simp [emplaceCellStore]
  · refine ⟨_, by simp only [findCell, hin, hid, hcell, he]; rfl, ?_, ?_⟩
    · simp [emplaceCellStore]
    · simp [emplaceCellStore]

theorem getExterior_then_findCell (w : WorldModel) (hw : WellFormed w) (hc : Coherent w)
    (x y : Int) (f1 f2 : Bool) :
    ∃ w1, w.getExterior { mX := x, mY := y, mWorldspace := ESM.Cell.sDefaultWorldspaceId } f1
        = Except.ok (RefId.esm3ExteriorCell x y, w1) ∧
      WellFormed w1 ∧ Coherent w1 ∧
      w1.findCell (RefId.esm3ExteriorCell x y) f2
        = Except.ok (some (RefId.esm3ExteriorCell x y), w1) := by
  obtain ⟨k, w1, hg⟩ := w.getExterior_default_ok x y f1
  have h1 := hc.coh_getExterior _ f1 k w1 hg
  have h2 := hw.wf_getExterior _ f1 k w1 hg
  have hk : k = RefId.esm3ExteriorCell x y := h1.2 isEsm4Ext_default
  subst hk
  exact ⟨w1, hg, h2.1, h1.1, findCell_of_contains w1 _ f2 h2.2⟩

theorem findCell_then_getExterior (w : WorldModel) (hw : WellFormed w) (hc : Coherent w)
    (x y : Int) (f1 f2 : Bool) :
    ∃ w1 w2, w.findCell (RefId.esm3ExteriorCell x y) f1
        = Except.ok (some (RefId.esm3ExteriorCell x y), w1) ∧
      w1.getExterior { mX := x, mY := y, mWorldspace := ESM.Cell.sDefaultWorldspaceId } f2
        = Except.ok (RefId.esm3ExteriorCell x y, w2) := by
  by_cases hin : tableContains (RefId.esm3ExteriorCell x y) w.mCells = true
  · obtain ⟨w2, hg, _⟩ := getExterior_then_findCell w hw hc x y f2 f1
    exact ⟨w, w2, findCell_of_contains w _ f1 hin, hg⟩
  · obtain ⟨w1, hg, hw1, hc1, _⟩ := getExterior_then_findCell w hw hc x y f1 f1
    obtain ⟨w2, hg2, _⟩ := getExterior_then_findCell w1 hw1 hc1 x y f2 f1
    refine ⟨w1, w2, ?_, hg2⟩
    simp only [Bool.not_eq_true] at hin
    simp [findCell, hin, RefId.getIfEsm3ExteriorCell, hg]

theorem findInterior_then_findCell (w : WorldModel) (hw : WellFormed w) (name : String)
    (f1 f2 : Bool) (k : RefId) (h : (w.findInterior name f1).1 = some k) :
    (w.findInterior name f1).2.findCell k f2 = Except.ok (some k, (w.findInterior name f1).2) :=
  findCell_of_contains _ k f2 ((hw.wf_findInterior name f1).2 k h)

theorem findCell_then_findInterior (w : WorldModel) (hw : WellFormed w) (hc : Coherent w)
    (name : String) (f1 f2 : Bool) (k : RefId) (h : (w.findInterior name f1).1 = some k) :
    ∃ w1 w2, w.findCell k f2 = Except.ok (some k, w1) ∧
      w1.findInterior name f1 = (some k, w2) := by
  by_cases hin : tableContains k w.mCells = true
  · exact ⟨w, (w.findInterior name f1).2, findCell_of_contains w k f2 hin, Prod.ext h rfl⟩
  · simp only [Bool.not_eq_true] at hin
    cases hfind : tableFind (lowerCase name) w.mInteriors with
    | some k2 =>
      rw [findInterior_of_indexed w name f1 k2 hfind] at h
      simp only [Option.some.injEq] at h
      subst h
      have := hw.interiorsValid _ (tableFind_mem _ hfind)
      rw [hin] at this
      cases this
    | none =>
      cases h3 : w.mStore.searchName name with
      | some c =>
        rw [findInterior_of_esm3 w name f1 c hfind h3] at h
        simp only [Option.some.injEq] at h
        subst h
        have hm : c ∈ w.mStore.mCells := List.mem_of_find?_eq_some h3
        have hp := List.find?_some h3
        simp only [Bool.and_eq_true, ciEqual, decide_eq_true_eq] at hp
        have hext : c.isExterior = false := by simp [ESM.Cell.isExterior, hp.1]
        have hidc := Cell.id_of_updateId_interior c (hc.storeConsistent.esm3Ids c hm) hext
        have hid : c.mId.getIfEsm3ExteriorCell = none := by rw [hidc]; rfl
        have hres := w.mStore.resolve_of_mem_esm3 hc.storeConsistent c hm
        simp only [ESMStore.resolve, hid] at hres
        obtain ⟨w1, hf, hs1, hi1⟩ := findCell_of_createCell w c.mId f2 _ hin hid hres
        refine ⟨w1, (w1.findInterior name f1).2, hf, Prod.ext ?_ rfl⟩
        have hfind1 : tableFind (lowerCase name) w1.mInteriors = some c.mId := by
          rw [hi1]
          simp only [Cell.ofEsm3, hext, Bool.false_eq_true, if_false, hp.2]
          rw [tableFind_mapEmplace_self, hfind]
          rfl
        rw [findInterior_of_indexed w1 name f1 c.mId hfind1]
      | none =>
        cases h4 : w.mStore.searchCellName name with
        | some c4 =>
          rw [findInterior_of_esm4 w name f1 c4 hfind h3 h4] at h
          simp only [Option.some.injEq] at h
          subst h
          have hm : c4 ∈ w.mStore.mEsm4Cells := List.mem_of_find?_eq_some h4
          have hp := List.find?_some h4
          simp only [ciEqual, decide_eq_true_eq] at hp
          have hid := w.mStore.esm4_not_exteriorId hc.storeConsistent c4 hm
          have hres := w.mStore.resolve_of_mem_esm4 hc.storeConsistent c4 hm
          simp only [ESMStore.resolve, hid] at hres
          obtain ⟨w1, hf, hs1, hi1⟩ := findCell_of_createCell w c4.mId f2 _ hin hid hres
          refine ⟨w1, (w1.findInterior name f1).2, hf, Prod.ext ?_ rfl⟩
          cases hext : c4.isExterior
          · have hfind1 : tableFind (lowerCase name) w1.mInteriors = some c4.mId := by
              rw [hi1]
              simp only [Cell.ofEsm4, hext, Bool.false_eq_true, if_false, hp]
              rw [tableFind_mapEmplace_self, hfind]
              rfl
            rw [findInterior_of_indexed w1 name f1 c4.mId hfind1]
          · have hfind1 : tableFind (lowerCase name) w1.mInteriors = none := by
              rw [hi1]
              simp only [Cell.ofEsm4, hext, if_true]
              exact hfind
            rw [findInterior_of_esm4 w1 name f1 c4 hfind1 (by rw [hs1]; exact h3)
              (by rw [hs1]; exact h4)]
        | none =>
          rw [findInterior_of_unknown w name f1 hfind h3 h4] at h
          cases h

end WorldModel

end MWWorld

namespace MWWorld

open ESM

theorem Sample.store_consistent : Sample.store.Consistent :=
  ⟨by decide, by decide, by decide, by decide, by decide⟩

/-- Claim C14. A chunk store is created at most once per stable identifier, whatever the
access path. In every state reached from a fresh index over a consistent content
store: the master table holds one store per identifier, each built on the definition
that carries that identifier; inserting for an identifier already present returns the
existing store and leaves the master table as it is (no replacement, no reset);
`getExterior(x, y, default worldspace)` and `findCell(ESM3 exterior id of (x, y))`
return the same store, the one under that identifier, in either call order; and
`findInterior(name)` and `findCell(id of that interior)` return the same store in
either call order. -/
theorem one_store_per_identifier (store : ESMStore) (hs : store.Consistent) (n : Nat)
    (ops : List Op) (w : WorldModel) (hw : w = runOps ops (WorldModel.create store n)) :
    (w.mCells.map Prod.fst).Nodup ∧
      (∀ p ∈ w.mCells, p.2.mCellVariant.mId = p.1) ∧
      (∀ id cell, tableContains id w.mCells = true →
        emplaceCellStore id cell w.mCells = (id, w.mCells)) ∧
      (∀ c : ESM.Cell, tableContains c.mId w.mCells = true →
        (w.insertCellStore c).1 = c.mId ∧ (w.insertCellStore c).2.mCells = w.mCells ∧
          w.getOrInsertCellStore c = (c.mId, w)) ∧
      (∀ x y f1 f2, ∃ w1 w2,
        w.getExterior { mX := x, mY := y, mWorldspace := ESM.Cell.sDefaultWorldspaceId } f1
          = Except.ok (RefId.esm3ExteriorCell x y, w1) ∧
        w1.findCell (RefId.esm3ExteriorCell x y) f2
          = Except.ok (some (RefId.esm3ExteriorCell x y), w2)) ∧
      (∀ x y f1 f2, ∃ w1 w2,
        w.findCell (RefId.esm3ExteriorCell x y) f1
          = Except.ok (some (RefId.esm3ExteriorCell x y), w1) ∧
        w1.getExterior { mX := x, mY := y, mWorldspace := ESM.Cell.sDefaultWorldspaceId } f2
          = Except.ok (RefId.esm3ExteriorCell x y, w2)) ∧
      (∀ name f1 f2 k, (w.findInterior name f1).1 = some k →
        ∃ w2, (w.findInterior name f1).2.findCell k f2 = Except.ok (some k, w2)) ∧
      (∀ name f1 f2 k, (w.findInterior name f1).1 = some k →
        ∃ w1 w2, w.findCell k f2 = Except.ok (some k, w1) ∧
          w1.findInterior name f1 = (some k, w2)) := by
  have hwf : WellFormed w := by
    rw [hw]
    exact (Reachable.runOps_reachable ops (Reachable.init store n)).wellFormed
  have hco : Coherent w := by
    rw [hw]
    exact Coherent.coh_runOps ops (Coherent.coh_create store hs n)
  refine ⟨hwf.cellsNodup, ?_, ?_, ?_, ?_, ?_, ?_, ?_⟩
  · intro p hp
    exact w.mStore.resolve_id hco.storeConsistent p.1 _ (hco.resolves p hp)
  · intro id cell hc
    simp only [emplaceCellStore]
    rw [hashEmplace_of_contains _ _ hc]
  · intro c hc
    have e : (emplaceCellStore c.mId (Cell.ofEsm3 c) w.mCells).2 = w.mCells := by
      simp only [emplaceCellStore]
      rw [hashEmplace_of_contains _ _ hc]
    refine ⟨?_, ?_, by simp [WorldModel.getOrInsertCellStore, hc]⟩
    · unfold WorldModel.insertCellStore
      split <;> rfl
    · unfold WorldModel.insertCellStore
      split <;> exact e
  · intro x y f1 f2
    obtain ⟨w1, hg, _, _, hf⟩ := WorldModel.getExterior_then_findCell w hwf hco x y f1 f2
    exact ⟨w1, w1, hg, hf⟩
  · intro x y f1 f2
    exact WorldModel.findCell_then_getExterior w hwf hco x y f1 f2
  · intro name f1 f2 k hk
    exact ⟨_, WorldModel.findInterior_then_findCell w hwf name f1 f2 k hk⟩
  · intro name f1 f2 k hk
    exact WorldModel.findCell_then_findInterior w hwf hco name f1 f2 k hk

end MWWorld

namespace MWWorld

open ESM

/-- Witness of `one_store_per_identifier`: the sample content is consistent, and in the
state with both sample exteriors instantiated the master table has no duplicate key,
`findCell` and `getExterior` agree on the location (5, 5), and `findCell` and
`findInterior` agree on Balmora. -/
theorem one_store_per_identifier_witness :
    Sample.store.Consistent ∧
      (Sample.twoChunks.mCells.map Prod.fst).Nodup ∧
      (∃ w1 w2,
        Sample.twoChunks.findCell (RefId.esm3ExteriorCell 5 5) true
          = Except.ok (some (RefId.esm3ExteriorCell 5 5), w1) ∧
        w1.getExterior { mX := 5, mY := 5, mWorldspace := ESM.Cell.sDefaultWorldspaceId } true
          = Except.ok (RefId.esm3ExteriorCell 5 5, w2)) ∧
      (∃ w1 w2, Sample.twoChunks.findCell Sample.balmora.mId true
          = Except.ok (some Sample.balmora.mId, w1) ∧
        w1.findInterior "Balmora" true = (some Sample.balmora.mId, w2)) :=
  ⟨Sample.store_consistent,
    (one_store_per_identifier Sample.store Sample.store_consistent 2
      [Op.getExterior Sample.near true, Op.getExterior Sample.far true] Sample.twoChunks rfl).1,
    (one_store_per_identifier Sample.store Sample.store_consistent 2
      [Op.getExterior Sample.near true, Op.getExterior Sample.far true] Sample.twoChunks
      rfl).2.2.2.2.2.1 5 5 true true,
    (one_store_per_identifier Sample.store Sample.store_consistent 2
      [Op.getExterior Sample.near true, Op.getExterior Sample.far true] Sample.twoChunks
      rfl).2.2.2.2.2.2.2 "Balmora" true true Sample.balmora.mId (by decide)⟩

end MWWorld

namespace MWWorld

open ESM

theorem tableModify_append_last {κ β : Type} [DecidableEq κ] (k : κ) (g : β → β) (v : β)
    (t : List (κ × β)) (h : tableContains k t = false) :
    tableModify k g (t ++ [(k, v)]) = t ++ [(k, g v)] := by
  induction t with
  | nil => simp [tableModify]
  | cons a rest ih =>
    obtain ⟨k2, v2⟩ := a
    by_cases hk : k2 = k
    · simp [tableContains, tableFind, hk] at h
    · have h2 : tableContains k rest = false := by
        simpa [tableContains, tableFind, hk] using h
      simp [tableModify, hk, ih h2]

theorem tableFind_append_last {κ β : Type} [DecidableEq κ] (k : κ) (v : β)
    (t : List (κ × β)) (h : tableContains k t = false) :
    tableFind k (t ++ [(k, v)]) = some v := by
  rw [tableFind_append_of_none t _ ((tableFind_eq_none_iff t).mpr h)]
  simp [tableFind]

theorem hashEmplace_of_not_contains {κ β : Type} [DecidableEq κ] (k : κ) (v : β)
    (t : List (κ × β)) (h : tableContains k t = false) : hashEmplace k v t = t ++ [(k, v)] := by
  simp [hashEmplace, h]

theorem tableFind_of_mem_nodup {κ β : Type} [DecidableEq κ] (t : List (κ × β))
    (hn : (t.map Prod.fst).Nodup) (k : κ) (v : β) (h : (k, v) ∈ t) : tableFind k t = some v := by
  induction t with
  | nil => cases h
  | cons a rest ih =>
    obtain ⟨k2, v2⟩ := a
    simp only [List.map_cons, List.nodup_cons] at hn
    rcases List.mem_cons.mp h with e | hm
    · cases e
      simp [tableFind]
    · have hne : k2 ≠ k := by
        intro e
        subst e
        exact hn.1 (List.mem_map_of_mem Prod.fst hm)
      simp only [tableFind, hne, if_false]
      exact ih hn.2 hm

namespace WorldModel

theorem loadIf_true_append (w : WorldModel) (t : List (RefId × CellStore)) (k : RefId)
    (v : CellStore) (hw : w.mCells = t ++ [(k, v)]) (hk : tableContains k t = false) :
    (w.loadIf true k).mCells = t ++ [(k, v.load)] := by
  unfold loadIf
  rw [hw, tableFind_append_last k v t hk]
  simp only [Bool.true_and]
  split
  · exact tableModify_append_last k _ v t hk
  · next hl =>
    simp only [decide_eq_true_eq, ne_eq, not_not] at hl
    rw [CellStore.load_of_loaded v hl]
    exact hw

/-- On a key the master table does not hold yet, over a coherent index, `findCell`
with `forceLoad` appends a loaded store on the definition the content store gives and
leaves the content store as it is. -/
theorem findCell_fresh (f : WorldModel) (hwf : WellFormed f) (hco : Coherent f) (k : RefId)
    (cell : Cell) (hres : f.mStore.resolve k = some cell)
    (hin : tableContains k f.mCells = false) :
    ∃ f1, f.findCell k true = Except.ok (some k, f1) ∧ f1.mStore = f.mStore ∧
      f1.mCells = f.mCells ++ [(k, (CellStore.create cell).load)] := by
  have hidk := f.mStore.resolve_id hco.storeConsistent k cell hres
  cases hx : k.getIfEsm3ExteriorCell with
  | some xy =>
    obtain ⟨x, y⟩ := xy
    simp only [ESMStore.resolve, hx] at hres
    cases hg : f.mStore.searchGrid x y with
    | none => simp [hg] at hres
    | some c =>
      simp only [hg, Option.map_some', Option.some.injEq] at hres
      have hk : k = RefId.esm3ExteriorCell x y := by
        cases k <;> simp [RefId.getIfEsm3ExteriorCell] at hx
        simp [hx.1, hx.2]
      have hmiss : tableFind (ExteriorCellLocation.mk x y ESM.Cell.sDefaultWorldspaceId)
          f.mExteriors = none := by
        cases hf : tableFind (ExteriorCellLocation.mk x y ESM.Cell.sDefaultWorldspaceId)
            f.mExteriors with
        | none => rfl
        | some k2 =>
          have hm := tableFind_mem _ hf
          have e := hco.gridIndex _ hm isEsm4Ext_default
          have hv := hwf.exteriorsValid _ hm
          simp only at e hv
          rw [e, ← hk, hin] at hv
          cases hv
      have hcreate : createExteriorCell (ExteriorCellLocation.mk x y ESM.Cell.sDefaultWorldspaceId)
          f.mStore = Except.ok (cell, false, f.mStore) := by
        simp [createExteriorCell, isEsm4Ext_default, hg, hres]
      have hf : f.findCell k true = Except.ok (some k, loadIf true k
          ⟨f.mStore, hashEmplace k (CellStore.create cell) f.mCells, f.mInteriors,
            mapEmplace ExteriorCellLocation.lt
              (ExteriorCellLocation.mk x y ESM.Cell.sDefaultWorldspaceId) k f.mExteriors,
            f.mIdCache, f.mIdCacheIndex, f.mExteriorCreated⟩) := by
        simp [findCell, hin, hx, getExterior, hmiss, hcreate, emplaceCellStore, hidk]
      refine ⟨_, hf, by simp, ?_⟩
      exact loadIf_true_append _ _ _ _ (hashEmplace_of_not_contains k _ _ hin) hin
  | none =>
    simp only [ESMStore.resolve, hx] at hres
    cases he : cell.mIsExterior
    · have hf : f.findCell k true = Except.ok (some k, loadIf true k
          ⟨f.mStore, hashEmplace k (CellStore.create cell) f.mCells,
            mapEmplace stringLt (lowerCase cell.mNameID) k f.mInteriors, f.mExteriors,
            f.mIdCache, f.mIdCacheIndex, f.mExteriorCreated⟩) := by
        simp [findCell, hin, hx, hres, emplaceCellStore, he]
      refine ⟨_, hf, by simp, ?_⟩
      exact loadIf_true_append _ _ _ _ (hashEmplace_of_not_contains k _ _ hin) hin
    · have hf : f.findCell k true = Except.ok (some k, loadIf true k
          ⟨f.mStore, hashEmplace k (CellStore.create cell) f.mCells, f.mInteriors,
            mapEmplace ExteriorCellLocation.lt
              (ExteriorCellLocation.mk cell.mGridX cell.mGridY cell.mWorldSpace) k f.mExteriors,
            f.mIdCache, f.mIdCacheIndex, f.mExteriorCreated⟩) := by
        simp [findCell, hin, hx, hres, emplaceCellStore, he]
      refine ⟨_, hf, by simp, ?_⟩
      exact loadIf_true_append _ _ _ _ (hashEmplace_of_not_contains k _ _ hin) hin

end WorldModel

end MWWorld

namespace MWWorld

open ESM

theorem CellStore.savedRecord_mCellId (cs : CellStore) :
    cs.savedRecord.mCellId = cs.mCellVariant.mId := by
  simp [CellStore.savedRecord, CellStore.saveState, CellStore.load_variant]

theorem CellStore.savedRecord_mType (cs : CellStore) : cs.savedRecord.mType = REC_CSTA := rfl

theorem CellStore.getState_restoreFrom (record : SavedRecord) (cs : CellStore) :
    (CellStore.restoreFrom record cs).getState = cs.getState := by
  unfold CellStore.restoreFrom
  simp only
  split <;> rfl

theorem CellStore.restoreFrom_variant (record : SavedRecord) (cs : CellStore) :
    (CellStore.restoreFrom record cs).mCellVariant = cs.mCellVariant := by
  unfold CellStore.restoreFrom
  simp only
  split <;> rfl

namespace WorldModel

/-- Reading the record written for a store `cs` into a coherent index that does not
hold the chunk yet and whose content store gives the definition of `cs` for it: the
record is consumed and the index gains the restored store, keeping its invariants. -/
theorem readRecord_fresh (f : WorldModel) (hwf : WellFormed f) (hco : Coherent f) (k : RefId)
    (cs : CellStore) (hres : f.mStore.resolve k = some cs.mCellVariant)
    (hin : tableContains k f.mCells = false) (rest : List SavedRecord) :
    ∃ f2, f.readRecord { mRecords := cs.savedRecord :: rest } REC_CSTA
        = Except.ok (true, { mRecords := rest }, f2) ∧
      f2.mStore = f.mStore ∧ f2.mCells = f.mCells ++ [(k, cs.restored)] ∧
      WellFormed f2 ∧ Coherent f2 := by
  have hid : cs.savedRecord.mCellId = k := by
    rw [CellStore.savedRecord_mCellId]
    exact f.mStore.resolve_id hco.storeConsistent k _ hres
  obtain ⟨f1, hf, hs1, hc1⟩ := findCell_fresh f hwf hco k cs.mCellVariant hres hin
  have hwf1 : WellFormed f1 := (hwf.wf_findCell k true _ hf).1
  have hco1 : Coherent f1 := hco.coh_findCell k true _ hf
  have hV : (CellStore.create cs.mCellVariant).load.getState = State.State_Loaded :=
    CellStore.getState_load _
  have step : ∀ (x : WorldModel) (v : CellStore) (g : CellStore → CellStore),
      (WellFormed x ∧ Coherent x ∧ x.mStore = f.mStore ∧ x.mCells = f.mCells ++ [(k, v)]) →
      (∀ c, (g c).getState = c.getState) → (∀ c, (g c).mCellVariant = c.mCellVariant) →
      WellFormed (x.modifyStore k g) ∧ Coherent (x.modifyStore k g) ∧
        (x.modifyStore k g).mStore = f.mStore ∧
        (x.modifyStore k g).mCells = f.mCells ++ [(k, g v)] := by
    intro x v g hx hg1 hg2
    obtain ⟨hx1, hx2, hx3, hx4⟩ := hx
    refine ⟨hx1.wf_modify k g (fun c _ hl => by rw [hg1 c]; exact hl) rfl rfl rfl rfl,
      hx2.coh_modify k g (fun c _ => hg2 c) rfl rfl rfl, hx3, ?_⟩
    simp only [modifyStore]
    rw [hx4]
    exact tableModify_append_last k g v _ hin
  have a := step f1 _ (CellStore.loadState cs.savedRecord.mState)
    ⟨hwf1, hco1, hs1, hc1⟩ (fun _ => rfl) (fun _ => rfl)
  have b : ∀ x3 : WorldModel,
      x3 = (if cs.savedRecord.mState.mHasFogOfWar then
            (f1.modifyStore k (CellStore.loadState cs.savedRecord.mState)).modifyStore k
              (CellStore.readFog cs.savedRecord.mFog)
          else f1.modifyStore k (CellStore.loadState cs.savedRecord.mState)) →
      WellFormed x3 ∧ Coherent x3 ∧ x3.mStore = f.mStore ∧
        x3.mCells = f.mCells ++ [(k,
          if cs.savedRecord.mState.mHasFogOfWar then
            CellStore.readFog cs.savedRecord.mFog
              (CellStore.loadState cs.savedRecord.mState (CellStore.create cs.mCellVariant).load)
          else CellStore.loadState cs.savedRecord.mState
            (CellStore.create cs.mCellVariant).load)] := by
    intro x3 hx3
    cases hb : cs.savedRecord.mState.mHasFogOfWar
    · simp only [hb, Bool.false_eq_true, if_false] at hx3 ⊢
      rw [hx3]
      exact a
    · simp only [hb, if_true] at hx3 ⊢
      rw [hx3]
      exact step _ _ (CellStore.readFog cs.savedRecord.mFog) a (fun _ => rfl) (fun _ => rfl)
  obtain ⟨c1, c2, c3, c4⟩ := b _ rfl
  have hl3 : (if cs.savedRecord.mState.mHasFogOfWar then
          CellStore.readFog cs.savedRecord.mFog
            (CellStore.loadState cs.savedRecord.mState (CellStore.create cs.mCellVariant).load)
        else CellStore.loadState cs.savedRecord.mState
          (CellStore.create cs.mCellVariant).load).getState = State.State_Loaded := by
    split <;> exact hV
  have d4 := loadIf_true_append _ _ k _ c4 hin
  rw [CellStore.load_of_loaded _ hl3] at d4
  obtain ⟨e1, e2, e3, e4⟩ := step _ _
    (CellStore.readReferences cs.savedRecord.mRefs)
    ⟨c1.wf_loadIf true k, c2.coh_loadIf true k, by simpa using c3, d4⟩
    (fun _ => rfl) (fun _ => rfl)
  refine ⟨_, ?_, e3, ?_, e1, e2⟩
  · simp only [readRecord, if_true, hid, hf]
  · rw [e4]
    rfl

end WorldModel

end MWWorld

namespace MWWorld

open ESM

theorem tableContains_append {κ β : Type} [DecidableEq κ] (k : κ) (t u : List (κ × β)) :
    tableContains k (t ++ u) = (tableContains k t || tableContains k u) := by
  induction t with
  | nil => simp [tableContains, tableFind]
  | cons a rest ih =>
    obtain ⟨k2, v⟩ := a
    by_cases hk : k2 = k
    · simp [tableContains, tableFind, hk]
    · simpa [tableContains, tableFind, hk] using ih

theorem CellStore.restored_variant (cs : CellStore) :
    cs.restored.mCellVariant = cs.mCellVariant := by
  unfold CellStore.restored
  rw [CellStore.restoreFrom_variant, CellStore.load_variant]
  rfl

theorem CellStore.restored_hasState (cs : CellStore) : cs.restored.hasState = true := by
  unfold CellStore.restored CellStore.restoreFrom
  simp only
  split <;> rfl

/-- The store restored from the record written for `cs` writes that record again. -/
theorem CellStore.restored_savedRecord (cs : CellStore) :
    cs.restored.savedRecord = cs.savedRecord := by
  by_cases h : cs.mState = State.State_Loaded <;> cases hf : cs.mFogState <;>
    simp [CellStore.restored, CellStore.restoreFrom, CellStore.savedRecord,
      CellStore.saveState, CellStore.writeFog, CellStore.writeReferences,
      CellStore.loadState, CellStore.readFog, CellStore.readReferences, CellStore.load,
      CellStore.create, CellStore.isExterior, h, hf]

end MWWorld

namespace MWWorld

open ESM

namespace WorldModel

theorem readRecords_cons (record : SavedRecord) (rest : List SavedRecord) (w : WorldModel) :
    readRecords (record :: rest) w =
      match w.readRecord { mRecords := record :: rest } record.mType with
      | Except.error e => Except.error e
      | Except.ok r => readRecords rest r.2.2 := by
  rw [readRecords]

theorem readRecords_fresh (stores : List (RefId × CellStore)) (f : WorldModel)
    (hwf : WellFormed f) (hco : Coherent f)
    (hres : ∀ p ∈ stores, f.mStore.resolve p.1 = some p.2.mCellVariant)
    (hnd : (stores.map Prod.fst).Nodup)
    (hdis : ∀ p ∈ stores, tableContains p.1 f.mCells = false) :
    ∃ f2, f.readRecords (stores.map (fun p => p.2.savedRecord)) = Except.ok f2 ∧
      f2.mStore = f.mStore ∧
      f2.mCells = f.mCells ++ stores.map (fun p => (p.1, p.2.restored)) := by
  induction stores generalizing f with
  | nil => exact ⟨f, rfl, rfl, by simp⟩
  | cons p rest ih =>
    obtain ⟨k, cs⟩ := p
    simp only [List.map_cons, List.nodup_cons] at hnd
    obtain ⟨f1, hr, hs1, hc1, hwf1, hco1⟩ := readRecord_fresh f hwf hco k cs
      (hres (k, cs) (List.mem_cons_self _ _)) (hdis (k, cs) (List.mem_cons_self _ _))
      (rest.map (fun p => p.2.savedRecord))
    have hdis1 : ∀ q ∈ rest, tableContains q.1 f1.mCells = false := by
      intro q hq
      rw [hc1, tableContains_append, hdis q (List.mem_cons_of_mem _ hq)]
      have hne : k ≠ q.1 := by
        intro e
        exact hnd.1 (e ▸ List.mem_map_of_mem Prod.fst hq)
      simp [tableContains, tableFind, hne]
    obtain ⟨f2, hr2, hs2, hc2⟩ := ih f1 hwf1 hco1
      (fun q hq => by rw [hs1]; exact hres q (List.mem_cons_of_mem _ hq)) hnd.2 hdis1
    refine ⟨f2, ?_, by rw [hs2, hs1], ?_⟩
    · rw [List.map_cons, readRecords_cons, CellStore.savedRecord_mType, hr]
      exact hr2
    · rw [hc2, hc1]
      simp

end WorldModel

end MWWorld

namespace MWWorld

open ESM

/-- Claim C19. Serialization round trip. For a coherent index whose master table holds
one store per identifier: reading every record written by `write` with `readRecord`
into a freshly constructed index over the same content store succeeds; the fresh index
then holds exactly the written chunks, in order; for each written chunk it holds a
store on the same definition (the same identity) that carries a delta and whose saved
record is identical to the one written; it reports the same
`countSavedGameRecords()`; and writing it again produces the same records. Every
identity resolves here, since the content store is the same, so no chunk is absent. -/
theorem write_read_round_trip (w : WorldModel) (hn : (w.mCells.map Prod.fst).Nodup)
    (hco : Coherent w) (n : Nat) :
    ∃ w2, (WorldModel.create w.mStore n).readRecords (w.write { mRecords := [] } 0).1.mRecords
        = Except.ok w2 ∧
      w2.mCells.map Prod.fst = (w.mCells.filter (fun v => v.2.hasState)).map Prod.fst ∧
      (∀ k cs, (k, cs) ∈ w.mCells → cs.hasState = true →
        ∃ cs2, tableFind k w2.mCells = some cs2 ∧ cs2.mCellVariant = cs.mCellVariant ∧
          cs2.hasState = true ∧ cs2.savedRecord = cs.savedRecord) ∧
      w2.countSavedGameRecords = w.countSavedGameRecords ∧
      (w2.write { mRecords := [] } 0).1.mRecords = (w.write { mRecords := [] } 0).1.mRecords := by
  have hrec : (w.write { mRecords := [] } 0).1.mRecords
      = (w.mCells.filter (fun v => v.2.hasState)).map (fun p => p.2.savedRecord) := by
    have := (WorldModel.writeLoop_records w.mCells { mRecords := [] } 0).1
    simpa [WorldModel.write] using this
  have hsub : ((w.mCells.filter (fun v => v.2.hasState)).map Prod.fst).Nodup :=
    hn.sublist ((List.filter_sublist _).map Prod.fst)
  obtain ⟨w2, hr, hs2, hc2⟩ := WorldModel.readRecords_fresh
    (w.mCells.filter (fun v => v.2.hasState)) (WorldModel.create w.mStore n)
    (WellFormed.wf_create _ _) (Coherent.coh_create _ hco.storeConsistent n)
    (fun p hp => hco.resolves p (List.mem_filter.mp hp).1) hsub (fun p _ => rfl)
  have hc2b : w2.mCells
      = (w.mCells.filter (fun v => v.2.hasState)).map (fun p => (p.1, p.2.restored)) := by
    rw [hc2]
    rfl
  have hkeys : w2.mCells.map Prod.fst
      = (w.mCells.filter (fun v => v.2.hasState)).map Prod.fst := by
    rw [hc2b, List.map_map]
    rfl
  have hall : w2.mCells.filter (fun v => v.2.hasState) = w2.mCells := by
    rw [List.filter_eq_self]
    intro p hp
    rw [hc2b] at hp
    simp only [List.mem_map] at hp
    obtain ⟨q, _, rfl⟩ := hp
    exact CellStore.restored_hasState q.2
  refine ⟨w2, by rw [hrec]; exact hr, hkeys, ?_, ?_, ?_⟩
  · intro k cs hm hst
    refine ⟨cs.restored, ?_, cs.restored_variant, cs.restored_hasState, cs.restored_savedRecord⟩
    apply tableFind_of_mem_nodup _ (by rw [hkeys]; exact hsub)
    rw [hc2b]
    exact List.mem_map.mpr ⟨(k, cs), List.mem_filter.mpr ⟨hm, hst⟩, rfl⟩
  · simp only [WorldModel.countSavedGameRecords, List.countP_eq_length_filter]
    rw [hall, hc2b, List.length_map]
  · have h2 := (WorldModel.writeLoop_records w2.mCells { mRecords := [] } 0).1
    have h2b : (w2.write { mRecords := [] } 0).1.mRecords
        = (w2.mCells.filter (fun v => v.2.hasState)).map (fun p => p.2.savedRecord) := by
      simpa [WorldModel.write] using h2
    rw [h2b, hall, hrec, hc2b, List.map_map]
    apply List.map_congr_left
    intro p _
    exact CellStore.restored_savedRecord p.2

end MWWorld


namespace MWWorld

open ESM

/-- Witness of `write_read_round_trip`: the state in which the sample exterior at
(-2, -9) carries a delta has one store per identifier and one record to save, and the
round trip holds for it. -/
theorem write_read_round_trip_witness :
    (Sample.modifiedWorld.mCells.map Prod.fst).Nodup ∧
      Sample.modifiedWorld.countSavedGameRecords = 1 ∧
      ∃ w2, (WorldModel.create Sample.modifiedWorld.mStore 2).readRecords
          (Sample.modifiedWorld.write { mRecords := [] } 0).1.mRecords = Except.ok w2 ∧
        w2.mCells.map Prod.fst
          = (Sample.modifiedWorld.mCells.filter (fun v => v.2.hasState)).map Prod.fst ∧
        (∀ k cs, (k, cs) ∈ Sample.modifiedWorld.mCells → cs.hasState = true →
          ∃ cs2, tableFind k w2.mCells = some cs2 ∧ cs2.mCellVariant = cs.mCellVariant ∧
            cs2.hasState = true ∧ cs2.savedRecord = cs.savedRecord) ∧
        w2.countSavedGameRecords = Sample.modifiedWorld.countSavedGameRecords ∧
        (w2.write { mRecords := [] } 0).1.mRecords
          = (Sample.modifiedWorld.write { mRecords := [] } 0).1.mRecords :=
  ⟨by decide, by decide,
    write_read_round_trip Sample.modifiedWorld (by decide)
      (Coherent.coh_runOps _ (Coherent.coh_create Sample.store Sample.store_consistent 2)) 2⟩

end MWWorld

namespace MWWorld

open ESM

/-- Claim C21. When the pointer cache has no valid hit for `id`, `getPtr(id)` examines
the instantiated grid chunks in descending order of location key and returns the
object of the first that holds it: in every reachable state, if the chunk indexed at
`location` holds the object and no chunk indexed at a greater location does, `getPtr`
returns the object of the chunk at `location`. -/
theorem getPtr_reverse_grid_order (w : WorldModel) (hr : Reachable w) (id : RefId)
    (hstale : ∀ p ∈ w.mIdCache, p.1 = id → ∀ k, p.2 = some k →
      ∀ cs, tableFind k w.mCells = some cs → cs.search id = none)
    (location : ExteriorCellLocation) (k : RefId)
    (hk : tableFind location w.mExteriors = some k)
    (hy : w.yields id k = true)
    (hgreater : ∀ p ∈ w.mExteriors, ExteriorCellLocation.lt location p.1 = true →
      w.yields id p.2 = false) :
    (w.getPtr id).1 = (w.cellGetPtr id k).1 ∧ (w.getPtr id).1.isEmpty = false ∧
      (w.getPtr id).1.mCell = some k := by
  have hwf := hr.wellFormed
  have hg := getPtr_eq_fullSearch_of_stale w hwf id hstale
  obtain ⟨A, B, hAB⟩ := List.append_of_mem (tableFind_mem _ hk)
  have hsorted := hwf.exteriorsSorted
  unfold KeysSorted at hsorted
  rw [hAB, List.pairwise_append] at hsorted
  have hB : ∀ b ∈ B, ExteriorCellLocation.lt location b.1 = true :=
    (List.pairwise_cons.mp hsorted.2.1).1
  have hpre : ∀ k2 ∈ B.reverse.map Prod.snd, w.yields id k2 = false := by
    intro k2 hk2
    obtain ⟨b, hb, hbk⟩ := List.mem_map.mp hk2
    subst hbk
    have hbB : b ∈ B := List.mem_reverse.mp hb
    have hmem : b ∈ w.mExteriors := by
      rw [hAB]; exact List.mem_append_right _ (List.mem_cons_of_mem _ hbB)
    exact hgreater b hmem (hB b hbB)
  have hlist : w.mExteriors.reverse.map Prod.snd =
      B.reverse.map Prod.snd ++ k :: A.reverse.map Prod.snd := by
    rw [hAB]; simp
  have hfirst := WorldModel.searchStores_first_yield id k (B.reverse.map Prod.snd)
    (A.reverse.map Prod.snd) w hpre hy
  rw [← hlist] at hfirst
  have hfull : (WorldModel.fullSearch id w).1 = (w.cellGetPtr id k).1 := by
    unfold WorldModel.fullSearch
    rcases hs : WorldModel.searchStores id (w.mExteriors.reverse.map Prod.snd) w with ⟨o, x⟩
    rw [hs] at hfirst
    simp only at hfirst
    subst hfirst
    rfl
  have hne : (w.cellGetPtr id k).1.isEmpty = false := by
    simpa [WorldModel.yields] using hy
  refine ⟨by rw [hg, hfull], by rw [hg, hfull]; exact hne, ?_⟩
  rw [hg, hfull]
  unfold WorldModel.cellGetPtr at hne ⊢
  cases hc : tableFind k w.mCells with
  | none => simp [hc, Ptr.empty, Ptr.isEmpty] at hne
  | some cs =>
    simp only [hc] at hne ⊢
    exact (CellStore.getPtr_found k id cs hne).2

end MWWorld

namespace MWWorld

open ESM

theorem Sample.twoChunks_none_greater :
    ∀ p ∈ Sample.twoChunks.mExteriors, ExteriorCellLocation.lt Sample.near p.1 = true →
      Sample.twoChunks.yields Sample.plank p.2 = false := by
  have hext : Sample.twoChunks.mExteriors =
      [(Sample.far, Sample.cellFar.mId), (Sample.near, Sample.cellNear.mId)] := by decide
  intro p hp hlt
  rw [hext] at hp
  simp only [List.mem_cons, List.mem_singleton, List.not_mem_nil, or_false] at hp
  rcases hp with hp | hp
  · subst hp; revert hlt; decide
  · subst hp; revert hlt; decide

/-- Witness of `getPtr_reverse_grid_order`, the case of the code comment: with the
chunks at (-22, 16) and (-2, -9) both instantiated and both holding the plank, the
plank of the chunk at (-2, -9) is returned. -/
theorem getPtr_reverse_grid_order_witness :
    tableFind Sample.far Sample.twoChunks.mExteriors = some Sample.cellFar.mId ∧
      tableFind Sample.near Sample.twoChunks.mExteriors = some Sample.cellNear.mId ∧
      Sample.twoChunks.yields Sample.plank Sample.cellFar.mId = true ∧
      Sample.twoChunks.yields Sample.plank Sample.cellNear.mId = true ∧
      (Sample.twoChunks.getPtr Sample.plank).1
        = { mRef := some { mRefID := Sample.plank, mRefNum := 2 },
            mCell := some Sample.cellNear.mId } ∧
      (Sample.twoChunks.getPtr Sample.plank).1
        = (Sample.twoChunks.cellGetPtr Sample.plank Sample.cellNear.mId).1 ∧
      (Sample.twoChunks.getPtr Sample.plank).1.isEmpty = false ∧
      (Sample.twoChunks.getPtr Sample.plank).1.mCell = some Sample.cellNear.mId :=
  ⟨by decide, by decide, by decide, by decide, by decide,
    getPtr_reverse_grid_order Sample.twoChunks
      (Reachable.runOps_reachable _ (Reachable.init _ _)) Sample.plank
      Sample.twoChunks_noCache Sample.near Sample.cellNear.mId (by decide) (by decide)
      Sample.twoChunks_none_greater⟩

end MWWorld

namespace MWWorld

open ESM

theorem WellFormed.wf_modifyStore {w : WorldModel} (h : WellFormed w) (k : RefId)
    (g : CellStore → CellStore)
    (hg : ∀ cs, cs.getState = State.State_Loaded → (g cs).getState = State.State_Loaded) :
    WellFormed (w.modifyStore k g) :=
  h.wf_modify k g (fun cs _ hl => hg cs hl) rfl rfl rfl rfl

theorem WellFormed.wf_readRecord {w : WorldModel} (h : WellFormed w) (reader : ESMReader)
    (type : Nat) (r : Bool × ESMReader × WorldModel)
    (hc : w.readRecord reader type = Except.ok r) : WellFormed r.2.2 := by
  unfold WorldModel.readRecord at hc
  split at hc
  · split at hc
    · cases hc
    · next record rest _ =>
      split at hc
      · cases hc
      · next w1 hf =>
        cases hc
        exact (h.wf_findCell _ true _ hf).1
      · next cellStore w1 hf =>
        cases hc
        have h1 := (h.wf_findCell _ true _ hf).1
        have h2 := h1.wf_modifyStore cellStore (CellStore.loadState record.mState)
          (fun _ hl => hl)
        have h3 : WellFormed
            (if record.mState.mHasFogOfWar then
              (w1.modifyStore cellStore (CellStore.loadState record.mState)).modifyStore
                cellStore (CellStore.readFog record.mFog)
            else w1.modifyStore cellStore (CellStore.loadState record.mState)) := by
          split
          · exact h2.wf_modifyStore cellStore _ (fun _ hl => hl)
          · exact h2
        exact (h3.wf_loadIf true cellStore).wf_modifyStore cellStore _ (fun _ hl => hl)
  · cases hc
    exact h

theorem WorldModel.writeLoop_table (t : List (RefId × CellStore)) (writer : ESMWriter)
    (progress : Nat) :
    (WorldModel.writeLoop t writer progress).2.2
      = t.map (fun v => (v.1, if v.2.hasState then v.2.load else v.2)) := by
  induction t generalizing writer progress with
  | nil => rfl
  | cons p rest ih =>
    obtain ⟨id, cs⟩ := p
    by_cases h : cs.hasState = true
    · simp only [WorldModel.writeLoop, h, if_true, List.map_cons]
      rw [ih, WorldModel.writeCell_eq]
    · simp only [Bool.not_eq_true] at h
      simp only [WorldModel.writeLoop, h, Bool.false_eq_true, if_false, List.map_cons]
      rw [ih]

theorem tableFind_mapStores (g : RefId × CellStore → CellStore) (k : RefId)
    (t : List (RefId × CellStore)) :
    tableFind k (t.map (fun v => (v.1, g v))) = (tableFind k t).map (fun cs => g (k, cs)) := by
  induction t with
  | nil => rfl
  | cons p rest ih =>
    obtain ⟨k2, cs⟩ := p
    by_cases hk : k2 = k
    · subst hk; simp [tableFind]
    · simp [tableFind, hk, ih]

/-- A pass over the master table that rewrites each store in place and keeps loaded
stores loaded preserves the invariant. -/
theorem WellFormed.wf_mapStores {w w2 : WorldModel} (h : WellFormed w)
    (g : RefId × CellStore → CellStore)
    (hg : ∀ v, v.2.getState = State.State_Loaded → (g v).getState = State.State_Loaded)
    (e1 : w2.mCells = w.mCells.map (fun v => (v.1, g v)))
    (e2 : w2.mExteriors = w.mExteriors) (e3 : w2.mInteriors = w.mInteriors)
    (e4 : w2.mIdCache = w.mIdCache) : WellFormed w2 := by
  have hc : ∀ k, tableContains k w2.mCells = tableContains k w.mCells := by
    intro k
    unfold tableContains
    rw [e1, tableFind_mapStores]
    cases tableFind k w.mCells <;> rfl
  constructor
  · rw [e2]; intro p hp; rw [hc]; exact h.exteriorsValid p hp
  · rw [e3]; intro p hp; rw [hc]; exact h.interiorsValid p hp
  · rw [e4]; intro p hp k hk
    have hl := h.cacheLoaded p hp k hk
    unfold WorldModel.stateOf at hl ⊢
    rw [e1, tableFind_mapStores]
    cases hf : tableFind k w.mCells with
    | none => simp [hf] at hl
    | some cs =>
      simp only [hf, Option.map_some', Option.some.injEq] at hl
      simp [hg (k, cs) hl]
  · rw [e2]; exact h.exteriorsSorted
  · rw [e3]; exact h.interiorsSorted
  · rw [e1, List.map_map]
    exact h.cellsNodup

theorem WellFormed.wf_write {w : WorldModel} (h : WellFormed w) (writer : ESMWriter)
    (progress : Nat) : WellFormed (w.write writer progress).2.2 := by
  refine h.wf_mapStores (fun v => if v.2.hasState then v.2.load else v.2) ?_
    (WorldModel.writeLoop_table w.mCells writer progress) rfl rfl rfl
  intro v hl
  simp only
  split
  · exact CellStore.getState_load _
  · exact hl

theorem WellFormed.wf_call {w : WorldModel} (h : WellFormed w) (call : Call) :
    WellFormed (call.apply w) := by
  cases call with
  | op o => exact h.wf_apply o
  | readRecord reader type =>
    simp only [Call.apply]
    cases hc : w.readRecord reader type with
    | error e => exact h
    | ok r => exact h.wf_readRecord reader type r hc
  | write writer progress => exact h.wf_write writer progress

/-- Every state reached by calls of public members, the serialization members
included, is well formed. -/
theorem Reached.reached_wellFormed {w : WorldModel} (h : Reached w) : WellFormed w := by
  induction h with
  | init store n => exact WellFormed.wf_create store n
  | step call w _ ih => exact ih.wf_call call

theorem Reached.runCalls_reached (calls : List Call) {w : WorldModel} (h : Reached w) :
    Reached (runCalls calls w) := by
  induction calls generalizing w with
  | nil => exact h
  | cons c rest ih => exact ih (Reached.step c w h)

theorem Reached.of_reachable {w : WorldModel} (h : Reachable w) : Reached w := by
  induction h with
  | init store n => exact Reached.init store n
  | step op w _ ih => exact Reached.step (Call.op op) w ih

end MWWorld

namespace MWWorld

open ESM

/-- Claim C25. Index consistency of the world index holds in one direction only. In
every state reached by calls of public members (`readRecord` and `write` included),
every entry of the name index and of the grid index refers to a store of the master
table. The converse fails: `findInterior` enters the store it creates in the master
table but in neither index table, so after `findInterior("Balmora")` on a fresh index
over the sample content the master table holds the store of Balmora while the name
index and the grid index are both empty. -/
theorem index_tables_miss_store_from_findInterior :
    (∀ w, Reached w →
      (∀ p ∈ w.mInteriors, tableContains p.2 w.mCells = true) ∧
        (∀ p ∈ w.mExteriors, tableContains p.2 w.mCells = true)) ∧
      Reached Sample.balmoraFound ∧
      tableContains Sample.balmora.mId Sample.balmoraFound.mCells = true ∧
      Sample.balmoraFound.mInteriors = [] ∧ Sample.balmoraFound.mExteriors = [] :=
  ⟨fun _ hw => ⟨hw.reached_wellFormed.interiorsValid, hw.reached_wellFormed.exteriorsValid⟩,
    Reached.of_reachable (Reachable.runOps_reachable _ (Reachable.init Sample.store 2)),
    by decide, by decide, by decide⟩

end MWWorld

namespace MWWorld

open ESM

/-- Witness of `index_tables_miss_store_from_findInterior`: the state with both sample
exteriors instantiated is reached, and both index entries refer to stores of the
master table. -/
theorem index_tables_miss_store_from_findInterior_witness :
    Reached Sample.twoChunks ∧ Sample.twoChunks.mExteriors.length = 2 ∧
      (∀ p ∈ Sample.twoChunks.mInteriors, tableContains p.2 Sample.twoChunks.mCells = true) ∧
      (∀ p ∈ Sample.twoChunks.mExteriors, tableContains p.2 Sample.twoChunks.mCells = true) :=
  ⟨Reached.of_reachable (Reachable.runOps_reachable _ (Reachable.init Sample.store 2)),
    by decide,
    index_tables_miss_store_from_findInterior.1 Sample.twoChunks
      (Reached.of_reachable (Reachable.runOps_reachable _ (Reachable.init Sample.store 2)))⟩

end MWWorld

namespace MWWorld

open ESM

theorem WorldModel.getExterior_loaded (w : WorldModel) (hw : WellFormed w)
    (location : ExteriorCellLocation) (c : RefId) (w1 : WorldModel)
    (h : w.getExterior location true = Except.ok (c, w1)) :
    w1.stateOf c = some State.State_Loaded := by
  obtain ⟨⟨x, hx⟩, _⟩ := WorldModel.getExterior_shape w location true c w1 h
  have hc := (hw.wf_getExterior location true c w1 h).2
  rw [hx, WorldModel.tableContains_loadIf] at hc
  rw [hx]
  exact WorldModel.stateOf_loadIf_true c x hc

/-- Claim C26, which the code does not meet. In every state reached by calls of public
members, `findCell(id, forceLoad = true)` returns; when the master table already holds a
store for `id` it returns that store and changes nothing, whatever the state of the
store, so that a store which was Unloaded or Preloaded is not loaded although
`forceLoad` is set; only when the master table holds none and `id` resolves is the
store returned in state Loaded. -/
theorem findCell_loads_only_new_stores (w : WorldModel) (hr : Reached w) (id : RefId) :
    ∃ r, w.findCell id true = Except.ok r ∧
      (tableContains id w.mCells = true → r = (some id, w)) ∧
      (tableContains id w.mCells = false → ∀ c, r.1 = some c →
        r.2.stateOf c = some State.State_Loaded) := by
  have hw := hr.reached_wellFormed
  obtain ⟨r, hf⟩ := WorldModel.findCell_ok w id true
  refine ⟨r, hf, ?_, ?_⟩
  · intro hin
    rw [WorldModel.findCell_of_contains w id true hin] at hf
    cases hf
    rfl
  · intro hin c hc
    unfold WorldModel.findCell at hf
    simp only [hin, Bool.false_eq_true, if_false] at hf
    split at hf
    · next x y _ =>
      split at hf
      · cases hf
      · next cellStore w1 hg =>
        cases hf
        simp only [Option.some.injEq] at hc
        subst hc
        exact WorldModel.getExterior_loaded w hw _ cellStore w1 hg
    · split at hf
      · cases hf
        cases hc
      · next cell _ =>
        cases hf
        simp only [Option.some.injEq] at hc
        subst hc
        apply WorldModel.stateOf_loadIf_true
        cases cell.mIsExterior <;> exact tableContains_hashEmplace_self _ _ _

end MWWorld

namespace MWWorld

open ESM

/-- Witness of `findCell_loads_only_new_stores`: the state with both sample exteriors
preloaded is reached, and the master table holds the exterior at (-2, -9) in state
Preloaded; the statement holds for it and the identifier of that exterior, so the call
with `forceLoad = true` returns the store as it is. -/
theorem findCell_loads_only_new_stores_witness :
    Reached Sample.preloadedWorld ∧
      tableContains Sample.cellNear.mId Sample.preloadedWorld.mCells = true ∧
      Sample.preloadedWorld.stateOf Sample.cellNear.mId = some State.State_Preloaded ∧
      ∃ r, Sample.preloadedWorld.findCell Sample.cellNear.mId true = Except.ok r ∧
        (tableContains Sample.cellNear.mId Sample.preloadedWorld.mCells = true →
          r = (some Sample.cellNear.mId, Sample.preloadedWorld)) ∧
        (tableContains Sample.cellNear.mId Sample.preloadedWorld.mCells = false →
          ∀ c, r.1 = some c → r.2.stateOf c = some State.State_Loaded) :=
  ⟨Reached.of_reachable (Reachable.runOps_reachable _ (Reachable.init Sample.store 2)),
    by decide, by decide,
    findCell_loads_only_new_stores Sample.preloadedWorld
      (Reached.of_reachable (Reachable.runOps_reachable _ (Reachable.init Sample.store 2)))
      Sample.cellNear.mId⟩

/-- The failing case of `findCell(id, forceLoad = true)`: in the reachable state where
a lookup left the sample exterior at (-2, -9) preloaded, `findCell` of its identifier with `forceLoad = true`
returns that store still in state Preloaded and changes nothing. -/
theorem findCell_returns_preloaded_store :
    Reachable Sample.preloadedWorld ∧
      Sample.preloadedWorld.stateOf Sample.cellNear.mId = some State.State_Preloaded ∧
      Sample.preloadedWorld.findCell Sample.cellNear.mId true
        = Except.ok (some Sample.cellNear.mId, Sample.preloadedWorld) ∧
      createCell Sample.cellNear.mId Sample.preloadedWorld.mStore
        = some (Cell.ofEsm3 Sample.cellNear) :=
  ⟨Reachable.runOps_reachable _ (Reachable.init Sample.store 2), by decide,
    WorldModel.findCell_of_contains _ _ _ (by decide), by decide⟩

end MWWorld

namespace MWWorld

open ESM

theorem CacheBounds.cb_frame {n : Nat} {w w2 : WorldModel} (h : CacheBounds n w)
    (e : w2.mIdCache = w.mIdCache ∧ w2.mIdCacheIndex = w.mIdCacheIndex) : CacheBounds n w2 := by
  unfold CacheBounds
  rw [e.1, e.2]
  exact h

namespace WorldModel

theorem loadIf_cache (f : Bool) (k : RefId) (w : WorldModel) :
    (w.loadIf f k).mIdCache = w.mIdCache ∧ (w.loadIf f k).mIdCacheIndex = w.mIdCacheIndex :=
  ⟨loadIf_mIdCache f k w, loadIf_mIdCacheIndex f k w⟩

theorem insertCellStore_cache (c : ESM.Cell) (w : WorldModel) :
    (w.insertCellStore c).2.mIdCache = w.mIdCache ∧
      (w.insertCellStore c).2.mIdCacheIndex = w.mIdCacheIndex := by
  unfold insertCellStore
  split <;> exact ⟨rfl, rfl⟩

theorem getOrInsertCellStore_cache (c : ESM.Cell) (w : WorldModel) :
    (w.getOrInsertCellStore c).2.mIdCache = w.mIdCache ∧
      (w.getOrInsertCellStore c).2.mIdCacheIndex = w.mIdCacheIndex := by
  unfold getOrInsertCellStore
  split
  · exact ⟨rfl, rfl⟩
  · exact insertCellStore_cache c w

theorem searchCache_cache (name : RefId) (cache : List (RefId × Option RefId))
    (w : WorldModel) :
    (searchCache name cache w).2.mIdCache = w.mIdCache ∧
      (searchCache name cache w).2.mIdCacheIndex = w.mIdCacheIndex := by
  induction cache generalizing w with
  | nil => exact ⟨rfl, rfl⟩
  | cons p rest ih =>
    obtain ⟨cachedId, cellStore⟩ := p
    cases cellStore with
    | none => simpa [searchCache] using ih w
    | some k =>
      have hc := cellGetPtr_cache w name k
      unfold searchCache
      simp only
      split
      · exact ih w
      · split
        · exact hc
        · have := ih (w.cellGetPtr name k).2
          exact ⟨this.1.trans hc.1, this.2.trans hc.2⟩

theorem getExterior_cache (w : WorldModel) (location : ExteriorCellLocation) (f : Bool)
    (c : RefId) (w1 : WorldModel) (h : w.getExterior location f = Except.ok (c, w1)) :
    w1.mIdCache = w.mIdCache ∧ w1.mIdCacheIndex = w.mIdCacheIndex := by
  unfold getExterior at h
  split at h
  · split at h
    · cases h
    · cases h
      simp
  · cases h
    simp

theorem findInterior_cache (name : String) (f : Bool) (w : WorldModel) :
    (w.findInterior name f).2.mIdCache = w.mIdCache ∧
      (w.findInterior name f).2.mIdCacheIndex = w.mIdCacheIndex := by
  unfold findInterior
  split
  · split
    · simp
    · split
      · simp
      · exact ⟨rfl, rfl⟩
  · simp

theorem findCell_cache (w : WorldModel) (id : RefId) (f : Bool)
    (r : Option RefId × WorldModel) (h : w.findCell id f = Except.ok r) :
    r.2.mIdCache = w.mIdCache ∧ r.2.mIdCacheIndex = w.mIdCacheIndex := by
  unfold findCell at h
  split at h
  · cases h
    exact ⟨rfl, rfl⟩
  · split at h
    · split at h
      · cases h
      · next cellStore w1 hg =>
        cases h
        exact getExterior_cache w _ f cellStore w1 hg
    · split at h
      · cases h
        exact ⟨rfl, rfl⟩
      · next cell _ =>
        cases h
        cases cell.mIsExterior <;> simp

theorem findCellByName_cache (w : WorldModel) (name : String) (f : Bool)
    (r : Option RefId × WorldModel) (h : w.findCellByName name f = Except.ok r) :
    r.2.mIdCache = w.mIdCache ∧ r.2.mIdCacheIndex = w.mIdCacheIndex := by
  unfold findCellByName at h
  have h1 := findInterior_cache name f w
  split at h
  · next cellStore w1 heq =>
    cases h
    rw [heq] at h1
    exact h1
  · next w1 heq =>
    rw [heq] at h1
    split at h
    · cases h
      exact h1
    · split at h
      · cases h
      · next cellStore w2 hg =>
        cases h
        have h2 := getExterior_cache w1 _ f cellStore w2 hg
        exact ⟨h2.1.trans h1.1, h2.2.trans h1.2⟩

theorem readRecord_cache (w : WorldModel) (reader : ESMReader) (type : Nat)
    (r : Bool × ESMReader × WorldModel) (h : w.readRecord reader type = Except.ok r) :
    r.2.2.mIdCache = w.mIdCache ∧ r.2.2.mIdCacheIndex = w.mIdCacheIndex := by
  unfold readRecord at h
  split at h
  · split at h
    · cases h
    · split at h
      · cases h
      · next w1 hf =>
        cases h
        exact findCell_cache w _ true _ hf
      · next cellStore w1 hf =>
        cases h
        have h1 := findCell_cache w _ true _ hf
        simp only [modifyStore, loadIf_mIdCache, loadIf_mIdCacheIndex]
        split <;> exact h1
  · cases h
    exact ⟨rfl, rfl⟩

end WorldModel

theorem CacheBounds.cb_getPtrAndCache {n : Nat} {w : WorldModel} (h : CacheBounds n w)
    (name k : RefId) : CacheBounds n (w.getPtrAndCache name k).2 := by
  have hc := WorldModel.cellGetPtr_cache w name k
  unfold WorldModel.getPtrAndCache
  simp only
  split
  · unfold CacheBounds at h ⊢
    simp only [List.length_set, hc.1, hc.2]
    refine ⟨h.1, ?_⟩
    split <;> omega
  · exact h.cb_frame hc

theorem CacheBounds.cb_searchStores {n : Nat} {w : WorldModel} (h : CacheBounds n w)
    (name : RefId) (ks : List RefId) : CacheBounds n (WorldModel.searchStores name ks w).2 := by
  induction ks generalizing w with
  | nil => exact h
  | cons k rest ih =>
    unfold WorldModel.searchStores
    simp only
    split
    · exact h.cb_getPtrAndCache name k
    · exact ih (h.cb_getPtrAndCache name k)

theorem CacheBounds.cb_searchDefinitions {n : Nat} {w : WorldModel} (h : CacheBounds n w)
    (name : RefId) (cs : List ESM.Cell) :
    CacheBounds n (WorldModel.searchDefinitions name cs w).2 := by
  induction cs generalizing w with
  | nil => exact h
  | cons c rest ih =>
    unfold WorldModel.searchDefinitions
    split
    · exact ih h
    · simp only
      have h2 := (h.cb_frame (WorldModel.insertCellStore_cache c w)).cb_getPtrAndCache name
        (w.insertCellStore c).1
      split
      · exact h2
      · exact ih h2

theorem CacheBounds.cb_fullSearch {n : Nat} {w : WorldModel} (h : CacheBounds n w)
    (name : RefId) : CacheBounds n (WorldModel.fullSearch name w).2 := by
  unfold WorldModel.fullSearch
  have e1 := h.cb_searchStores name (w.mExteriors.reverse.map Prod.snd)
  rcases h1 : WorldModel.searchStores name (w.mExteriors.reverse.map Prod.snd) w with ⟨_ | p, w1⟩
  all_goals rw [h1] at e1; simp only at e1 ⊢
  swap; exact e1
  have e2 := e1.cb_searchStores name (w1.mInteriors.map Prod.snd)
  rcases h2 : WorldModel.searchStores name (w1.mInteriors.map Prod.snd) w1 with ⟨_ | p, w2⟩
  all_goals rw [h2] at e2; simp only at e2 ⊢
  swap; exact e2
  have e3 := e2.cb_searchDefinitions name w2.mStore.extCells
  rcases h3 : WorldModel.searchDefinitions name w2.mStore.extCells w2 with ⟨_ | p, w3⟩
  all_goals rw [h3] at e3; simp only at e3 ⊢
  swap; exact e3
  have e4 := e3.cb_searchDefinitions name w3.mStore.intCells
  rcases h4 : WorldModel.searchDefinitions name w3.mStore.intCells w3 with ⟨_ | p, w4⟩
  all_goals rw [h4] at e4; simp only at e4 ⊢
  all_goals exact e4

theorem CacheBounds.cb_getPtr {n : Nat} {w : WorldModel} (h : CacheBounds n w) (name : RefId) :
    CacheBounds n (w.getPtr name).2 := by
  unfold WorldModel.getPtr
  have e1 := h.cb_frame (WorldModel.searchCache_cache name w.mIdCache w)
  rcases h1 : WorldModel.searchCache name w.mIdCache w with ⟨_ | p, w1⟩
  all_goals rw [h1] at e1; simp only at e1 ⊢
  · exact e1.cb_fullSearch name
  · exact e1

theorem CacheBounds.cb_getExteriorPtrsLoop {n : Nat} {w : WorldModel} (h : CacheBounds n w)
    (name : RefId) (cs : List ESM.Cell) (out : List Ptr) :
    CacheBounds n (WorldModel.getExteriorPtrsLoop name cs out w).2 := by
  induction cs generalizing w out with
  | nil => exact h
  | cons c rest ih =>
    unfold WorldModel.getExteriorPtrsLoop
    simp only
    exact ih ((h.cb_frame (WorldModel.getOrInsertCellStore_cache c w)).cb_getPtrAndCache name _) _

theorem CacheBounds.cb_clear {n : Nat} {w : WorldModel} (h : CacheBounds n w) :
    CacheBounds n w.clear := by
  unfold CacheBounds at h ⊢
  simp only [WorldModel.clear, List.length_map]
  exact ⟨h.1, by omega⟩

theorem CacheBounds.cb_apply {n : Nat} {w : WorldModel} (h : CacheBounds n w) (op : Op) :
    CacheBounds n (op.apply w) := by
  cases op with
  | clear => exact h.cb_clear
  | getExterior location f =>
    simp only [Op.apply]
    cases hc : w.getExterior location f with
    | error e => exact h
    | ok r => exact h.cb_frame (WorldModel.getExterior_cache w location f r.1 r.2 hc)
  | findInterior name f => exact h.cb_frame (WorldModel.findInterior_cache name f w)
  | findCell id f =>
    simp only [Op.apply]
    cases hc : w.findCell id f with
    | error e => exact h
    | ok r => exact h.cb_frame (WorldModel.findCell_cache w id f r hc)
  | findCellByName name f =>
    simp only [Op.apply]
    cases hc : w.findCellByName name f with
    | error e => exact h
    | ok r => exact h.cb_frame (WorldModel.findCellByName_cache w name f r hc)
  | getPtr name => exact h.cb_getPtr name
  | getExteriorPtrs name => exact h.cb_getExteriorPtrsLoop name _ []
  | getAll id => exact h.cb_frame ⟨rfl, rfl⟩
  | setObjects k refs => exact h.cb_frame ⟨rfl, rfl⟩

theorem CacheBounds.cb_call {n : Nat} {w : WorldModel} (h : CacheBounds n w) (call : Call) :
    CacheBounds n (call.apply w) := by
  cases call with
  | op o => exact h.cb_apply o
  | readRecord reader type =>
    simp only [Call.apply]
    cases hc : w.readRecord reader type with
    | error e => exact h
    | ok r => exact h.cb_frame (WorldModel.readRecord_cache w reader type r hc)
  | write writer progress => exact h.cb_frame ⟨rfl, rfl⟩

theorem CacheBounds.cb_runCalls {n : Nat} (calls : List Call) {w : WorldModel}
    (h : CacheBounds n w) : CacheBounds n (runCalls calls w) := by
  induction calls generalizing w with
  | nil => exact h
  | cons c rest ih => exact ih (h.cb_call c)

theorem CacheBounds.cb_create (store : ESMStore) (n : Nat) (hn : 1 ≤ n) :
    CacheBounds n (WorldModel.create store n) := by
  unfold CacheBounds
  simp only [WorldModel.create, List.length_replicate]
  exact ⟨trivial, hn⟩

theorem WorldModel.searchCache_clear (w : WorldModel) (id : RefId) :
    WorldModel.searchCache id w.clear.mIdCache w.clear = (none, w.clear) := by
  have key : ∀ (l : List (RefId × Option RefId)) (x : WorldModel),
      WorldModel.searchCache id (l.map (fun _ => (RefId.empty, none))) x = (none, x) := by
    intro l x
    induction l with
    | nil => rfl
    | cons p rest ih => simpa [WorldModel.searchCache] using ih
  exact key _ _

end MWWorld

namespace MWWorld

open ESM

/-- Claim C27. Bounds of the pointer cache. For an index constructed with a cache of
`n >= 1` slots, after any sequence of calls of public members (`clear`, `readRecord`
and `write` included) the cache has exactly `n` slots and the write index is below
`n`, and so it is after a further `getPtrAndCache`, whose slot write is therefore in
bounds; `clear` leaves `n` empty slots and the write index 0, and a `getPtr` after
`clear` finds nothing in the cache: its cache loop returns nothing and the call is
the full search. -/
theorem pointer_cache_bounds (store : ESMStore) (n : Nat) (hn : 1 ≤ n) (calls : List Call)
    (w : WorldModel) (hw : w = runCalls calls (WorldModel.create store n)) :
    w.mIdCache.length = n ∧ w.mIdCacheIndex < n ∧
      w.mIdCacheIndex < w.mIdCache.length ∧
      (∀ name k, (w.getPtrAndCache name k).2.mIdCache.length = n ∧
        (w.getPtrAndCache name k).2.mIdCacheIndex < n) ∧
      w.clear.mIdCache = List.replicate n (RefId.empty, none) ∧
      w.clear.mIdCacheIndex = 0 ∧
      (∀ id, WorldModel.searchCache id w.clear.mIdCache w.clear = (none, w.clear)) ∧
      (∀ id, w.clear.getPtr id = WorldModel.fullSearch id w.clear) := by
  have hb : CacheBounds n w := by
    rw [hw]
    exact CacheBounds.cb_runCalls calls (CacheBounds.cb_create store n hn)
  refine ⟨hb.1, hb.2, by rw [hb.1]; exact hb.2, fun name k => hb.cb_getPtrAndCache name k,
    ?_, rfl, fun id => WorldModel.searchCache_clear w id, ?_⟩
  · simp only [WorldModel.clear]
    rw [← hb.1]
    exact List.map_const' _ _
  · intro id
    unfold WorldModel.getPtr
    rw [WorldModel.searchCache_clear]

end MWWorld

namespace MWWorld

open ESM

/-- Witness of `pointer_cache_bounds`: a cache of two slots, after lookups, a `write`, a
`clear` and a `readRecord`. -/
theorem pointer_cache_bounds_witness :
    (1 : Nat) ≤ 2 ∧
      Sample.busyWorld.mIdCache.length = 2 ∧ Sample.busyWorld.mIdCacheIndex < 2 ∧
      Sample.busyWorld.mIdCacheIndex < Sample.busyWorld.mIdCache.length ∧
      (∀ name k, (Sample.busyWorld.getPtrAndCache name k).2.mIdCache.length = 2 ∧
        (Sample.busyWorld.getPtrAndCache name k).2.mIdCacheIndex < 2) ∧
      Sample.busyWorld.clear.mIdCache = List.replicate 2 (RefId.empty, none) ∧
      Sample.busyWorld.clear.mIdCacheIndex = 0 ∧
      (∀ id, WorldModel.searchCache id Sample.busyWorld.clear.mIdCache Sample.busyWorld.clear
        = (none, Sample.busyWorld.clear)) ∧
      (∀ id, Sample.busyWorld.clear.getPtr id
        = WorldModel.fullSearch id Sample.busyWorld.clear) :=
  ⟨by decide, pointer_cache_bounds Sample.store 2 (by decide) _ Sample.busyWorld rfl⟩

end MWWorld

namespace MWMechanics

open ESM MWWorld

theorem tableModify_const_twice {κ β : Type} [DecidableEq κ] (k : κ) (a b : β)
    (t : List (κ × β)) :
    tableModify k (fun _ => a) (tableModify k (fun _ => b) t) = tableModify k (fun _ => a) t := by
  induction t with
  | nil => rfl
  | cons p rest ih =>
    obtain ⟨k2, v⟩ := p
    by_cases hk : k2 = k
    · simp [tableModify, hk]
    · simp [tableModify, hk, ih]

namespace NpcStats

/-- The loop of `setFactionRank` from a rank inside `mRanks`: it stores the greatest
rank not above the start that is 0 or has a name. -/
theorem setRankLoop_spec (mRanks : List String) (faction : RefId) (n : Nat)
    (stats : NpcStats) (hn : n < mRanks.length) :
    ∃ r : Nat, r ≤ n ∧
      setRankLoop mRanks faction n stats
        = Except.ok { stats with
            mFactionRank := tableModify faction (fun _ => (r : Int)) stats.mFactionRank } ∧
      (r = 0 ∨ ∃ name, mRanks.get? r = some name ∧ name ≠ "") ∧
      ∀ r2 : Nat, r < r2 → r2 ≤ n → mRanks.get? r2 = some "" := by
  induction n generalizing stats with
  | zero =>
    refine ⟨0, Nat.le_refl _, rfl, Or.inl rfl, ?_⟩
    intro r2 h1 h2
    omega
  | succ m ih =>
    have hget : mRanks.get? (m + 1) = some (mRanks.get ⟨m + 1, hn⟩) := List.get?_eq_get hn
    by_cases hname : mRanks.get ⟨m + 1, hn⟩ = ""
    · obtain ⟨r, hr, heq, hex, hall⟩ := ih
        { stats with
          mFactionRank := tableModify faction (fun _ => ((m + 1 : Nat) : Int)) stats.mFactionRank }
        (by omega)
      refine ⟨r, by omega, ?_, hex, ?_⟩
      · simp only [setRankLoop, hget, hname, if_true]
        rw [heq]
        simp only [tableModify_const_twice]
      · intro r2 h1 h2
        by_cases h3 : r2 = m + 1
        · rw [h3, hget, hname]
        · exact hall r2 h1 (by omega)
    · refine ⟨m + 1, Nat.le_refl _, ?_, Or.inr ⟨_, hget, hname⟩, ?_⟩
      · simp only [setRankLoop, hget, hname, if_false]
      · intro r2 h1 h2
        omega

theorem getFactionRank_modify (faction other : RefId) (r : Int) (stats : NpcStats)
    (x : List RefId) :
    getFactionRank other
        { mFactionRank := tableModify faction (fun _ => r) stats.mFactionRank, mExpelled := x }
      = if other = faction then
          (match tableFind faction stats.mFactionRank with
            | some _ => r
            | none => -1)
        else stats.getFactionRank other := by
  unfold getFactionRank
  simp only [tableFind_tableModify]
  by_cases h : other = faction
  · subst h
    simp only [if_true]
    cases tableFind other stats.mFactionRank <;> rfl
  · simp only [h, if_false]

theorem tableFind_filter_ne {β : Type} (faction other : RefId) (t : List (RefId × β)) :
    tableFind other (t.filter (fun p => decide (p.1 ≠ faction)))
      = if other = faction then none else tableFind other t := by
  induction t with
  | nil => simp [tableFind]
  | cons p rest ih =>
    obtain ⟨k, v⟩ := p
    by_cases hk : k = faction
    · subst hk
      simp only [List.filter_cons, ne_eq, not_true_eq_false, decide_False,
        Bool.false_eq_true, if_false, ih]
      by_cases ho : other = k
      · simp [ho]
      · have : k ≠ other := fun e => ho e.symm
        simp [tableFind, ho, this]
    · simp only [List.filter_cons, ne_eq, hk, not_false_eq_true, decide_True, if_true]
      by_cases hko : k = other
      · subst hko
        simp [tableFind, hk]
      · simp only [tableFind, hko, if_false, ih]

end NpcStats

/-- Claim C22, as amended. `setFactionRank(faction, newRank)` sets the rank only if such
a rank exists. For a faction the NPC is not a member of nothing changes. For a member
the record of the faction is looked up first, and the call throws when the content
store has no such record. When the record exists: with `0 <= newRank` below the number
of rank-data entries (which does not exceed the number of rank names), the call
returns and the stored rank is the greatest `r <= newRank` that is 0 or has a
non-empty name, the expulsions and the other ranks being unchanged; with `newRank` not
below the number of rank-data entries nothing changes; with `newRank < 0` membership
and expulsion for that faction are removed and the other factions are untouched. -/
theorem setFactionRank_sets_existing_rank (factions : List Faction) (stats : NpcStats)
    (faction : RefId) (newRank : Int) :
    (∀ f rank, tableFind faction stats.mFactionRank = some rank →
        findFaction factions faction = Except.ok f →
        0 ≤ newRank → newRank < (f.mRankData.length : Int) →
        f.mRankData.length ≤ f.mRanks.length →
        ∃ (r : Nat) (stats2 : NpcStats),
          stats.setFactionRank factions faction newRank = Except.ok stats2 ∧
          stats2.getFactionRank faction = (r : Int) ∧ (r : Int) ≤ newRank ∧
          (r = 0 ∨ ∃ name, f.mRanks.get? r = some name ∧ name ≠ "") ∧
          (∀ r2 : Nat, r < r2 → (r2 : Int) ≤ newRank → f.mRanks.get? r2 = some "") ∧
          stats2.mExpelled = stats.mExpelled ∧
          ∀ other, other ≠ faction →
            stats2.getFactionRank other = stats.getFactionRank other) ∧
      (tableFind faction stats.mFactionRank = none →
        stats.setFactionRank factions faction newRank = Except.ok stats) ∧
      (∀ f rank, tableFind faction stats.mFactionRank = some rank →
        findFaction factions faction = Except.ok f →
        (f.mRankData.length : Int) ≤ newRank →
        stats.setFactionRank factions faction newRank = Except.ok stats) ∧
      (∀ f rank, tableFind faction stats.mFactionRank = some rank →
        findFaction factions faction = Except.ok f → newRank < 0 →
        ∃ stats2, stats.setFactionRank factions faction newRank = Except.ok stats2 ∧
          stats2.isInFaction faction = false ∧ stats2.getExpelled faction = false ∧
          ∀ other, other ≠ faction →
            stats2.getFactionRank other = stats.getFactionRank other ∧
              stats2.getExpelled other = stats.getExpelled other) ∧
      (∀ rank e, tableFind faction stats.mFactionRank = some rank →
        findFaction factions faction = Except.error e →
        stats.setFactionRank factions faction newRank = Except.error e) := by
  refine ⟨?_, ?_, ?_, ?_, ?_⟩
  · intro f rank hm hf h0 hlt hlen
    have hn : newRank.toNat < f.mRanks.length := by omega
    obtain ⟨r, hr, heq, hex, hall⟩ :=
      NpcStats.setRankLoop_spec f.mRanks faction newRank.toNat stats hn
    refine ⟨r, ⟨tableModify faction (fun _ => (r : Int)) stats.mFactionRank, stats.mExpelled⟩,
      ?_, ?_, by omega, hex, fun r2 h1 h2 => hall r2 h1 (by omega), rfl, ?_⟩
    · simp only [NpcStats.setFactionRank, hm, hf]
      rw [if_neg (by omega), if_pos hlt]
      exact heq
    · rw [NpcStats.getFactionRank_modify]
      simp [hm]
    · intro other ho
      rw [NpcStats.getFactionRank_modify]
      simp [ho]
  · intro hm
    simp [NpcStats.setFactionRank, hm]
  · intro f rank hm hf hge
    simp only [NpcStats.setFactionRank, hm, hf]
    rw [if_neg (by omega), if_neg (by omega)]
  · intro f rank hm hf hneg
    refine ⟨_, by simp only [NpcStats.setFactionRank, hm, hf]; rw [if_pos hneg], ?_, ?_, ?_⟩
    · unfold NpcStats.isInFaction
      rw [NpcStats.tableFind_filter_ne]
      simp
    · simp [NpcStats.getExpelled]
    · intro other ho
      constructor
      · unfold NpcStats.getFactionRank
        rw [NpcStats.tableFind_filter_ne]
        simp [ho]
      · simp [NpcStats.getExpelled, List.mem_filter, ho]
  · intro rank e hm hf
    simp only [NpcStats.setFactionRank, hm, hf]

end MWMechanics

namespace MWMechanics

open ESM MWWorld

/-- Witness of `setFactionRank_sets_existing_rank`: a member of the sample faction, whose
ranks 2 and 3 have no name: rank 3 is asked for and rank 1 is stored; rank -1 removes
membership and expulsion. -/
theorem setFactionRank_sets_existing_rank_witness :
    Sample.member.setFactionRank [Sample.guild] Sample.guild.mId 3
        = Except.ok { mFactionRank := [(Sample.guild.mId, 1)],
                      mExpelled := [Sample.guild.mId] } ∧
      (∃ (r : Nat) (stats2 : NpcStats),
        Sample.member.setFactionRank [Sample.guild] Sample.guild.mId 3 = Except.ok stats2 ∧
        stats2.getFactionRank Sample.guild.mId = (r : Int) ∧ (r : Int) ≤ 3 ∧
        (r = 0 ∨ ∃ name, Sample.guild.mRanks.get? r = some name ∧ name ≠ "") ∧
        (∀ r2 : Nat, r < r2 → (r2 : Int) ≤ 3 → Sample.guild.mRanks.get? r2 = some "") ∧
        stats2.mExpelled = Sample.member.mExpelled ∧
        ∀ other, other ≠ Sample.guild.mId →
          stats2.getFactionRank other = Sample.member.getFactionRank other) ∧
      (∃ stats2, Sample.member.setFactionRank [Sample.guild] Sample.guild.mId (-1)
          = Except.ok stats2 ∧
        stats2.isInFaction Sample.guild.mId = false ∧
        stats2.getExpelled Sample.guild.mId = false ∧
        ∀ other, other ≠ Sample.guild.mId →
          stats2.getFactionRank other = Sample.member.getFactionRank other ∧
            stats2.getExpelled other = Sample.member.getExpelled other) :=
  ⟨rfl,
    (setFactionRank_sets_existing_rank [Sample.guild] Sample.member Sample.guild.mId 3).1
      Sample.guild 0 (by decide) rfl (by decide) (by decide) (by decide),
    (setFactionRank_sets_existing_rank [Sample.guild] Sample.member Sample.guild.mId
      (-1)).2.2.2.1 Sample.guild 0 (by decide) rfl (by decide)⟩

/-- Claim C22 as stated fails: the sample NPC is a member of the faction, but over a
content store without the record of that faction `setFactionRank(faction, -1)` throws
instead of removing membership and expulsion, and so does `setFactionRank(faction, 3)`
instead of changing nothing or storing a rank. -/
theorem setFactionRank_throws_without_record :
    Sample.member.isInFaction Sample.guild.mId = true ∧
      Sample.member.setFactionRank [] Sample.guild.mId (-1)
        = Except.error "Faction record not found" ∧
      Sample.member.setFactionRank [] Sample.guild.mId 3
        = Except.error "Faction record not found" :=
  ⟨by decide, rfl, rfl⟩

end MWMechanics


namespace MWMechanics

/-- For numbers, `a < b` being false means `a >= b`. -/
theorem Float32.ge_of_not_lt (a b : Float32) (ha : a ≠ Float32.nan) (hb : b ≠ Float32.nan)
    (h : a.lt b = false) : a.ge b = true := by
  cases a with
  | nan => exact absurd rfl ha
  | inf s =>
    cases b with
    | nan => exact absurd rfl hb
    | inf t => cases s <;> cases t <;> simp_all [Float32.lt, Float32.ge, Float32.le]
    | finite y => cases s <;> simp_all [Float32.lt, Float32.ge, Float32.le]
  | finite x =>
    cases b with
    | nan => exact absurd rfl hb
    | inf t => cases t <;> simp_all [Float32.lt, Float32.ge, Float32.le]
    | finite y =>
      simp only [Float32.lt, decide_eq_false_iff_not, not_lt] at h
      simp only [Float32.ge, Float32.le, decide_eq_true_eq]
      exact h

namespace ObstacleCheck

theorem update_of_initial (length : Vec3f → Float32) (position : Vec3f) (speed : Float32)
    (destination : Vec3f) (duration : Float32) (o : ObstacleCheck)
    (h : o.mWalkState = WalkState.Initial) :
    (o.update length position speed destination duration).mWalkState = WalkState.Norm := by
  simp [update, h]

theorem update_of_evade (length : Vec3f → Float32) (position : Vec3f) (speed : Float32)
    (destination : Vec3f) (duration : Float32) (o : ObstacleCheck)
    (h : o.mWalkState = WalkState.Evade) :
    (o.update length position speed destination duration).mWalkState =
      if (o.mStateDuration.add duration).ge DURATION_TO_EVADE then WalkState.Norm
      else WalkState.Evade := by
  simp only [update, h]
  split_ifs <;> simp_all

theorem update_of_norm (length : Vec3f → Float32) (position : Vec3f) (speed : Float32)
    (destination : Vec3f) (duration : Float32) (o : ObstacleCheck)
    (h : o.mWalkState = WalkState.Norm) :
    (o.update length position speed destination duration).mWalkState = WalkState.Norm ∨
      (o.update length position speed destination duration).mWalkState
        = WalkState.CheckStuck := by
  cases hd : o.mDestination.ne destination <;>
    simp only [update, h, hd] <;> split_ifs <;> simp_all

theorem update_of_checkStuck (length : Vec3f → Float32) (position : Vec3f) (speed : Float32)
    (destination : Vec3f) (duration : Float32) (o : ObstacleCheck)
    (h : o.mWalkState = WalkState.CheckStuck) :
    (o.update length position speed destination duration).mWalkState = WalkState.Norm ∨
      ((o.update length position speed destination duration).mWalkState
          = WalkState.CheckStuck ∧
        (o.mStateDuration.add duration).lt DURATION_SAME_SPOT = true) ∨
      ((o.update length position speed destination duration).mWalkState = WalkState.Evade ∧
        (o.mStateDuration.add duration).lt DURATION_SAME_SPOT = false) := by
  cases hd : o.mDestination.ne destination <;>
    simp only [update, h, hd, chooseEvasionDirection] <;> split_ifs <;> simp_all

end ObstacleCheck

end MWMechanics

namespace MWMechanics

/-- Claim C23, as amended. `ObstacleCheck::update` follows the documented walking-state
diagram, every duration being a single-precision `float`. For every state and every
input: from Initial the update yields Norm; from Norm it yields Norm or CheckStuck; from
CheckStuck it yields Norm, CheckStuck or Evade; from Evade it yields Evade or Norm.
Evade is entered only from CheckStuck and only when the stuck duration with this update
added (the single-precision sum) is not below `DURATION_SAME_SPOT`, which means that it
has reached `DURATION_SAME_SPOT` unless the sum is not a number; Evade is left, to Norm,
exactly when the evade duration with this update added (the single-precision sum) has
reached `DURATION_TO_EVADE`. -/
theorem update_follows_state_diagram (length : Vec3f → Float32) (position : Vec3f)
    (speed : Float32) (destination : Vec3f) (duration : Float32) (o : ObstacleCheck) :
    (o.mWalkState = WalkState.Initial →
        (o.update length position speed destination duration).mWalkState = WalkState.Norm) ∧
      (o.mWalkState = WalkState.Norm →
        (o.update length position speed destination duration).mWalkState = WalkState.Norm ∨
        (o.update length position speed destination duration).mWalkState
          = WalkState.CheckStuck) ∧
      (o.mWalkState = WalkState.CheckStuck →
        (o.update length position speed destination duration).mWalkState = WalkState.Norm ∨
        (o.update length position speed destination duration).mWalkState
          = WalkState.CheckStuck ∨
        (o.update length position speed destination duration).mWalkState = WalkState.Evade) ∧
      (o.mWalkState = WalkState.Evade →
        (o.update length position speed destination duration).mWalkState = WalkState.Evade ∨
        (o.update length position speed destination duration).mWalkState = WalkState.Norm) ∧
      (o.mWalkState ≠ WalkState.Evade →
        (o.update length position speed destination duration).mWalkState = WalkState.Evade →
        o.mWalkState = WalkState.CheckStuck ∧
          (o.mStateDuration.add duration).lt DURATION_SAME_SPOT = false ∧
          (o.mStateDuration.add duration ≠ Float32.nan →
            (o.mStateDuration.add duration).ge DURATION_SAME_SPOT = true)) ∧
      (o.mWalkState = WalkState.Evade →
        ((o.update length position speed destination duration).mWalkState = WalkState.Norm ↔
          (o.mStateDuration.add duration).ge DURATION_TO_EVADE = true)) := by
  refine ⟨ObstacleCheck.update_of_initial length position speed destination duration o,
    ObstacleCheck.update_of_norm length position speed destination duration o, ?_, ?_, ?_, ?_⟩
  · intro h
    rcases ObstacleCheck.update_of_checkStuck length position speed destination duration o h
      with h1 | ⟨h1, -⟩ | ⟨h1, -⟩
    · exact Or.inl h1
    · exact Or.inr (Or.inl h1)
    · exact Or.inr (Or.inr h1)
  · intro h
    rw [ObstacleCheck.update_of_evade length position speed destination duration o h]
    split_ifs
    · exact Or.inr rfl
    · exact Or.inl rfl
  · intro hne hev
    cases hs : o.mWalkState with
    | Initial =>
      rw [ObstacleCheck.update_of_initial length position speed destination duration o hs]
        at hev
      cases hev
    | Norm =>
      rcases ObstacleCheck.update_of_norm length position speed destination duration o hs
        with h1 | h1 <;> rw [h1] at hev <;> cases hev
    | CheckStuck =>
      rcases ObstacleCheck.update_of_checkStuck length position speed destination duration o hs
        with h1 | ⟨h1, -⟩ | ⟨-, h2⟩
      · rw [h1] at hev; cases hev
      · rw [h1] at hev; cases hev
      · exact ⟨rfl, h2, fun hn =>
          Float32.ge_of_not_lt _ _ hn (by decide) h2⟩
    | Evade => exact absurd hs hne
  · intro h
    rw [ObstacleCheck.update_of_evade length position speed destination duration o h]
    split_ifs with hc
    · exact ⟨fun _ => hc, fun _ => rfl⟩
    · exact ⟨(fun e => by cases e), fun hc2 => absurd hc2 hc⟩

end MWMechanics

namespace MWMechanics

set_option maxRecDepth 8000 in
/-- Witness of `update_follows_state_diagram`: an actor checked for 1.4f seconds that has
not moved enters Evade after 0.1f more seconds, the single-precision sum being 1.5f
exactly; an actor evading for 0.35f seconds leaves Evade after 0.05f more seconds, the
single-precision sum being 0.4f exactly. -/
theorem update_follows_state_diagram_witness :
    Sample.stuck.mWalkState ≠ WalkState.Evade ∧
      (Sample.stuck.update Sample.length Sample.origin (Float32.ofInt 100) Sample.target
        (Float32.dyadic 13421773 27)).mWalkState = WalkState.Evade ∧
      Sample.stuck.mStateDuration.add (Float32.dyadic 13421773 27) = DURATION_SAME_SPOT ∧
      (Sample.stuck.mStateDuration.add (Float32.dyadic 13421773 27)).ge DURATION_SAME_SPOT
        = true ∧
      Sample.evading.mWalkState = WalkState.Evade ∧
      Sample.evading.mStateDuration.add (Float32.dyadic 13421773 28) = DURATION_TO_EVADE ∧
      (Sample.evading.update Sample.length Sample.origin (Float32.ofInt 100) Sample.target
        (Float32.dyadic 13421773 28)).mWalkState = WalkState.Norm :=
  ⟨by decide, by decide, by decide,
    ((update_follows_state_diagram Sample.length Sample.origin (Float32.ofInt 100)
      Sample.target (Float32.dyadic 13421773 27) Sample.stuck).2.2.2.2.1
      (by decide) (by decide)).2.2 (by decide),
    by decide, by decide,
    ((update_follows_state_diagram Sample.length Sample.origin (Float32.ofInt 100)
      Sample.target (Float32.dyadic 13421773 28) Sample.evading).2.2.2.2.2
      (by decide)).2 (by decide)⟩

set_option maxRecDepth 8000 in
/-- Claim C23 as stated fails: for the actor checked for being stuck, an update whose
duration is not a number enters Evade, since the comparison of the sum with
`DURATION_SAME_SPOT` is false, while the accumulated duration has not reached
`DURATION_SAME_SPOT`. -/
theorem update_enters_evade_on_nan :
    Sample.stuck.mWalkState = WalkState.CheckStuck ∧
      (Sample.stuck.update Sample.length Sample.origin (Float32.ofInt 100) Sample.target
        Float32.nan).mWalkState = WalkState.Evade ∧
      Sample.stuck.mStateDuration.add Float32.nan = Float32.nan ∧
      (Sample.stuck.mStateDuration.add Float32.nan).ge DURATION_SAME_SPOT = false := by
  decide

end MWMechanics

/-! # Terrain bounds -/

namespace MWRender

open ESM

theorem bitLength_zero (fuel : Nat) : bitLength fuel 0 = 0 := by
  cases fuel <;> simp [bitLength]

theorem toFloat_exact (n : Int) (h : n.natAbs < 2 ^ 24) : toFloat n = n := by
  have h0 : n.natAbs / 2 ^ 24 = 0 := Nat.div_eq_of_lt h
  simp only [toFloat, h0, bitLength_zero]
  simp [Nat.mod_one, Int.sign_mul_abs]

theorem toFloat_exact_le (n : Int) (h : n.natAbs ≤ 2 ^ 24) : toFloat n = n := by
  rcases Nat.lt_or_ge n.natAbs (2 ^ 24) with h1 | h1
  · exact toFloat_exact n h1
  · have h2 : n.natAbs = 2 ^ 24 := le_antisymm h h1
    rcases Int.natAbs_eq n with h3 | h3
    · rw [h3, h2]; decide
    · rw [h3, h2]; decide

theorem BoundUnion_minX (b : Bounds) (x y : Int) :
    (BoundUnion b x y).minX = min x b.minX := by
  simp only [BoundUnion]; split_ifs <;> omega

theorem BoundUnion_maxX (b : Bounds) (x y : Int) :
    (BoundUnion b x y).maxX = max x b.maxX := by
  simp only [BoundUnion]; split_ifs <;> omega

theorem BoundUnion_minY (b : Bounds) (x y : Int) :
    (BoundUnion b x y).minY = min y b.minY := by
  simp only [BoundUnion]; split_ifs <;> omega

theorem BoundUnion_maxY (b : Bounds) (x y : Int) :
    (BoundUnion b x y).maxY = max y b.maxY := by
  simp only [BoundUnion]; split_ifs <;> omega

/-- The loop of `getBounds` over a list of positions already converted to `float`. -/
theorem foldl_BoundUnion_spec (l : List (Int × Int)) (b : Bounds) :
    ((l.foldl (fun b p => BoundUnion b p.1 p.2) b).minX ≤ b.minX ∧
      b.maxX ≤ (l.foldl (fun b p => BoundUnion b p.1 p.2) b).maxX ∧
      (l.foldl (fun b p => BoundUnion b p.1 p.2) b).minY ≤ b.minY ∧
      b.maxY ≤ (l.foldl (fun b p => BoundUnion b p.1 p.2) b).maxY) ∧
    (∀ p ∈ l, (l.foldl (fun b p => BoundUnion b p.1 p.2) b).minX ≤ p.1 ∧
      p.1 ≤ (l.foldl (fun b p => BoundUnion b p.1 p.2) b).maxX ∧
      (l.foldl (fun b p => BoundUnion b p.1 p.2) b).minY ≤ p.2 ∧
      p.2 ≤ (l.foldl (fun b p => BoundUnion b p.1 p.2) b).maxY) ∧
    (∀ m : Int, b.maxX ≤ m → (∀ p ∈ l, p.1 ≤ m) →
      (l.foldl (fun b p => BoundUnion b p.1 p.2) b).maxX ≤ m) ∧
    (∀ m : Int, b.maxY ≤ m → (∀ p ∈ l, p.2 ≤ m) →
      (l.foldl (fun b p => BoundUnion b p.1 p.2) b).maxY ≤ m) := by
  induction l generalizing b with
  | nil => simp
  | cons q l ih =>
    obtain ⟨⟨h1, h2, h3, h4⟩, h5, h6, h7⟩ := ih (BoundUnion b q.1 q.2)
    rw [BoundUnion_minX] at h1
    rw [BoundUnion_maxX] at h2
    rw [BoundUnion_minY] at h3
    rw [BoundUnion_maxY] at h4
    simp only [List.foldl_cons]
    refine ⟨⟨by omega, by omega, by omega, by omega⟩, ?_, ?_, ?_⟩
    · intro p hp
      rcases List.mem_cons.mp hp with rfl | hp
      · refine ⟨by omega, by omega, by omega, by omega⟩
      · exact h5 p hp
    · intro m hm hall
      refine h6 m ?_ (fun p hp => hall p (List.mem_cons_of_mem _ hp))
      rw [BoundUnion_maxX]
      have := hall q (List.mem_cons_self _ _)
      omega
    · intro m hm hall
      refine h7 m ?_ (fun p hp => hall p (List.mem_cons_of_mem _ hp))
      rw [BoundUnion_maxY]
      have := hall q (List.mem_cons_self _ _)
      omega

/-- Both loops of `getBounds` fold `BoundUnion` over the converted positions of the
considered lands. -/
theorem getBounds_eq (esmStore : LandStore) (worldspace : RefId) :
    getBounds esmStore worldspace =
      { minX := (((consideredLands esmStore worldspace).map
            (fun p => (toFloat p.1, toFloat p.2))).foldl
            (fun b p => BoundUnion b p.1 p.2) { minX := 0, maxX := 0, minY := 0, maxY := 0 }).minX,
        maxX := floatAdd (((consideredLands esmStore worldspace).map
            (fun p => (toFloat p.1, toFloat p.2))).foldl
            (fun b p => BoundUnion b p.1 p.2) { minX := 0, maxX := 0, minY := 0, maxY := 0 }).maxX 1,
        minY := (((consideredLands esmStore worldspace).map
            (fun p => (toFloat p.1, toFloat p.2))).foldl
            (fun b p => BoundUnion b p.1 p.2) { minX := 0, maxX := 0, minY := 0, maxY := 0 }).minY,
        maxY := floatAdd (((consideredLands esmStore worldspace).map
            (fun p => (toFloat p.1, toFloat p.2))).foldl
            (fun b p => BoundUnion b p.1 p.2) { minX := 0, maxX := 0, minY := 0, maxY := 0 }).maxY 1 } := by
  have hfilter : ∀ (l : List ExteriorCellLocation) (b : Bounds),
      l.foldl (fun b landPos =>
          if landPos.mWorldspace = worldspace then
            BoundUnion b (toFloat landPos.mX) (toFloat landPos.mY)
          else b) b =
        (((l.filter (fun landPos => landPos.mWorldspace = worldspace)).map
          (fun landPos => (landPos.mX, landPos.mY))).map
          (fun p => (toFloat p.1, toFloat p.2))).foldl (fun b p => BoundUnion b p.1 p.2) b := by
    intro l
    induction l with
    | nil => intro b; rfl
    | cons a l ih =>
      intro b
      by_cases ha : a.mWorldspace = worldspace
      · simp only [List.foldl_cons, ha, if_true, decide_True, List.filter_cons_of_pos,
          List.map_cons]
        rw [← ha]
        have := ih (BoundUnion b (toFloat a.mX) (toFloat a.mY))
        rw [← ha] at this
        exact this
      · have hd : decide (a.mWorldspace = worldspace) = false := by simp [ha]
        simp only [List.foldl_cons, ha, if_false, List.filter_cons, hd]
        exact ih b
  have hall : ∀ (l : List Land) (b : Bounds),
      l.foldl (fun b it => BoundUnion b (toFloat it.mX) (toFloat it.mY)) b =
        ((l.map (fun it => (it.mX, it.mY))).map
          (fun p => (toFloat p.1, toFloat p.2))).foldl (fun b p => BoundUnion b p.1 p.2) b := by
    intro l
    induction l with
    | nil => intro b; rfl
    | cons a l ih => intro b; simp only [List.foldl_cons, List.map_cons]; exact ih _
  unfold getBounds consideredLands
  cases hw : isEsm4Ext worldspace
  · simp only [hall, Bool.false_eq_true, if_false]
  · simp only [hfilter, if_true]

end MWRender

namespace MWRender

open ESM

/-- Claim C24, as amended. When every land record the call considers has grid coordinates of
magnitude below 2^24 (the range in which the conversion to `float` is exact), the bounds
returned by `TerrainStorage::getBounds` enclose every considered land cell with one cell
added on the upper side, they include the origin cell, and with no considered land they
are exactly (0, 1, 0, 1). -/
theorem getBounds_encloses_lands (esmStore : LandStore) (worldspace : RefId)
    (hrange : ∀ p ∈ consideredLands esmStore worldspace,
      p.1.natAbs < 2 ^ 24 ∧ p.2.natAbs < 2 ^ 24) :
    (∀ p ∈ consideredLands esmStore worldspace,
      (getBounds esmStore worldspace).minX ≤ p.1 ∧
      p.1 + 1 ≤ (getBounds esmStore worldspace).maxX ∧
      (getBounds esmStore worldspace).minY ≤ p.2 ∧
      p.2 + 1 ≤ (getBounds esmStore worldspace).maxY) ∧
    ((getBounds esmStore worldspace).minX ≤ 0 ∧ (getBounds esmStore worldspace).minY ≤ 0 ∧
      1 ≤ (getBounds esmStore worldspace).maxX ∧ 1 ≤ (getBounds esmStore worldspace).maxY) ∧
    (consideredLands esmStore worldspace = [] →
      getBounds esmStore worldspace = { minX := 0, maxX := 1, minY := 0, maxY := 1 }) := by
  have hL : (consideredLands esmStore worldspace).map (fun p => (toFloat p.1, toFloat p.2)) =
      consideredLands esmStore worldspace := by
    conv_rhs => rw [← List.map_id (consideredLands esmStore worldspace)]
    apply List.map_congr_left
    intro p hp
    rw [toFloat_exact p.1 (hrange p hp).1, toFloat_exact p.2 (hrange p hp).2]
    rfl
  rw [getBounds_eq, hL]
  obtain ⟨⟨h1, h2, h3, h4⟩, h5, h6, h7⟩ :=
    foldl_BoundUnion_spec (consideredLands esmStore worldspace)
      { minX := 0, maxX := 0, minY := 0, maxY := 0 }
  have hx := h6 (2 ^ 24 - 1) (by decide) (fun p hp => by have := (hrange p hp).1; omega)
  have hy := h7 (2 ^ 24 - 1) (by decide) (fun p hp => by have := (hrange p hp).2; omega)
  simp only at h1 h2 h3 h4
  have ex : floatAdd ((consideredLands esmStore worldspace).foldl
      (fun b p => BoundUnion b p.1 p.2) { minX := 0, maxX := 0, minY := 0, maxY := 0 }).maxX 1 =
      ((consideredLands esmStore worldspace).foldl
      (fun b p => BoundUnion b p.1 p.2) { minX := 0, maxX := 0, minY := 0, maxY := 0 }).maxX + 1 :=
    toFloat_exact_le _ (by omega)
  have ey : floatAdd ((consideredLands esmStore worldspace).foldl
      (fun b p => BoundUnion b p.1 p.2) { minX := 0, maxX := 0, minY := 0, maxY := 0 }).maxY 1 =
      ((consideredLands esmStore worldspace).foldl
      (fun b p => BoundUnion b p.1 p.2) { minX := 0, maxX := 0, minY := 0, maxY := 0 }).maxY + 1 :=
    toFloat_exact_le _ (by omega)
  rw [ex, ey]
  dsimp only
  refine ⟨?_, ⟨h1, h3, by omega, by omega⟩, ?_⟩
  · intro p hp
    obtain ⟨a1, a2, a3, a4⟩ := h5 p hp
    exact ⟨a1, by omega, a3, by omega⟩
  · intro hnil
    rw [hnil]
    rfl

/-- Witness of `getBounds_encloses_lands`: over the sample lands of the default
worldspace at (-3, 2), (4, -7) and (0, 5) the bounds are (-3, 5, -7, 6). -/
theorem getBounds_encloses_lands_witness :
    (∀ p ∈ consideredLands Sample.lands Cell.sDefaultWorldspaceId,
      p.1.natAbs < 2 ^ 24 ∧ p.2.natAbs < 2 ^ 24) ∧
    getBounds Sample.lands Cell.sDefaultWorldspaceId =
      { minX := -3, maxX := 5, minY := -7, maxY := 6 } ∧
    (∀ p ∈ consideredLands Sample.lands Cell.sDefaultWorldspaceId,
      (getBounds Sample.lands Cell.sDefaultWorldspaceId).minX ≤ p.1 ∧
      p.1 + 1 ≤ (getBounds Sample.lands Cell.sDefaultWorldspaceId).maxX ∧
      (getBounds Sample.lands Cell.sDefaultWorldspaceId).minY ≤ p.2 ∧
      p.2 + 1 ≤ (getBounds Sample.lands Cell.sDefaultWorldspaceId).maxY) :=
  ⟨by decide, by decide,
    (getBounds_encloses_lands Sample.lands Cell.sDefaultWorldspaceId (by decide)).1⟩

/-- Claim C24 as stated fails: a land at grid x = 2^24 = 16777216 is considered, but in single
precision 16777216 + 1 rounds back to 16777216, so the returned `maxX` is 16777216 and
`x + 1 <= maxX` does not hold. -/
theorem getBounds_misses_remote_land :
    ((16777216 : Int), (0 : Int)) ∈ consideredLands Sample.remote Cell.sDefaultWorldspaceId ∧
    getBounds Sample.remote Cell.sDefaultWorldspaceId =
      { minX := 0, maxX := 16777216, minY := 0, maxY := 1 } ∧
    ¬ ((16777216 : Int) + 1 ≤ (getBounds Sample.remote Cell.sDefaultWorldspaceId).maxX) := by
  decide

end MWRender

/-! # Resource paths -/

namespace Misc

open ResourceHelpers

theorem startsWith_eq (s p : List Char) (h : startsWith s p = true) :
    s = p ++ s.drop p.length := by
  induction p generalizing s with
  | nil => simp
  | cons d p ih =>
    cases s with
    | nil => simp [startsWith] at h
    | cons c s =>
      simp only [startsWith, Bool.and_eq_true, beq_iff_eq] at h
      obtain ⟨rfl, h2⟩ := h
      simp only [List.length_cons, List.drop_succ_cons, List.cons_append, List.cons.injEq,
        true_and]
      exact ih s h2

theorem startsWith_append (p t : List Char) : startsWith (p ++ t) p = true := by
  induction p with
  | nil => cases t <;> simp [startsWith]
  | cons d p ih => simp [startsWith, ih]

theorem rfind_eq_none (s : List Char) (ch : Char) (h : ch ∉ s) : rfind s ch = none := by
  induction s with
  | nil => rfl
  | cons c s ih =>
    simp only [List.mem_cons, not_or] at h
    simp only [rfind, ih h.2]
    rw [if_neg (fun e => h.1 e.symm)]

theorem rfind_lt (s : List Char) (ch : Char) (pos : Nat) (h : rfind s ch = some pos) :
    pos < s.length := by
  induction s generalizing pos with
  | nil => simp [rfind] at h
  | cons c s ih =>
    simp only [rfind] at h
    cases hr : rfind s ch with
    | none =>
      rw [hr] at h
      simp only at h
      split_ifs at h
      simp only [Option.some.injEq] at h
      subst h
      simp
    | some q =>
      rw [hr] at h
      simp only [Option.some.injEq] at h
      subst h
      have := ih q hr
      simp only [List.length_cons]
      omega

theorem rfind_append (pre s : List Char) (ch : Char) (h : ch ∉ pre) :
    rfind (pre ++ s) ch = (rfind s ch).map (fun pos => pos + pre.length) := by
  induction pre with
  | nil =>
    simp only [List.nil_append, List.length_nil, Nat.add_zero]
    cases rfind s ch <;> rfl
  | cons c pre ih =>
    simp only [List.mem_cons, not_or] at h
    have e : rfind (c :: (pre ++ s)) ch =
        match rfind (pre ++ s) ch with
        | some pos => some (pos + 1)
        | none => if c = ch then some 0 else none := rfl
    rw [List.cons_append, e, ih h.2]
    cases rfind s ch with
    | none => simp only [Option.map_none']; rw [if_neg (fun e => h.1 e.symm)]
    | some q => simp only [Option.map_some', List.length_cons]; rfl

/-- A change of extension leaves a leading part without dot as it is. -/
theorem changeExtension_keeps (pre s ext : List Char) (h : '.' ∉ pre) :
    ∃ rest, (changeExtension (pre ++ s) ext).2 = pre ++ rest := by
  unfold changeExtension
  rw [rfind_append pre s '.' h]
  cases rfind s '.' with
  | none => exact ⟨s, rfl⟩
  | some q =>
    simp only [Option.map_some']
    split_ifs
    · refine ⟨s.take q ++ ext, ?_⟩
      simp [List.take_append_eq_append_take, List.take_of_length_le]
    · exact ⟨s, rfl⟩

theorem get?_append_length (top rest : List Char) (sep : Char) :
    (top ++ sep :: rest).get? top.length = some sep := by
  induction top with
  | nil => rfl
  | cons a t ih => exact ih

/-- The value of `correctedPath` after the top level directory has been put in front
where it was missing starts with the directory and a separator. -/
theorem topLevel_shape (top p : List Char) :
    ∃ sep rest, (sep = '\\' ∨ sep = '/') ∧
      (if !startsWith p top || decide (p.length ≤ top.length) ||
          (p.get? top.length != some '/' && p.get? top.length != some '\\') then
        top ++ '\\' :: p
      else p) = top ++ sep :: rest := by
  split_ifs with h
  · exact ⟨'\\', p, Or.inl rfl, rfl⟩
  · simp only [Bool.or_eq_true, Bool.not_eq_true', decide_eq_true_eq, Bool.and_eq_true,
      bne_iff_ne, ne_eq, not_or, not_and, Bool.not_eq_false, not_le, not_not] at h
    obtain ⟨⟨h1, h2⟩, h3⟩ := h
    have e := startsWith_eq p top h1
    cases ht : p.drop top.length with
    | nil =>
      rw [ht, List.append_nil] at e
      rw [e] at h2
      exact absurd h2 (lt_irrefl _)
    | cons sep rest =>
      rw [ht] at e
      refine ⟨sep, rest, ?_, e⟩
      have hg : p.get? top.length = some sep := by
        rw [e]; exact get?_append_length top rest sep
      rw [hg] at h3
      simp only [Option.some.injEq] at h3
      by_cases hs : sep = '/'
      · exact Or.inr hs
      · exact Or.inl (h3 hs)

/-- A path that starts with the directory and a separator is left as it is. -/
theorem topLevel_present (top rest : List Char) (sep : Char)
    (hsep : sep = '\\' ∨ sep = '/') :
    (if !startsWith (top ++ sep :: rest) top ||
        decide ((top ++ sep :: rest).length ≤ top.length) ||
        ((top ++ sep :: rest).get? top.length != some '/' &&
          (top ++ sep :: rest).get? top.length != some '\\') then
      top ++ '\\' :: (top ++ sep :: rest)
    else top ++ sep :: rest) = top ++ sep :: rest := by
  have hg : (top ++ sep :: rest).get? top.length = some sep :=
    get?_append_length top rest sep
  rw [if_neg]
  rw [startsWith_append, hg]
  rcases hsep with rfl | rfl <;> simp

/-- The result of `correctResourcePath` is one of four candidates made from the path in
lower case, without leading separators and below the top level directory. -/
theorem correctResourcePath_cases (top resPath : List Char) (vfs : VFS.Manager)
    (o : List Char)
    (ho : o = (if !startsWith ((StringUtils.lowerCase resPath).dropWhile
              (fun ch => ch == '/' || ch == '\\')) top ||
            decide (((StringUtils.lowerCase resPath).dropWhile
              (fun ch => ch == '/' || ch == '\\')).length ≤ top.length) ||
            (((StringUtils.lowerCase resPath).dropWhile
                (fun ch => ch == '/' || ch == '\\')).get? top.length != some '/' &&
              ((StringUtils.lowerCase resPath).dropWhile
                (fun ch => ch == '/' || ch == '\\')).get? top.length != some '\\') then
          top ++ '\\' :: (StringUtils.lowerCase resPath).dropWhile
            (fun ch => ch == '/' || ch == '\\')
        else (StringUtils.lowerCase resPath).dropWhile (fun ch => ch == '/' || ch == '\\'))) :
    correctResourcePath top resPath vfs = (changeExtensionToDds o).2 ∨
    correctResourcePath top resPath vfs = o ∨
    correctResourcePath top resPath vfs = top ++ '\\' :: getBasename (changeExtensionToDds o).2 ∨
    correctResourcePath top resPath vfs = top ++ '\\' :: getBasename o := by
  unfold correctResourcePath
  simp only []
  rw [← ho]
  split_ifs <;> simp

/-- The result of `correctResourcePath` starts with the top level directory and a path
separator, when the directory name has no dot. -/
theorem correctResourcePath_topLevel (top resPath : List Char) (vfs : VFS.Manager)
    (htop : '.' ∉ top) :
    ∃ sep rest, (sep = '\\' ∨ sep = '/') ∧
      correctResourcePath top resPath vfs = top ++ sep :: rest := by
  obtain ⟨sep, rest, hsep, ho⟩ := topLevel_shape top
    ((StringUtils.lowerCase resPath).dropWhile (fun ch => ch == '/' || ch == '\\'))
  have hdot : '.' ∉ top ++ [sep] := by
    simp only [List.mem_append, List.mem_singleton, not_or]
    refine ⟨htop, ?_⟩
    rcases hsep with rfl | rfl <;> decide
  obtain ⟨rest2, hc⟩ := changeExtension_keeps (top ++ [sep]) rest ".dds".toList hdot
  have hc2 : (changeExtensionToDds (top ++ sep :: rest)).2 = top ++ sep :: rest2 := by
    have := hc
    simp only [List.append_assoc, List.singleton_append] at this
    exact this
  rcases correctResourcePath_cases top resPath vfs (top ++ sep :: rest) ho.symm with
    h | h | h | h
  · exact ⟨sep, rest2, hsep, h.trans hc2⟩
  · exact ⟨sep, rest, hsep, h⟩
  · exact ⟨'\\', _, Or.inl rfl, h⟩
  · exact ⟨'\\', _, Or.inl rfl, h⟩

end Misc

namespace Misc

open ResourceHelpers

theorem toLower_ne_dot (c : Char) (h : c ≠ '.') : c.toLower ≠ '.' := by
  unfold Char.toLower
  simp only []
  split_ifs with hc
  · obtain ⟨h1, h2⟩ := hc
    generalize c.toNat = n at h1 h2
    interval_cases n <;> decide
  · exact h

theorem lowerCase_no_dot (s : List Char) (h : '.' ∉ s) : '.' ∉ StringUtils.lowerCase s := by
  intro hm
  obtain ⟨c, hc, e⟩ := List.mem_map.mp hm
  exact toLower_ne_dot c (fun e2 => h (e2 ▸ hc)) e

theorem getBasename_subset (s : List Char) : getBasename s ⊆ s := by
  intro x hx
  have := List.takeWhile_subset _ (List.mem_reverse.mp hx)
  exact List.mem_reverse.mp this

theorem changeExtension_no_dot (s ext : List Char) (h : '.' ∉ s) :
    changeExtension s ext = (false, s) := by
  unfold changeExtension
  rw [rfind_eq_none s '.' h]

/-- A resource path without dot is corrected to a path without dot, when the directory
name has none. -/
theorem correctResourcePath_no_dot (top resPath : List Char) (vfs : VFS.Manager)
    (htop : '.' ∉ top) (h : '.' ∉ resPath) : '.' ∉ correctResourcePath top resPath vfs := by
  have hn : '.' ∉ (StringUtils.lowerCase resPath).dropWhile (fun ch => ch == '/' || ch == '\\') :=
    fun hm => lowerCase_no_dot resPath h (List.dropWhile_subset _ hm)
  have hsep : ('.' : Char) ≠ '\\' := by decide
  have key : ∀ o : List Char,
      (o = top ++ '\\' :: (StringUtils.lowerCase resPath).dropWhile
          (fun ch => ch == '/' || ch == '\\') ∨
        o = (StringUtils.lowerCase resPath).dropWhile (fun ch => ch == '/' || ch == '\\')) →
      '.' ∉ o := by
    intro o ho
    rcases ho with rfl | rfl
    · simp only [List.mem_append, List.mem_cons, not_or]
      exact ⟨htop, hsep, hn⟩
    · exact hn
  have hb : ∀ o : List Char, '.' ∉ o → '.' ∉ top ++ '\\' :: getBasename o := by
    intro o ho
    simp only [List.mem_append, List.mem_cons, not_or]
    exact ⟨htop, hsep, fun hm => ho (getBasename_subset o hm)⟩
  have hcases := correctResourcePath_cases top resPath vfs _ rfl
  split_ifs at hcases with hc
  · have ho := key _ (Or.inl rfl)
    have hd : changeExtensionToDds (top ++ '\\' :: (StringUtils.lowerCase resPath).dropWhile
        (fun ch => ch == '/' || ch == '\\')) = (false, _) := changeExtension_no_dot _ _ ho
    rw [hd] at hcases
    rcases hcases with e | e | e | e <;> rw [e]
    · exact ho
    · exact ho
    · exact hb _ ho
    · exact hb _ ho
  · have ho := key _ (Or.inr rfl)
    have hd : changeExtensionToDds ((StringUtils.lowerCase resPath).dropWhile
        (fun ch => ch == '/' || ch == '\\')) = (false, _) := changeExtension_no_dot _ _ ho
    rw [hd] at hcases
    rcases hcases with e | e | e | e <;> rw [e]
    · exact ho
    · exact ho
    · exact hb _ ho
    · exact hb _ ho

/-- Claim C28. For every resource path and every file system the results of
`correctTexturePath`, `correctIconPath` and `correctBookartPath` (two arguments) start
with "textures", "icons" and "bookart" followed by a path separator, whichever lookup
produced them; and a path that, in lower case and without leading separators, already
starts with the directory and a separator is not prefixed again: the result is one of
the four candidates made from that path itself. -/
theorem corrected_paths_start_with_directory (resPath : List Char) (vfs : VFS.Manager) :
    (∃ sep rest, (sep = '\\' ∨ sep = '/') ∧
      correctTexturePath resPath vfs = "textures".toList ++ sep :: rest) ∧
    (∃ sep rest, (sep = '\\' ∨ sep = '/') ∧
      correctIconPath resPath vfs = "icons".toList ++ sep :: rest) ∧
    (∃ sep rest, (sep = '\\' ∨ sep = '/') ∧
      correctBookartPath resPath vfs = "bookart".toList ++ sep :: rest) ∧
    (∀ (top rest : List Char) (sep : Char), (sep = '\\' ∨ sep = '/') →
      (StringUtils.lowerCase resPath).dropWhile (fun ch => ch == '/' || ch == '\\') =
        top ++ sep :: rest →
      correctResourcePath top resPath vfs ∈
        [(changeExtensionToDds (top ++ sep :: rest)).2, top ++ sep :: rest,
          top ++ '\\' :: getBasename (changeExtensionToDds (top ++ sep :: rest)).2,
          top ++ '\\' :: getBasename (top ++ sep :: rest)]) := by
  refine ⟨correctResourcePath_topLevel _ resPath vfs (by decide),
    correctResourcePath_topLevel _ resPath vfs (by decide),
    correctResourcePath_topLevel _ resPath vfs (by decide), ?_⟩
  intro top rest sep hsep hn
  have hcases := correctResourcePath_cases top resPath vfs _ rfl
  rw [hn, topLevel_present top rest sep hsep] at hcases
  simp only [List.mem_cons, List.mem_singleton, List.mem_nil_iff, or_false]
  exact hcases

/-- Witness of `corrected_paths_start_with_directory`: "Textures/Rock.TGA" already lies
below "textures"; with only "textures\rock.tga" on the file system the result is that
file, the fourth candidate. -/
theorem corrected_paths_start_with_directory_witness :
    (('/' : Char) = '\\' ∨ ('/' : Char) = '/') ∧
    (StringUtils.lowerCase "Textures/Rock.TGA".toList).dropWhile
        (fun ch => ch == '/' || ch == '\\') =
      "textures".toList ++ '/' :: "rock.tga".toList ∧
    correctTexturePath "Textures/Rock.TGA".toList Sample.tgaVfs = "textures\\rock.tga".toList ∧
    correctResourcePath "textures".toList "Textures/Rock.TGA".toList Sample.tgaVfs ∈
      [(changeExtensionToDds ("textures".toList ++ '/' :: "rock.tga".toList)).2,
        "textures".toList ++ '/' :: "rock.tga".toList,
        "textures".toList ++ '\\' ::
          getBasename (changeExtensionToDds ("textures".toList ++ '/' :: "rock.tga".toList)).2,
        "textures".toList ++ '\\' :: getBasename ("textures".toList ++ '/' :: "rock.tga".toList)] :=
  ⟨by decide, by decide, by decide,
    (corrected_paths_start_with_directory "Textures/Rock.TGA".toList Sample.tgaVfs).2.2.2
      "textures".toList "rock.tga".toList '/' (by decide) (by decide)⟩

/-- Claim C29, which the code does not meet. `correctBookartPath(resPath, width, height, vfs)` returns the
corrected image when it exists; when it does not exist and has a dot at `pos` it returns
the corrected path of the image with "_width_height" inserted at `pos`; but for a
resource path without any dot whose corrected image does not exist it raises
`std::out_of_range` (from `image.substr(image.rfind('.'))`) instead of returning. -/
theorem correctBookartPathSized_raises_without_dot (resPath : List Char) (width height : Int)
    (vfs : VFS.Manager) :
    (vfs.exists (correctBookartPath resPath vfs) = true →
      correctBookartPathSized resPath width height vfs =
        Except.ok (correctBookartPath resPath vfs)) ∧
    (vfs.exists (correctBookartPath resPath vfs) = false →
      ∀ pos, rfind (correctBookartPath resPath vfs) '.' = some pos →
        correctBookartPathSized resPath width height vfs =
          Except.ok (correctBookartPath
            ((correctBookartPath resPath vfs).take pos ++ '_' :: formatInt width ++
              '_' :: formatInt height ++ (correctBookartPath resPath vfs).drop pos) vfs)) ∧
    (vfs.exists (correctBookartPath resPath vfs) = false → '.' ∉ resPath →
      correctBookartPathSized resPath width height vfs = Except.error "std::out_of_range") := by
  refine ⟨?_, ?_, ?_⟩
  · intro h
    simp only [correctBookartPathSized, h, Bool.not_true, Bool.false_eq_true, if_false]
  · intro h pos hpos
    have hlt := rfind_lt _ _ _ hpos
    simp only [correctBookartPathSized, h, Bool.not_false, if_true, hpos, substrFrom,
      substrTo, if_pos (Nat.le_of_lt hlt)]
  · intro h hdot
    have hnone : rfind (correctBookartPath resPath vfs) '.' = none :=
      rfind_eq_none _ _ (correctResourcePath_no_dot _ resPath vfs (by decide) hdot)
    simp only [correctBookartPathSized, h, Bool.not_false, if_true, hnone, substrFrom]

/-- Witness of `correctBookartPathSized_raises_without_dot`: with only
"bookart\scroll_256_128.dds" on the file system, "Scroll.tga" at 256 x 128 resolves to
that file, and "Scroll" at 256 x 128 raises `std::out_of_range`. -/
theorem correctBookartPathSized_raises_without_dot_witness :
    Sample.sizedVfs.exists (correctBookartPath "Scroll".toList Sample.sizedVfs) = false ∧
    '.' ∉ "Scroll".toList ∧
    correctBookartPathSized "Scroll".toList 256 128 Sample.sizedVfs =
      Except.error "std::out_of_range" ∧
    correctBookartPathSized "Scroll.tga".toList 256 128 Sample.sizedVfs =
      Except.ok "bookart\\scroll_256_128.dds".toList :=
  ⟨by decide, by decide,
    (correctBookartPathSized_raises_without_dot "Scroll".toList 256 128 Sample.sizedVfs).2.2
      (by decide) (by decide),
    rfl⟩

end Misc
